import Mathlib

/-!
The `mm.c` allocator, the `channel.c` channel and the `cmd.c` shell: models,
invariants, and the properties of their interfaces.

A byte-level model of `mm.c` (segregated free lists, boundary tags, best fit)
with the well-formedness invariant of its heap, a single-threaded model of
`channel.c`, a model of the process that runs `parse_command` of `cmd.c`, and
the theorems that settle what the three guarantee to their callers.
-/

set_option linter.unusedVariables false

namespace MM

/-! ## Machine words -/

/-- Addition of `size_t` values and of pointers: modulo `2^64`. -/
def addw (a b : Nat) : Nat := (a + b) % 18446744073709551616

/-- Subtraction of `size_t` values and of pointers: modulo `2^64`. -/
def subw (a b : Nat) : Nat :=
  (a + (18446744073709551616 - b % 18446744073709551616)) % 18446744073709551616

/-- Multiplication of `size_t` values: modulo `2^64`. -/
def mulw (a b : Nat) : Nat := (a * b) % 18446744073709551616

/-- Fuel of the list walks: the number of distinct 64-bit addresses. -/
def FUEL : Nat := 18446744073709551616

def ALIGNMENT : Nat := 16
def WSIZE : Nat := 8
def CHUNKSIZE : Nat := 2048

/-! ## Memory -/

/-- Byte-addressed memory. -/
abbrev Mem := Nat → Nat

/-- The state of the allocator together with that of the region-growth
collaborator (`lo` is `mm_heap_lo()`, `brk` the current end of the region). -/
structure State where
  mem : Mem
  lo : Nat
  brk : Nat
  heap_listp : Nat
  free_lists : Nat → Nat

/-- Function `get`: read the 8-byte little-endian word at address `p`. -/
def get (m : Mem) (p : Nat) : Nat :=
  m p % 256 + 256 * (m (p + 1) % 256 + 256 * (m (p + 2) % 256 + 256 * (m (p + 3) % 256
    + 256 * (m (p + 4) % 256 + 256 * (m (p + 5) % 256 + 256 * (m (p + 6) % 256
    + 256 * (m (p + 7) % 256)))))))

/-- Function `put`: write the 8-byte little-endian word `val` at address `p`. -/
def put (m : Mem) (p val : Nat) : Mem := fun x =>
  if p ≤ x ∧ x < p + 8 then (val / 256 ^ (x - p)) % 256 else m x

/-- Modelled from the spec: `memcpy` of the copy/zero utility primitives, which
is not part of the source: `n` bytes from `src` to `dst`. -/
def memcpy (m : Mem) (dst src n : Nat) : Mem := fun x =>
  if dst ≤ x ∧ x < dst + n then m (src + (x - dst)) else m x

/-- Modelled from the spec: `memset` of the copy/zero utility primitives, which
is not part of the source: `n` bytes at `dst` set to the byte `c`. -/
def memset (m : Mem) (dst c n : Nat) : Mem := fun x =>
  if dst ≤ x ∧ x < dst + n then c % 256 else m x

/-- Modelled from the spec: `mm_sbrk`, the region-growth collaborator, which is
not part of the source: grow the region by `incr` bytes and return the old end
of the region, or fail when the region would pass `cap`. -/
def mm_sbrk (cap : Nat) (s : State) (incr : Nat) : Option (State × Nat) :=
  if s.brk + incr ≤ cap then some ({ s with brk := s.brk + incr }, s.brk) else none

/-! ## Block layout codec -/

def pack (size alloc : Nat) : Nat := size ||| alloc

def get_size (m : Mem) (p : Nat) : Nat := get m p &&& 0xFFFFFFFFFFFFFFF8

def get_alloc (m : Mem) (p : Nat) : Nat := get m p &&& 0x1

def hdrp (ptr : Nat) : Nat := subw ptr WSIZE

def ftrp (m : Mem) (ptr : Nat) : Nat :=
  subw (addw ptr (get_size m (hdrp ptr))) (2 * WSIZE)

def next_blkp (m : Mem) (ptr : Nat) : Nat := addw ptr (get_size m (hdrp ptr))

def prev_blkp (m : Mem) (ptr : Nat) : Nat := subw ptr (get_size m (subw ptr (2 * WSIZE)))

def pred_ptr (ptr : Nat) : Nat := ptr

def succ_ptr (ptr : Nat) : Nat := addw ptr WSIZE

def get_pred (m : Mem) (ptr : Nat) : Nat := get m (pred_ptr ptr)

def get_succ (m : Mem) (ptr : Nat) : Nat := get m (succ_ptr ptr)

def set_pred (m : Mem) (ptr val : Nat) : Mem := put m (pred_ptr ptr) val

def set_succ (m : Mem) (ptr val : Nat) : Mem := put m (succ_ptr ptr) val

/-- Function `align`: round up to a multiple of `ALIGNMENT`, in `size_t` arithmetic. -/
def align (x : Nat) : Nat := mulw ALIGNMENT (addw x (ALIGNMENT - 1) / ALIGNMENT)

/-! ## Free-list registry -/

def get_list_index (size : Nat) : Nat :=
  if size ≤ 32 then 0
  else if size ≤ 64 then 1
  else if size ≤ 128 then 2
  else if size ≤ 256 then 3
  else if size ≤ 512 then 4
  else if size ≤ 1024 then 5
  else if size ≤ 2048 then 6
  else if size ≤ 4096 then 7
  else if size ≤ 8192 then 8
  else if size ≤ 16384 then 9
  else 10

def add_to_free_list (s : State) (ptr : Nat) : State :=
  let size_val := get_size s.mem (hdrp ptr)
  let index := get_list_index size_val
  let m1 := set_pred s.mem ptr 0
  let m2 := set_succ m1 ptr (s.free_lists index)
  let m3 := if s.free_lists index ≠ 0 then set_pred m2 (s.free_lists index) ptr else m2
  { s with mem := m3, free_lists := Function.update s.free_lists index ptr }

/-- The membership scan of `remove_from_free_list`: `some found`, or `none`
when the fuel runs out. -/
def list_scan (m : Mem) (ptr : Nat) : Nat → Nat → Option Bool
  | 0, _ => none
  | fuel + 1, current =>
    if current = 0 then some false
    else if current = ptr then some true
    else list_scan m ptr fuel (get_succ m current)

/-- Function `remove_from_free_list`: the new state; `none` when the membership
scan does not end. -/
def remove_from_free_list (s : State) (ptr : Nat) : Option State :=
  let size_val := get_size s.mem (hdrp ptr)
  let index := get_list_index size_val
  match list_scan s.mem ptr FUEL (s.free_lists index) with
  | none => none
  | some false => some s
  | some true =>
    let s1 : State :=
      if get_pred s.mem ptr ≠ 0 then
        { s with mem := set_succ s.mem (get_pred s.mem ptr) (get_succ s.mem ptr) }
      else
        { s with free_lists := Function.update s.free_lists index (get_succ s.mem ptr) }
    let s2 : State :=
      if get_succ s1.mem ptr ≠ 0 then
        { s1 with mem := set_pred s1.mem (get_succ s1.mem ptr) (get_pred s1.mem ptr) }
      else s1
    some s2

/-! ## Coalescer -/

/-- Function `coalesce`: the new state and the pointer returned; `none` when a
list walk does not end. -/
def coalesce (s : State) (ptr : Nat) : Option (State × Nat) :=
  let m := s.mem
  let prev_alloc : Bool := get_alloc m (ftrp m (prev_blkp m ptr)) ≠ 0 || prev_blkp m ptr = ptr
  let next_alloc : Bool := get_alloc m (hdrp (next_blkp m ptr)) ≠ 0
  let size_val := get_size m (hdrp ptr)
  if prev_alloc && next_alloc then
    some (add_to_free_list s ptr, ptr)
  else if prev_alloc && !next_alloc then
    let next_ptr := next_blkp m ptr
    match remove_from_free_list s next_ptr with
    | none => none
    | some s1 =>
      let size_val := addw size_val (get_size s1.mem (hdrp next_ptr))
      let m2 := put s1.mem (hdrp ptr) (pack size_val 0)
      let m3 := put m2 (ftrp m2 ptr) (pack size_val 0)
      some (add_to_free_list { s1 with mem := m3 } ptr, ptr)
  else if !prev_alloc && next_alloc then
    let prev_ptr := prev_blkp m ptr
    match remove_from_free_list s prev_ptr with
    | none => none
    | some s1 =>
      let size_val := addw size_val (get_size s1.mem (hdrp prev_ptr))
      let m2 := put s1.mem (ftrp s1.mem ptr) (pack size_val 0)
      let m3 := put m2 (hdrp prev_ptr) (pack size_val 0)
      some (add_to_free_list { s1 with mem := m3 } prev_ptr, prev_ptr)
  else
    let prev_ptr := prev_blkp m ptr
    let next_ptr := next_blkp m ptr
    match remove_from_free_list s prev_ptr with
    | none => none
    | some s1 =>
      match remove_from_free_list s1 next_ptr with
      | none => none
      | some s2 =>
        let size_val := addw size_val
          (addw (get_size s2.mem (hdrp prev_ptr)) (get_size s2.mem (hdrp next_ptr)))
        let m3 := put s2.mem (hdrp prev_ptr) (pack size_val 0)
        let m4 := put m3 (ftrp m3 next_ptr) (pack size_val 0)
        some (add_to_free_list { s2 with mem := m4 } prev_ptr, prev_ptr)

/-- Function `extend_heap`: `none` is non-termination, `some (s, 0)` the `NULL` return. -/
def extend_heap (cap : Nat) (s : State) (words : Nat) : Option (State × Nat) :=
  let size := if words % 2 ≠ 0 then mulw (addw words 1) WSIZE else mulw words WSIZE
  match mm_sbrk cap s size with
  | none => some (s, 0)
  | some (s1, ptr) =>
    let m1 := put s1.mem (hdrp ptr) (pack size 0)
    let m2 := put m1 (ftrp m1 ptr) (pack size 0)
    let m3 := put m2 (hdrp (next_blkp m2 ptr)) (pack 0 1)
    coalesce { s1 with mem := m3 } ptr

/-! ## Fit finder -/

/-- The inner loop of `find_fit` over one list, carrying `(best_ptr, best_size)`. -/
def fit_scan (m : Mem) (asize : Nat) : Nat → Nat → Nat × Nat → Option (Nat × Nat)
  | 0, _, _ => none
  | fuel + 1, ptr, best =>
    if ptr = 0 then some best
    else
      let block_size := get_size m (hdrp ptr)
      let best := if asize ≤ block_size ∧ block_size < best.2 then (ptr, block_size) else best
      fit_scan m asize fuel (get_succ m ptr) best

/-- The outer loop of `find_fit`: `k` classes remain, starting at class `i`. -/
def fit_lists (s : State) (asize : Nat) : Nat → Nat → Nat × Nat → Option Nat
  | 0, _, best => some best.1
  | k + 1, i, best =>
    match fit_scan s.mem asize FUEL (s.free_lists i) best with
    | none => none
    | some best =>
      if best.1 ≠ 0 ∧ best.2 = asize then some best.1
      else fit_lists s asize k (i + 1) best

/-- Function `find_fit`: the pointer returned (0 is `NULL`); `none` when a list
walk does not end. -/
def find_fit (s : State) (asize : Nat) : Option Nat :=
  let index := get_list_index asize
  fit_lists s asize (11 - index) index (0, 18446744073709551615)

/-! ## Allocator core -/

/-- Function `place`: the new state; `none` when a list walk does not end. -/
def place (s : State) (ptr asize : Nat) : Option State :=
  let csize := get_size s.mem (hdrp ptr)
  match remove_from_free_list s ptr with
  | none => none
  | some s1 =>
    if 4 * WSIZE ≤ subw csize asize then
      let m1 := put s1.mem (hdrp ptr) (pack asize 1)
      let m2 := put m1 (ftrp m1 ptr) (pack asize 1)
      let next_ptr := next_blkp m2 ptr
      let m3 := put m2 (hdrp next_ptr) (pack (subw csize asize) 0)
      let m4 := put m3 (ftrp m3 next_ptr) (pack (subw csize asize) 0)
      some (add_to_free_list { s1 with mem := m4 } next_ptr)
    else
      let m1 := put s1.mem (hdrp ptr) (pack csize 1)
      let m2 := put m1 (ftrp m1 ptr) (pack csize 1)
      some { s1 with mem := m2 }

/-- Function `mm_init`: `some (s, true)` on success, `some (s, false)` on failure.
When the first `mm_sbrk` fails, `heap_listp` holds its result `(void *)-1`. -/
def mm_init (cap : Nat) (s : State) : Option (State × Bool) :=
  let s0 : State := { s with free_lists := fun i => if i < 11 then 0 else s.free_lists i }
  match mm_sbrk cap s0 (4 * WSIZE) with
  | none => some ({ s0 with heap_listp := 18446744073709551615 }, false)
  | some (s1, p) =>
    let m1 := put s1.mem p 0
    let m2 := put m1 (addw p (1 * WSIZE)) (pack (WSIZE * 2) 1)
    let m3 := put m2 (addw p (2 * WSIZE)) (pack (WSIZE * 2) 1)
    let m4 := put m3 (addw p (3 * WSIZE)) (pack 0 1)
    let s2 : State := { s1 with mem := m4, heap_listp := addw p (2 * WSIZE) }
    match extend_heap cap s2 (CHUNKSIZE / WSIZE) with
    | none => none
    | some (s3, r) => if r = 0 then some (s3, false) else some (s3, true)

/-- Function `malloc`: the new state and the pointer returned (0 is `NULL`);
`none` when a list walk does not end. -/
def malloc (cap : Nat) (s : State) (size : Nat) : Option (State × Nat) :=
  if size = 0 then some (s, 0)
  else
    let asize := if size ≤ WSIZE * 2 then WSIZE * 4 else align (addw size (WSIZE * 2))
    match find_fit s asize with
    | none => none
    | some ptr =>
      if ptr ≠ 0 then
        match place s ptr asize with
        | none => none
        | some s1 => some (s1, ptr)
      else
        let extendsize := if CHUNKSIZE < asize then asize else CHUNKSIZE
        match extend_heap cap s (extendsize / WSIZE) with
        | none => none
        | some (s1, ptr) =>
          if ptr = 0 then some (s1, 0)
          else
            match place s1 ptr asize with
            | none => none
            | some s2 => some (s2, ptr)

/-- Function `free`: the new state; `none` when a list walk does not end. -/
def free (s : State) (ptr : Nat) : Option State :=
  if ptr = 0 then some s
  else
    let size := get_size s.mem (hdrp ptr)
    let m1 := put s.mem (hdrp ptr) (pack size 0)
    let m2 := put m1 (ftrp m1 ptr) (pack size 0)
    match coalesce { s with mem := m2 } ptr with
    | none => none
    | some (s1, _) => some s1

/-- Function `realloc`: the new state and the pointer returned. The source tests
`!get_alloc(hdrp(next_ptr))`, then `combined_size >= newsize`, and falls through
to the relocation when either test fails: here the two tests are one
conjunction, with the relocation as its `else`. -/
def realloc (cap : Nat) (s : State) (oldptr size : Nat) : Option (State × Nat) :=
  if size = 0 then
    match free s oldptr with
    | none => none
    | some s1 => some (s1, 0)
  else if oldptr = 0 then malloc cap s size
  else
    let oldsize := get_size s.mem (hdrp oldptr)
    let newsize := align (addw size (WSIZE * 2))
    if newsize ≤ oldsize then
      if 4 * WSIZE ≤ subw oldsize newsize then
        let m1 := put s.mem (hdrp oldptr) (pack newsize 1)
        let m2 := put m1 (ftrp m1 oldptr) (pack newsize 1)
        let next_ptr := next_blkp m2 oldptr
        let m3 := put m2 (hdrp next_ptr) (pack (subw oldsize newsize) 0)
        let m4 := put m3 (ftrp m3 next_ptr) (pack (subw oldsize newsize) 0)
        some (add_to_free_list { s with mem := m4 } next_ptr, oldptr)
      else some (s, oldptr)
    else
      let next_ptr := next_blkp s.mem oldptr
      let combined_size := addw oldsize (get_size s.mem (hdrp next_ptr))
      if get_alloc s.mem (hdrp next_ptr) = 0 ∧ newsize ≤ combined_size then
        match remove_from_free_list s next_ptr with
        | none => none
        | some s1 =>
          let m1 := put s1.mem (hdrp oldptr) (pack combined_size 1)
          let m2 := put m1 (ftrp m1 oldptr) (pack combined_size 1)
          if 4 * WSIZE ≤ subw combined_size newsize then
            let m3 := put m2 (hdrp oldptr) (pack newsize 1)
            let m4 := put m3 (ftrp m3 oldptr) (pack newsize 1)
            let remainder := next_blkp m4 oldptr
            let m5 := put m4 (hdrp remainder) (pack (subw combined_size newsize) 0)
            let m6 := put m5 (ftrp m5 remainder) (pack (subw combined_size newsize) 0)
            some (add_to_free_list { s1 with mem := m6 } remainder, oldptr)
          else some ({ s1 with mem := m2 }, oldptr)
      else
        match malloc cap s size with
        | none => none
        | some (s1, newptr) =>
          if newptr = 0 then some (s1, 0)
          else
            let copySize := subw oldsize (WSIZE * 2)
            let copySize := if size < copySize then size else copySize
            let m1 := memcpy s1.mem newptr oldptr copySize
            match free { s1 with mem := m1 } oldptr with
            | none => none
            | some s2 => some (s2, newptr)

/-- Function `calloc`: the new state and the pointer returned. -/
def calloc (cap : Nat) (s : State) (nmemb size : Nat) : Option (State × Nat) :=
  let size := mulw size nmemb
  match malloc cap s size with
  | none => none
  | some (s1, ptr) =>
    if ptr ≠ 0 then some ({ s1 with mem := memset s1.mem ptr 0 size }, ptr)
    else some (s1, ptr)

/-! ## The abstract view of a well-formed heap -/

/-- A block as the boundary tags describe it: payload address, total size,
allocated bit. -/
structure Blk where
  addr : Nat
  size : Nat
  alloc : Nat

/-- The blocks `bs` tile the heap from payload address `p` to payload address
`e`: each block has header and footer `size + alloc`, a size that is a multiple
of 16 and at least 32, and is followed directly by the next block. -/
def Layout (m : Mem) : Nat → List Blk → Nat → Prop
  | p, [], e => p = e
  | p, b :: bs, e =>
    b.addr = p ∧ 32 ≤ b.size ∧ b.size % 16 = 0 ∧ b.alloc ≤ 1 ∧
    get m (p - 8) = b.size + b.alloc ∧ get m (p + b.size - 16) = b.size + b.alloc ∧
    Layout m (p + b.size) bs e

/-- The nodes `xs` form a doubly-linked chain: the first has `pred = prev`,
each has `succ` the next node, and the last has `succ = nxt`. -/
def Chain (m : Mem) : Nat → List Nat → Nat → Prop
  | _, [], _ => True
  | prev, x :: xs, nxt => get m x = prev ∧ get m (x + 8) = xs.headD nxt ∧ Chain m x xs nxt

/-- The well-formedness invariant of the allocator state: `bs` are the blocks
between prologue and epilogue, `fl i` the nodes of the free list of class `i`,
and `X` the (addresses of the) free blocks that are momentarily in no list. -/
structure Inv (s : State) (bs : List Blk) (fl : Nat → List Nat) (X : Set Nat) : Prop where
  hl : s.heap_listp = s.lo + 16
  brk_lt : s.brk < 18446744073709551616
  pro_h : get s.mem (s.lo + 8) = 17
  pro_f : get s.mem (s.lo + 16) = 17
  lay : Layout s.mem (s.lo + 32) bs s.brk
  epi : get s.mem (s.brk - 8) = 1
  heads : ∀ i, i < 11 → s.free_lists i = (fl i).headD 0
  chain : ∀ i, Chain s.mem 0 (fl i) 0
  mem_fl : ∀ i, ∀ x ∈ fl i, x ∉ X ∧ ∃ b ∈ bs, b.addr = x ∧ b.alloc = 0 ∧ get_list_index b.size = i
  fl_mem : ∀ b ∈ bs, b.alloc = 0 → b.addr ∈ X ∨ b.addr ∈ fl (get_list_index b.size)
  nodup : ∀ i, (fl i).Nodup

/-- The boundary tags of all blocks and of both sentinels are in place. -/
def Tags (m : Mem) (lo brk : Nat) (bs : List Blk) : Prop :=
  Layout m (lo + 32) bs brk ∧ get m (lo + 8) = 17 ∧ get m (lo + 16) = 17 ∧ get m (brk - 8) = 1

/-- Memory after writing header and footer `size + alloc` of the block at `p`. -/
def setTags (m : Mem) (p size alloc : Nat) : Mem :=
  put (put m (p - 8) (size + alloc)) (p + size - 16) (size + alloc)

/-- One step of the best-fit scan. -/
def fit_step (m : Mem) (asize : Nat) (best : Nat × Nat) (ptr : Nat) : Nat × Nat :=
  if asize ≤ get_size m (hdrp ptr) ∧ get_size m (hdrp ptr) < best.2 then
    (ptr, get_size m (hdrp ptr))
  else best

/-- What the scan holds as its best candidate. -/
def GoodBest (bs : List Blk) (asize : Nat) (best : Nat × Nat) : Prop :=
  best.1 = 0 ∨ ∃ b ∈ bs, b.addr = best.1 ∧ b.alloc = 0 ∧ b.size = best.2 ∧ asize ≤ b.size

/-- No two address-adjacent blocks are both free. -/
def NoAdj (bs : List Blk) : Prop :=
  ∀ x ∈ bs, ∀ y ∈ bs, x.addr + x.size = y.addr → x.alloc = 0 → y.alloc = 0 → False

/-- Payload bytes of the allocated blocks of `bs` are the same in `m'` as in `m`. -/
def Keeps (bs : List Blk) (m m' : Mem) : Prop :=
  ∀ b ∈ bs, b.alloc = 1 → ∀ x, b.addr ≤ x → x < b.addr + b.size - 16 → m' x = m x

/-! ## Specification-level definitions -/

/-- The block size `malloc` computes for a request of `size` bytes. -/
def adjusted (size : Nat) : Nat :=
  if size ≤ WSIZE * 2 then WSIZE * 4 else align (addw size (WSIZE * 2))

/-- What a successful or failed `realloc` of the allocated block `b` to `n > 0`
bytes leaves behind. -/
def ReallocPost (s : State) (bs : List Blk) (b : Blk) (n : Nat) (s' : State) (r : Nat) : Prop :=
  (r = 0 ∧ s' = s) ∨
  (r ≠ 0 ∧ ∃ bs' fl' B, Inv s' bs' fl' ∅ ∧ s'.lo = s.lo ∧ B ∈ bs' ∧ B.addr = r ∧ B.alloc = 1 ∧
    n + 16 ≤ B.size ∧
    (∀ x ∈ bs, x.alloc = 1 → x ≠ b → x ∈ bs' ∧
      ∀ y, x.addr ≤ y → y < x.addr + x.size - 16 → s'.mem y = s.mem y) ∧
    (∀ x ∈ bs', x.alloc = 1 → x = B ∨ (x ∈ bs ∧ x ≠ b)) ∧
    (∀ x ∈ bs, x.alloc = 1 → x ≠ b → x.addr ≠ B.addr) ∧
    (∀ i, i < n → i < b.size - 16 → s'.mem (r + i) = s.mem (b.addr + i)))

/-! ## The heap checker -/

/-- Function `aligned`: whether a pointer is a multiple of `ALIGNMENT`. -/
def aligned (p : Nat) : Bool := align p = p

/-- The block loop of `mm_checkheap` followed by its test of the epilogue. -/
def check_blocks (m : Mem) : Nat → Nat → Option Bool
  | 0, _ => none
  | fuel + 1, ptr =>
    if 0 < get_size m (hdrp ptr) then
      if !aligned ptr then some false
      else if get m (hdrp ptr) ≠ get m (ftrp m ptr) then some false
      else check_blocks m fuel (next_blkp m ptr)
    else if get_alloc m (hdrp ptr) = 0 ∨ get_size m (hdrp ptr) ≠ 0 then some false
    else some true

/-- Function `mm_checkheap`; `debug` tells whether `DEBUG` is defined. -/
def mm_checkheap (debug : Bool) (s : State) : Option Bool :=
  if debug then
    if get_size s.mem (hdrp s.heap_listp) ≠ WSIZE * 2 ∨ get_alloc s.mem (hdrp s.heap_listp) = 0
    then some false
    else check_blocks s.mem FUEL s.heap_listp
  else some true

/-! ## Observing a state -/

/-- Follow `next_blkp` from `ptr` up to the first header of size 0: the payload
pointers visited and the pointer at which the walk stops. -/
def walk (m : Mem) : Nat → Nat → Option (List Nat × Nat)
  | 0, _ => none
  | fuel + 1, ptr =>
    if get_size m (hdrp ptr) = 0 then some ([], ptr)
    else
      match walk m fuel (next_blkp m ptr) with
      | none => none
      | some (l, e) => some (ptr :: l, e)

/-- The blocks after the prologue, and the pointer whose header ends the walk. -/
def heap_blocks (s : State) : Option (List Nat × Nat) :=
  walk s.mem FUEL (next_blkp s.mem s.heap_listp)

/-- Follow `succ` from `ptr` up to `NULL`: the nodes visited. -/
def list_walk (m : Mem) : Nat → Nat → Option (List Nat)
  | 0, _ => none
  | fuel + 1, ptr =>
    if ptr = 0 then some []
    else
      match list_walk m fuel (get_succ m ptr) with
      | none => none
      | some l => some (ptr :: l)

/-- The nodes of the free list of class `i`. -/
def list_nodes (s : State) (i : Nat) : Option (List Nat) :=
  list_walk s.mem FUEL (s.free_lists i)

/-- The addresses of the header and footer words of the prologue and of the
blocks, and of the header that ends the heap. -/
def tag_words (s : State) : Option (List Nat) :=
  match heap_blocks s with
  | none => none
  | some (l, e) =>
    some (hdrp s.heap_listp :: ftrp s.mem s.heap_listp :: hdrp e ::
      (l.map hdrp ++ l.map (ftrp s.mem)))

/-! ## Calls and reachable states -/

/-- The calls of the public interface. -/
inductive Call where
  | malloc (size : Nat)
  | calloc (nmemb size : Nat)
  | free (ptr : Nat)
  | realloc (ptr size : Nat)

/-- An allocator state together with the live pointers and the sizes they
were requested with. -/
structure World where
  st : State
  live : List (Nat × Nat)

/-- Drop the pointer `p` from the live pointers. -/
def unlive (p : Nat) (live : List (Nat × Nat)) : List (Nat × Nat) :=
  live.filter (fun a => decide (a.1 ≠ p))

/-- Run a call: the new world and the value returned (0 for `free`). The size
recorded for a pointer that `calloc` returns is the product as `calloc` computes
it, in `size_t` arithmetic. -/
def exec (cap : Nat) (w : World) : Call → Option (World × Nat)
  | .malloc n =>
    match malloc cap w.st n with
    | none => none
    | some (s, r) => some (⟨s, if r ≠ 0 then (r, n) :: w.live else w.live⟩, r)
  | .calloc k n =>
    match calloc cap w.st k n with
    | none => none
    | some (s, r) => some (⟨s, if r ≠ 0 then (r, mulw n k) :: w.live else w.live⟩, r)
  | .free p =>
    match free w.st p with
    | none => none
    | some s => some (⟨s, unlive p w.live⟩, 0)
  | .realloc p n =>
    match realloc cap w.st p n with
    | none => none
    | some (s, r) =>
      some (⟨s, if n = 0 then unlive p w.live
        else if r ≠ 0 then (r, n) :: unlive p w.live else w.live⟩, r)

/-- A call with valid arguments: sizes are `size_t` values, pointers are `NULL`
or live. -/
def Valid (w : World) : Call → Prop
  | .malloc n => n < 18446744073709551616
  | .calloc k n => k < 18446744073709551616 ∧ n < 18446744073709551616
  | .free p => p = 0 ∨ p ∈ w.live.map Prod.fst
  | .realloc p n => (p = 0 ∨ p ∈ w.live.map Prod.fst) ∧ n < 18446744073709551616

/-- Every call is admitted. -/
def AnyCall (_ : Call) : Prop := True

/-- The call asks for at most `2^64 - 32` bytes. -/
def SmallCall : Call → Prop
  | .malloc n => n ≤ 18446744073709551616 - 32
  | .calloc k n => mulw n k ≤ 18446744073709551616 - 32
  | .free _ => True
  | .realloc _ n => n ≤ 18446744073709551616 - 32

/-- The call is a `malloc` or a `free`. -/
def MallocFreeCall : Call → Prop
  | .malloc _ => True
  | .free _ => True
  | _ => False

/-- The worlds reachable from a successful `mm_init` on an empty region by
valid calls that `adm` admits; the region-growth collaborator may fail or
succeed at each call (`cap`), within the 64-bit address space. -/
inductive Reach (adm : Call → Prop) : World → Prop where
  | init (s s' : State) (cap : Nat) : s.brk = s.lo → cap < 18446744073709551616 →
      mm_init cap s = some (s', true) → Reach adm ⟨s', []⟩
  | step (w w' : World) (c : Call) (cap r : Nat) : Reach adm w → Valid w c → adm c →
      cap < 18446744073709551616 → exec cap w c = some (w', r) → Reach adm w'

/-- The invariant of reachable worlds: the state is well formed and every live
pointer is an allocated block with room for the bytes requested. -/
def WInv (w : World) (bs : List Blk) (fl : Nat → List Nat) : Prop :=
  Inv w.st bs fl ∅ ∧
  (∀ a ∈ w.live, ∃ b ∈ bs, b.addr = a.1 ∧ b.alloc = 1 ∧ a.2 + 16 ≤ b.size) ∧
  (w.live.map Prod.fst).Nodup

/-- What a call leaves behind: a well-formed world, adjacent free blocks only if
there were some before or the call is a `realloc`, and a returned pointer that
is an allocated block. -/
def StepOK (w : World) (bs : List Blk) (c : Call) (w' : World) (r : Nat) : Prop :=
  ∃ bs' fl', WInv w' bs' fl' ∧ w'.st.lo = w.st.lo ∧
    ((∀ p n, c ≠ .realloc p n) → NoAdj bs → NoAdj bs') ∧
    (r ≠ 0 → ∃ b ∈ bs', b.addr = r ∧ b.alloc = 1)

/-! ## The properties claimed of reachable worlds -/

/-- Any two distinct live pointers have disjoint byte ranges, and neither range
holds a byte of a header or footer word of a block or sentinel. -/
def NoOverlap (w : World) : Prop :=
  ∀ a ∈ w.live, ∀ b ∈ w.live, a.1 ≠ b.1 →
    (a.1 + a.2 ≤ b.1 ∨ b.1 + b.2 ≤ a.1) ∧
    ∃ tags, tag_words w.st = some tags ∧
      ∀ t ∈ tags, (t + 8 ≤ a.1 ∨ a.1 + a.2 ≤ t) ∧ (t + 8 ≤ b.1 ∨ b.1 + b.2 ≤ t)

/-- The heap walk ends, and no block it visits is marked free together with
the block that follows it. -/
def NoAdjFree (s : State) : Prop :=
  ∃ l e, heap_blocks s = some (l, e) ∧
    ∀ p ∈ l, ¬ (get_alloc s.mem (hdrp p) = 0 ∧ get_alloc s.mem (hdrp (next_blkp s.mem p)) = 0)

/-- The heap walk and the walks of the 11 lists end; a block marked free is
once in the list of the class of its size and in no other list; a block marked
allocated is in no list. -/
def Registry (s : State) : Prop :=
  ∃ l e, ∃ nodes : Nat → List Nat, heap_blocks s = some (l, e) ∧
    (∀ i, i < 11 → list_nodes s i = some (nodes i)) ∧
    ∀ p ∈ l,
      (get_alloc s.mem (hdrp p) = 0 →
        (nodes (get_list_index (get_size s.mem (hdrp p)))).count p = 1 ∧
        ∀ j, j < 11 → j ≠ get_list_index (get_size s.mem (hdrp p)) → p ∉ nodes j) ∧
      (get_alloc s.mem (hdrp p) ≠ 0 → ∀ j, j < 11 → p ∉ nodes j)

/-- The heap walk ends at the allocated header in the last word of the region,
and the sizes of the blocks visited add up to the length of the region less
the 32 bytes of padding and sentinels. -/
def SizeAccounting (s : State) : Prop :=
  ∃ l, heap_blocks s = some (l, s.brk) ∧ hdrp s.brk + 8 = s.brk ∧
    get_alloc s.mem (hdrp s.brk) = 1 ∧
    (l.map (fun p => get_size s.mem (hdrp p))).sum = s.brk - s.lo - 32

/-- The heap walk ends, and every block it visits has a size that is a multiple
of 16 and at least 32. -/
def BlockSizes (s : State) : Prop :=
  ∃ l e, heap_blocks s = some (l, e) ∧
    ∀ p ∈ l, get_size s.mem (hdrp p) % 16 = 0 ∧ 32 ≤ get_size s.mem (hdrp p)

/-- The number of bytes `malloc` asks of `mm_sbrk`, through `extend_heap`, for a
request of `size` bytes that no free block fits. -/
def grow_request (size : Nat) : Nat :=
  let asize := if size ≤ WSIZE * 2 then WSIZE * 4 else align (addw size (WSIZE * 2))
  let extendsize := if CHUNKSIZE < asize then asize else CHUNKSIZE
  let words := extendsize / WSIZE
  if words % 2 ≠ 0 then mulw (addw words 1) WSIZE else mulw words WSIZE

/-! ## Concrete runs -/

/-- Whether the arguments of a call are valid, as a decision procedure. -/
def valid (w : World) : Call → Bool
  | .malloc n => decide (n < 18446744073709551616)
  | .calloc k n => decide (k < 18446744073709551616) && decide (n < 18446744073709551616)
  | .free p => decide (p = 0) || (w.live.map Prod.fst).contains p
  | .realloc p n =>
    (decide (p = 0) || (w.live.map Prod.fst).contains p) && decide (n < 18446744073709551616)

/-- Run the calls in turn, with the region limited to `cap`; `none` if a call
has invalid arguments or does not return. -/
def run (cap : Nat) : World → List Call → Option World
  | w, [] => some w
  | w, c :: cs =>
    if valid w c then
      match exec cap w c with
      | none => none
      | some (w', _) => run cap w' cs
    else none

/-- The world after a successful `mm_init`. -/
def boot (cap : Nat) (s : State) : Option World :=
  match mm_init cap s with
  | some (s', true) => some ⟨s', []⟩
  | _ => none

/-- The world after `mm_init` and the calls `cs`. -/
def session (cap : Nat) (s : State) (cs : List Call) : Option World :=
  match boot cap s with
  | none => none
  | some w => run cap w cs

/-- The region limit of the concrete runs: 1 MiB. -/
def LIMIT : Nat := 1048576

/-- The world after `mm_init` and the calls `cs` under `LIMIT` (the state `s`
itself if that run fails). -/
def world (s : State) (cs : List Call) : World :=
  (session LIMIT s cs).getD ⟨s, []⟩

/-- An empty region at address 4096 whose memory is all zero. -/
def zeroed : State :=
  { mem := fun _ => 0, lo := 4096, brk := 4096, heap_listp := 0, free_lists := fun _ => 0 }

/-- An empty region at address 4104, which is not a multiple of 16. -/
def skewed : State :=
  { mem := fun _ => 0, lo := 4104, brk := 4104, heap_listp := 0, free_lists := fun _ => 0 }

/-- An empty region at address 4096 whose memory is zero but for two words
left over from an earlier use of the memory. -/
def stale : State :=
  { mem := put (put (fun _ => 0) 4152 5128) 5120 128, lo := 4096, brk := 4096, heap_listp := 0,
    free_lists := fun _ => 0 }

/-! ## Further properties of states and calls -/

/-- The pointer `p` is a node of one of the 11 free lists, and the header of
its block is marked free. -/
def ListedFree (s : State) (p : Nat) : Prop :=
  ∃ i, i < 11 ∧ ∃ l, list_nodes s i = some l ∧ p ∈ l ∧ get_alloc s.mem (hdrp p) = 0

/-- Exactly one listed free block has size `asize`, and it is `f`. -/
def ExactFit (s : State) (asize f : Nat) : Prop :=
  ListedFree s f ∧ get_size s.mem (hdrp f) = asize ∧
    ∀ g, ListedFree s g → get_size s.mem (hdrp g) = asize → g = f

/-- The heap right after initialisation of a region that starts at `lo`: a zero
padding word, the prologue, one free block of 2048 bytes whose header and
footer agree, the epilogue; the block is the only node of list 6 and the other
ten lists are empty. -/
def InitialHeap (s : State) (lo : Nat) : Prop :=
  s.brk = lo + 32 + 2048 ∧ s.heap_listp = lo + 16 ∧
  get s.mem lo = 0 ∧ get s.mem (lo + 8) = pack 16 1 ∧ get s.mem (lo + 16) = pack 16 1 ∧
  heap_blocks s = some ([lo + 32], s.brk) ∧
  get s.mem (hdrp (lo + 32)) = pack 2048 0 ∧
  get s.mem (ftrp s.mem (lo + 32)) = get s.mem (hdrp (lo + 32)) ∧
  get s.mem (hdrp s.brk) = pack 0 1 ∧ hdrp s.brk + 8 = s.brk ∧
  list_nodes s 6 = some [lo + 32] ∧
  ∀ i, i < 11 → i ≠ 6 → s.free_lists i = 0 ∧ list_nodes s i = some []

/-- The concatenation of the node lists of the classes `i`, ..., `i + k - 1`,
in the order in which `find_fit` scans them. -/
def scan_order (nodes : Nat → List Nat) : Nat → Nat → List Nat
  | 0, _ => []
  | k + 1, i => nodes i ++ scan_order nodes k (i + 1)

/-- The nodes of the lists of the classes `0`, ..., `k - 1`, one list after the
other; `none` when one of the walks does not end. -/
def all_nodes (s : State) : Nat → Option (List Nat)
  | 0 => some []
  | k + 1 =>
    match all_nodes s k, list_nodes s k with
    | some l, some t => some (l ++ t)
    | _, _ => none

/-- The listed blocks that are marked free and have size `asize`. -/
def exact_fits (s : State) (asize : Nat) : Option (List Nat) :=
  match all_nodes s 11 with
  | none => none
  | some l =>
    some (l.filter (fun p => decide (get_alloc s.mem (hdrp p) = 0 ∧
      get_size s.mem (hdrp p) = asize)))

end MM

namespace Chan

/-! ## A single-threaded model of `channel.c`

One thread runs the calls to completion, in turn. The mutex and the condition
variables then do nothing, except that a `pthread_cond_wait` never returns:
no other thread can change the channel. A call that waits has result `none`. -/

/-- Modelled from the spec: the status codes of `channel.h`, which is not part
of the source; the source names these six. -/
inductive channel_status where
  | SUCCESS
  | CLOSED_ERROR
  | GENERIC_ERROR
  | CHANNEL_FULL
  | CHANNEL_EMPTY
  | DESTROY_ERROR
deriving DecidableEq

/-- Modelled from the spec: the buffer of `buffer.h`, which is not part of the
source: a bounded FIFO of messages. -/
structure buffer_t where
  items : List Nat
  capacity : Nat
deriving DecidableEq

/-- Modelled from the spec: `buffer_current_size`, the number of messages held. -/
def buffer_current_size (b : buffer_t) : Nat := b.items.length

/-- Modelled from the spec: `buffer_capacity`, the bound of the FIFO. -/
def buffer_capacity (b : buffer_t) : Nat := b.capacity

/-- Modelled from the spec: `buffer_add`, which appends a message unless the
buffer is full; `none` is a result other than `BUFFER_SUCCESS`. -/
def buffer_add (b : buffer_t) (data : Nat) : Option buffer_t :=
  if b.items.length < b.capacity then some { b with items := b.items ++ [data] } else none

/-- Modelled from the spec: `buffer_remove`, which takes the oldest message
unless the buffer is empty; `none` is a result other than `BUFFER_SUCCESS`. -/
def buffer_remove (b : buffer_t) : Option (buffer_t × Nat) :=
  match b.items with
  | [] => none
  | x :: xs => some ({ b with items := xs }, x)

/-- The fields of `channel_t` that the calls read and write. -/
structure channel_t where
  buffer : buffer_t
  closed : Bool
deriving DecidableEq

/-- What a call leaves behind: the channel that `channel` points to (`none`
for `NULL`), the status returned, and the message stored through `data`, if
one was. -/
structure Outcome where
  channel : Option channel_t
  status : channel_status
  data : Option Nat
deriving DecidableEq

/-- Function `_wait_and_check_send`; `none` when the wait never ends. -/
def _wait_and_check_send (ch : channel_t) : Option channel_status :=
  if buffer_current_size ch.buffer = buffer_capacity ch.buffer ∧ ¬ ch.closed then none
  else if ch.closed then some .CLOSED_ERROR
  else some .SUCCESS

/-- Function `_wait_and_check_recv`; `none` when the wait never ends. -/
def _wait_and_check_recv (ch : channel_t) : Option channel_status :=
  if buffer_current_size ch.buffer = 0 ∧ ¬ ch.closed then none
  else if buffer_current_size ch.buffer = 0 ∧ ch.closed then some .CLOSED_ERROR
  else some .SUCCESS

/-- Function `channel_send`; `channel` is `none` for a `NULL` pointer, and the
result is `none` when the call never returns. -/
def channel_send (channel : Option channel_t) (data : Nat) : Option Outcome :=
  match channel with
  | none => some ⟨none, .GENERIC_ERROR, none⟩
  | some ch =>
    match _wait_and_check_send ch with
    | none => none
    | some st =>
      if st ≠ .SUCCESS then some ⟨some ch, st, none⟩
      else
        match buffer_add ch.buffer data with
        | none => some ⟨some ch, .GENERIC_ERROR, none⟩
        | some b => some ⟨some { ch with buffer := b }, .SUCCESS, none⟩

/-- Function `channel_receive`; `channel` is `none` for a `NULL` pointer, `data`
tells whether the pointer `data` is not `NULL`, and the result is `none` when
the call never returns. -/
def channel_receive (channel : Option channel_t) (data : Bool) : Option Outcome :=
  match channel with
  | none => some ⟨none, .GENERIC_ERROR, none⟩
  | some ch =>
    if !data then some ⟨some ch, .GENERIC_ERROR, none⟩
    else
      match _wait_and_check_recv ch with
      | none => none
      | some st =>
        if st ≠ .SUCCESS then some ⟨some ch, st, none⟩
        else
          match buffer_remove ch.buffer with
          | none => some ⟨some ch, .GENERIC_ERROR, none⟩
          | some (b, x) => some ⟨some { ch with buffer := b }, .SUCCESS, some x⟩

/-- Function `channel_non_blocking_send`; `channel` is `none` for a `NULL`
pointer. -/
def channel_non_blocking_send (channel : Option channel_t) (data : Nat) : Outcome :=
  match channel with
  | none => ⟨none, .GENERIC_ERROR, none⟩
  | some ch =>
    if ch.closed then ⟨some ch, .CLOSED_ERROR, none⟩
    else if buffer_current_size ch.buffer = buffer_capacity ch.buffer then
      ⟨some ch, .CHANNEL_FULL, none⟩
    else
      match buffer_add ch.buffer data with
      | none => ⟨some ch, .GENERIC_ERROR, none⟩
      | some b => ⟨some { ch with buffer := b }, .SUCCESS, none⟩

/-- Function `channel_non_blocking_receive`; `channel` is `none` for a `NULL`
pointer, and `data` tells whether the pointer `data` is not `NULL`. -/
def channel_non_blocking_receive (channel : Option channel_t) (data : Bool) : Outcome :=
  match channel with
  | none => ⟨none, .GENERIC_ERROR, none⟩
  | some ch =>
    if !data then ⟨some ch, .GENERIC_ERROR, none⟩
    else if buffer_current_size ch.buffer = 0 then
      ⟨some ch, if ch.closed then .CLOSED_ERROR else .CHANNEL_EMPTY, none⟩
    else
      match buffer_remove ch.buffer with
      | none => ⟨some ch, .GENERIC_ERROR, none⟩
      | some (b, x) => ⟨some { ch with buffer := b }, .SUCCESS, some x⟩

/-- Function `channel_close`; `channel` is `none` for a `NULL` pointer. -/
def channel_close (channel : Option channel_t) : Outcome :=
  match channel with
  | none => ⟨none, .GENERIC_ERROR, none⟩
  | some ch =>
    if ch.closed then ⟨some ch, .CLOSED_ERROR, none⟩
    else ⟨some { ch with closed := true }, .SUCCESS, none⟩

end Chan

namespace MM

/-! ## The neighbours of a block -/

/-- The last block of `xs` (the block before the one that follows `xs` in the
heap), when it is marked free. -/
def free_last (xs : List Blk) : Option Blk :=
  match xs.getLast? with
  | some c => if c.alloc = 0 then some c else none
  | none => none

/-- The first block of `ys` (the block after the one that precedes `ys` in the
heap), when it is marked free. -/
def free_first (ys : List Blk) : Option Blk :=
  match ys with
  | d :: _ => if d.alloc = 0 then some d else none
  | [] => none

/-- The bytes that a neighbour adds to a merged block: its size when it takes
part in the merge. -/
def merged (o : Option Blk) : Nat :=
  match o with
  | some c => c.size
  | none => 0

/-! ## Two concrete heaps -/

/-- The heap after `mm_init` and `malloc(24)` on the zeroed region, with the
block at 4128 marked free again and in no list: the state in which `free(4128)`
calls `coalesce`. -/
def marked : State :=
  let st := (world zeroed [.malloc 24]).st
  { st with mem := put (put st.mem 4120 48) 4160 48 }

end MM

namespace Shell

/-! ## A model of `cmd.c`, as the process that calls `parse_command` sees it

The process asks the operating system for a pipe, for child processes and for
their wait statuses. The model takes the answers from a script and follows the
process that called `parse_command`; a child that `fork` creates runs on its
own and shows only in the status that `waitpid` stores. A call from which the
process does not return (it calls `exit`) has result `none`. -/

/-- Modelled from the spec: the operators of a command node, `operator_t` of the
parser header, which is not part of the source. -/
inductive operator_t where
  | OP_NONE
  | OP_SEQUENTIAL
  | OP_PARALLEL
  | OP_CONDITIONAL_ZERO
  | OP_CONDITIONAL_NZERO
  | OP_PIPE
  | OP_DUMMY
deriving DecidableEq

/-- Modelled from the spec: a command tree, `command_t` of the parser header,
which is not part of the source. `NULL` is the null pointer; a simple command
(`scmd`) is known by a number. -/
inductive command_t where
  | NULL
  | node (op : operator_t) (cmd1 cmd2 : command_t) (scmd : Nat)

/-- The operating system as the calling process meets it: the `k`-th question
of the process gets the answer `answer k`, and `asked` counts the questions.
A question is a call of `pipe` or of `fork` (the answer is the value returned)
or of `waitpid` (the answer is the status word stored). -/
structure OS where
  answer : Nat → Int
  asked : Nat

/-- The next answer, and the operating system after it. -/
def OS.ask (os : OS) : Int × OS := (os.answer os.asked, { os with asked := os.asked + 1 })

/-- Modelled from the spec: `EXIT_SUCCESS` of `<stdlib.h>`. -/
def EXIT_SUCCESS : Int := 0

/-- Modelled from the spec: `EXIT_FAILURE` of `<stdlib.h>`. -/
def EXIT_FAILURE : Int := 1

/-- Modelled from the spec: `SHELL_EXIT` of `cmd.h`, which is not part of the
source. -/
def SHELL_EXIT : Int := -100

/-- Modelled from the spec: `WIFEXITED` of `<sys/wait.h>`: the low seven bits of
the status word, the number of the terminating signal, are zero. -/
def WIFEXITED (status : Int) : Bool := status % 128 = 0

/-- Modelled from the spec: `WEXITSTATUS` of `<sys/wait.h>`: bits 8 to 15 of the
status word. -/
def WEXITSTATUS (status : Int) : Int := (status / 256) % 256

/-- Modelled from the spec: the conversion of an `int` to `bool` (`_Bool` of
`<stdbool.h>`), read back as an `int`: 1 for every value other than 0. -/
def to_bool (x : Int) : Int := if x ≠ 0 then 1 else 0

/-- Function `run_on_pipe`, whose return type is `bool`: the value that its
caller reads. In a child (`fork` returned 0) the call ends in `exit`. -/
def run_on_pipe (_cmd1 _cmd2 : command_t) (os : OS) : Option (Int × OS) :=
  let (rc, os) := os.ask
  if rc < 0 then some (to_bool EXIT_FAILURE, os)
  else
    let (pid1, os) := os.ask
    if pid1 < 0 then some (to_bool EXIT_FAILURE, os)
    else if pid1 = 0 then none
    else
      let (pid2, os) := os.ask
      if pid2 < 0 then
        let (_, os) := os.ask
        some (to_bool EXIT_FAILURE, os)
      else if pid2 = 0 then none
      else
        let (_, os) := os.ask
        let (status2, os) := os.ask
        let ret_status := if WIFEXITED status2 then WEXITSTATUS status2 else EXIT_FAILURE
        some (to_bool ret_status, os)

/-- Function `run_in_parallel`, whose return type is `bool`: the value that its
caller reads. In a child (`fork` returned 0) the call ends in `exit`. -/
def run_in_parallel (_cmd1 _cmd2 : command_t) (os : OS) : Option (Int × OS) :=
  let (pid1, os) := os.ask
  if pid1 < 0 then some (to_bool EXIT_FAILURE, os)
  else if pid1 = 0 then none
  else
    let (pid2, os) := os.ask
    if pid2 < 0 then
      let (_, os) := os.ask
      some (to_bool EXIT_FAILURE, os)
    else if pid2 = 0 then none
    else
      let (_, os) := os.ask
      let (status2, os) := os.ask
      let ret_status := if WIFEXITED status2 then WEXITSTATUS status2 else EXIT_FAILURE
      some (to_bool ret_status, os)

/-- Function `parse_command`. The simple commands are run by `parse_simple`,
which the model does not follow: it is a parameter, that tells for each simple
command and each state of the operating system what the call returns, or that
the process does not return from it. -/
def parse_command (parse_simple : Nat → OS → Option (Int × OS)) :
    command_t → OS → Option (Int × OS)
  | .NULL, os => some (EXIT_FAILURE, os)
  | .node op cmd1 cmd2 scmd, os =>
    match op with
    | .OP_NONE => parse_simple scmd os
    | .OP_SEQUENTIAL =>
      match parse_command parse_simple cmd1 os with
      | none => none
      | some (_, os1) => parse_command parse_simple cmd2 os1
    | .OP_PARALLEL => run_in_parallel cmd1 cmd2 os
    | .OP_CONDITIONAL_NZERO =>
      match parse_command parse_simple cmd1 os with
      | none => none
      | some (status1, os1) =>
        if status1 ≠ 0 then parse_command parse_simple cmd2 os1 else some (status1, os1)
    | .OP_CONDITIONAL_ZERO =>
      match parse_command parse_simple cmd1 os with
      | none => none
      | some (status1, os1) =>
        if status1 = 0 then parse_command parse_simple cmd2 os1 else some (status1, os1)
    | .OP_PIPE => run_on_pipe cmd1 cmd2 os
    | .OP_DUMMY => some (SHELL_EXIT, os)

/-- A simple command that returns 0 and asks nothing of the operating system. -/
def quiet (_ : Nat) (os : OS) : Option (Int × OS) := some (EXIT_SUCCESS, os)

/-- The answers `l`, in turn, to a process that has asked nothing yet; every
later answer is 0. -/
def script (l : List Int) : OS := { answer := fun k => l.getD k 0, asked := 0 }

end Shell

namespace MM

/-! ## Well-linked lists -/

/-- The `pred` links along the nodes of a list: the first node has `pred = prev`,
every later node has as `pred` the node before it. -/
def pred_links (m : Mem) : Nat → List Nat → Prop
  | _, [] => True
  | prev, x :: xs => get_pred m x = prev ∧ pred_links m x xs

instance pred_links_decidable (m : Mem) : ∀ (prev : Nat) (l : List Nat),
    Decidable (pred_links m prev l)
  | _, [] => isTrue trivial
  | prev, x :: xs =>
    have : Decidable (pred_links m x xs) := pred_links_decidable m x xs
    (inferInstance : Decidable (get_pred m x = prev ∧ pred_links m x xs))

/-- Each of the 11 lists, followed by `succ` from its head, ends at `NULL`
without repetition, its head has `pred = NULL`, and every node that is the
`succ` of a node has that node as its `pred`. -/
def WellLinked (s : State) : Prop :=
  ∀ i, i < 11 → ∃ l, list_nodes s i = some l ∧ l.Nodup ∧ pred_links s.mem 0 l

/-- The nodes of the 11 lists do not overlap: the 16 link bytes of every node
lie in the address space, those of distinct nodes are disjoint, and no node is
in two lists. -/
def Apart (s : State) : Prop :=
  ∀ i, i < 11 → ∀ l, list_nodes s i = some l → ∀ x ∈ l,
    x + 16 ≤ 18446744073709551616 ∧
    ∀ j, j < 11 → ∀ k, list_nodes s j = some k → ∀ y ∈ k,
      (x = y → i = j) ∧ (x ≠ y → x + 16 ≤ y ∨ y + 16 ≤ x)

/-- The 16 link bytes of the block `b` lie in the address space and overlap
those of no node: `b` is in no list, and no node is less than 16 bytes away. -/
def Clear (s : State) (b : Nat) : Prop :=
  b + 16 ≤ 18446744073709551616 ∧
  ∀ i, i < 11 → ∀ l, list_nodes s i = some l → ∀ x ∈ l, x + 16 ≤ b ∨ b + 16 ≤ x

/-- The lists with their nodes named: `fl i` are the nodes of list `i`, linked
in both directions, without repetition, apart from one another, each in one
list only. -/
structure Linked (s : State) (fl : Nat → List Nat) : Prop where
  heads : ∀ i, i < 11 → s.free_lists i = (fl i).headD 0
  chain : ∀ i, Chain s.mem 0 (fl i) 0
  nodup : ∀ i, (fl i).Nodup
  apart : ∀ i j, ∀ x ∈ fl i, ∀ y ∈ fl j, x ≠ y → x + 16 ≤ y ∨ y + 16 ≤ x
  once : ∀ i j x, x ∈ fl i → x ∈ fl j → i = j
  bound : ∀ i, ∀ x ∈ fl i, x ≠ 0 ∧ x + 16 ≤ 18446744073709551616

/-- The heap `marked` with the block at 4176 made the head of list 1 as well
as of list 6. -/
def shared : State :=
  { marked with free_lists := Function.update marked.free_lists 1 4176 }

/-- An all-zero memory in which the block at 4128 is the only node of list 3
and the address 4136, inside the link bytes of that block, the only node of
list 0. -/
def overlapped : State :=
  { zeroed with
    free_lists := Function.update (Function.update zeroed.free_lists 3 4128) 0 4136 }

/-- An all-zero memory in which the address `2^64 - 8`, whose `succ` word is at
address 0, is the only node of list 3 and the address 1 the only node of
list 0. -/
def wrapped : State :=
  { zeroed with
    free_lists := Function.update (Function.update zeroed.free_lists 3 18446744073709551608) 0 1 }

/-- The world after `p = malloc(2^64 - 16)` and `free(p)` on the region
`zeroed`. -/
def looped : World :=
  world zeroed [.malloc 18446744073709551600, .free 4128]

/-! ## Words -/

theorem addw_eq {a b : Nat} (h : a + b < 18446744073709551616) : addw a b = a + b := by
  unfold addw; omega

theorem subw_eq {a b : Nat} (h : b ≤ a) (h2 : a < 18446744073709551616) : subw a b = a - b := by
  unfold subw; omega

theorem mulw_eq {a b : Nat} (h : a * b < 18446744073709551616) : mulw a b = a * b := by
  unfold mulw; omega

theorem get_lt (m : Mem) (p : Nat) : get m p < 18446744073709551616 := by
  unfold get; omega

theorem put_outside {m : Mem} {p v x : Nat} (h : x < p ∨ p + 8 ≤ x) : put m p v x = m x := by
  unfold put; rw [if_neg]; omega

theorem get_congr {m m' : Mem} {p : Nat} (h : ∀ x, p ≤ x → x < p + 8 → m' x = m x) :
    get m' p = get m p := by
  unfold get
  rw [h p (by omega) (by omega), h (p+1) (by omega) (by omega), h (p+2) (by omega) (by omega),
    h (p+3) (by omega) (by omega), h (p+4) (by omega) (by omega), h (p+5) (by omega) (by omega),
    h (p+6) (by omega) (by omega), h (p+7) (by omega) (by omega)]

theorem get_put_other {m : Mem} {p v q : Nat} (h : q + 8 ≤ p ∨ p + 8 ≤ q) :
    get (put m p v) q = get m q :=
  get_congr (fun x h1 h2 => put_outside (by omega))

theorem get_put_same (m : Mem) (p v : Nat) :
    get (put m p v) p = v % 18446744073709551616 := by
  have e : ∀ k, k < 8 → put m p v (p + k) = (v / 256 ^ k) % 256 := by
    intro k hk
    unfold put
    rw [if_pos (by omega)]
    congr 3; omega
  have e0 := e 0 (by omega)
  unfold get
  rw [e 1 (by omega), e 2 (by omega), e 3 (by omega), e 4 (by omega), e 5 (by omega),
    e 6 (by omega), e 7 (by omega)]
  rw [Nat.add_zero] at e0
  rw [e0]
  norm_num
  omega

theorem and_one_eq (w : Nat) : w &&& 1 = w % 2 := Nat.and_one_is_mod w

theorem and_mask_eq {w : Nat} (h : w < 18446744073709551616) :
    w &&& 0xFFFFFFFFFFFFFFF8 = w - w % 8 := by
  apply Nat.eq_of_testBit_eq
  intro i
  rw [Nat.testBit_and]
  have hw : w - w % 8 = (w >>> 3) <<< 3 := by
    rw [Nat.shiftRight_eq_div_pow, Nat.shiftLeft_eq]; omega
  rw [hw, Nat.testBit_shiftLeft, Nat.testBit_shiftRight]
  by_cases h64 : i < 64
  · by_cases h3 : 3 ≤ i
    · have : Nat.testBit 0xFFFFFFFFFFFFFFF8 i = true := by
        interval_cases i <;> rfl
      rw [this]
      simp [h3]
    · have : Nat.testBit 0xFFFFFFFFFFFFFFF8 i = false := by
        interval_cases i <;> rfl
      rw [this]
      simp [h3]
  · have h1 : Nat.testBit w i = false := by
      apply Nat.testBit_lt_two_pow
      calc w < 2 ^ 64 := h
        _ ≤ 2 ^ i := Nat.pow_le_pow_right (by omega) (by omega)
    have h2 : 3 + (i - 3) = i := by omega
    rw [h1, h2, h1]
    simp

theorem pack_eq {u a : Nat} (h : u % 2 = 0) (ha : a ≤ 1) : pack u a = u + a := by
  unfold pack
  have h2 : u = 2 ^ 1 * (u / 2) := by omega
  rw [h2]
  exact (Nat.mul_add_lt_is_or (by omega) _).symm

theorem get_size_eq {m : Mem} {p u a : Nat} (h : get m p = u + a) (hs : u % 8 = 0)
    (ha : a ≤ 1) : get_size m p = u := by
  unfold get_size
  rw [and_mask_eq (get_lt m p), h]; omega

theorem get_alloc_eq {m : Mem} {p u a : Nat} (h : get m p = u + a) (hs : u % 8 = 0)
    (ha : a ≤ 1) : get_alloc m p = a := by
  unfold get_alloc
  rw [and_one_eq, h]; omega

/-! ## Layouts -/

theorem Layout.le {m : Mem} : ∀ {bs : List Blk} {p e : Nat}, Layout m p bs e → p ≤ e
  | [], p, e, h => by simp [Layout] at h; omega
  | b :: bs, p, e, h => by
    obtain ⟨_, _, _, _, _, _, h7⟩ := h
    have := Layout.le h7
    omega

theorem Layout.append {m : Mem} : ∀ {xs ys : List Blk} {p e : Nat},
    Layout m p (xs ++ ys) e ↔ ∃ q, Layout m p xs q ∧ Layout m q ys e
  | [], ys, p, e => by
    constructor
    · intro h; exact ⟨p, rfl, h⟩
    · rintro ⟨q, h1, h2⟩
      have : p = q := h1
      subst this; exact h2
  | b :: xs, ys, p, e => by
    constructor
    · intro h
      obtain ⟨h1, h2, h3, h4, h5, h6, h7⟩ := h
      obtain ⟨q, h8, h9⟩ := Layout.append.mp h7
      exact ⟨q, ⟨h1, h2, h3, h4, h5, h6, h8⟩, h9⟩
    · rintro ⟨q, ⟨h1, h2, h3, h4, h5, h6, h8⟩, h9⟩
      exact ⟨h1, h2, h3, h4, h5, h6, Layout.append.mpr ⟨q, h8, h9⟩⟩

theorem Layout.frame {m m' : Mem} : ∀ {bs : List Blk} {p e : Nat}, Layout m p bs e → 8 ≤ p →
    (∀ x, p - 8 ≤ x → x < e - 8 → m' x = m x) → Layout m' p bs e
  | [], p, e, h, _, _ => h
  | b :: bs, p, e, h, hp, hm => by
    obtain ⟨h1, h2, h3, h4, h5, h6, h7⟩ := h
    have hle := Layout.le h7
    refine ⟨h1, h2, h3, h4, ?_, ?_, ?_⟩
    · rw [← h5]; exact get_congr (fun x hx1 hx2 => hm x hx1 (by omega))
    · rw [← h6]; exact get_congr (fun x hx1 hx2 => hm x (by omega) (by omega))
    · exact Layout.frame h7 (by omega) (fun x hx1 hx2 => hm x (by omega) hx2)

theorem Layout.mem {m : Mem} : ∀ {bs : List Blk} {p e : Nat} {b : Blk}, Layout m p bs e →
    b ∈ bs → p ≤ b.addr ∧ b.addr + b.size ≤ e ∧ 32 ≤ b.size ∧ b.size % 16 = 0 ∧ b.alloc ≤ 1 ∧
      get m (b.addr - 8) = b.size + b.alloc ∧ get m (b.addr + b.size - 16) = b.size + b.alloc
  | [], _, _, _, _, hb => by simp at hb
  | c :: bs, p, e, b, h, hb => by
    obtain ⟨h1, h2, h3, h4, h5, h6, h7⟩ := h
    have hle := Layout.le h7
    rcases List.mem_cons.mp hb with hb | hb
    · subst hb; subst h1
      exact ⟨le_refl _, hle, h2, h3, h4, h5, h6⟩
    · have := Layout.mem h7 hb
      refine ⟨by omega, this.2⟩

theorem Layout.sep {m : Mem} : ∀ {bs : List Blk} {p e : Nat} {b c : Blk}, Layout m p bs e →
    b ∈ bs → c ∈ bs → b = c ∨ b.addr + b.size ≤ c.addr ∨ c.addr + c.size ≤ b.addr
  | [], _, _, _, _, _, hb, _ => by simp at hb
  | d :: bs, p, e, b, c, h, hb, hc => by
    obtain ⟨h1, h2, h3, h4, h5, h6, h7⟩ := h
    rcases List.mem_cons.mp hb with hb | hb <;> rcases List.mem_cons.mp hc with hc | hc
    · left; rw [hb, hc]
    · have := Layout.mem h7 hc
      subst hb; right; left; omega
    · have := Layout.mem h7 hb
      subst hc; right; right; omega
    · exact Layout.sep h7 hb hc

theorem Layout.addr_inj {m : Mem} {bs : List Blk} {p e : Nat} {b c : Blk} (h : Layout m p bs e)
    (hb : b ∈ bs) (hc : c ∈ bs) (he : b.addr = c.addr) : b = c := by
  have h1 := Layout.mem h hb
  have h2 := Layout.mem h hc
  rcases Layout.sep h hb hc with h3 | h3 | h3
  · exact h3
  · omega
  · omega

theorem Layout.split {m : Mem} {bs : List Blk} {p e : Nat} {b : Blk} (h : Layout m p bs e)
    (hb : b ∈ bs) : ∃ xs ys, bs = xs ++ b :: ys ∧ Layout m p xs b.addr ∧
      Layout m (b.addr + b.size) ys e := by
  obtain ⟨xs, ys, rfl⟩ := List.append_of_mem hb
  obtain ⟨q, h1, h2⟩ := Layout.append.mp h
  obtain ⟨h3, _, _, _, _, _, h4⟩ := h2
  subst h3
  exact ⟨xs, ys, rfl, h1, h4⟩

theorem Layout.sum {m : Mem} : ∀ {bs : List Blk} {p e : Nat}, Layout m p bs e →
    e = p + (bs.map Blk.size).sum
  | [], p, e, h => by simp [Layout] at h; simp [h]
  | b :: bs, p, e, h => by
    obtain ⟨_, _, _, _, _, _, h7⟩ := h
    have := Layout.sum h7
    simp only [List.map_cons, List.sum_cons]
    omega

theorem Layout.mod {m : Mem} : ∀ {bs : List Blk} {p e : Nat}, Layout m p bs e →
    e % 16 = p % 16 ∧ ∀ b ∈ bs, b.addr % 16 = p % 16
  | [], p, e, h => by simp [Layout] at h; simp [h]
  | b :: bs, p, e, h => by
    obtain ⟨h1, h2, h3, _, _, _, h7⟩ := h
    have := Layout.mod h7
    refine ⟨by omega, ?_⟩
    intro c hc
    rcases List.mem_cons.mp hc with hc | hc
    · subst hc; omega
    · have := this.2 c hc; omega

theorem Layout.single {m : Mem} {p e : Nat} {b : Blk} :
    Layout m p [b] e ↔ b.addr = p ∧ 32 ≤ b.size ∧ b.size % 16 = 0 ∧ b.alloc ≤ 1 ∧
    get m (p - 8) = b.size + b.alloc ∧ get m (p + b.size - 16) = b.size + b.alloc ∧
    p + b.size = e := by
  simp [Layout]

/-! ## Chains -/

theorem Chain.keep {m m' : Mem} : ∀ {l : List Nat} {prev nxt : Nat}, Chain m prev l nxt →
    (∀ x ∈ l, ∀ y, x ≤ y → y < x + 16 → m' y = m y) → Chain m' prev l nxt
  | [], _, _, _, _ => trivial
  | x :: l, prev, nxt, h, hm => by
    obtain ⟨h1, h2, h3⟩ := h
    refine ⟨?_, ?_, ?_⟩
    · rw [← h1]; exact get_congr (fun y hy1 hy2 => hm x (List.mem_cons_self _ _) y hy1 (by omega))
    · rw [← h2]
      exact get_congr (fun y hy1 hy2 => hm x (List.mem_cons_self _ _) y (by omega) (by omega))
    · exact Chain.keep h3 (fun z hz => hm z (List.mem_cons_of_mem _ hz))

theorem headD_append (l1 l2 : List Nat) (n : Nat) :
    (l1 ++ l2).headD n = l1.headD (l2.headD n) := by
  cases l1 <;> rfl

theorem Chain.join {m : Mem} : ∀ {l1 l2 : List Nat} {prev nxt : Nat},
    Chain m prev (l1 ++ l2) nxt ↔
      Chain m prev l1 (l2.headD nxt) ∧ Chain m (l1.getLastD prev) l2 nxt
  | [], l2, prev, nxt => by
    show Chain m prev l2 nxt ↔ True ∧ Chain m prev l2 nxt
    rw [true_and]
  | x :: l1, l2, prev, nxt => by
    have ih := @Chain.join m l1 l2 x nxt
    show (get m x = prev ∧ get m (x + 8) = (l1 ++ l2).headD nxt ∧ Chain m x (l1 ++ l2) nxt) ↔
      (get m x = prev ∧ get m (x + 8) = l1.headD (l2.headD nxt) ∧ Chain m x l1 (l2.headD nxt)) ∧
        Chain m ((x :: l1).getLastD prev) l2 nxt
    rw [ih, headD_append, List.getLastD_cons]
    tauto

theorem Chain.set_pred {m : Mem} {l : List Nat} {x prev nxt v : Nat}
    (h : Chain m prev (x :: l) nxt) (hl : ∀ y ∈ l, y + 16 ≤ x ∨ x + 16 ≤ y) :
    Chain (put m x v) (v % 18446744073709551616) (x :: l) nxt := by
  obtain ⟨h1, h2, h3⟩ := h
  refine ⟨get_put_same _ _ _, ?_, ?_⟩
  · rw [← h2]; exact get_put_other (by omega)
  · exact Chain.keep h3 (fun y hy z hz1 hz2 => put_outside (by have := hl y hy; omega))

theorem Chain.set_succ {m : Mem} : ∀ {l : List Nat} {x prev nxt v : Nat},
    Chain m prev (l ++ [x]) nxt → (∀ y ∈ l, y + 16 ≤ x ∨ x + 16 ≤ y) →
    Chain (put m (x + 8) v) prev (l ++ [x]) (v % 18446744073709551616)
  | [], x, prev, nxt, v, h, _ => by
    obtain ⟨h1, h2, _⟩ := h
    refine ⟨?_, get_put_same _ _ _, trivial⟩
    rw [← h1]; exact get_put_other (by omega)
  | y :: l, x, prev, nxt, v, h, hl => by
    obtain ⟨h1, h2, h3⟩ := h
    have hy := hl y (List.mem_cons_self _ _)
    refine ⟨?_, ?_, Chain.set_succ h3 (fun z hz => hl z (List.mem_cons_of_mem _ hz))⟩
    · rw [← h1]; exact get_put_other (by omega)
    · have e : ∀ n, (l ++ [x]).headD n = (l ++ [x]).headD nxt := by
        intro n; cases l <;> rfl
      show get (put m (x + 8) v) (y + 8) = (l ++ [x]).headD (v % 18446744073709551616)
      rw [e]
      have h2' : get m (y + 8) = (l ++ [x]).headD nxt := h2
      rw [← h2']; exact get_put_other (by omega)

theorem nodup_length_le {l : List Nat} {N : Nat} (hn : l.Nodup) (hl : ∀ x ∈ l, x < N) :
    l.length ≤ N := by
  have h1 : l.toFinset ⊆ Finset.range N := by
    intro x hx
    rw [List.mem_toFinset] at hx
    exact Finset.mem_range.mpr (hl x hx)
  have h2 := Finset.card_le_card h1
  rw [List.toFinset_card_of_nodup hn, Finset.card_range] at h2
  exact h2

/-- The membership scan over a chain finds exactly the members. -/
theorem list_scan_chain {m : Mem} {T : Nat} : ∀ {l : List Nat} {prev fuel : Nat},
    Chain m prev l 0 → (∀ x ∈ l, x ≠ 0 ∧ x + 8 < 18446744073709551616) → l.length < fuel →
    list_scan m T fuel (l.headD 0) = some (decide (T ∈ l))
  | [], prev, fuel, _, _, hf => by
    obtain ⟨f, rfl⟩ : ∃ f, fuel = f + 1 := ⟨fuel - 1, by simp at hf; omega⟩
    simp [list_scan]
  | x :: l, prev, fuel, h, hx, hf => by
    obtain ⟨f, rfl⟩ : ∃ f, fuel = f + 1 := ⟨fuel - 1, by simp at hf; omega⟩
    obtain ⟨h1, h2, h3⟩ := h
    have hx0 := hx x (List.mem_cons_self _ _)
    simp only [list_scan, List.headD_cons, if_neg hx0.1]
    by_cases hp : x = T
    · simp [hp]
    · rw [if_neg hp]
      have : get_succ m x = l.headD 0 := by
        unfold get_succ succ_ptr WSIZE; rw [addw_eq (by omega)]; exact h2
      rw [this, list_scan_chain h3 (fun z hz => hx z (List.mem_cons_of_mem _ hz))
        (by simp at hf; omega)]
      have : T ≠ x := fun h => hp h.symm
      simp [this]

/-! ## Reading the boundary tags of a block -/

theorem hdrp_eq {p : Nat} (h1 : 8 ≤ p) (h2 : p < 18446744073709551616) : hdrp p = p - 8 := by
  unfold hdrp WSIZE; exact subw_eq h1 h2

theorem succ_ptr_eq {p : Nat} (h : p + 8 < 18446744073709551616) : succ_ptr p = p + 8 := by
  unfold succ_ptr WSIZE; exact addw_eq h

theorem tag_size {m : Mem} {p u a : Nat} (hp : 8 ≤ p) (hp2 : p < 18446744073709551616)
    (h : get m (p - 8) = u + a) (hs : u % 16 = 0) (ha : a ≤ 1) :
    get_size m (hdrp p) = u := by
  rw [hdrp_eq hp hp2]; exact get_size_eq h (by omega) ha

theorem tag_alloc {m : Mem} {p u a : Nat} (hp : 8 ≤ p) (hp2 : p < 18446744073709551616)
    (h : get m (p - 8) = u + a) (hs : u % 16 = 0) (ha : a ≤ 1) :
    get_alloc m (hdrp p) = a := by
  rw [hdrp_eq hp hp2]; exact get_alloc_eq h (by omega) ha

theorem tag_next {m : Mem} {p u a : Nat} (hp : 8 ≤ p) (hp2 : p + u < 18446744073709551616)
    (h : get m (p - 8) = u + a) (hs : u % 16 = 0) (ha : a ≤ 1) :
    next_blkp m p = p + u := by
  unfold next_blkp
  rw [tag_size hp (by omega) h hs ha, addw_eq hp2]

theorem tag_ftrp {m : Mem} {p u a : Nat} (hp : 8 ≤ p) (hp2 : p + u < 18446744073709551616)
    (h : get m (p - 8) = u + a) (hs : u % 16 = 0) (ha : a ≤ 1) (h16 : 16 ≤ u) :
    ftrp m p = p + u - 16 := by
  unfold ftrp WSIZE
  rw [tag_size hp (by omega) h hs ha, addw_eq hp2, subw_eq (by omega) hp2]

/-- A layout only depends on the boundary tags of its blocks. -/
theorem Layout.frame_tags {m m' : Mem} : ∀ {bs : List Blk} {p e : Nat}, Layout m p bs e →
    (∀ b ∈ bs, get m' (b.addr - 8) = get m (b.addr - 8) ∧
      get m' (b.addr + b.size - 16) = get m (b.addr + b.size - 16)) → Layout m' p bs e
  | [], _, _, h, _ => h
  | b :: bs, p, e, h, hm => by
    obtain ⟨h1, h2, h3, h4, h5, h6, h7⟩ := h
    have hb := hm b (List.mem_cons_self _ _)
    rw [h1] at hb
    exact ⟨h1, h2, h3, h4, hb.1.trans h5, hb.2.trans h6,
      Layout.frame_tags h7 (fun c hc => hm c (List.mem_cons_of_mem _ hc))⟩

/-- A write into the first 16 payload bytes of a block leaves the layout alone. -/
theorem Layout.put_link {m : Mem} {bs : List Blk} {p e : Nat} {c : Blk} {a v : Nat}
    (h : Layout m p bs e) (hp : 8 ≤ p) (hc : c ∈ bs) (h1 : c.addr ≤ a) (h2 : a + 8 ≤ c.addr + 16) :
    Layout (put m a v) p bs e := by
  apply Layout.frame_tags h
  intro b hb
  have fb := Layout.mem h hb
  have fc := Layout.mem h hc
  have hs := Layout.sep h hb hc
  constructor
  · apply get_put_other
    rcases hs with hs | hs | hs
    · subst hs; omega
    · omega
    · omega
  · apply get_put_other
    rcases hs with hs | hs | hs
    · subst hs; omega
    · omega
    · omega

theorem Keeps.refl (bs : List Blk) (m : Mem) : Keeps bs m m := fun _ _ _ _ _ _ => rfl

theorem Keeps.trans {bs : List Blk} {m1 m2 m3 : Mem} (h1 : Keeps bs m1 m2) (h2 : Keeps bs m2 m3) :
    Keeps bs m1 m3 := fun b hb ha x hx1 hx2 => (h2 b hb ha x hx1 hx2).trans (h1 b hb ha x hx1 hx2)

/-- A write inside a free block, or into a boundary tag, keeps all allocated payloads. -/
theorem Keeps.put_free {m : Mem} {bs : List Blk} {p e : Nat} {c : Blk} {a v : Nat}
    (h : Layout m p bs e) (hc : c ∈ bs) (hf : c.alloc = 0) (h1 : c.addr ≤ a + 8)
    (h2 : a + 8 ≤ c.addr + c.size) : Keeps bs m (put m a v) := by
  intro b hb hb1 x hx1 hx2
  have fb := Layout.mem h hb
  have fc := Layout.mem h hc
  apply put_outside
  rcases Layout.sep h hb hc with hs | hs | hs
  · subst hs; omega
  · omega
  · omega

theorem Keeps.put_tag {m : Mem} {bs : List Blk} {p e : Nat} {c : Blk} {a v : Nat}
    (h : Layout m p bs e) (hc : c ∈ bs) (h1 : a = c.addr - 8 ∨ a = c.addr + c.size - 16)
    (hp : 8 ≤ p) : Keeps bs m (put m a v) := by
  intro b hb hb1 x hx1 hx2
  have fb := Layout.mem h hb
  have fc := Layout.mem h hc
  apply put_outside
  rcases Layout.sep h hb hc with hs | hs | hs
  · subst hs; omega
  · omega
  · omega

namespace Inv

variable {s : State} {bs : List Blk} {fl : Nat → List Nat} {X : Set Nat}

theorem blk (h : Inv s bs fl X) {b : Blk} (hb : b ∈ bs) :
    s.lo + 32 ≤ b.addr ∧ b.addr + b.size ≤ s.brk ∧ 32 ≤ b.size ∧ b.size % 16 = 0 ∧ b.alloc ≤ 1 ∧
      get s.mem (b.addr - 8) = b.size + b.alloc ∧
      get s.mem (b.addr + b.size - 16) = b.size + b.alloc :=
  Layout.mem h.lay hb

theorem node (h : Inv s bs fl X) {i x : Nat} (hx : x ∈ fl i) :
    x ∉ X ∧ ∃ b ∈ bs, b.addr = x ∧ b.alloc = 0 ∧ get_list_index b.size = i :=
  h.mem_fl i x hx

theorem node_ne (h : Inv s bs fl X) {i j x y : Nat} (hx : x ∈ fl i) (hy : y ∈ fl j)
    (hne : x ≠ y) : x + 32 ≤ y ∨ y + 32 ≤ x := by
  obtain ⟨_, b, hb, rfl, _, _⟩ := h.node hx
  obtain ⟨_, c, hc, rfl, _, _⟩ := h.node hy
  have fb := h.blk hb
  have fc := h.blk hc
  rcases Layout.sep h.lay hb hc with hs | hs | hs
  · subst hs; exact absurd rfl hne
  · omega
  · omega

theorem node_idx (h : Inv s bs fl X) {i j x : Nat} (hx : x ∈ fl i) (hy : x ∈ fl j) : i = j := by
  obtain ⟨_, b, hb, hb1, _, hbi⟩ := h.node hx
  obtain ⟨_, c, hc, hc1, _, hci⟩ := h.node hy
  have := Layout.addr_inj h.lay hb hc (hb1.trans hc1.symm)
  subst this
  exact hbi.symm.trans hci

theorem node_bound (h : Inv s bs fl X) {i x : Nat} (hx : x ∈ fl i) :
    x ≠ 0 ∧ x + 8 < 18446744073709551616 ∧ x < 18446744073709551615 := by
  obtain ⟨_, b, hb, rfl, _, _⟩ := h.node hx
  have fb := h.blk hb
  have := h.brk_lt
  omega

theorem length_lt (h : Inv s bs fl X) (i : Nat) : (fl i).length < FUEL := by
  have := nodup_length_le (h.nodup i) (fun x hx => (h.node_bound hx).2.2)
  unfold FUEL; omega

end Inv

/-! ## `add_to_free_list` -/

theorem get_list_index_lt (n : Nat) : get_list_index n < 11 := by
  unfold get_list_index; split_ifs <;> omega

theorem add_eq {s : State} {bs : List Blk} {fl : Nat → List Nat} {X : Set Nat} {b : Blk}
    (h : Inv s bs fl X) (hb : b ∈ bs) :
    add_to_free_list s b.addr =
      { s with
        mem := (match fl (get_list_index b.size) with
          | [] => put (put s.mem b.addr 0) (b.addr + 8) 0
          | c :: _ => put (put (put s.mem b.addr 0) (b.addr + 8) c) c b.addr),
        free_lists := Function.update s.free_lists (get_list_index b.size) b.addr } := by
  have fb := h.blk hb
  have hbrk := h.brk_lt
  have hsz : get_size s.mem (hdrp b.addr) = b.size :=
    tag_size (by omega) (by omega) fb.2.2.2.2.2.1 fb.2.2.2.1 fb.2.2.2.2.1
  have hsucc : succ_ptr b.addr = b.addr + 8 := succ_ptr_eq (by omega)
  have hhd := h.heads (get_list_index b.size) (get_list_index_lt _)
  unfold add_to_free_list set_pred set_succ pred_ptr
  simp only [hsz, hsucc, hhd]
  cases hl : fl (get_list_index b.size) with
  | nil => simp
  | cons c t =>
    have hc : c ≠ 0 := (h.node_bound (i := get_list_index b.size) (by rw [hl]; simp)).1
    simp [hc]

theorem add_spec {s : State} {bs : List Blk} {fl : Nat → List Nat} {X Y : Set Nat} {b : Blk}
    (h : Inv s bs fl X) (hb : b ∈ bs) (hf : b.alloc = 0) (hx : b.addr ∈ X)
    (hX' : ∀ a, a ∈ Y ↔ a ∈ X ∧ a ≠ b.addr) :
    Inv (add_to_free_list s b.addr) bs
        (Function.update fl (get_list_index b.size) (b.addr :: fl (get_list_index b.size))) Y ∧
      (add_to_free_list s b.addr).lo = s.lo ∧ (add_to_free_list s b.addr).brk = s.brk ∧
      (add_to_free_list s b.addr).heap_listp = s.heap_listp ∧
      Keeps bs s.mem (add_to_free_list s b.addr).mem := by
  have fb := h.blk hb
  have hbrk := h.brk_lt
  have hnl : ∀ j, b.addr ∉ fl j := fun j hj => (h.node hj).1 hx
  have hnode : ∀ j, ∀ y ∈ fl j, y + 32 ≤ b.addr ∨ b.addr + 32 ≤ y := by
    intro j y hy
    obtain ⟨_, c, hc, rfl, _, _⟩ := h.node hy
    have fc := h.blk hc
    rcases Layout.sep h.lay hb hc with hs | hs | hs
    · subst hs; exact absurd hy (hnl j)
    · omega
    · omega
  rw [add_eq h hb]
  have hi := get_list_index_lt b.size
  -- facts shared by both shapes of the list
  have key : ∀ m' : Mem, Layout m' (s.lo + 32) bs s.brk →
      get m' (s.lo + 8) = 17 → get m' (s.lo + 16) = 17 → get m' (s.brk - 8) = 1 →
      (∀ j, j ≠ get_list_index b.size → Chain m' 0 (fl j) 0) →
      Chain m' 0 (b.addr :: fl (get_list_index b.size)) 0 →
      Inv { s with mem := m', free_lists :=
          Function.update s.free_lists (get_list_index b.size) b.addr } bs
        (Function.update fl (get_list_index b.size) (b.addr :: fl (get_list_index b.size)))
        Y := by
    intro m' hlay hp1 hp2 hep hch1 hch2
    refine ⟨h.hl, h.brk_lt, hp1, hp2, hlay, hep, ?_, ?_, ?_, ?_, ?_⟩
    · intro j hj
      by_cases hji : j = get_list_index b.size
      · subst hji; simp
      · simp only [Function.update_noteq hji]; exact h.heads j hj
    · intro j
      by_cases hji : j = get_list_index b.size
      · subst hji; simpa using hch2
      · simp only [Function.update_noteq hji]; exact hch1 j hji
    · intro j x hxj
      by_cases hji : j = get_list_index b.size
      · subst hji
        simp only [Function.update_same] at hxj
        rcases List.mem_cons.mp hxj with hxj | hxj
        · subst hxj
          exact ⟨fun hc => ((hX' _).mp hc).2 rfl, b, hb, rfl, hf, rfl⟩
        · exact ⟨fun hc => (h.node hxj).1 ((hX' _).mp hc).1, (h.node hxj).2⟩
      · simp only [Function.update_noteq hji] at hxj
        exact ⟨fun hc => (h.node hxj).1 ((hX' _).mp hc).1, (h.node hxj).2⟩
    · intro c hc hcf
      by_cases hcb : c.addr = b.addr
      · have := Layout.addr_inj h.lay hc hb hcb
        subst this
        right; simp
      · rcases h.fl_mem c hc hcf with h1 | h1
        · left; exact (hX' _).mpr ⟨h1, hcb⟩
        · right
          by_cases hji : get_list_index c.size = get_list_index b.size
          · rw [hji, Function.update_same]; rw [hji] at h1
            exact List.mem_cons_of_mem _ h1
          · rw [Function.update_noteq hji]; exact h1
    · intro j
      by_cases hji : j = get_list_index b.size
      · subst hji
        simp only [Function.update_same]
        exact List.nodup_cons.mpr ⟨hnl _, h.nodup _⟩
      · simp only [Function.update_noteq hji]; exact h.nodup j
  have hl1 : ∀ v, Layout (put (put s.mem b.addr 0) (b.addr + 8) v) (s.lo + 32) bs s.brk := fun v =>
    Layout.put_link (Layout.put_link h.lay (by omega) hb (by omega) (by omega)) (by omega) hb
      (by omega) (by omega)
  have hg1 : ∀ v a, a + 8 ≤ b.addr ∨ b.addr + 16 ≤ a →
      get (put (put s.mem b.addr 0) (b.addr + 8) v) a = get s.mem a := by
    intro v a ha
    rw [get_put_other (by omega), get_put_other (by omega)]
  have hc1 : ∀ v j, Chain (put (put s.mem b.addr 0) (b.addr + 8) v) 0 (fl j) 0 := by
    intro v j
    apply Chain.keep (h.chain j)
    intro y hy z hz1 hz2
    have := hnode j y hy
    rw [put_outside (by omega), put_outside (by omega)]
  have hk1 : ∀ v, Keeps bs s.mem (put (put s.mem b.addr 0) (b.addr + 8) v) := fun v =>
    Keeps.trans (Keeps.put_free h.lay hb hf (by omega) (by omega))
      (Keeps.put_free (Layout.put_link h.lay (by omega) hb (by omega) (by omega)) hb hf
        (by omega) (by omega))
  cases hl : fl (get_list_index b.size) with
  | nil =>
    refine ⟨?_, rfl, rfl, rfl, hk1 0⟩
    have := key (put (put s.mem b.addr 0) (b.addr + 8) 0) (hl1 0)
      ((hg1 0 _ (by omega)).trans h.pro_h) ((hg1 0 _ (by omega)).trans h.pro_f)
      ((hg1 0 _ (by omega)).trans h.epi) (fun j _ => hc1 0 j)
      ⟨by rw [get_put_other (by omega), get_put_same], by
        rw [get_put_same, hl]; rfl, by rw [hl]; trivial⟩
    rw [hl] at this
    exact this
  | cons c t =>
    have hcm : c ∈ fl (get_list_index b.size) := by rw [hl]; simp
    obtain ⟨_, cb, hcb, hcb1, hcbf, _⟩ := h.node hcm
    have fc := h.blk hcb
    have hcn := hnode _ c hcm
    have hlayc : Layout (put (put (put s.mem b.addr 0) (b.addr + 8) c) c b.addr) (s.lo + 32) bs
        s.brk := Layout.put_link (hl1 c) (by omega) hcb (by omega) (by omega)
    refine ⟨?_, rfl, rfl, rfl,
      Keeps.trans (hk1 c) (Keeps.put_free (hl1 c) hcb hcbf (by omega) (by omega))⟩
    have := key (put (put (put s.mem b.addr 0) (b.addr + 8) c) c b.addr) hlayc
      (by rw [get_put_other (by omega)]; exact (hg1 c _ (by omega)).trans h.pro_h)
      (by rw [get_put_other (by omega)]; exact (hg1 c _ (by omega)).trans h.pro_f)
      (by rw [get_put_other (by omega)]; exact (hg1 c _ (by omega)).trans h.epi)
      (by
        intro j hj
        apply Chain.keep (hc1 c j)
        intro y hy z hz1 hz2
        have hyc : y ≠ c := fun e => hj (h.node_idx (e ▸ hy) hcm)
        have := h.node_ne hy hcm hyc
        exact put_outside (by omega))
      (by
        have hch := hc1 c (get_list_index b.size)
        rw [hl] at hch
        have hnd := h.nodup (get_list_index b.size)
        rw [hl] at hnd
        have hsp := Chain.set_pred (v := b.addr) hch (by
          intro y hy
          have hyc : y ≠ c := fun e => (List.nodup_cons.mp hnd).1 (e ▸ hy)
          have := h.node_ne (i := get_list_index b.size) (j := get_list_index b.size)
            (x := y) (y := c) (by rw [hl]; exact List.mem_cons_of_mem _ hy) hcm hyc
          omega)
        rw [Nat.mod_eq_of_lt (by omega)] at hsp
        rw [hl]
        refine ⟨?_, ?_, hsp⟩
        · rw [get_put_other (by omega), get_put_other (by omega), get_put_same]
        · rw [get_put_other (by omega), get_put_same, Nat.mod_eq_of_lt (by omega)]; rfl)
    rw [hl] at this
    exact this

/-! ## `remove_from_free_list` -/

theorem getLastD_mem : ∀ (l : List Nat) (d : Nat), l ≠ [] → l.getLastD d ∈ l
  | [], _, h => absurd rfl h
  | [a], _, _ => by simp [List.getLastD_cons]
  | a :: c :: t, d, _ => by
    rw [List.getLastD_cons]
    exact List.mem_cons_of_mem _ (getLastD_mem (c :: t) a (by simp))

theorem remove_eq {s : State} {bs : List Blk} {fl : Nat → List Nat} {X : Set Nat} {b : Blk}
    {l1 l2 : List Nat} (h : Inv s bs fl X) (hb : b ∈ bs)
    (hl : fl (get_list_index b.size) = l1 ++ b.addr :: l2) :
    remove_from_free_list s b.addr = some
      { s with
        mem := (if l2.headD 0 ≠ 0 then
            put (if l1.getLastD 0 ≠ 0 then put s.mem (l1.getLastD 0 + 8) (l2.headD 0) else s.mem)
              (l2.headD 0) (l1.getLastD 0)
          else (if l1.getLastD 0 ≠ 0 then put s.mem (l1.getLastD 0 + 8) (l2.headD 0) else s.mem)),
        free_lists := (if l1.getLastD 0 ≠ 0 then s.free_lists
          else Function.update s.free_lists (get_list_index b.size) (l2.headD 0)) } := by
  have fb := h.blk hb
  have hbrk := h.brk_lt
  have hsz : get_size s.mem (hdrp b.addr) = b.size :=
    tag_size (by omega) (by omega) fb.2.2.2.2.2.1 fb.2.2.2.1 fb.2.2.2.2.1
  have hsucc : succ_ptr b.addr = b.addr + 8 := succ_ptr_eq (by omega)
  have hhd := h.heads (get_list_index b.size) (get_list_index_lt _)
  have hmem : b.addr ∈ fl (get_list_index b.size) := by rw [hl]; simp
  have hscan := list_scan_chain (T := b.addr) (h.chain (get_list_index b.size))
    (fun x hx => ⟨(h.node_bound hx).1, (h.node_bound hx).2.1⟩) (h.length_lt _)
  have hch := h.chain (get_list_index b.size)
  rw [hl, Chain.join] at hch
  obtain ⟨hch1, hp, hs, hch2⟩ := hch
  have hpred : get_pred s.mem b.addr = l1.getLastD 0 := hp
  have hsuc : get_succ s.mem b.addr = l2.headD 0 := by
    unfold get_succ; rw [hsucc]; exact hs
  -- the predecessor node is another block
  have hpne : l1.getLastD 0 ≠ 0 → l1.getLastD 0 + 8 < 18446744073709551616 ∧
      (l1.getLastD 0 + 32 ≤ b.addr ∨ b.addr + 32 ≤ l1.getLastD 0) := by
    intro hne
    have hin : l1.getLastD 0 ∈ l1 := by
      apply getLastD_mem
      intro e; rw [e] at hne; exact hne rfl
    have hin' : l1.getLastD 0 ∈ fl (get_list_index b.size) := by
      rw [hl]; exact List.mem_append_left _ hin
    have hnd := h.nodup (get_list_index b.size)
    rw [hl] at hnd
    have hne2 : l1.getLastD 0 ≠ b.addr := by
      intro e
      rw [e] at hin
      exact (List.nodup_append.mp hnd).2.2 hin (List.mem_cons_self _ _) 
    exact ⟨(h.node_bound hin').2.1, h.node_ne hin' hmem hne2⟩
  unfold remove_from_free_list
  simp only [hsz, hhd, hscan, hmem, decide_True, hpred, hsuc]
  clear hscan hhd hch1 hch2
  generalize l1.getLastD 0 = P at *
  generalize l2.headD 0 = S at *
  by_cases hp0 : P = 0
  · simp only [hp0, ne_eq, not_true_eq_false, if_false, hsuc, hpred]
    by_cases hs0 : S = 0
    · simp [hs0]
    · simp [hs0, set_pred, pred_ptr]
  · obtain ⟨hp1, hp2⟩ := hpne hp0
    have e1 : get_succ (set_succ s.mem P S) b.addr = S := by
      unfold get_succ set_succ
      rw [hsucc, succ_ptr_eq hp1, get_put_other (by omega)]; exact hs
    have e2 : get_pred (set_succ s.mem P S) b.addr = P := by
      unfold get_pred set_succ pred_ptr
      rw [succ_ptr_eq hp1, get_put_other (by omega)]; exact hp
    simp only [hp0, ne_eq, not_false_eq_true, if_true, e1, e2]
    by_cases hs0 : S = 0
    · simp [hs0, set_succ, succ_ptr_eq hp1]
    · simp [hs0, set_pred, pred_ptr, set_succ, succ_ptr_eq hp1]



theorem Inv.tags {s : State} {bs : List Blk} {fl : Nat → List Nat} {X : Set Nat}
    (h : Inv s bs fl X) : Tags s.mem s.lo s.brk bs := ⟨h.lay, h.pro_h, h.pro_f, h.epi⟩

theorem Tags.link_write {m : Mem} {lo brk : Nat} {bs : List Blk} {c : Blk} {a v : Nat}
    (h : Tags m lo brk bs) (hc : c ∈ bs) (h1 : c.addr ≤ a) (h2 : a + 8 ≤ c.addr + 16) :
    Tags (put m a v) lo brk bs := by
  have fc := Layout.mem h.1 hc
  refine ⟨Layout.put_link h.1 (by omega) hc h1 h2, ?_, ?_, ?_⟩
  · rw [get_put_other (by omega)]; exact h.2.1
  · rw [get_put_other (by omega)]; exact h.2.2.1
  · rw [get_put_other (by omega)]; exact h.2.2.2

theorem getLastD_concat (l : List Nat) (a d : Nat) : (l ++ [a]).getLastD d = a := by
  induction l generalizing d with
  | nil => rfl
  | cons x t ih => rw [List.cons_append, List.getLastD_cons]; exact ih x

theorem remove_spec {s : State} {bs : List Blk} {fl : Nat → List Nat} {X Y : Set Nat} {b : Blk}
    (h : Inv s bs fl X) (hb : b ∈ bs) (hf : b.alloc = 0) (hx : b.addr ∉ X)
    (hX' : ∀ a, a ∈ Y ↔ a ∈ X ∨ a = b.addr) :
    ∃ s', remove_from_free_list s b.addr = some s' ∧
      Inv s' bs (Function.update fl (get_list_index b.size)
        ((fl (get_list_index b.size)).erase b.addr)) Y ∧
      s'.lo = s.lo ∧ s'.brk = s.brk ∧ s'.heap_listp = s.heap_listp ∧ Keeps bs s.mem s'.mem := by
  have fb := h.blk hb
  have hbrk := h.brk_lt
  have hmem : b.addr ∈ fl (get_list_index b.size) := by
    rcases h.fl_mem b hb hf with h1 | h1
    · exact absurd h1 hx
    · exact h1
  obtain ⟨l1, l2, hl⟩ := List.append_of_mem hmem
  have hnd := h.nodup (get_list_index b.size)
  rw [hl] at hnd
  have hn1 : b.addr ∉ l1 := fun e => (List.nodup_append.mp hnd).2.2 e (List.mem_cons_self _ _)
  have hn2 : b.addr ∉ l2 := (List.nodup_cons.mp (List.nodup_append.mp hnd).2.1).1
  have hnd12 : (l1 ++ l2).Nodup := by
    rw [List.nodup_append] at hnd ⊢
    exact ⟨hnd.1, (List.nodup_cons.mp hnd.2.1).2,
      fun x hx1 hx2 => hnd.2.2 hx1 (List.mem_cons_of_mem _ hx2)⟩
  have hers : (fl (get_list_index b.size)).erase b.addr = l1 ++ l2 := by
    rw [hl, List.erase_append_right _ hn1, List.erase_cons_head]
  have hin1 : ∀ x ∈ l1, x ∈ fl (get_list_index b.size) := fun x hx => by
    rw [hl]; exact List.mem_append_left _ hx
  have hin2 : ∀ x ∈ l2, x ∈ fl (get_list_index b.size) := fun x hx => by
    rw [hl]; exact List.mem_append_right _ (List.mem_cons_of_mem _ hx)
  have hch := h.chain (get_list_index b.size)
  rw [hl, Chain.join] at hch
  obtain ⟨hch1, hp, hs, hch2⟩ := hch
  -- how nodes sit apart
  have hsep : ∀ {j x y}, x ∈ fl j → y ∈ l1 ++ l2 → x ≠ y → x + 32 ≤ y ∨ y + 32 ≤ x := by
    intro j x y hxj hy hne
    have : y ∈ fl (get_list_index b.size) := by
      rcases List.mem_append.mp hy with hy | hy
      · exact hin1 y hy
      · exact hin2 y hy
    exact h.node_ne hxj this hne
  rw [remove_eq h hb hl, hers]
  -- the shape of the two neighbours in the list
  have hP : (l1 = [] ∧ l1.getLastD 0 = 0) ∨ ∃ l1' a, l1 = l1' ++ [a] ∧ l1.getLastD 0 = a ∧
      a ≠ 0 ∧ a ∈ l1 := by
    rcases List.eq_nil_or_concat l1 with h1 | ⟨l1', a, h1⟩
    · left; subst h1; exact ⟨rfl, rfl⟩
    · right
      rw [List.concat_eq_append] at h1
      have ha : a ∈ l1 := by rw [h1]; simp
      exact ⟨l1', a, h1, by rw [h1]; exact getLastD_concat _ _ _, (h.node_bound (hin1 a ha)).1, ha⟩
  have hS : (l2 = [] ∧ l2.headD 0 = 0) ∨ ∃ c t, l2 = c :: t ∧ l2.headD 0 = c ∧ c ≠ 0 ∧ c ∈ l2 := by
    cases l2 with
    | nil => left; exact ⟨rfl, rfl⟩
    | cons c t =>
      right
      exact ⟨c, t, rfl, rfl, (h.node_bound (hin2 c (List.mem_cons_self _ _))).1,
        List.mem_cons_self _ _⟩
  have hSlt : l2.headD 0 < 18446744073709551616 := by
    rcases hS with ⟨_, h0⟩ | ⟨c, t, _, hc, _, hcm⟩
    · omega
    · have := (h.node_bound (hin2 c hcm)).2.1; omega
  have hPlt : l1.getLastD 0 < 18446744073709551616 := by
    rcases hP with ⟨_, h0⟩ | ⟨_, a, _, ha, _, ham⟩
    · omega
    · have := (h.node_bound (hin1 a ham)).2.1; omega
  have hhd : (b.addr :: l2).headD 0 = b.addr := rfl
  rw [hhd] at hch1
  generalize hPdef : l1.getLastD 0 = P at *
  generalize hSdef : l2.headD 0 = S at *
  -- first write
  obtain ⟨m1, hm1, A1, A2, A3, A4, A5⟩ : ∃ m1,
      m1 = (if P ≠ 0 then put s.mem (P + 8) S else s.mem) ∧ Tags m1 s.lo s.brk bs ∧
      Chain m1 0 l1 S ∧ Chain m1 b.addr l2 0 ∧
      (∀ j, j ≠ get_list_index b.size → Chain m1 0 (fl j) 0) ∧ Keeps bs s.mem m1 := by
    refine ⟨_, rfl, ?_⟩
    rcases hP with ⟨h1, h0⟩ | ⟨l1', a, h1, ha, ha0, ham⟩
    · rw [if_neg (by simp [h0])]
      exact ⟨h.tags, by rw [h1]; trivial, hch2, fun j _ => h.chain j, Keeps.refl _ _⟩
    · rw [if_pos (by rw [ha]; exact ha0), ha]
      obtain ⟨_, ab, hab, hab1, habf, _⟩ := h.node (hin1 a ham)
      have fa := h.blk hab
      have hnd1 : (l1' ++ [a]).Nodup := by rw [← h1]; exact (List.nodup_append.mp hnd).1
      refine ⟨Tags.link_write h.tags hab (by omega) (by omega), ?_, ?_, ?_,
        Keeps.put_free h.lay hab habf (by omega) (by omega)⟩
      · have := Chain.set_succ (v := S) (h1 ▸ hch1) (by
          intro y hy
          have hya : y ≠ a := by
            intro e; subst e
            exact (List.nodup_append.mp hnd1).2.2 hy (List.mem_singleton_self _) 
          have := hsep (hin1 y (by rw [h1]; exact List.mem_append_left _ hy))
            (List.mem_append_left l2 ham) hya
          omega)
        rw [Nat.mod_eq_of_lt hSlt] at this
        rw [h1]; exact this
      · apply Chain.keep hch2
        intro y hy z hz1 hz2
        have hya : y ≠ a := by
          intro e; subst e
          exact (List.nodup_append.mp hnd12).2.2 ham hy
        have := hsep (hin2 y hy) (List.mem_append_left l2 ham) hya
        exact put_outside (by omega)
      · intro j hj
        apply Chain.keep (h.chain j)
        intro y hy z hz1 hz2
        have hya : y ≠ a := fun e => hj (h.node_idx (e ▸ hy) (hin1 a ham))
        have := hsep hy (List.mem_append_left l2 ham) hya
        exact put_outside (by omega)
  rw [← hm1]
  -- second write
  obtain ⟨m2, hm2, B1, B2, B3, B4, B5⟩ : ∃ m2,
      m2 = (if S ≠ 0 then put m1 S P else m1) ∧ Tags m2 s.lo s.brk bs ∧
      Chain m2 0 l1 S ∧ Chain m2 P l2 0 ∧
      (∀ j, j ≠ get_list_index b.size → Chain m2 0 (fl j) 0) ∧ Keeps bs s.mem m2 := by
    refine ⟨_, rfl, ?_⟩
    rcases hS with ⟨h2, h0⟩ | ⟨c, t, h2, hc, hc0, hcm⟩
    · rw [if_neg (by simp [h0])]
      exact ⟨A1, A2, by rw [h2]; trivial, A4, A5⟩
    · subst hc
      rw [if_pos hc0]
      obtain ⟨_, cb, hcb, hcb1, hcbf, _⟩ := h.node (hin2 _ hcm)
      have fc := h.blk hcb
      have hnd2 : (S :: t).Nodup := by
        rw [← h2]; exact (List.nodup_cons.mp (List.nodup_append.mp hnd).2.1).2
      refine ⟨Tags.link_write A1 hcb (by omega) (by omega), ?_, ?_, ?_,
        Keeps.trans A5 (Keeps.put_free A1.1 hcb hcbf (by omega) (by omega))⟩
      · apply Chain.keep A2
        intro y hy z hz1 hz2
        have hyc : y ≠ S := by
          intro e; subst e
          exact (List.nodup_append.mp hnd12).2.2 hy hcm
        have := hsep (hin1 y hy) (List.mem_append_right l1 hcm) hyc
        exact put_outside (by omega)
      · have := Chain.set_pred (v := P) (h2 ▸ A3) (by
          intro y hy
          have hyc : y ≠ S := by
            intro e; subst e
            exact (List.nodup_cons.mp hnd2).1 hy
          have := hsep (hin2 y (by rw [h2]; exact List.mem_cons_of_mem _ hy))
            (List.mem_append_right l1 hcm) hyc
          omega)
        rw [Nat.mod_eq_of_lt hPlt] at this
        rw [h2]; exact this
      · intro j hj
        apply Chain.keep (A4 j hj)
        intro y hy z hz1 hz2
        have hyc : y ≠ S := fun e => hj (h.node_idx (e ▸ hy) (hin2 _ hcm))
        have := hsep hy (List.mem_append_right l1 hcm) hyc
        exact put_outside (by omega)
  rw [← hm2]
  refine ⟨_, rfl, ?_, rfl, rfl, rfl, B5⟩
  refine ⟨h.hl, h.brk_lt, B1.2.1, B1.2.2.1, B1.1, B1.2.2.2, ?_, ?_, ?_, ?_, ?_⟩
  · intro j hj
    by_cases hji : j = get_list_index b.size
    · subst hji
      simp only [Function.update_same]
      rw [headD_append, hSdef]
      rcases hP with ⟨h1, h0⟩ | ⟨l1', a, h1, ha, ha0, ham⟩
      · rw [if_neg (by simp [h0]), h1, Function.update_same]; rfl
      · rw [if_pos (by rw [ha]; exact ha0), h.heads _ hj, hl, headD_append]
        rw [h1]; cases l1' <;> rfl
    · simp only [Function.update_noteq hji]
      rw [← h.heads j hj]
      split_ifs
      · rfl
      · rw [Function.update_noteq hji]
  · intro j
    by_cases hji : j = get_list_index b.size
    · subst hji
      simp only [Function.update_same]
      exact Chain.join.mpr ⟨hSdef ▸ B2, hPdef ▸ B3⟩
    · simp only [Function.update_noteq hji]; exact B4 j hji
  · intro j x hxj
    have hxfl : x ∈ fl j ∧ x ≠ b.addr := by
      by_cases hji : j = get_list_index b.size
      · subst hji
        simp only [Function.update_same] at hxj
        rcases List.mem_append.mp hxj with hx1 | hx2
        · exact ⟨hin1 x hx1, fun e => hn1 (e ▸ hx1)⟩
        · exact ⟨hin2 x hx2, fun e => hn2 (e ▸ hx2)⟩
      · simp only [Function.update_noteq hji] at hxj
        exact ⟨hxj, fun e => hji (h.node_idx (e ▸ hxj) hmem)⟩
    refine ⟨fun hc => ?_, (h.node hxfl.1).2⟩
    rcases (hX' _).mp hc with h1 | h1
    · exact (h.node hxfl.1).1 h1
    · exact hxfl.2 h1
  · intro c hc hcf
    by_cases hcb : c.addr = b.addr
    · left; exact (hX' _).mpr (Or.inr hcb)
    · rcases h.fl_mem c hc hcf with h1 | h1
      · left; exact (hX' _).mpr (Or.inl h1)
      · right
        by_cases hji : get_list_index c.size = get_list_index b.size
        · rw [hji, Function.update_same]
          rw [hji, hl] at h1
          rcases List.mem_append.mp h1 with h1 | h1
          · exact List.mem_append_left _ h1
          · rcases List.mem_cons.mp h1 with h1 | h1
            · exact absurd h1 hcb
            · exact List.mem_append_right _ h1
        · rw [Function.update_noteq hji]; exact h1
  · intro j
    by_cases hji : j = get_list_index b.size
    · subst hji; simp only [Function.update_same]; exact hnd12
    · simp only [Function.update_noteq hji]; exact h.nodup j

/-! ## Rewriting the tags of a stretch of the heap -/

/-- A change of memory and block list that keeps every listed block, with its
links, and leaves every new free block unlisted, keeps the invariant. -/
theorem Inv.change {s : State} {bs L : List Blk} {fl : Nat → List Nat} {X Y : Set Nat}
    {g : Mem} {K : Nat} (h : Inv s bs fl X) (ht : Tags g s.lo K L)
    (hbrk : K < 18446744073709551616)
    (h1 : ∀ b ∈ bs, b.alloc = 0 → b.addr ∉ X →
      b ∈ L ∧ b.addr ∉ Y ∧ ∀ z, b.addr ≤ z → z < b.addr + 16 → g z = s.mem z)
    (h2 : ∀ b ∈ L, b.alloc = 0 → b.addr ∈ Y ∨ (b ∈ bs ∧ b.addr ∉ X)) :
    Inv { s with mem := g, brk := K } L fl Y := by
  refine ⟨h.hl, hbrk, ht.2.1, ht.2.2.1, ht.1, ht.2.2.2, h.heads, ?_, ?_, ?_, h.nodup⟩
  · intro i
    apply Chain.keep (h.chain i)
    intro x hx z hz1 hz2
    obtain ⟨hxX, b, hb, rfl, hbf, _⟩ := h.node hx
    exact (h1 b hb hbf hxX).2.2 z hz1 hz2
  · intro i x hx
    obtain ⟨hxX, b, hb, rfl, hbf, hbi⟩ := h.node hx
    have := h1 b hb hbf hxX
    exact ⟨this.2.1, b, this.1, rfl, hbf, hbi⟩
  · intro b hb hbf
    rcases h2 b hb hbf with h3 | ⟨h3, h4⟩
    · exact Or.inl h3
    · rcases h.fl_mem b h3 hbf with h5 | h5
      · exact absurd h5 h4
      · exact Or.inr h5

/-- Replacing the blocks `C` between `q` and `r` by `D`, with memory
changed only between these two points. -/
theorem Inv.rewrite {s : State} {bs : List Blk} {fl : Nat → List Nat} {X Y : Set Nat}
    {xs C D ys : List Blk} {q r : Nat} {g : Mem} (h : Inv s bs fl X)
    (hbs : bs = xs ++ (C ++ ys))
    (hq : Layout s.mem (s.lo + 32) xs q) (hr : Layout s.mem r ys s.brk)
    (hm : ∀ x, x + 8 < q ∨ r ≤ x + 8 → g x = s.mem x)
    (hmid' : Layout g q D r)
    (hX : ∀ b ∈ C, b.alloc = 0 → b.addr ∈ X)
    (hX' : ∀ b ∈ D, b.alloc = 0 → b.addr ∈ Y)
    (hXX : ∀ a, a < q ∨ r ≤ a → (a ∈ Y ↔ a ∈ X)) :
    Inv { s with mem := g } (xs ++ (D ++ ys)) fl Y ∧
      Keeps (xs ++ ys) s.mem g := by
  have hle1 := Layout.le hq
  have hle2 := Layout.le hmid'
  have hle3 := Layout.le hr
  have hxs : ∀ b ∈ xs, s.lo + 32 ≤ b.addr ∧ b.addr + b.size ≤ q ∧ 32 ≤ b.size := fun b hb => by
    have := Layout.mem hq hb; omega
  have hys : ∀ b ∈ ys, r ≤ b.addr ∧ b.addr + b.size ≤ s.brk ∧ 32 ≤ b.size := fun b hb => by
    have := Layout.mem hr hb; omega
  have key := Inv.change (Y := Y) (g := g) (K := s.brk) (L := xs ++ (D ++ ys)) h
    (by
      refine ⟨?_, ?_, ?_, ?_⟩
      · refine Layout.append.mpr ⟨q, Layout.frame hq (by omega)
          (fun x hx1 hx2 => hm x (by omega)), Layout.append.mpr ⟨r, hmid', ?_⟩⟩
        exact Layout.frame hr (by omega) (fun x hx1 hx2 => hm x (by omega))
      · rw [← h.pro_h]; exact get_congr (fun x hx1 hx2 => hm x (by omega))
      · rw [← h.pro_f]; exact get_congr (fun x hx1 hx2 => hm x (by omega))
      · rw [← h.epi]; exact get_congr (fun x hx1 hx2 => hm x (by omega)))
    h.brk_lt
    (by
      intro b hb hbf hbX
      rw [hbs] at hb
      rcases List.mem_append.mp hb with hb | hb
      · have := hxs b hb
        exact ⟨List.mem_append_left _ hb, fun e => hbX ((hXX _ (by omega)).mp e),
          fun z hz1 hz2 => hm z (by omega)⟩
      · rcases List.mem_append.mp hb with hb | hb
        · exact absurd (hX b hb hbf) hbX
        · have := hys b hb
          exact ⟨List.mem_append_right _ (List.mem_append_right _ hb),
            fun e => hbX ((hXX _ (by omega)).mp e), fun z hz1 hz2 => hm z (by omega)⟩)
    (by
      intro b hb hbf
      rcases List.mem_append.mp hb with hb | hb
      · have := hxs b hb
        rcases h.fl_mem b (by rw [hbs]; exact List.mem_append_left _ hb) hbf with h5 | h5
        · exact Or.inl ((hXX _ (by omega)).mpr h5)
        · exact Or.inr ⟨by rw [hbs]; exact List.mem_append_left _ hb, (h.node h5).1⟩
      · rcases List.mem_append.mp hb with hb | hb
        · exact Or.inl (hX' b hb hbf)
        · have := hys b hb
          have hb' : b ∈ bs := by
            rw [hbs]; exact List.mem_append_right _ (List.mem_append_right _ hb)
          rcases h.fl_mem b hb' hbf with h5 | h5
          · exact Or.inl ((hXX _ (by omega)).mpr h5)
          · exact Or.inr ⟨hb', (h.node h5).1⟩)
  refine ⟨key, ?_⟩
  intro b hb hba x hx1 hx2
  rcases List.mem_append.mp hb with hb | hb
  · have := hxs b hb; exact hm x (by omega)
  · have := hys b hb; exact hm x (by omega)

/-! ## Writing the two tags of a block -/

theorem setTags_eq {m : Mem} {p u a : Nat} (hp : 8 ≤ p) (hp2 : p + u < 18446744073709551616)
    (hs : u % 16 = 0) (ha : a ≤ 1) (h16 : 16 ≤ u) :
    put (put m (hdrp p) (pack u a)) (ftrp (put m (hdrp p) (pack u a)) p) (pack u a) =
      setTags m p u a := by
  have e : get (put m (hdrp p) (pack u a)) (p - 8) = u + a := by
    rw [hdrp_eq hp (by omega), get_put_same, pack_eq (by omega) ha, Nat.mod_eq_of_lt (by omega)]
  rw [tag_ftrp hp hp2 e hs ha h16, hdrp_eq hp (by omega), pack_eq (by omega) ha]
  rfl

theorem setTags_outside {m : Mem} {p u a x : Nat} (hp : 8 ≤ p) (h16 : 16 ≤ u)
    (h : x + 8 < p ∨ (p ≤ x ∧ x + 16 < p + u) ∨ p + u ≤ x + 8) :
    setTags m p u a x = m x := by
  unfold setTags
  rw [put_outside (by omega), put_outside (by omega)]

theorem get_setTags_other {m : Mem} {p u a y : Nat} (hp : 8 ≤ p) (h16 : 16 ≤ u)
    (h : y + 16 ≤ p ∨ (p ≤ y ∧ y + 24 ≤ p + u) ∨ p + u ≤ y + 8) :
    get (setTags m p u a) y = get m y :=
  get_congr (fun x hx1 hx2 => setTags_outside hp h16 (by omega))

theorem get_setTags_hdr {m : Mem} {p u a : Nat} (hp : 8 ≤ p) (h16 : 16 ≤ u)
    (h : u + a < 18446744073709551616) : get (setTags m p u a) (p - 8) = u + a := by
  unfold setTags
  rw [get_put_other (by omega), get_put_same, Nat.mod_eq_of_lt h]

theorem get_setTags_ftr {m : Mem} {p u a : Nat}
    (h : u + a < 18446744073709551616) : get (setTags m p u a) (p + u - 16) = u + a := by
  unfold setTags
  rw [get_put_same, Nat.mod_eq_of_lt h]

theorem Layout_setTags {m : Mem} {p u a : Nat} (hp : 8 ≤ p) (h32 : 32 ≤ u) (hs : u % 16 = 0)
    (ha : a ≤ 1) (h : u < 18446744073709551615) :
    Layout (setTags m p u a) p [⟨p, u, a⟩] (p + u) :=
  Layout.single.mpr ⟨rfl, h32, hs, ha, get_setTags_hdr hp (by omega) (by omega),
    get_setTags_ftr (by omega), rfl⟩

/-- A block followed by the blocks of a layout. -/
theorem Layout.cons_setTags {m : Mem} {p u a e : Nat} {bs : List Blk} (hp : 8 ≤ p)
    (h32 : 32 ≤ u) (hs : u % 16 = 0) (ha : a ≤ 1) (h : u < 18446744073709551615)
    (hl : Layout m (p + u) bs e) :
    Layout (setTags m p u a) p (⟨p, u, a⟩ :: bs) e := by
  have hle := Layout.le hl
  refine ⟨rfl, h32, hs, ha, get_setTags_hdr hp (by omega) (by omega),
    get_setTags_ftr (by omega), ?_⟩
  show Layout (setTags m p u a) (p + u) bs e
  exact Layout.frame hl (by omega) (fun x hx1 hx2 => (setTags_outside hp (by omega) (by omega)))

/-! ## `place` -/

theorem place_spec {s : State} {bs : List Blk} {fl : Nat → List Nat} {b : Blk} {asize : Nat}
    (h : Inv s bs fl ∅) (hb : b ∈ bs) (hf : b.alloc = 0) (ha1 : 32 ≤ asize)
    (ha2 : asize % 16 = 0) (ha3 : asize ≤ b.size) :
    ∃ s' bs' fl' u, place s b.addr asize = some s' ∧ Inv s' bs' fl' ∅ ∧
      s'.lo = s.lo ∧ s'.brk = s.brk ∧ s'.heap_listp = s.heap_listp ∧ Keeps bs s.mem s'.mem ∧
      (u = asize ∨ (u = b.size ∧ b.size < asize + 32)) ∧ asize ≤ u ∧ u ≤ b.size ∧
      (∀ c, c ∈ bs' ↔ (c ∈ bs ∧ c ≠ b) ∨ c = ⟨b.addr, u, 1⟩ ∨
        (u + 32 ≤ b.size ∧ c = ⟨b.addr + u, b.size - u, 0⟩)) := by
  have fb := h.blk hb
  have hbrk := h.brk_lt
  have hsz : get_size s.mem (hdrp b.addr) = b.size :=
    tag_size (by omega) (by omega) fb.2.2.2.2.2.1 fb.2.2.2.1 fb.2.2.2.2.1
  obtain ⟨s1, hrem, h1, hlo, hbk, hhl, hk1⟩ := remove_spec (Y := {b.addr}) h hb hf
    (by simp) (by simp)
  have fb1 := h1.blk hb
  obtain ⟨xs, ys, hbs, hq, hr⟩ := Layout.split h1.lay hb
  have hne : ∀ c, c ∈ xs ++ ys ↔ c ∈ bs ∧ c ≠ b := by
    intro c
    rw [hbs]
    simp only [List.mem_append, List.mem_cons]
    constructor
    · rintro (hc | hc)
      · refine ⟨Or.inl hc, fun e => ?_⟩
        subst e
        have := Layout.mem hq hc; omega
      · refine ⟨Or.inr (Or.inr hc), fun e => ?_⟩
        subst e
        have := Layout.mem hr hc; omega
    · rintro ⟨hc | hc | hc, hcb⟩
      · exact Or.inl hc
      · exact absurd hc hcb
      · exact Or.inr hc
  have hkx : ∀ m', Keeps (xs ++ ys) s1.mem m' → Keeps bs s1.mem m' := by
    intro m' hk c hc hca x hx1 hx2
    by_cases hcb : c = b
    · subst hcb; exfalso; omega
    · exact hk c ((hne c).mpr ⟨hc, hcb⟩) hca x hx1 hx2
  unfold place
  simp only [hsz, hrem]
  rw [subw_eq ha3 (by omega)]
  by_cases hsp : 4 * WSIZE ≤ b.size - asize
  · -- split
    have hsp' : 32 ≤ b.size - asize := hsp
    rw [if_pos hsp]
    have E1 := setTags_eq (m := s1.mem) (p := b.addr) (u := asize) (a := 1) (by omega)
      (by omega) ha2 (by omega) (by omega)
    rw [E1]
    have E2 : next_blkp (setTags s1.mem b.addr asize 1) b.addr = b.addr + asize :=
      tag_next (by omega) (by omega) (get_setTags_hdr (by omega) (by omega) (by omega)) ha2
        (by omega)
    rw [E2]
    have E3 := setTags_eq (m := setTags s1.mem b.addr asize 1) (p := b.addr + asize)
      (u := b.size - asize) (a := 0) (by omega) (by omega) (by omega) (by omega) (by omega)
    rw [E3]
    have hlay : Layout (setTags (setTags s1.mem b.addr asize 1) (b.addr + asize)
        (b.size - asize) 0) b.addr
        [⟨b.addr, asize, 1⟩, ⟨b.addr + asize, b.size - asize, 0⟩] (b.addr + b.size) := by
      have l1 := Layout_setTags (m := s1.mem) (p := b.addr) (u := asize) (a := 1) (by omega)
        ha1 ha2 (by omega) (by omega)
      have l2 := Layout_setTags (m := setTags s1.mem b.addr asize 1) (p := b.addr + asize)
        (u := b.size - asize) (a := 0) (by omega) (by omega) (by omega) (by omega) (by omega)
      have e : b.addr + asize + (b.size - asize) = b.addr + b.size := by omega
      rw [e] at l2
      exact (@Layout.append _ [_] [_] _ _).mpr ⟨_,
        Layout.frame l1 (by omega) (fun x hx1 hx2 => setTags_outside (by omega) (by omega)
          (by omega)), l2⟩
    obtain ⟨h2, hk2⟩ := Inv.rewrite (Y := {b.addr + asize}) (C := [b])
      (D := [⟨b.addr, asize, 1⟩, ⟨b.addr + asize, b.size - asize, 0⟩]) h1 hbs hq hr
      (by
        intro x hx
        rw [setTags_outside (by omega) (by omega) (by omega),
          setTags_outside (by omega) (by omega) (by omega)])
      hlay (by simp) (by simp) (by
        intro a ha
        simp only [Set.mem_singleton_iff]
        omega)
    have hb2 : (⟨b.addr + asize, b.size - asize, 0⟩ : Blk) ∈
        xs ++ ([⟨b.addr, asize, 1⟩, ⟨b.addr + asize, b.size - asize, 0⟩] ++ ys) := by simp
    have hadd := add_spec (Y := ∅) h2 hb2 rfl (by simp) (by simp)
    dsimp only at hadd
    obtain ⟨h3, hlo3, hbk3, hhl3, hk3⟩ := hadd
    refine ⟨_, _, _, asize, rfl, h3, ?_, ?_, ?_, ?_, Or.inl rfl, le_refl _, ha3, ?_⟩
    · rw [hlo3]; exact hlo
    · rw [hbk3]; exact hbk
    · rw [hhl3]; exact hhl
    · refine Keeps.trans hk1 (Keeps.trans (hkx _ hk2) ?_)
      intro c hc hca x hx1 hx2
      by_cases hcb : c = b
      · subst hcb; exfalso; omega
      · refine hk3 c ?_ hca x hx1 hx2
        rcases List.mem_append.mp ((hne c).mpr ⟨hc, hcb⟩) with hc' | hc'
        · exact List.mem_append_left _ hc'
        · exact List.mem_append_right _ (List.mem_append_right _ hc')
    · intro c
      rw [← hne c]
      simp only [List.mem_append, List.mem_cons, List.mem_singleton, List.not_mem_nil, or_false]
      constructor
      · rintro (hc | (hc | hc) | hc)
        · exact Or.inl (Or.inl hc)
        · exact Or.inr (Or.inl hc)
        · exact Or.inr (Or.inr ⟨by omega, hc⟩)
        · exact Or.inl (Or.inr hc)
      · rintro ((hc | hc) | hc | ⟨_, hc⟩)
        · exact Or.inl hc
        · exact Or.inr (Or.inr hc)
        · exact Or.inr (Or.inl (Or.inl hc))
        · exact Or.inr (Or.inl (Or.inr hc))
  · -- no split
    have hsp' : b.size - asize < 32 := by
      have : ¬ (32 ≤ b.size - asize) := hsp
      omega
    rw [if_neg hsp]
    have E1 := setTags_eq (m := s1.mem) (p := b.addr) (u := b.size) (a := 1) (by omega)
      (by omega) (by omega) (by omega) (by omega)
    rw [E1]
    have hlay := Layout_setTags (m := s1.mem) (p := b.addr) (u := b.size) (a := 1) (by omega)
      (by omega) (by omega) (by omega) (by omega)
    obtain ⟨h2, hk2⟩ := Inv.rewrite (Y := ∅) (C := [b])
      (D := [⟨b.addr, b.size, 1⟩]) h1 hbs hq hr
      (by
        intro x hx
        rw [setTags_outside (by omega) (by omega) (by omega)])
      hlay (by simp) (by simp) (by
        intro a ha
        simp only [Set.mem_singleton_iff, Set.mem_empty_iff_false, false_iff]
        omega)
    refine ⟨_, _, _, b.size, rfl, h2, hlo, hbk, hhl, Keeps.trans hk1 (hkx _ hk2),
      Or.inr ⟨rfl, by omega⟩, ha3, le_refl _, ?_⟩
    intro c
    rw [← hne c]
    simp only [List.mem_append, List.mem_cons, List.mem_singleton, List.not_mem_nil, or_false]
    constructor
    · rintro (hc | hc | hc)
      · exact Or.inl (Or.inl hc)
      · exact Or.inr (Or.inl hc)
      · exact Or.inl (Or.inr hc)
    · rintro ((hc | hc) | hc | ⟨hc, _⟩)
      · exact Or.inl hc
      · exact Or.inr (Or.inr hc)
      · exact Or.inr (Or.inl hc)
      · omega

/-! ## `find_fit` -/

/-- Over a chain the inner loop of `find_fit` is a fold over the nodes. -/
theorem fit_scan_chain {m : Mem} {G : Nat} : ∀ {l : List Nat} {prev fuel : Nat}
    {H : Nat × Nat}, Chain m prev l 0 →
    (∀ x ∈ l, x ≠ 0 ∧ x + 8 < 18446744073709551616) → l.length < fuel →
    fit_scan m G fuel (l.headD 0) H = some (l.foldl (fit_step m G) H)
  | [], prev, fuel, H, _, _, hf => by
    obtain ⟨f, rfl⟩ : ∃ f, fuel = f + 1 := ⟨fuel - 1, by simp at hf; omega⟩
    simp [fit_scan]
  | x :: l, prev, fuel, H, h, hx, hf => by
    obtain ⟨f, rfl⟩ : ∃ f, fuel = f + 1 := ⟨fuel - 1, by simp at hf; omega⟩
    obtain ⟨h1, h2, h3⟩ := h
    have hx0 := hx x (List.mem_cons_self _ _)
    have hsucc : get_succ m x = l.headD 0 := by
      unfold get_succ succ_ptr WSIZE; rw [addw_eq (by omega)]; exact h2
    simp only [fit_scan, List.headD_cons, if_neg hx0.1, hsucc, List.foldl_cons]
    exact fit_scan_chain h3 (fun z hz => hx z (List.mem_cons_of_mem _ hz))
      (by simp at hf; omega)

theorem fit_fold_good {s : State} {bs : List Blk} {fl : Nat → List Nat} {X : Set Nat}
    {G : Nat} (h : Inv s bs fl X) : ∀ (l : List Nat) (best : Nat × Nat),
    (∀ x ∈ l, ∃ b ∈ bs, b.addr = x ∧ b.alloc = 0) → GoodBest bs G best →
    GoodBest bs G (l.foldl (fit_step s.mem G) best)
  | [], best, _, hg => hg
  | x :: l, best, hl, hg => by
    rw [List.foldl_cons]
    apply fit_fold_good h l _ (fun z hz => hl z (List.mem_cons_of_mem _ hz))
    obtain ⟨b, hb, hbx, hbf⟩ := hl x (List.mem_cons_self _ _)
    have fb := h.blk hb
    have hbrk := h.brk_lt
    have hsz : get_size s.mem (hdrp x) = b.size := by
      rw [← hbx]
      exact tag_size (by omega) (by omega) fb.2.2.2.2.2.1 fb.2.2.2.1 fb.2.2.2.2.1
    unfold fit_step
    rw [hsz]
    split_ifs with hc
    · exact Or.inr ⟨b, hb, hbx, hbf, rfl, hc.1⟩
    · exact hg

theorem fit_lists_spec {s : State} {bs : List Blk} {fl : Nat → List Nat} {X : Set Nat}
    {asize : Nat} (h : Inv s bs fl X) : ∀ (k i : Nat) (best : Nat × Nat), i + k = 11 →
    GoodBest bs asize best →
    ∃ r, fit_lists s asize k i best = some r ∧
      (r = 0 ∨ ∃ b ∈ bs, b.addr = r ∧ b.alloc = 0 ∧ asize ≤ b.size)
  | 0, i, best, _, hg => by
    refine ⟨best.1, rfl, ?_⟩
    rcases hg with hg | ⟨b, hb, h1, h2, _, h4⟩
    · exact Or.inl hg
    · exact Or.inr ⟨b, hb, h1, h2, h4⟩
  | k + 1, i, best, hik, hg => by
    have hscan := fit_scan_chain (G := asize) (H := best) (h.chain i)
      (fun x hx => ⟨(h.node_bound hx).1, (h.node_bound hx).2.1⟩) (h.length_lt i)
    have hgood := fit_fold_good (G := asize) h (fl i) best (fun x hx => by
      obtain ⟨_, b, hb, hbx, hbf, _⟩ := h.node hx
      exact ⟨b, hb, hbx, hbf⟩) hg
    unfold fit_lists
    rw [h.heads i (by omega), hscan]
    simp only []
    split_ifs with hc
    · refine ⟨_, rfl, ?_⟩
      rcases hgood with hg | ⟨b, hb, h1, h2, _, h4⟩
      · exact Or.inl hg
      · exact Or.inr ⟨b, hb, h1, h2, h4⟩
    · exact fit_lists_spec h k (i + 1) _ (by omega) hgood

theorem find_fit_spec {s : State} {bs : List Blk} {fl : Nat → List Nat} {X : Set Nat}
    (h : Inv s bs fl X) (asize : Nat) :
    ∃ r, find_fit s asize = some r ∧
      (r = 0 ∨ ∃ b ∈ bs, b.addr = r ∧ b.alloc = 0 ∧ asize ≤ b.size) := by
  unfold find_fit
  exact fit_lists_spec h _ _ _ (by have := get_list_index_lt asize; omega) (Or.inl rfl)

/-! ## Merging free blocks -/

theorem put_comm {m : Mem} {a b v w : Nat} (h : a + 8 ≤ b ∨ b + 8 ≤ a) :
    put (put m a v) b w = put (put m b w) a v := by
  funext x
  unfold put
  by_cases h1 : a ≤ x ∧ x < a + 8 <;> by_cases h2 : b ≤ x ∧ x < b + 8
  · omega
  · rw [if_neg h2, if_pos h1, if_pos h1]
  · rw [if_pos h2, if_neg h1, if_pos h2]
  · rw [if_neg h2, if_neg h1, if_neg h1, if_neg h2]

theorem Layout.ne_nil_lt {m : Mem} {bs : List Blk} {p e : Nat} (h : Layout m p bs e)
    (hne : bs ≠ []) : p + 32 ≤ e := by
  cases bs with
  | nil => exact absurd rfl hne
  | cons b t =>
    obtain ⟨_, h2, _, _, _, _, h7⟩ := h
    have := Layout.le h7
    omega

/-- The free, unlisted blocks `C` become one free block, which is listed. -/
theorem merge_spec {s : State} {bs : List Blk} {fl : Nat → List Nat} {X : Set Nat}
    {xs C ys : List Blk} {q r u : Nat} (h : Inv s bs fl X) (hsz : q + u = r) (hbs : bs = xs ++ (C ++ ys))
    (hq : Layout s.mem (s.lo + 32) xs q) (hmid : Layout s.mem q C r)
    (hr : Layout s.mem r ys s.brk) (hmne : C ≠ [])
    (hfree : ∀ x ∈ C, x.alloc = 0 ∧ x.addr ∈ X) (hX : ∀ a ∈ X, q ≤ a ∧ a < r) :
    ∃ fl', Inv (add_to_free_list { s with mem := setTags s.mem q u 0 } q)
        (xs ++ ([⟨q, u, 0⟩] ++ ys)) fl' ∅ ∧
      (add_to_free_list { s with mem := setTags s.mem q u 0 } q).lo = s.lo ∧
      (add_to_free_list { s with mem := setTags s.mem q u 0 } q).brk = s.brk ∧
      (add_to_free_list { s with mem := setTags s.mem q u 0 } q).heap_listp =
        s.heap_listp ∧
      Keeps bs s.mem (add_to_free_list { s with mem := setTags s.mem q u 0 } q).mem := by
  have hle1 := Layout.le hq
  have hle2 := Layout.ne_nil_lt hmid hmne
  have hle3 := Layout.le hr
  have hbrk := h.brk_lt
  have hmod := (Layout.mod hmid).1
  have hlay : Layout (setTags s.mem q u 0) q [⟨q, u, 0⟩] r := by
    have := Layout_setTags (m := s.mem) (p := q) (u := u) (a := 0) (by omega) (by omega)
      (by omega) (by omega) (by omega)
    rw [hsz] at this
    exact this
  obtain ⟨h2, hk2⟩ := Inv.rewrite (Y := {q}) (C := C) (D := [⟨q, u, 0⟩]) h hbs hq hr
    (by
      intro x hx
      rw [setTags_outside (by omega) (by omega) (by omega)])
    hlay (fun x hx hxf => (hfree x hx).2) (by simp) (by
      intro a ha
      simp only [Set.mem_singleton_iff]
      constructor
      · intro e; omega
      · intro e; have := hX a e; omega)
  have hb2 : (⟨q, u, 0⟩ : Blk) ∈ xs ++ ([⟨q, u, 0⟩] ++ ys) := by simp
  have hadd := add_spec (Y := ∅) h2 hb2 rfl (by simp) (by simp)
  dsimp only at hadd
  obtain ⟨h3, hlo3, hbk3, hhl3, hk3⟩ := hadd
  refine ⟨_, h3, hlo3, hbk3, hhl3, ?_⟩
  intro c hc hca x hx1 hx2
  rw [hbs] at hc
  have hc' : c ∈ xs ++ ys := by
    rcases List.mem_append.mp hc with hc | hc
    · exact List.mem_append_left _ hc
    · rcases List.mem_append.mp hc with hc | hc
      · have := (hfree c hc).1; omega
      · exact List.mem_append_right _ hc
  refine (hk3 c ?_ hca x hx1 hx2).trans (hk2 c hc' hca x hx1 hx2)
  rcases List.mem_append.mp hc' with hc | hc
  · exact List.mem_append_left _ hc
  · exact List.mem_append_right _ (List.mem_append_right _ hc)

/-- What `coalesce` reads about the two neighbours of a block. -/
theorem neighbours {s : State} {bs : List Blk} {fl : Nat → List Nat} {X : Set Nat} {b : Blk}
    (h : Inv s bs fl X) (hb : b ∈ bs) :
    ∃ xs ys, bs = xs ++ b :: ys ∧ Layout s.mem (s.lo + 32) xs b.addr ∧
      Layout s.mem (b.addr + b.size) ys s.brk ∧
      prev_blkp s.mem b.addr ≠ b.addr ∧
      ((get_alloc s.mem (ftrp s.mem (prev_blkp s.mem b.addr)) = 1 ∧
          ∀ xs' c, xs = xs' ++ [c] → c.alloc = 1) ∨
        (get_alloc s.mem (ftrp s.mem (prev_blkp s.mem b.addr)) = 0 ∧
          ∃ xs' c, xs = xs' ++ [c] ∧ c.alloc = 0 ∧ prev_blkp s.mem b.addr = c.addr ∧
            c.addr + c.size = b.addr ∧ Layout s.mem (s.lo + 32) xs' c.addr)) ∧
      next_blkp s.mem b.addr = b.addr + b.size ∧
      ((get_alloc s.mem (hdrp (b.addr + b.size)) = 1 ∧ ∀ d ys', ys = d :: ys' → d.alloc = 1) ∨
        (get_alloc s.mem (hdrp (b.addr + b.size)) = 0 ∧
          ∃ d ys', ys = d :: ys' ∧ d.alloc = 0 ∧ d.addr = b.addr + b.size ∧
            Layout s.mem (d.addr + d.size) ys' s.brk)) := by
  have fb := h.blk hb
  have hbrk := h.brk_lt
  obtain ⟨xs, ys, hbs, hq, hr⟩ := Layout.split h.lay hb
  refine ⟨xs, ys, hbs, hq, hr, ?_⟩
  have hnext : next_blkp s.mem b.addr = b.addr + b.size :=
    tag_next (by omega) (by omega) fb.2.2.2.2.2.1 fb.2.2.2.1 fb.2.2.2.2.1
  -- the predecessor
  have hprev : prev_blkp s.mem b.addr ≠ b.addr ∧
      ((get_alloc s.mem (ftrp s.mem (prev_blkp s.mem b.addr)) = 1 ∧
          ∀ xs' c, xs = xs' ++ [c] → c.alloc = 1) ∨
        (get_alloc s.mem (ftrp s.mem (prev_blkp s.mem b.addr)) = 0 ∧
          ∃ xs' c, xs = xs' ++ [c] ∧ c.alloc = 0 ∧ prev_blkp s.mem b.addr = c.addr ∧
            c.addr + c.size = b.addr ∧ Layout s.mem (s.lo + 32) xs' c.addr)) := by
    rcases List.eq_nil_or_concat xs with hx | ⟨xs', c, hx⟩
    · subst hx
      have e : s.lo + 32 = b.addr := hq
      have e16 : subw b.addr (2 * WSIZE) = s.lo + 16 := by
        unfold WSIZE; rw [subw_eq (by omega) (by omega)]; omega
      have hp : prev_blkp s.mem b.addr = s.lo + 16 := by
        unfold prev_blkp
        rw [e16, get_size_eq (u := 16) (a := 1) h.pro_f (by omega) (by omega),
          subw_eq (by omega) (by omega)]
        omega
      have hf : ftrp s.mem (s.lo + 16) = s.lo + 16 := by
        have := tag_ftrp (m := s.mem) (p := s.lo + 16) (u := 16) (a := 1) (by omega) (by omega)
          (by
            have : s.lo + 16 - 8 = s.lo + 8 := by omega
            rw [this]; exact h.pro_h) (by omega) (by omega) (by omega)
        rw [this]; omega
      rw [hp, hf]
      refine ⟨by omega, Or.inl ⟨get_alloc_eq (u := 16) (a := 1) h.pro_f (by omega) (by omega),
        ?_⟩⟩
      intro xs' c hc
      exact absurd hc (by simp)
    · rw [List.concat_eq_append] at hx
      subst hx
      obtain ⟨qc, hq1, hq2⟩ := Layout.append.mp hq
      obtain ⟨hc1, hc2, hc3, hc4, hc5, hc6, hc7⟩ := hq2
      have hc8 : qc + c.size = b.addr := hc7
      have hle := Layout.le hq1
      subst hc1
      have e16 : subw b.addr (2 * WSIZE) = c.addr + c.size - 16 := by
        unfold WSIZE; rw [subw_eq (by omega) (by omega)]; omega
      have hp : prev_blkp s.mem b.addr = c.addr := by
        unfold prev_blkp
        rw [e16, get_size_eq hc6 (by omega) hc4, subw_eq (by omega) (by omega)]
        omega
      have hf : ftrp s.mem c.addr = c.addr + c.size - 16 :=
        tag_ftrp (by omega) (by omega) hc5 hc3 hc4 (by omega)
      rw [hp, hf, get_alloc_eq hc6 (by omega) hc4]
      refine ⟨by omega, ?_⟩
      have hca : c.alloc = 0 ∨ c.alloc = 1 := by omega
      rcases hca with hca | hca
      · exact Or.inr ⟨hca, xs', c, rfl, hca, rfl, hc8, hq1⟩
      · refine Or.inl ⟨hca, ?_⟩
        intro xs'' c' hc'
        have := List.append_inj_right' hc' rfl
        simp only [List.cons.injEq, and_true] at this
        rw [← this]; exact hca
  refine ⟨hprev.1, hprev.2, hnext, ?_⟩
  cases ys with
  | nil =>
    have e : b.addr + b.size = s.brk := hr
    rw [e, hdrp_eq (by omega) hbrk]
    exact Or.inl ⟨get_alloc_eq (u := 0) (a := 1) (by rw [h.epi]) (by omega) (by omega),
      fun d ys' hd => by simp at hd⟩
  | cons d ys' =>
    obtain ⟨hd1, hd2, hd3, hd4, hd5, hd6, hd7⟩ := hr
    have hle := Layout.le hd7
    rw [hdrp_eq (by omega) (by omega), get_alloc_eq hd5 (by omega) hd4]
    have hda : d.alloc = 0 ∨ d.alloc = 1 := by omega
    rcases hda with hda | hda
    · exact Or.inr ⟨hda, d, ys', rfl, hda, hd1, by rw [hd1]; exact hd7⟩
    · refine Or.inl ⟨hda, ?_⟩
      intro d' ys'' hd'
      simp only [List.cons.injEq] at hd'
      rw [← hd'.1]; exact hda

/-! ## `coalesce` -/

/-- The block list after a merge of the blocks `C` into one block. -/
theorem coalesce_post {m : Mem} {p e : Nat} {bs xs C ys : List Blk} {b : Blk} {q r u : Nat} (hsz : q + u = r)
    (hbs : bs = xs ++ (C ++ ys)) (hq : Layout m p xs q)
    (hmid : Layout m q C r) (hr : Layout m r ys e) (hb : b ∈ C)
    (hfree : ∀ x ∈ C, x.alloc = 0)
    (hL : (∀ x ∈ bs, ∀ y ∈ bs, x.addr + x.size = y.addr → x.alloc = 0 → y.alloc = 0 →
        x.addr = b.addr ∨ y.addr = b.addr) → ∀ x ∈ xs, x.addr + x.size = q → x.alloc = 1)
    (hR : (∀ x ∈ bs, ∀ y ∈ bs, x.addr + x.size = y.addr → x.alloc = 0 → y.alloc = 0 →
        x.addr = b.addr ∨ y.addr = b.addr) → ∀ y ∈ ys, y.addr = r → y.alloc = 1) :
    (⟨q, u, 0⟩ : Blk) ∈ xs ++ ([⟨q, u, 0⟩] ++ ys) ∧ q ≤ b.addr ∧
      b.addr + b.size ≤ q + u ∧
      (∀ x, x ∈ xs ++ ([⟨q, u, 0⟩] ++ ys) ↔ x = ⟨q, u, 0⟩ ∨
        (x ∈ bs ∧ (x.addr + x.size ≤ q ∨ q + u ≤ x.addr))) ∧
      (∀ x ∈ bs, x.alloc = 1 → x ∈ xs ++ ([⟨q, u, 0⟩] ++ ys)) ∧
      ((∀ x ∈ bs, ∀ y ∈ bs, x.addr + x.size = y.addr → x.alloc = 0 → y.alloc = 0 →
        x.addr = b.addr ∨ y.addr = b.addr) → NoAdj (xs ++ ([⟨q, u, 0⟩] ++ ys))) := by
  have hle2 := Layout.le hmid
  have fbm := Layout.mem hmid hb
  have hxs : ∀ x ∈ xs, x.addr + x.size ≤ q ∧ 32 ≤ x.size := fun x hx => by
    have := Layout.mem hq hx; omega
  have hys : ∀ x ∈ ys, r ≤ x.addr ∧ 32 ≤ x.size := fun x hx => by
    have := Layout.mem hr hx; omega
  have hmd : ∀ x ∈ C, q ≤ x.addr ∧ x.addr + x.size ≤ r ∧ 32 ≤ x.size := fun x hx => by
    have := Layout.mem hmid hx; omega
  have hmemx : ∀ x, x ∈ xs → x ∈ bs := fun x hx => by rw [hbs]; exact List.mem_append_left _ hx
  have hmemy : ∀ x, x ∈ ys → x ∈ bs := fun x hx => by
    rw [hbs]; exact List.mem_append_right _ (List.mem_append_right _ hx)
  have hmemm : ∀ x, x ∈ C → x ∈ bs := fun x hx => by
    rw [hbs]; exact List.mem_append_right _ (List.mem_append_left _ hx)
  have hmem : ∀ x, x ∈ xs ++ ([⟨q, u, 0⟩] ++ ys) ↔ x = ⟨q, u, 0⟩ ∨ x ∈ xs ∨ x ∈ ys := by
    intro x
    simp only [List.mem_append, List.mem_singleton]
    exact or_left_comm
  refine ⟨(hmem _).mpr (Or.inl rfl), by omega, by omega, ?_, ?_, ?_⟩
  · intro x
    rw [hmem]
    constructor
    · rintro (hx | hx | hx)
      · exact Or.inl hx
      · exact Or.inr ⟨hmemx x hx, Or.inl (hxs x hx).1⟩
      · exact Or.inr ⟨hmemy x hx, Or.inr (by have := hys x hx; omega)⟩
    · rintro (hx | ⟨hx, hd⟩)
      · exact Or.inl hx
      · rw [hbs] at hx
        rcases List.mem_append.mp hx with hx | hx
        · exact Or.inr (Or.inl hx)
        · rcases List.mem_append.mp hx with hx | hx
          · have := hmd x hx; omega
          · exact Or.inr (Or.inr hx)
  · intro x hx hxa
    rw [hmem]
    rw [hbs] at hx
    rcases List.mem_append.mp hx with hx | hx
    · exact Or.inr (Or.inl hx)
    · rcases List.mem_append.mp hx with hx | hx
      · have := hfree x hx; omega
      · exact Or.inr (Or.inr hx)
  · intro hex x hx y hy hadj hxf hyf
    rw [hmem] at hx hy
    have hxb : ∀ z, z ∈ xs ∨ z ∈ ys → z.addr ≠ b.addr := by
      intro z hz
      rcases hz with hz | hz
      · have := hxs z hz; omega
      · have := hys z hz; omega
    rcases hx with hx | hx <;> rcases hy with hy | hy
    · subst hx; subst hy
      simp only at hadj
      omega
    · subst hx
      simp only at hadj hxf
      rcases hy with hy | hy
      · have := hxs y hy; omega
      · have := hR hex y hy (by omega); omega
    · subst hy
      simp only at hadj hyf
      rcases hx with hx | hx
      · have := hL hex x hx hadj; omega
      · have := hys x hx; omega
    · have hx' : x ∈ bs := hx.elim (hmemx x) (hmemy x)
      have hy' : y ∈ bs := hy.elim (hmemx y) (hmemy y)
      rcases hex x hx' y hy' hadj hxf hyf with h1 | h1
      · exact hxb x hx h1
      · exact hxb y hy h1

theorem Layout.last_of {m : Mem} {xs : List Blk} {p q : Nat} {x : Blk} (h : Layout m p xs q)
    (hx : x ∈ xs) (hadj : x.addr + x.size = q) : ∃ xs', xs = xs' ++ [x] := by
  rcases List.eq_nil_or_concat xs with hn | ⟨xs', c, hc⟩
  · subst hn; simp at hx
  · rw [List.concat_eq_append] at hc
    subst hc
    obtain ⟨qc, h1, h2⟩ := Layout.append.mp h
    obtain ⟨hc1, hc2, _, _, _, _, hc7⟩ := h2
    have hc8 : qc + c.size = q := hc7
    rcases List.mem_append.mp hx with hx | hx
    · have := Layout.mem h1 hx; omega
    · rw [List.mem_singleton] at hx
      subst hx; exact ⟨xs', rfl⟩

theorem Layout.first_of {m : Mem} {ys : List Blk} {r e : Nat} {y : Blk} (h : Layout m r ys e)
    (hy : y ∈ ys) (hadj : y.addr = r) : ∃ ys', ys = y :: ys' := by
  cases ys with
  | nil => simp at hy
  | cons d ys' =>
    obtain ⟨hd1, hd2, _, _, _, _, hd7⟩ := h
    rcases List.mem_cons.mp hy with hy | hy
    · subst hy; exact ⟨ys', rfl⟩
    · have := Layout.mem hd7 hy; omega

theorem coalesce_case1 {s : State} {ptr : Nat}
    (hp : (decide (get_alloc s.mem (ftrp s.mem (prev_blkp s.mem ptr)) ≠ 0) ||
      decide (prev_blkp s.mem ptr = ptr)) = true)
    (hn : decide (get_alloc s.mem (hdrp (next_blkp s.mem ptr)) ≠ 0) = true) :
    coalesce s ptr = some (add_to_free_list s ptr, ptr) := by
  unfold coalesce
  simp only [hp, hn, Bool.and_self, if_true]

theorem coalesce_case2 {s : State} {ptr : Nat}
    (hp : (decide (get_alloc s.mem (ftrp s.mem (prev_blkp s.mem ptr)) ≠ 0) ||
      decide (prev_blkp s.mem ptr = ptr)) = true)
    (hn : decide (get_alloc s.mem (hdrp (next_blkp s.mem ptr)) ≠ 0) = false) :
    coalesce s ptr =
      match remove_from_free_list s (next_blkp s.mem ptr) with
      | none => none
      | some s1 =>
        some (add_to_free_list { s1 with mem := (
          put (put s1.mem (hdrp ptr) (pack (addw (get_size s.mem (hdrp ptr))
              (get_size s1.mem (hdrp (next_blkp s.mem ptr)))) 0))
            (ftrp (put s1.mem (hdrp ptr) (pack (addw (get_size s.mem (hdrp ptr))
              (get_size s1.mem (hdrp (next_blkp s.mem ptr)))) 0)) ptr)
            (pack (addw (get_size s.mem (hdrp ptr))
              (get_size s1.mem (hdrp (next_blkp s.mem ptr)))) 0)) } ptr, ptr) := by
  unfold coalesce
  simp only [hp, hn, Bool.and_false, Bool.false_eq_true, if_false, Bool.not_false,
    Bool.and_self, if_true]

theorem coalesce_case3 {s : State} {ptr : Nat}
    (hp : (decide (get_alloc s.mem (ftrp s.mem (prev_blkp s.mem ptr)) ≠ 0) ||
      decide (prev_blkp s.mem ptr = ptr)) = false)
    (hn : decide (get_alloc s.mem (hdrp (next_blkp s.mem ptr)) ≠ 0) = true) :
    coalesce s ptr =
      match remove_from_free_list s (prev_blkp s.mem ptr) with
      | none => none
      | some s1 =>
        some (add_to_free_list { s1 with mem := (
          put (put s1.mem (ftrp s1.mem ptr) (pack (addw (get_size s.mem (hdrp ptr))
              (get_size s1.mem (hdrp (prev_blkp s.mem ptr)))) 0))
            (hdrp (prev_blkp s.mem ptr))
            (pack (addw (get_size s.mem (hdrp ptr))
              (get_size s1.mem (hdrp (prev_blkp s.mem ptr)))) 0)) } (prev_blkp s.mem ptr),
          prev_blkp s.mem ptr) := by
  unfold coalesce
  simp only [hp, hn, Bool.false_and, Bool.false_eq_true, if_false, Bool.not_false,
    Bool.and_self, Bool.not_true, Bool.and_true, if_true]

theorem coalesce_case4 {s : State} {ptr : Nat}
    (hp : (decide (get_alloc s.mem (ftrp s.mem (prev_blkp s.mem ptr)) ≠ 0) ||
      decide (prev_blkp s.mem ptr = ptr)) = false)
    (hn : decide (get_alloc s.mem (hdrp (next_blkp s.mem ptr)) ≠ 0) = false) :
    coalesce s ptr =
      match remove_from_free_list s (prev_blkp s.mem ptr) with
      | none => none
      | some s1 =>
        match remove_from_free_list s1 (next_blkp s.mem ptr) with
        | none => none
        | some s2 =>
          some (add_to_free_list { s2 with mem := (
            put (put s2.mem (hdrp (prev_blkp s.mem ptr)) (pack (addw (get_size s.mem (hdrp ptr))
                (addw (get_size s2.mem (hdrp (prev_blkp s.mem ptr)))
                  (get_size s2.mem (hdrp (next_blkp s.mem ptr))))) 0))
              (ftrp (put s2.mem (hdrp (prev_blkp s.mem ptr)) (pack (addw (get_size s.mem (hdrp ptr))
                (addw (get_size s2.mem (hdrp (prev_blkp s.mem ptr)))
                  (get_size s2.mem (hdrp (next_blkp s.mem ptr))))) 0)) (next_blkp s.mem ptr))
              (pack (addw (get_size s.mem (hdrp ptr))
                (addw (get_size s2.mem (hdrp (prev_blkp s.mem ptr)))
                  (get_size s2.mem (hdrp (next_blkp s.mem ptr))))) 0)) } (prev_blkp s.mem ptr),
            prev_blkp s.mem ptr) := by
  unfold coalesce
  simp only [hp, hn, Bool.false_and, Bool.false_eq_true, if_false, Bool.not_false,
    Bool.and_self, Bool.not_true, Bool.and_true, Bool.and_false]

theorem blk_eta {b : Blk} (hf : b.alloc = 0) : (⟨b.addr, b.size, 0⟩ : Blk) = b := by
  cases b; simp only at hf; subst hf; rfl

theorem coalesce_spec {s : State} {bs : List Blk} {fl : Nat → List Nat} {b : Blk}
    (h : Inv s bs fl {b.addr}) (hb : b ∈ bs) (hf : b.alloc = 0) :
    ∃ s' bs' fl' M, coalesce s b.addr = some (s', M.addr) ∧ Inv s' bs' fl' ∅ ∧
      s'.lo = s.lo ∧ s'.brk = s.brk ∧ s'.heap_listp = s.heap_listp ∧ Keeps bs s.mem s'.mem ∧
      M ∈ bs' ∧ M.alloc = 0 ∧ M.addr ≤ b.addr ∧ b.addr + b.size ≤ M.addr + M.size ∧
      (∀ x, x ∈ bs' ↔ x = M ∨
        (x ∈ bs ∧ (x.addr + x.size ≤ M.addr ∨ M.addr + M.size ≤ x.addr))) ∧
      (∀ x ∈ bs, x.alloc = 1 → x ∈ bs') ∧
      ((∀ x ∈ bs, ∀ y ∈ bs, x.addr + x.size = y.addr → x.alloc = 0 → y.alloc = 0 →
        x.addr = b.addr ∨ y.addr = b.addr) → NoAdj bs') := by
  have fb := h.blk hb
  have hbrk := h.brk_lt
  obtain ⟨xs, ys, hbs, hq, hr, hpne, hprev, hnext, hnx⟩ := neighbours h hb
  have hsz : get_size s.mem (hdrp b.addr) = b.size :=
    tag_size (by omega) (by omega) fb.2.2.2.2.2.1 fb.2.2.2.1 fb.2.2.2.2.1
  have L0 : (∀ xs' c, xs = xs' ++ [c] → c.alloc = 1) →
      ∀ x ∈ xs, x.addr + x.size = b.addr → x.alloc = 1 := by
    intro hpc x hx hadj
    obtain ⟨xs', hx'⟩ := Layout.last_of hq hx hadj
    exact hpc xs' x hx'
  have R0 : (∀ d ys', ys = d :: ys' → d.alloc = 1) →
      ∀ y ∈ ys, y.addr = b.addr + b.size → y.alloc = 1 := by
    intro hnd y hy hadj
    obtain ⟨ys', hy'⟩ := Layout.first_of hr hy hadj
    exact hnd y ys' hy'
  -- a free neighbour of an absorbed neighbour cannot be free, unless it is `b`
  have hexx : (∀ x ∈ bs, ∀ y ∈ bs, x.addr + x.size = y.addr → x.alloc = 0 → y.alloc = 0 →
      x.addr = b.addr ∨ y.addr = b.addr) → ∀ x ∈ bs, ∀ y ∈ bs, x.addr + x.size = y.addr →
      x.addr ≠ b.addr → y.addr ≠ b.addr → x.alloc = 0 → y.alloc = 1 := by
    intro hex x hx y hy hadj h1 h2 hxf
    have fy := h.blk hy
    by_contra hya
    rcases hex x hx y hy hadj hxf (by omega) with h3 | h3
    · exact h1 h3
    · exact h2 h3
  have hexy : (∀ x ∈ bs, ∀ y ∈ bs, x.addr + x.size = y.addr → x.alloc = 0 → y.alloc = 0 →
      x.addr = b.addr ∨ y.addr = b.addr) → ∀ x ∈ bs, ∀ y ∈ bs, x.addr + x.size = y.addr →
      x.addr ≠ b.addr → y.addr ≠ b.addr → y.alloc = 0 → x.alloc = 1 := by
    intro hex x hx y hy hadj h1 h2 hyf
    have fx := h.blk hx
    by_contra hxa
    rcases hex x hx y hy hadj (by omega) hyf with h3 | h3
    · exact h1 h3
    · exact h2 h3
  rcases hprev with ⟨hpa, hpc⟩ | ⟨hpa, xs', c, hxs, hcf, hpc, hcadj, hq'⟩ <;>
    rcases hnx with ⟨hna, hnd⟩ | ⟨hna, d, ys', hys, hdf, hdadj, hr'⟩
  · -- case 1
    have hpB : (decide (get_alloc s.mem (ftrp s.mem (prev_blkp s.mem b.addr)) ≠ 0) ||
        decide (prev_blkp s.mem b.addr = b.addr)) = true := by rw [hpa]; simp
    have hnB : decide (get_alloc s.mem (hdrp (next_blkp s.mem b.addr)) ≠ 0) = true := by
      rw [hnext, hna]; simp
    rw [coalesce_case1 hpB hnB]
    obtain ⟨h3, hlo3, hbk3, hhl3, hk3⟩ := add_spec (Y := ∅) h hb hf (by simp) (by simp)
    have hbl : Layout s.mem b.addr [⟨b.addr, b.size, 0⟩] (b.addr + b.size) := by
      rw [blk_eta hf]
      exact Layout.single.mpr ⟨rfl, fb.2.2.1, fb.2.2.2.1, fb.2.2.2.2.1, fb.2.2.2.2.2.1,
        fb.2.2.2.2.2.2, rfl⟩
    have hbs' : bs = xs ++ ([⟨b.addr, b.size, 0⟩] ++ ys) := by rw [blk_eta hf]; exact hbs
    have post := coalesce_post (b := b) (u := b.size) rfl hbs' hq hbl hr
      (by rw [blk_eta hf]; exact List.mem_singleton_self b)
      (by intro x hx; rw [List.mem_singleton] at hx; rw [hx])
      (fun _ => L0 hpc) (fun _ => R0 hnd)
    rw [← hbs'] at post
    exact ⟨_, bs, _, ⟨b.addr, b.size, 0⟩, rfl, h3, hlo3, hbk3, hhl3, hk3, post.1, rfl,
      post.2.1, post.2.2.1, post.2.2.2.1, post.2.2.2.2.1, post.2.2.2.2.2⟩
  · -- case 2: the successor is absorbed
    have hpB : (decide (get_alloc s.mem (ftrp s.mem (prev_blkp s.mem b.addr)) ≠ 0) ||
        decide (prev_blkp s.mem b.addr = b.addr)) = true := by rw [hpa]; simp
    have hnB : decide (get_alloc s.mem (hdrp (next_blkp s.mem b.addr)) ≠ 0) = false := by
      rw [hnext, hna]; simp
    have hbs2 : bs = xs ++ ([b, d] ++ ys') := by rw [hbs, hys]; rfl
    have hd : d ∈ bs := by rw [hbs2]; simp
    have fd := h.blk hd
    obtain ⟨s1, hrem, h1, hlo, hbk, hhl, hk1⟩ := remove_spec (Y := {b.addr, d.addr}) h hd hdf
      (by simp only [Set.mem_singleton_iff]; omega)
      (by intro a; simp only [Set.mem_insert_iff, Set.mem_singleton_iff])
    have fb1 := h1.blk hb
    have fd1 := h1.blk hd
    rw [hdadj] at fd1 hrem
    have hlay1 := h1.lay
    rw [hlo, hbk, hbs2] at hlay1
    obtain ⟨q1, hq1, hrest⟩ := Layout.append.mp hlay1
    obtain ⟨r1, hmid1, hr1⟩ := Layout.append.mp hrest
    have hq1e : b.addr = q1 := hmid1.1
    have hr1e := Layout.sum hmid1
    simp only [List.map_cons, List.map_nil, List.sum_cons, List.sum_nil] at hr1e
    subst hq1e
    rw [coalesce_case2 hpB hnB, hnext, hrem]
    simp only []
    rw [hsz, tag_size (by omega) (by omega) fd1.2.2.2.2.2.1 fd1.2.2.2.1 fd1.2.2.2.2.1,
      addw_eq (by omega), setTags_eq (by omega) (by omega) (by omega) (by omega) (by omega)]
    obtain ⟨fl', h3, hlo3, hbk3, hhl3, hk3⟩ := merge_spec (u := b.size + d.size)
      (r := r1) h1 (by omega) hbs2 (hlo ▸ hq1) hmid1 (hbk ▸ hr1) (by simp)
      (by
        intro x hx
        simp only [List.mem_cons, List.mem_singleton, List.not_mem_nil, or_false] at hx
        rcases hx with hx | hx
        · subst hx; exact ⟨hf, by simp⟩
        · subst hx; exact ⟨hdf, by simp⟩)
      (by
        intro a ha
        simp only [Set.mem_insert_iff, Set.mem_singleton_iff] at ha
        omega)
    have hmid0 : Layout s.mem b.addr [b, d] r1 := by
      have hlay0 := h.lay
      rw [hbs2] at hlay0
      obtain ⟨q0, hq0, hrest0⟩ := Layout.append.mp hlay0
      obtain ⟨r0, hmid0, hr0⟩ := Layout.append.mp hrest0
      have hq0e : b.addr = q0 := hmid0.1
      have hr0e := Layout.sum hmid0
      simp only [List.map_cons, List.map_nil, List.sum_cons, List.sum_nil] at hr0e
      have : r0 = r1 := by omega
      rw [← hq0e, this] at hmid0
      exact hmid0
    have hr0 : Layout s.mem r1 ys' s.brk := by
      have e : r1 = d.addr + d.size := by omega
      rw [e]; exact hr'
    have post := coalesce_post (b := b) (u := b.size + d.size) (r := r1) (by omega) hbs2 hq
      hmid0 hr0 (by simp)
      (by
        intro x hx
        simp only [List.mem_cons, List.mem_singleton, List.not_mem_nil, or_false] at hx
        rcases hx with hx | hx
        · subst hx; exact hf
        · subst hx; exact hdf)
      (fun _ => L0 hpc)
      (by
        intro hex y hy hadj
        exact hexx hex d hd y (by rw [hbs2]; simp [hy]) (by omega) (by omega) (by omega) hdf)
    exact ⟨_, _, _, ⟨b.addr, b.size + d.size, 0⟩, rfl, h3, hlo3.trans hlo, hbk3.trans hbk,
      hhl3.trans hhl, Keeps.trans hk1 hk3, post.1, rfl, post.2.1, post.2.2.1, post.2.2.2.1,
      post.2.2.2.2.1, post.2.2.2.2.2⟩
  · -- case 3: the predecessor absorbs the block
    have hpB : (decide (get_alloc s.mem (ftrp s.mem (prev_blkp s.mem b.addr)) ≠ 0) ||
        decide (prev_blkp s.mem b.addr = b.addr)) = false := by rw [hpa]; simp [hpne]
    have hnB : decide (get_alloc s.mem (hdrp (next_blkp s.mem b.addr)) ≠ 0) = true := by
      rw [hnext, hna]; simp
    have hbs3 : bs = xs' ++ ([c, b] ++ ys) := by rw [hbs, hxs]; simp
    have hc : c ∈ bs := by rw [hbs3]; simp
    have fc := h.blk hc
    obtain ⟨s1, hrem, h1, hlo, hbk, hhl, hk1⟩ := remove_spec (Y := {b.addr, c.addr}) h hc hcf
      (by simp only [Set.mem_singleton_iff]; omega)
      (by intro a; simp only [Set.mem_insert_iff, Set.mem_singleton_iff])
    have fb1 := h1.blk hb
    have fc1 := h1.blk hc
    have hlay1 := h1.lay
    rw [hlo, hbk, hbs3] at hlay1
    obtain ⟨q1, hq1, hrest⟩ := Layout.append.mp hlay1
    obtain ⟨r1, hmid1, hr1⟩ := Layout.append.mp hrest
    have hq1e : c.addr = q1 := hmid1.1
    have hr1e := Layout.sum hmid1
    simp only [List.map_cons, List.map_nil, List.sum_cons, List.sum_nil] at hr1e
    subst hq1e
    have hmemeq : put (put s1.mem (ftrp s1.mem b.addr) (pack (b.size + c.size) 0))
        (hdrp c.addr) (pack (b.size + c.size) 0) =
        setTags s1.mem c.addr (b.size + c.size) 0 := by
      rw [tag_ftrp (by omega) (by omega) fb1.2.2.2.2.2.1 fb1.2.2.2.1 fb1.2.2.2.2.1 (by omega),
        hdrp_eq (by omega) (by omega), pack_eq (by omega) (by omega)]
      unfold setTags
      rw [put_comm (by omega)]
      have : c.addr + (b.size + c.size) - 16 = b.addr + b.size - 16 := by omega
      rw [this]
    rw [coalesce_case3 hpB hnB, hpc, hrem]
    simp only []
    rw [hsz, tag_size (by omega) (by omega) fc1.2.2.2.2.2.1 fc1.2.2.2.1 fc1.2.2.2.2.1,
      addw_eq (by omega), hmemeq]
    obtain ⟨fl', h3, hlo3, hbk3, hhl3, hk3⟩ := merge_spec (u := b.size + c.size)
      (r := r1) h1 (by omega) hbs3 (hlo ▸ hq1) hmid1 (hbk ▸ hr1) (by simp)
      (by
        intro x hx
        simp only [List.mem_cons, List.mem_singleton, List.not_mem_nil, or_false] at hx
        rcases hx with hx | hx
        · subst hx; exact ⟨hcf, by simp⟩
        · subst hx; exact ⟨hf, by simp⟩)
      (by
        intro a ha
        simp only [Set.mem_insert_iff, Set.mem_singleton_iff] at ha
        omega)
    have hmid0 : Layout s.mem c.addr [c, b] r1 := by
      have hlay0 := h.lay
      rw [hbs3] at hlay0
      obtain ⟨q0, hq0, hrest0⟩ := Layout.append.mp hlay0
      obtain ⟨r0, hmid0, hr0⟩ := Layout.append.mp hrest0
      have hq0e : c.addr = q0 := hmid0.1
      have hr0e := Layout.sum hmid0
      simp only [List.map_cons, List.map_nil, List.sum_cons, List.sum_nil] at hr0e
      have : r0 = r1 := by omega
      rw [← hq0e, this] at hmid0
      exact hmid0
    have hr0 : Layout s.mem r1 ys s.brk := by
      have e : r1 = b.addr + b.size := by omega
      rw [e]; exact hr
    have post := coalesce_post (b := b) (u := b.size + c.size) (r := r1) (by omega) hbs3 hq'
      hmid0 hr0 (by simp)
      (by
        intro x hx
        simp only [List.mem_cons, List.mem_singleton, List.not_mem_nil, or_false] at hx
        rcases hx with hx | hx
        · subst hx; exact hcf
        · subst hx; exact hf)
      (by
        intro hex x hx hadj
        have hx' : x ∈ bs := by rw [hbs3]; exact List.mem_append_left _ hx
        have fx := h.blk hx'
        exact hexy hex x hx' c hc hadj (by omega) (by omega) hcf)
      (by
        intro _ y hy hadj
        exact R0 hnd y hy (by omega))
    exact ⟨_, _, _, ⟨c.addr, b.size + c.size, 0⟩, rfl, h3, hlo3.trans hlo, hbk3.trans hbk,
      hhl3.trans hhl, Keeps.trans hk1 hk3, post.1, rfl, by
        show c.addr ≤ b.addr
        omega, by
        show b.addr + b.size ≤ c.addr + (b.size + c.size)
        omega, post.2.2.2.1, post.2.2.2.2.1, post.2.2.2.2.2⟩
  · -- case 4: predecessor, block and successor become one
    have hpB : (decide (get_alloc s.mem (ftrp s.mem (prev_blkp s.mem b.addr)) ≠ 0) ||
        decide (prev_blkp s.mem b.addr = b.addr)) = false := by rw [hpa]; simp [hpne]
    have hnB : decide (get_alloc s.mem (hdrp (next_blkp s.mem b.addr)) ≠ 0) = false := by
      rw [hnext, hna]; simp
    have hbs4 : bs = xs' ++ ([c, b, d] ++ ys') := by rw [hbs, hxs, hys]; simp
    have hc : c ∈ bs := by rw [hbs4]; simp
    have hd : d ∈ bs := by rw [hbs4]; simp
    have fc := h.blk hc
    have fd := h.blk hd
    obtain ⟨s1, hrem1, h1, hlo1, hbk1, hhl1, hk1⟩ := remove_spec (Y := {b.addr, c.addr}) h hc
      hcf (by simp only [Set.mem_singleton_iff]; omega)
      (by intro a; simp only [Set.mem_insert_iff, Set.mem_singleton_iff])
    obtain ⟨s2, hrem2, h2, hlo2, hbk2, hhl2, hk2⟩ := remove_spec
      (Y := {b.addr, c.addr, d.addr}) h1 hd hdf
      (by simp only [Set.mem_insert_iff, Set.mem_singleton_iff]; omega)
      (by intro a; simp only [Set.mem_insert_iff, Set.mem_singleton_iff]; exact or_assoc.symm)
    have fb2 := h2.blk hb
    have fc2 := h2.blk hc
    have fd2 := h2.blk hd
    rw [hdadj] at fd2 hrem2
    have hlay2 := h2.lay
    rw [hlo2, hlo1, hbk2, hbk1, hbs4] at hlay2
    obtain ⟨q1, hq1, hrest⟩ := Layout.append.mp hlay2
    obtain ⟨r1, hmid1, hr1⟩ := Layout.append.mp hrest
    have hq1e : c.addr = q1 := hmid1.1
    have hr1e := Layout.sum hmid1
    simp only [List.map_cons, List.map_nil, List.sum_cons, List.sum_nil] at hr1e
    subst hq1e
    have hmemeq : put (put s2.mem (hdrp c.addr) (pack (b.size + (c.size + d.size)) 0))
        (ftrp (put s2.mem (hdrp c.addr) (pack (b.size + (c.size + d.size)) 0))
          (b.addr + b.size)) (pack (b.size + (c.size + d.size)) 0) =
        setTags s2.mem c.addr (b.size + (c.size + d.size)) 0 := by
      have e : get (put s2.mem (hdrp c.addr) (pack (b.size + (c.size + d.size)) 0))
          (b.addr + b.size - 8) = d.size + d.alloc := by
        rw [hdrp_eq (by omega) (by omega), get_put_other (by omega)]
        exact fd2.2.2.2.2.2.1
      rw [tag_ftrp (by omega) (by omega) e fd2.2.2.2.1 fd2.2.2.2.2.1 (by omega),
        hdrp_eq (by omega) (by omega), pack_eq (by omega) (by omega)]
      unfold setTags
      have : c.addr + (b.size + (c.size + d.size)) - 16 = b.addr + b.size + d.size - 16 := by
        omega
      rw [this]
    rw [coalesce_case4 hpB hnB, hpc, hnext, hrem1]
    simp only []
    rw [hrem2]
    simp only []
    rw [hsz, tag_size (by omega) (by omega) fc2.2.2.2.2.2.1 fc2.2.2.2.1 fc2.2.2.2.2.1,
      tag_size (by omega) (by omega) fd2.2.2.2.2.2.1 fd2.2.2.2.1 fd2.2.2.2.2.1,
      addw_eq (a := c.size) (b := d.size) (by omega), addw_eq (by omega), hmemeq]
    obtain ⟨fl', h3, hlo3, hbk3, hhl3, hk3⟩ := merge_spec (u := b.size + (c.size + d.size))
      (r := r1) h2 (by omega) hbs4 (by rw [hlo2, hlo1]; exact hq1) hmid1
      (by rw [hbk2, hbk1]; exact hr1) (by simp)
      (by
        intro x hx
        simp only [List.mem_cons, List.mem_singleton, List.not_mem_nil, or_false] at hx
        rcases hx with hx | hx | hx
        · subst hx; exact ⟨hcf, by simp⟩
        · subst hx; exact ⟨hf, by simp⟩
        · subst hx; exact ⟨hdf, by simp⟩)
      (by
        intro a ha
        simp only [Set.mem_insert_iff, Set.mem_singleton_iff] at ha
        omega)
    have hmid0 : Layout s.mem c.addr [c, b, d] r1 := by
      have hlay0 := h.lay
      rw [hbs4] at hlay0
      obtain ⟨q0, hq0, hrest0⟩ := Layout.append.mp hlay0
      obtain ⟨r0, hmid0, hr0⟩ := Layout.append.mp hrest0
      have hq0e : c.addr = q0 := hmid0.1
      have hr0e := Layout.sum hmid0
      simp only [List.map_cons, List.map_nil, List.sum_cons, List.sum_nil] at hr0e
      have : r0 = r1 := by omega
      rw [← hq0e, this] at hmid0
      exact hmid0
    have hr0 : Layout s.mem r1 ys' s.brk := by
      have e : r1 = d.addr + d.size := by omega
      rw [e]; exact hr'
    have post := coalesce_post (b := b) (u := b.size + (c.size + d.size)) (r := r1) (by omega)
      hbs4 hq' hmid0 hr0 (by simp)
      (by
        intro x hx
        simp only [List.mem_cons, List.mem_singleton, List.not_mem_nil, or_false] at hx
        rcases hx with hx | hx | hx
        · subst hx; exact hcf
        · subst hx; exact hf
        · subst hx; exact hdf)
      (by
        intro hex x hx hadj
        have hx' : x ∈ bs := by rw [hbs4]; exact List.mem_append_left _ hx
        have fx := h.blk hx'
        exact hexy hex x hx' c hc hadj (by omega) (by omega) hcf)
      (by
        intro hex y hy hadj
        exact hexx hex d hd y (by rw [hbs4]; simp [hy]) (by omega) (by omega) (by omega) hdf)
    exact ⟨_, _, _, ⟨c.addr, b.size + (c.size + d.size), 0⟩, rfl, h3,
      hlo3.trans (hlo2.trans hlo1), hbk3.trans (hbk2.trans hbk1),
      hhl3.trans (hhl2.trans hhl1), Keeps.trans hk1 (Keeps.trans hk2 hk3), post.1, rfl,
      by
        show c.addr ≤ b.addr
        omega, by
        show b.addr + b.size ≤ c.addr + (b.size + (c.size + d.size))
        omega, post.2.2.2.1, post.2.2.2.2.1, post.2.2.2.2.2⟩

/-! ## `extend_heap` -/

theorem pack_zero_one : pack 0 1 = 1 := rfl

theorem extend_heap_fail {cap : Nat} {s : State} {words : Nat} (hw : words % 2 = 0)
    (hlt : words * 8 < 18446744073709551616) (hcap : ¬ s.brk + words * 8 ≤ cap) :
    extend_heap cap s words = some (s, 0) := by
  unfold extend_heap mm_sbrk WSIZE
  simp only [hw, ne_eq, not_true_eq_false, if_false, mulw_eq hlt, hcap]

theorem extend_heap_spec {cap : Nat} {s : State} {bs : List Blk} {fl : Nat → List Nat}
    {words : Nat} (h : Inv s bs fl ∅) (hw : words % 2 = 0) (h32 : 32 ≤ words * 8)
    (hcap : s.brk + words * 8 ≤ cap) (hcap2 : cap < 18446744073709551616) :
    ∃ s' bs' fl' M, extend_heap cap s words = some (s', M.addr) ∧ Inv s' bs' fl' ∅ ∧
      s'.lo = s.lo ∧ s'.brk = s.brk + words * 8 ∧ s'.heap_listp = s.heap_listp ∧
      Keeps bs s.mem s'.mem ∧ M ∈ bs' ∧ M.alloc = 0 ∧ words * 8 ≤ M.size ∧
      M.addr + M.size = s'.brk ∧ M.addr ≤ s.brk ∧
      (∀ x ∈ bs, x.alloc = 1 → x ∈ bs') ∧ (∀ x ∈ bs', x.alloc = 1 → x ∈ bs) ∧
      (∀ x ∈ bs', x ≠ M → x ∈ bs) ∧
      (NoAdj bs → NoAdj bs') := by
  have hbrk := h.brk_lt
  have hlay := h.lay
  have hle := Layout.le hlay
  -- the state before the call of `coalesce`
  have hcode : extend_heap cap s words =
      coalesce { s with
        brk := s.brk + words * 8
        mem := put (setTags s.mem s.brk (words * 8) 0) (s.brk + words * 8 - 8) 1 } s.brk := by
    unfold extend_heap mm_sbrk WSIZE
    simp only [hw, ne_eq, not_true_eq_false, if_false, mulw_eq (show words * 8 <
      18446744073709551616 by omega), hcap, if_true]
    rw [setTags_eq (by omega) (by omega) (by omega) (by omega) (by omega),
      tag_next (u := words * 8) (a := 0) (by omega) (by omega)
        (get_setTags_hdr (by omega) (by omega) (by omega)) (by omega) (by omega),
      hdrp_eq (by omega) (by omega), pack_zero_one]
  rw [hcode]
  have hnb : Layout (put (setTags s.mem s.brk (words * 8) 0) (s.brk + words * 8 - 8) 1) s.brk
      [⟨s.brk, words * 8, 0⟩] (s.brk + words * 8) := by
    have := Layout_setTags (m := s.mem) (p := s.brk) (u := words * 8) (a := 0) (by omega)
      (by omega) (by omega) (by omega) (by omega)
    exact Layout.frame this (by omega) (fun x hx1 hx2 => put_outside (by omega))
  have hout : ∀ x, x + 8 < s.brk →
      put (setTags s.mem s.brk (words * 8) 0) (s.brk + words * 8 - 8) 1 x = s.mem x := by
    intro x hx
    rw [put_outside (by omega), setTags_outside (by omega) (by omega) (by omega)]
  have h2 := Inv.change (Y := {s.brk}) (L := bs ++ [⟨s.brk, words * 8, 0⟩])
    (g := put (setTags s.mem s.brk (words * 8) 0) (s.brk + words * 8 - 8) 1)
    (K := s.brk + words * 8) h
    (by
      refine ⟨Layout.append.mpr ⟨s.brk, Layout.frame hlay (by omega)
        (fun x hx1 hx2 => hout x (by omega)), hnb⟩, ?_, ?_, ?_⟩
      · rw [← h.pro_h]; exact get_congr (fun x hx1 hx2 => hout x (by omega))
      · rw [← h.pro_f]; exact get_congr (fun x hx1 hx2 => hout x (by omega))
      · rw [get_put_same])
    (by omega)
    (by
      intro b hb hbf _
      have fb := h.blk hb
      refine ⟨List.mem_append_left _ hb, ?_, fun z hz1 hz2 => hout z (by omega)⟩
      simp only [Set.mem_singleton_iff]; omega)
    (by
      intro b hb hbf
      rcases List.mem_append.mp hb with hb | hb
      · exact Or.inr ⟨hb, by simp⟩
      · rw [List.mem_singleton] at hb
        left; rw [hb]; simp)
  have hnbm : (⟨s.brk, words * 8, 0⟩ : Blk) ∈ bs ++ [⟨s.brk, words * 8, 0⟩] := by simp
  obtain ⟨s', bs', fl', M, hco, h3, hlo3, hbk3, hhl3, hk3, hM, hMf, hM1, hM2, hmem, hal, hna⟩ :=
    coalesce_spec (b := ⟨s.brk, words * 8, 0⟩) h2 hnbm rfl
  have fM := h3.blk hM
  simp only at hM1 hM2 hmem hco hlo3 hbk3 hhl3 hk3
  refine ⟨s', bs', fl', M, hco, h3, hlo3, hbk3, hhl3, ?_, hM, hMf, by omega, by omega, hM1,
    ?_, ?_, ?_, ?_⟩
  · intro b hb hba x hx1 hx2
    have fb := h.blk hb
    rw [hk3 b (List.mem_append_left _ hb) hba x hx1 hx2]
    exact hout x (by omega)
  · intro x hx hxa
    exact hal x (List.mem_append_left _ hx) hxa
  · intro x hx hxa
    rcases (hmem x).mp hx with hx | ⟨hx, _⟩
    · rw [hx] at hxa; omega
    · rcases List.mem_append.mp hx with hx | hx
      · exact hx
      · rw [List.mem_singleton] at hx
        rw [hx] at hxa; simp at hxa
  · intro x hx hxM
    rcases (hmem x).mp hx with hx | ⟨hx, hd⟩
    · exact absurd hx hxM
    · rcases List.mem_append.mp hx with hx | hx
      · exact hx
      · rw [List.mem_singleton] at hx
        rw [hx] at hd; simp only at hd; omega
  · intro hno
    apply hna
    intro x hx y hy hadj hxf hyf
    rcases List.mem_append.mp hx with hx | hx
    · rcases List.mem_append.mp hy with hy | hy
      · exact absurd hyf (fun e => hno x hx y hy hadj hxf e)
      · rw [List.mem_singleton] at hy
        right; rw [hy]
    · rw [List.mem_singleton] at hx
      left; rw [hx]

/-! ## `mm_init` -/

theorem mm_init_spec {cap : Nat} {s : State} (hs : s.brk = s.lo)
    (hcap2 : cap < 18446744073709551616) (hcap : s.lo + 32 + 2048 ≤ cap) :
    ∃ s' bs fl, mm_init cap s = some (s', true) ∧ Inv s' bs fl ∅ ∧ s'.lo = s.lo ∧
      s'.brk = s.lo + 32 + 2048 ∧ NoAdj bs ∧ (∀ b ∈ bs, b.alloc = 0) := by
  -- the heap holding the sentinels only
  have h0 : Inv { s with
      free_lists := fun i => if i < 11 then 0 else s.free_lists i
      brk := s.lo + 32
      mem := put (put (put (put s.mem s.lo 0) (s.lo + 8) 17) (s.lo + 16) 17) (s.lo + 24) 1
      heap_listp := s.lo + 16 } [] (fun _ => []) ∅ := by
    refine ⟨rfl, by simp only; omega, ?_, ?_, rfl, ?_, ?_, fun _ => trivial, ?_, ?_, ?_⟩
    · simp only
      rw [get_put_other (by omega), get_put_other (by omega), get_put_same]
    · simp only
      rw [get_put_other (by omega), get_put_same]
    · simp only
      have : s.lo + 32 - 8 = s.lo + 24 := by omega
      rw [this, get_put_same]
    · intro i hi; simp [hi]
    · intro i x hx; simp at hx
    · intro b hb; simp at hb
    · intro i; exact List.nodup_nil
  have hcode : mm_init cap s =
      match extend_heap cap { s with
        free_lists := fun i => if i < 11 then 0 else s.free_lists i
        brk := s.lo + 32
        mem := put (put (put (put s.mem s.lo 0) (s.lo + 8) 17) (s.lo + 16) 17) (s.lo + 24) 1
        heap_listp := s.lo + 16 } (CHUNKSIZE / WSIZE) with
      | none => none
      | some (s3, r) => if r = 0 then some (s3, false) else some (s3, true) := by
    unfold mm_init mm_sbrk
    have e1 : s.brk + 4 * WSIZE ≤ cap := by unfold WSIZE; omega
    simp only [e1, if_true]
    have e2 : addw s.brk (1 * WSIZE) = s.lo + 8 := by
      unfold WSIZE; rw [addw_eq (by omega)]; omega
    have e3 : addw s.brk (2 * WSIZE) = s.lo + 16 := by
      unfold WSIZE; rw [addw_eq (by omega)]; omega
    have e4 : addw s.brk (3 * WSIZE) = s.lo + 24 := by
      unfold WSIZE; rw [addw_eq (by omega)]; omega
    have e5 : pack (WSIZE * 2) 1 = 17 := rfl
    have e6 : s.brk + 4 * WSIZE = s.lo + 32 := by unfold WSIZE; omega
    rw [e2, e3, e4, e5, e6, pack_zero_one, hs]
  rw [hcode]
  have hw : CHUNKSIZE / WSIZE = 256 := rfl
  rw [hw]
  obtain ⟨s', bs', fl', M, hex, h3, hlo3, hbk3, _, _, hM, hMf, hM1, hM2, hM3, hal, hal2, hne, hna⟩ :=
    @extend_heap_spec cap _ _ _ 256 h0 (by omega) (by omega)
      (by simp only; omega) hcap2
  have fM := h3.blk hM
  rw [hex]
  simp only at hlo3 hbk3 hM3
  have hM0 : M.addr ≠ 0 := by omega
  simp only [hM0, if_false]
  refine ⟨s', bs', fl', rfl, h3, hlo3, by omega, hna (fun x hx => by simp at hx), ?_⟩
  intro b hb
  have fb := h3.blk hb
  by_contra hb1
  have := hal2 b hb (by omega)
  simp at this

theorem mm_init_fail {cap : Nat} {s : State} (hs : s.brk = s.lo)
    (hcap : ¬ s.lo + 32 + 2048 ≤ cap) : ∃ s', mm_init cap s = some (s', false) := by
  unfold mm_init mm_sbrk
  by_cases h1 : s.brk + 4 * WSIZE ≤ cap
  · simp only [h1, if_true]
    rw [extend_heap_fail (by rfl) (by unfold CHUNKSIZE WSIZE; omega)
      (by simp only; unfold CHUNKSIZE WSIZE at *; omega)]
    exact ⟨_, rfl⟩
  · simp only [h1, if_false]
    exact ⟨_, rfl⟩

/-! ## `malloc` -/

theorem place_noadj {m : Mem} {p e : Nat} {bs bs' : List Blk} {b : Blk} {u : Nat}
    (hlay : Layout m p bs e) (hb : b ∈ bs) (hf : b.alloc = 0) (h32 : 32 ≤ u)
    (hmem : ∀ c, c ∈ bs' ↔ (c ∈ bs ∧ c ≠ b) ∨ c = ⟨b.addr, u, 1⟩ ∨
      (u + 32 ≤ b.size ∧ c = ⟨b.addr + u, b.size - u, 0⟩))
    (hno : NoAdj bs) : NoAdj bs' := by
  intro x hx y hy hadj hxf hyf
  have fb := Layout.mem hlay hb
  rcases (hmem x).mp hx with ⟨hx1, hx2⟩ | hx1 | ⟨hx0, hx1⟩
  · have fx := Layout.mem hlay hx1
    have sx := Layout.sep hlay hx1 hb
    rcases (hmem y).mp hy with ⟨hy1, hy2⟩ | hy1 | ⟨hy0, hy1⟩
    · exact hno x hx1 y hy1 hadj hxf hyf
    · rw [hy1] at hyf; simp at hyf
    · rw [hy1] at hadj
      simp only at hadj
      rcases sx with sx | sx | sx
      · exact hx2 sx
      · omega
      · omega
  · rw [hx1] at hxf; simp at hxf
  · rw [hx1] at hadj
    simp only at hadj
    rcases (hmem y).mp hy with ⟨hy1, hy2⟩ | hy1 | ⟨hy0, hy1⟩
    · exact hno b hb y hy1 (by omega) hf hyf
    · rw [hy1] at hyf; simp at hyf
    · rw [hy1] at hadj; simp only at hadj; omega

theorem align_eq {x : Nat} (h : x + 15 < 18446744073709551616) :
    align x = 16 * ((x + 15) / 16) := by
  unfold align ALIGNMENT
  rw [addw_eq (by omega), mulw_eq (by omega)]

theorem adjusted_small {n : Nat} (hn : n ≤ 18446744073709551616 - 32) :
    adjusted n % 16 = 0 ∧ 32 ≤ adjusted n ∧ n + 16 ≤ adjusted n ∧ adjusted n ≤ n + 32 ∧
      adjusted n < 18446744073709551616 := by
  unfold adjusted WSIZE
  split_ifs with h
  · omega
  · rw [addw_eq (by omega), align_eq (by omega)]
    omega

theorem malloc_spec {cap : Nat} {s : State} {bs : List Blk} {fl : Nat → List Nat} {n : Nat}
    (h : Inv s bs fl ∅) (hn : n ≤ 18446744073709551616 - 32)
    (hcap2 : cap < 18446744073709551616) :
    ∃ s' r, malloc cap s n = some (s', r) ∧
      ((r = 0 ∧ s' = s) ∨
       (r ≠ 0 ∧ n ≠ 0 ∧ ∃ bs' fl' B, Inv s' bs' fl' ∅ ∧ s'.lo = s.lo ∧ s.brk ≤ s'.brk ∧
          s'.heap_listp = s.heap_listp ∧ Keeps bs s.mem s'.mem ∧ B ∈ bs' ∧ B.addr = r ∧
          B.alloc = 1 ∧ n + 16 ≤ B.size ∧ (∀ x ∈ bs, x.alloc = 1 → x ∈ bs') ∧
          (∀ x ∈ bs', x.alloc = 1 → x = B ∨ x ∈ bs) ∧
          (∀ x ∈ bs, x.alloc = 1 → x.addr ≠ B.addr) ∧
          (NoAdj bs → NoAdj bs'))) := by
  have hbrk := h.brk_lt
  have hcode : malloc cap s n = if n = 0 then some (s, 0) else
      match find_fit s (adjusted n) with
      | none => none
      | some ptr =>
        if ptr ≠ 0 then
          match place s ptr (adjusted n) with
          | none => none
          | some s1 => some (s1, ptr)
        else
          match extend_heap cap s ((if CHUNKSIZE < adjusted n then adjusted n else CHUNKSIZE)
            / WSIZE) with
          | none => none
          | some (s1, ptr) =>
            if ptr = 0 then some (s1, 0)
            else
              match place s1 ptr (adjusted n) with
              | none => none
              | some s2 => some (s2, ptr) := rfl
  rw [hcode]
  by_cases hn0 : n = 0
  · rw [if_pos hn0]; exact ⟨s, 0, rfl, Or.inl ⟨rfl, rfl⟩⟩
  rw [if_neg hn0]
  obtain ⟨ha1, ha2, ha3, ha4, ha5⟩ := adjusted_small hn
  generalize adjusted n = asize at *
  obtain ⟨r, hfit, hr⟩ := find_fit_spec h asize
  rw [hfit]
  simp only []
  rcases hr with hr | ⟨b, hb, hbr, hbf, hbs⟩
  · -- no fit: grow the heap
    subst hr
    simp only [ne_eq, not_true_eq_false, if_false]
    obtain ⟨words, hwd, hw2, hw8, hwa⟩ : ∃ words,
        (if CHUNKSIZE < asize then asize else CHUNKSIZE) / WSIZE = words ∧ words % 2 = 0 ∧
        32 ≤ words * 8 ∧ asize ≤ words * 8 ∧ words * 8 < 18446744073709551616 := by
      refine ⟨_, rfl, ?_⟩
      unfold CHUNKSIZE WSIZE
      split_ifs <;> omega
    rw [hwd]
    by_cases hc : s.brk + words * 8 ≤ cap
    · obtain ⟨s1, bs1, fl1, M, hex, h1, hlo1, hbk1, hhl1, hk1, hM, hMf, hM1, _, _, hal1, hal1',
        _, hna1⟩ := extend_heap_spec h hw2 hw8 hc hcap2
      have fM := h1.blk hM
      have hM0 : M.addr ≠ 0 := by omega
      rw [hex]
      simp only [hM0, if_false]
      obtain ⟨s2, bs2, fl2, u, hpl, h2, hlo2, hbk2, hhl2, hk2, hsz, hsz1, hsz2, hmem⟩ :=
        place_spec h1 hM hMf ha2 ha1 (by omega)
      rw [hpl]
      refine ⟨s2, M.addr, rfl, Or.inr ⟨hM0, hn0, bs2, fl2, ⟨M.addr, u, 1⟩, h2,
        hlo2.trans hlo1, by omega, hhl2.trans hhl1, ?_, (hmem _).mpr (Or.inr (Or.inl rfl)), rfl,
        rfl, by simp only; omega, ?_, ?_, ?_, ?_⟩⟩
      · intro x hx hxa y hy1 hy2
        rw [hk2 x (hal1 x hx hxa) hxa y hy1 hy2]
        exact hk1 x hx hxa y hy1 hy2
      · intro x hx hxa
        refine (hmem x).mpr (Or.inl ⟨hal1 x hx hxa, fun e => ?_⟩)
        rw [e] at hxa; omega
      · intro x hx hxa
        rcases (hmem x).mp hx with ⟨hx1, _⟩ | hx1 | ⟨_, hx1⟩
        · exact Or.inr (hal1' x hx1 hxa)
        · exact Or.inl hx1
        · rw [hx1] at hxa; simp at hxa
      · intro x hx hxa e
        have := Layout.addr_inj h1.lay (hal1 x hx hxa) hM e
        rw [this] at hxa; omega
      · intro hno
        exact place_noadj h1.lay hM hMf (by omega) hmem (hna1 hno)
    · rw [extend_heap_fail hw2 (by omega) hc]
      exact ⟨s, 0, rfl, Or.inl ⟨rfl, rfl⟩⟩
  · -- a fit was found
    have fb := h.blk hb
    have hr0 : r ≠ 0 := by omega
    simp only [hr0, ne_eq, not_false_eq_true, if_true]
    obtain ⟨s2, bs2, fl2, u, hpl, h2, hlo2, hbk2, hhl2, hk2, hsz, hsz1, hsz2, hmem⟩ :=
      place_spec h hb hbf ha2 ha1 hbs
    rw [← hbr, hpl]
    refine ⟨s2, b.addr, rfl, Or.inr ⟨by omega, hn0, bs2, fl2, ⟨b.addr, u, 1⟩, h2, hlo2,
      by omega, hhl2, hk2, (hmem _).mpr (Or.inr (Or.inl rfl)), rfl, rfl, by simp only; omega,
      ?_, ?_, ?_, ?_⟩⟩
    · intro x hx hxa
      refine (hmem x).mpr (Or.inl ⟨hx, fun e => ?_⟩)
      rw [e] at hxa; omega
    · intro x hx hxa
      rcases (hmem x).mp hx with ⟨hx1, _⟩ | hx1 | ⟨_, hx1⟩
      · exact Or.inr hx1
      · exact Or.inl hx1
      · rw [hx1] at hxa; simp at hxa
    · intro x hx hxa e
      have := Layout.addr_inj h.lay hx hb e
      rw [this] at hxa; omega
    · intro hno
      exact place_noadj h.lay hb hbf (by omega) hmem hno

/-! ## `free` -/

theorem Layout.split_mem {m : Mem} {bs : List Blk} {p e : Nat} {b : Blk} (h : Layout m p bs e)
    (hb : b ∈ bs) : ∃ xs ys, bs = xs ++ ([b] ++ ys) ∧ Layout m p xs b.addr ∧
      Layout m (b.addr + b.size) ys e ∧ (∀ c, c ∈ xs ++ ys ↔ c ∈ bs ∧ c ≠ b) := by
  obtain ⟨xs, ys, hbs, hq, hr⟩ := Layout.split h hb
  refine ⟨xs, ys, hbs, hq, hr, ?_⟩
  have fb := Layout.mem h hb
  intro c
  rw [hbs]
  simp only [List.mem_append, List.mem_cons]
  constructor
  · rintro (hc | hc)
    · refine ⟨Or.inl hc, fun e => ?_⟩
      subst e
      have := Layout.mem hq hc; omega
    · refine ⟨Or.inr (Or.inr hc), fun e => ?_⟩
      subst e
      have := Layout.mem hr hc; omega
  · rintro ⟨hc | hc | hc, hcb⟩
    · exact Or.inl hc
    · exact absurd hc hcb
    · exact Or.inr hc

theorem free_null (s : State) : free s 0 = some s := rfl

theorem free_spec {s : State} {bs : List Blk} {fl : Nat → List Nat} {b : Blk}
    (h : Inv s bs fl ∅) (hb : b ∈ bs) (hba : b.alloc = 1) :
    ∃ s' bs' fl', free s b.addr = some s' ∧ Inv s' bs' fl' ∅ ∧ s'.lo = s.lo ∧
      s'.brk = s.brk ∧ s'.heap_listp = s.heap_listp ∧
      (∀ x ∈ bs, x.alloc = 1 → x ≠ b → x ∈ bs' ∧
        ∀ y, x.addr ≤ y → y < x.addr + x.size - 16 → s'.mem y = s.mem y) ∧
      (∀ x ∈ bs', x.alloc = 1 → x ∈ bs ∧ x ≠ b) ∧ (NoAdj bs → NoAdj bs') := by
  have fb := h.blk hb
  have hbrk := h.brk_lt
  have hsz : get_size s.mem (hdrp b.addr) = b.size :=
    tag_size (by omega) (by omega) fb.2.2.2.2.2.1 fb.2.2.2.1 fb.2.2.2.2.1
  obtain ⟨xs, ys, hbs, hq, hr, hne⟩ := Layout.split_mem h.lay hb
  have hcode : free s b.addr =
      match coalesce { s with mem := setTags s.mem b.addr b.size 0 } b.addr with
      | none => none
      | some (s1, _) => some s1 := by
    unfold free
    rw [if_neg (by omega)]
    simp only [hsz]
    rw [setTags_eq (by omega) (by omega) (by omega) (by omega) (by omega)]
  rw [hcode]
  obtain ⟨h1, hk1⟩ := Inv.rewrite (Y := {b.addr}) (C := [b])
    (D := [⟨b.addr, b.size, 0⟩]) h hbs hq hr
    (by
      intro x hx
      rw [setTags_outside (by omega) (by omega) (by omega)])
    (Layout_setTags (by omega) (by omega) (by omega) (by omega) (by omega))
    (by
      intro x hx hxf
      rw [List.mem_singleton] at hx
      rw [hx] at hxf; omega)
    (by simp)
    (by
      intro a ha
      simp only [Set.mem_singleton_iff, Set.mem_empty_iff_false, iff_false]
      omega)
  have hb0 : (⟨b.addr, b.size, 0⟩ : Blk) ∈ xs ++ ([⟨b.addr, b.size, 0⟩] ++ ys) := by simp
  obtain ⟨s', bs', fl', M, hco, h3, hlo3, hbk3, hhl3, hk3, hM, hMf, hM1, hM2, hmem, hal, hna⟩ :=
    coalesce_spec (b := ⟨b.addr, b.size, 0⟩) h1 hb0 rfl
  simp only at hco hlo3 hbk3 hhl3 hk3
  rw [hco]
  have hin : ∀ x, x ∈ xs ++ ys → x ∈ xs ++ ([⟨b.addr, b.size, 0⟩] ++ ys) := by
    intro x hx
    rcases List.mem_append.mp hx with hx | hx
    · exact List.mem_append_left _ hx
    · exact List.mem_append_right _ (List.mem_append_right _ hx)
  have hin' : ∀ x, x ∈ xs ++ ([⟨b.addr, b.size, 0⟩] ++ ys) →
      x = ⟨b.addr, b.size, 0⟩ ∨ x ∈ xs ++ ys := by
    intro x hx
    simp only [List.mem_append, List.mem_singleton] at hx ⊢
    rcases hx with hx | hx | hx
    · exact Or.inr (Or.inl hx)
    · exact Or.inl hx
    · exact Or.inr (Or.inr hx)
  refine ⟨s', bs', fl', rfl, h3, hlo3, hbk3, hhl3, ?_, ?_, ?_⟩
  · intro x hx hxa hxb
    have hx' := (hne x).mpr ⟨hx, hxb⟩
    refine ⟨hal x (hin x hx') hxa, fun y hy1 hy2 => ?_⟩
    rw [hk3 x (hin x hx') hxa y hy1 hy2]
    exact hk1 x hx' hxa y hy1 hy2
  · intro x hx hxa
    rcases (hmem x).mp hx with hx | ⟨hx, _⟩
    · rw [hx] at hxa; omega
    · rcases hin' x hx with hx | hx
      · rw [hx] at hxa; simp at hxa
      · exact (hne x).mp hx
  · intro hno
    apply hna
    intro x hx y hy hadj hxf hyf
    rcases hin' x hx with hx | hx
    · left; rw [hx]
    · rcases hin' y hy with hy | hy
      · right; rw [hy]
      · exact absurd hyf (fun e => hno x ((hne x).mp hx).1 y ((hne y).mp hy).1 hadj hxf e)

/-! ## `realloc` -/

/-- A write inside the payload of an allocated block keeps the invariant. -/
theorem Inv.payload_write {s : State} {bs : List Blk} {fl : Nat → List Nat} {X : Set Nat}
    {B : Blk} {g : Mem} (h : Inv s bs fl X) (hB : B ∈ bs) (hBa : B.alloc = 1)
    (hm : ∀ x, x < B.addr ∨ B.addr + B.size - 16 ≤ x → g x = s.mem x) :
    Inv { s with mem := g } bs fl X ∧
      ∀ x ∈ bs, x ≠ B → ∀ y, x.addr ≤ y → y < x.addr + x.size - 16 → g y = s.mem y := by
  have fB := h.blk hB
  have hsep : ∀ x ∈ bs, x ≠ B → x.addr + x.size ≤ B.addr ∨ B.addr + B.size ≤ x.addr := by
    intro x hx hxB
    rcases Layout.sep h.lay hx hB with hs | hs | hs
    · exact absurd hs hxB
    · exact Or.inl hs
    · exact Or.inr hs
  refine ⟨Inv.change (K := s.brk) h ⟨?_, ?_, ?_, ?_⟩ h.brk_lt ?_ ?_, ?_⟩
  · apply Layout.frame_tags h.lay
    intro x hx
    have fx := h.blk hx
    by_cases hxB : x = B
    · subst hxB
      exact ⟨get_congr (fun y hy1 hy2 => hm y (by omega)),
        get_congr (fun y hy1 hy2 => hm y (by omega))⟩
    · have := hsep x hx hxB
      exact ⟨get_congr (fun y hy1 hy2 => hm y (by omega)),
        get_congr (fun y hy1 hy2 => hm y (by omega))⟩
  · rw [← h.pro_h]; exact get_congr (fun y hy1 hy2 => hm y (by omega))
  · rw [← h.pro_f]; exact get_congr (fun y hy1 hy2 => hm y (by omega))
  · rw [← h.epi]; exact get_congr (fun y hy1 hy2 => hm y (by omega))
  · intro x hx hxf hxX
    have fx := h.blk hx
    have hxB : x ≠ B := fun e => by rw [e] at hxf; omega
    have := hsep x hx hxB
    exact ⟨hx, hxX, fun z hz1 hz2 => hm z (by omega)⟩
  · intro x hx hxf
    rcases h.fl_mem x hx hxf with h1 | h1
    · exact Or.inl h1
    · exact Or.inr ⟨hx, (h.node h1).1⟩
  · intro x hx hxB y hy1 hy2
    have fx := h.blk hx
    have := hsep x hx hxB
    exact hm y (by omega)

theorem Layout_setTags2 {m : Mem} {p a1 a2 r : Nat} (hp : 8 ≤ p) (h1 : 32 ≤ a1)
    (h1' : a1 % 16 = 0) (h2 : 32 ≤ a2) (h2' : a2 % 16 = 0) (hr : p + a1 + a2 = r)
    (hlt : r < 18446744073709551616) :
    Layout (setTags (setTags m p a1 1) (p + a1) a2 0) p [⟨p, a1, 1⟩, ⟨p + a1, a2, 0⟩] r := by
  have l1 := Layout_setTags (m := m) (p := p) (u := a1) (a := 1) hp h1 h1' (by omega)
    (by omega)
  have l2 := Layout_setTags (m := setTags m p a1 1) (p := p + a1) (u := a2) (a := 0)
    (by omega) h2 h2' (by omega) (by omega)
  rw [hr] at l2
  exact (@Layout.append _ [_] [_] _ _).mpr ⟨_,
    Layout.frame l1 (by omega) (fun x hx1 hx2 => setTags_outside (by omega) (by omega)
      (by omega)), l2⟩

/-- Cutting the stretch between `q` and `r` into an allocated block and a free
remainder, which is listed. -/
theorem split_spec {s : State} {bs : List Blk} {fl : Nat → List Nat} {X : Set Nat}
    {xs C ys : List Blk} {q r asz rest : Nat} {g : Mem} (h : Inv s bs fl X)
    (hbs : bs = xs ++ (C ++ ys)) (hq : Layout s.mem (s.lo + 32) xs q)
    (hr : Layout s.mem r ys s.brk)
    (hm : ∀ x, x + 8 < q ∨ r ≤ x + 8 → g x = s.mem x)
    (hlay : Layout g q [⟨q, asz, 1⟩, ⟨q + asz, rest, 0⟩] r)
    (hX : ∀ b ∈ C, b.alloc = 0 → b.addr ∈ X) (hXr : ∀ a ∈ X, q ≤ a ∧ a < r) :
    ∃ fl', Inv (add_to_free_list { s with mem := g } (q + asz))
        (xs ++ ([⟨q, asz, 1⟩, ⟨q + asz, rest, 0⟩] ++ ys)) fl' ∅ ∧
      (add_to_free_list { s with mem := g } (q + asz)).lo = s.lo ∧
      (add_to_free_list { s with mem := g } (q + asz)).brk = s.brk ∧
      (add_to_free_list { s with mem := g } (q + asz)).heap_listp = s.heap_listp ∧
      Keeps (xs ++ ys) s.mem (add_to_free_list { s with mem := g } (q + asz)).mem ∧
      (∀ y, q ≤ y → y < q + asz - 16 →
        (add_to_free_list { s with mem := g } (q + asz)).mem y = g y) := by
  have hl2 : 32 ≤ asz ∧ 32 ≤ rest ∧ q + asz + rest = r := by
    obtain ⟨_, h2, _, _, _, _, h7⟩ := hlay
    obtain ⟨_, h2', _, _, _, _, h7'⟩ := h7
    have : q + asz + rest = r := h7'
    exact ⟨h2, h2', this⟩
  obtain ⟨h2, hk2⟩ := Inv.rewrite (Y := {q + asz}) (C := C)
    (D := [⟨q, asz, 1⟩, ⟨q + asz, rest, 0⟩]) h hbs hq hr hm hlay hX (by simp) (by
      intro a ha
      simp only [Set.mem_singleton_iff]
      constructor
      · intro e; omega
      · intro e; have := hXr a e; omega)
  have hb2 : (⟨q + asz, rest, 0⟩ : Blk) ∈
      xs ++ ([⟨q, asz, 1⟩, ⟨q + asz, rest, 0⟩] ++ ys) := by simp
  have hb1 : (⟨q, asz, 1⟩ : Blk) ∈
      xs ++ ([⟨q, asz, 1⟩, ⟨q + asz, rest, 0⟩] ++ ys) := by simp
  have hadd := add_spec (Y := ∅) h2 hb2 rfl (by simp) (by simp)
  dsimp only at hadd
  obtain ⟨h3, hlo3, hbk3, hhl3, hk3⟩ := hadd
  refine ⟨_, h3, hlo3, hbk3, hhl3, ?_, ?_⟩
  · intro c hc hca x hx1 hx2
    refine (hk3 c ?_ hca x hx1 hx2).trans (hk2 c hc hca x hx1 hx2)
    rcases List.mem_append.mp hc with hc | hc
    · exact List.mem_append_left _ hc
    · exact List.mem_append_right _ (List.mem_append_right _ hc)
  · intro y hy1 hy2
    exact hk3 _ hb1 rfl y hy1 hy2

theorem relocate_spec {cap : Nat} {s : State} {bs : List Blk} {fl : Nat → List Nat} {b : Blk}
    {n : Nat} (h : Inv s bs fl ∅) (hb : b ∈ bs) (hba : b.alloc = 1)
    (hn : n ≤ 18446744073709551616 - 32) (hcap2 : cap < 18446744073709551616) :
    ∃ s' r, (match malloc cap s n with
      | none => none
      | some (s1, newptr) =>
        if newptr = 0 then some (s1, 0)
        else
          match free { s1 with mem := (memcpy s1.mem newptr b.addr
              (if n < b.size - 16 then n else b.size - 16)) } b.addr with
          | none => none
          | some s2 => some (s2, newptr)) = some (s', r) ∧ ReallocPost s bs b n s' r := by
  have fb := h.blk hb
  obtain ⟨s1, q, hmal, hq⟩ := @malloc_spec cap _ _ _ n h hn hcap2
  rw [hmal]
  simp only []
  rcases hq with ⟨hq0, hs1⟩ | ⟨hq0, hn0, bs1, fl1, B, h1, hlo1, _, _, hk1, hB, hBq, hBa, hBn,
    hal1, hal1', hne1, _⟩
  · rw [if_pos hq0]
    exact ⟨s1, 0, rfl, Or.inl ⟨rfl, hs1⟩⟩
  · rw [if_neg hq0]
    have fB := h1.blk hB
    have hb1 : b ∈ bs1 := hal1 b hb hba
    have hbB : b ≠ B := fun e => hne1 b hb hba (by rw [e])
    generalize hcopy : (if n < b.size - 16 then n else b.size - 16) = copy
    have hc1 : copy ≤ n := by rw [← hcopy]; split_ifs <;> omega
    have hc2 : copy ≤ b.size - 16 := by rw [← hcopy]; split_ifs <;> omega
    have hc3 : ∀ i, i < n → i < b.size - 16 → i < copy := by
      intro i h1 h2; rw [← hcopy]; split_ifs <;> omega
    obtain ⟨h1', hw⟩ := Inv.payload_write (g := memcpy s1.mem q b.addr copy) h1 hB hBa
      (by
        intro x hx
        unfold memcpy
        rw [if_neg (by omega)])
    obtain ⟨s2, bs2, fl2, hfr, h2, hlo2, _, _, hkeep2, hal2, _⟩ := free_spec h1' hb1 hba
    rw [hfr]
    refine ⟨s2, q, rfl, Or.inr ⟨hq0, bs2, fl2, B, h2, hlo2.trans hlo1,
      (hkeep2 B hB hBa (Ne.symm hbB)).1, hBq, hBa, hBn, ?_, ?_, ?_, ?_⟩⟩
    · intro x hx hxa hxb
      have hx1 := hal1 x hx hxa
      have hxB : x ≠ B := fun e => hne1 x hx hxa (by rw [e])
      refine ⟨(hkeep2 x hx1 hxa hxb).1, fun y hy1 hy2 => ?_⟩
      rw [(hkeep2 x hx1 hxa hxb).2 y hy1 hy2]
      show memcpy s1.mem q b.addr copy y = s.mem y
      rw [hw x hx1 hxB y hy1 hy2]
      exact hk1 x hx hxa y hy1 hy2
    · intro x hx hxa
      obtain ⟨hx1, hxb⟩ := hal2 x hx hxa
      rcases hal1' x hx1 hxa with e | e
      · exact Or.inl e
      · exact Or.inr ⟨e, hxb⟩
    · intro x hx hxa _
      exact hne1 x hx hxa
    · intro i hi1 hi2
      rw [(hkeep2 B hB hBa (Ne.symm hbB)).2 (q + i) (by omega) (by omega)]
      show memcpy s1.mem q b.addr copy (q + i) = s.mem (b.addr + i)
      unfold memcpy
      rw [if_pos ⟨by omega, by have := hc3 i hi1 hi2; omega⟩]
      have : q + i - q = i := by omega
      rw [this]
      exact hk1 b hb hba (b.addr + i) (by omega) (by omega)

theorem Layout.mem_split {m : Mem} {bs xs ys : List Blk} {p e : Nat} {b : Blk}
    (hbs : bs = xs ++ b :: ys) (hq : Layout m p xs b.addr)
    (hr : Layout m (b.addr + b.size) ys e) (h32 : 32 ≤ b.size) :
    ∀ c, c ∈ xs ++ ys ↔ c ∈ bs ∧ c ≠ b := by
  intro c
  rw [hbs]
  simp only [List.mem_append, List.mem_cons]
  constructor
  · rintro (hc | hc)
    · refine ⟨Or.inl hc, fun e => ?_⟩
      subst e
      have := Layout.mem hq hc; omega
    · refine ⟨Or.inr (Or.inr hc), fun e => ?_⟩
      subst e
      have := Layout.mem hr hc; omega
  · rintro ⟨hc | hc | hc, hcb⟩
    · exact Or.inl hc
    · exact absurd hc hcb
    · exact Or.inr hc

theorem realloc_size {n : Nat} (hn : n ≤ 18446744073709551616 - 32) (hn0 : n ≠ 0) :
    align (addw n (WSIZE * 2)) % 16 = 0 ∧ 32 ≤ align (addw n (WSIZE * 2)) ∧
      n + 16 ≤ align (addw n (WSIZE * 2)) ∧
      align (addw n (WSIZE * 2)) < 18446744073709551616 := by
  unfold WSIZE
  rw [addw_eq (by omega), align_eq (by omega)]
  omega

theorem realloc_spec {cap : Nat} {s : State} {bs : List Blk} {fl : Nat → List Nat} {b : Blk}
    {n : Nat} (h : Inv s bs fl ∅) (hb : b ∈ bs) (hba : b.alloc = 1)
    (hn : n ≤ 18446744073709551616 - 32) (hn0 : n ≠ 0) (hcap2 : cap < 18446744073709551616) :
    ∃ s' r, realloc cap s b.addr n = some (s', r) ∧ ReallocPost s bs b n s' r := by
  have fb := h.blk hb
  have hbrk := h.brk_lt
  have hsz : get_size s.mem (hdrp b.addr) = b.size :=
    tag_size (by omega) (by omega) fb.2.2.2.2.2.1 fb.2.2.2.1 fb.2.2.2.2.1
  obtain ⟨hs1, hs2, hs3, hs4⟩ := realloc_size hn hn0
  obtain ⟨xs, ys, hbs, hq, hr, _, _, hnext, hnx⟩ := neighbours h hb
  have hne := Layout.mem_split hbs hq hr fb.2.2.1
  have hp0 : b.addr ≠ 0 := by omega
  unfold realloc
  rw [if_neg hn0, if_neg hp0]
  simp only [hsz, hnext]
  generalize align (addw n (WSIZE * 2)) = ns at *
  by_cases hA : ns ≤ b.size
  · rw [if_pos hA, subw_eq hA (by omega)]
    by_cases hsp : 4 * WSIZE ≤ b.size - ns
    · rw [if_pos hsp]
      have hsp' : 32 ≤ b.size - ns := hsp
      have E1 := setTags_eq (m := s.mem) (p := b.addr) (u := ns) (a := 1) (by omega)
        (by omega) hs1 (by omega) (by omega)
      rw [E1]
      have E2 : next_blkp (setTags s.mem b.addr ns 1) b.addr = b.addr + ns :=
        tag_next (by omega) (by omega) (get_setTags_hdr (by omega) (by omega) (by omega)) hs1
          (by omega)
      rw [E2]
      have E3 := setTags_eq (m := setTags s.mem b.addr ns 1) (p := b.addr + ns)
        (u := b.size - ns) (a := 0) (by omega) (by omega) (by omega) (by omega) (by omega)
      rw [E3]
      obtain ⟨fl', h3, hlo3, hbk3, hhl3, hk3, hc3⟩ := split_spec (C := [b]) (r := b.addr + b.size)
        (g := setTags (setTags s.mem b.addr ns 1) (b.addr + ns) (b.size - ns) 0) h hbs hq hr
        (by
          intro x hx
          rw [setTags_outside (by omega) (by omega) (by omega),
            setTags_outside (by omega) (by omega) (by omega)])
        (Layout_setTags2 (by omega) hs2 hs1 (by omega) (by omega) (by omega) (by omega))
        (by
          intro x hx hxf
          rw [List.mem_singleton] at hx
          rw [hx] at hxf; omega)
        (by simp)
      refine ⟨_, b.addr, rfl, Or.inr ⟨hp0, _, fl', ⟨b.addr, ns, 1⟩, h3, hlo3, by simp, rfl, rfl,
        hs3, ?_, ?_, ?_, ?_⟩⟩
      · intro x hx hxa hxb
        have hx' := (hne x).mpr ⟨hx, hxb⟩
        refine ⟨?_, hk3 x hx' hxa⟩
        rcases List.mem_append.mp hx' with hx' | hx'
        · exact List.mem_append_left _ hx'
        · exact List.mem_append_right _ (List.mem_append_right _ hx')
      · intro x hx hxa
        simp only [List.mem_append, List.mem_cons, List.mem_singleton, List.not_mem_nil,
          or_false] at hx
        rcases hx with hx | (hx | hx) | hx
        · exact Or.inr ((hne x).mp (List.mem_append_left _ hx))
        · exact Or.inl hx
        · rw [hx] at hxa; simp at hxa
        · exact Or.inr ((hne x).mp (List.mem_append_right _ hx))
      · intro x hx _ hxb e
        exact hxb (Layout.addr_inj h.lay hx hb e)
      · intro i hi1 hi2
        rw [hc3 (b.addr + i) (by omega) (by omega),
          setTags_outside (by omega) (by omega) (by omega),
          setTags_outside (by omega) (by omega) (by omega)]
    · rw [if_neg hsp]
      refine ⟨s, b.addr, rfl, Or.inr ⟨hp0, bs, fl, b, h, rfl, hb, rfl, hba, by omega, ?_, ?_,
        ?_, fun _ _ _ => rfl⟩⟩
      · exact fun x hx _ _ => ⟨hx, fun _ _ _ => rfl⟩
      · intro x hx _
        by_cases hxb : x = b
        · exact Or.inl hxb
        · exact Or.inr ⟨hx, hxb⟩
      · intro x hx _ hxb e
        exact hxb (Layout.addr_inj h.lay hx hb e)
  · rw [if_neg hA]
    have hsub : subw b.size (WSIZE * 2) = b.size - 16 := by
      unfold WSIZE; rw [subw_eq (by omega) (by omega)]
    rcases hnx with ⟨hna, _⟩ | ⟨hna, d, ys', hys, hdf, hdadj, hr'⟩
    · rw [if_neg (by rw [hna]; simp), hsub]
      exact relocate_spec h hb hba hn hcap2
    · have hd : d ∈ bs := by rw [hbs, hys]; simp
      have fd := h.blk hd
      rw [hdadj] at fd
      rw [tag_size (by omega) (by omega) fd.2.2.2.2.2.1 fd.2.2.2.1 fd.2.2.2.2.1,
        addw_eq (by omega)]
      by_cases hB : ns ≤ b.size + d.size
      · rw [if_pos ⟨hna, hB⟩]
        have hbs2 : bs = xs ++ ([b, d] ++ ys') := by rw [hbs, hys]; rfl
        have hd0 := h.blk hd
        obtain ⟨s1, hrem, h1, hlo, hbk, hhl, hk1⟩ := remove_spec (Y := {d.addr}) h hd hdf
          (by simp) (by intro a; simp)
        rw [hdadj] at hrem
        rw [hrem]
        simp only []
        have fb1 := h1.blk hb
        have hlay1 := h1.lay
        rw [hlo, hbk, hbs2] at hlay1
        obtain ⟨q1, hq1, hrest⟩ := Layout.append.mp hlay1
        obtain ⟨r1, hmid1, hr1⟩ := Layout.append.mp hrest
        have hq1e : b.addr = q1 := hmid1.1
        have hr1e := Layout.sum hmid1
        simp only [List.map_cons, List.map_nil, List.sum_cons, List.sum_nil] at hr1e
        subst hq1e
        have hxy : ∀ x, x ∈ bs → x.alloc = 1 → x ≠ b → x ∈ xs ++ ys' := by
          intro x hx hxa hxb
          rw [hbs2] at hx
          simp only [List.mem_append, List.mem_cons, List.mem_singleton, List.not_mem_nil,
            or_false] at hx ⊢
          rcases hx with hx | (hx | hx) | hx
          · exact Or.inl hx
          · exact absurd hx hxb
          · rw [hx] at hxa; omega
          · exact Or.inr hx
        have hxy' : ∀ x, x ∈ xs ++ ys' → x ∈ bs ∧ x ≠ b := by
          intro x hx
          refine (hne x).mp ?_
          rw [hys]
          rcases List.mem_append.mp hx with hx | hx
          · exact List.mem_append_left _ hx
          · exact List.mem_append_right _ (List.mem_cons_of_mem _ hx)
        have E1 := setTags_eq (m := s1.mem) (p := b.addr) (u := b.size + d.size) (a := 1)
          (by omega) (by omega) (by omega) (by omega) (by omega)
        rw [E1, subw_eq hB (by omega)]
        by_cases hsp : 4 * WSIZE ≤ b.size + d.size - ns
        · rw [if_pos hsp]
          have hsp' : 32 ≤ b.size + d.size - ns := hsp
          have E2 := setTags_eq (m := setTags s1.mem b.addr (b.size + d.size) 1) (p := b.addr)
            (u := ns) (a := 1) (by omega) (by omega) hs1 (by omega) (by omega)
          rw [E2]
          have E3 : next_blkp (setTags (setTags s1.mem b.addr (b.size + d.size) 1) b.addr ns 1)
              b.addr = b.addr + ns :=
            tag_next (by omega) (by omega) (get_setTags_hdr (by omega) (by omega) (by omega))
              hs1 (by omega)
          rw [E3]
          have E4 := setTags_eq
            (m := setTags (setTags s1.mem b.addr (b.size + d.size) 1) b.addr ns 1)
            (p := b.addr + ns) (u := b.size + d.size - ns) (a := 0) (by omega) (by omega)
            (by omega) (by omega) (by omega)
          rw [E4]
          obtain ⟨fl', h3, hlo3, hbk3, hhl3, hk3, hc3⟩ := split_spec (C := [b, d]) (r := r1)
            (g := setTags (setTags (setTags s1.mem b.addr (b.size + d.size) 1) b.addr ns 1)
              (b.addr + ns) (b.size + d.size - ns) 0) h1 hbs2
            (by rw [hlo]; exact hq1) (by rw [hbk]; exact hr1)
            (by
              intro x hx
              rw [setTags_outside (by omega) (by omega) (by omega),
                setTags_outside (by omega) (by omega) (by omega),
                setTags_outside (by omega) (by omega) (by omega)])
            (Layout_setTags2 (by omega) hs2 hs1 (by omega) (by omega) (by omega) (by omega))
            (by
              intro x hx hxf
              simp only [List.mem_cons, List.mem_singleton, List.not_mem_nil, or_false] at hx
              rcases hx with hx | hx
              · rw [hx] at hxf; omega
              · rw [hx]; simp)
            (by
              intro a ha
              simp only [Set.mem_singleton_iff] at ha
              omega)
          refine ⟨_, b.addr, rfl, Or.inr ⟨hp0, _, fl', ⟨b.addr, ns, 1⟩, h3, hlo3.trans hlo,
            by simp, rfl, rfl, hs3, ?_, ?_, ?_, ?_⟩⟩
          · intro x hx hxa hxb
            have hx' := hxy x hx hxa hxb
            refine ⟨?_, fun y hy1 hy2 => ?_⟩
            · rcases List.mem_append.mp hx' with hx' | hx'
              · exact List.mem_append_left _ hx'
              · exact List.mem_append_right _ (List.mem_append_right _ hx')
            · rw [hk3 x hx' hxa y hy1 hy2]
              exact hk1 x hx hxa y hy1 hy2
          · intro x hx hxa
            simp only [List.mem_append, List.mem_cons, List.mem_singleton, List.not_mem_nil,
              or_false] at hx
            rcases hx with hx | (hx | hx) | hx
            · exact Or.inr (hxy' x (List.mem_append_left _ hx))
            · exact Or.inl hx
            · rw [hx] at hxa; simp at hxa
            · exact Or.inr (hxy' x (List.mem_append_right _ hx))
          · intro x hx _ hxb e
            exact hxb (Layout.addr_inj h.lay hx hb e)
          · intro i hi1 hi2
            rw [hc3 (b.addr + i) (by omega) (by omega),
              setTags_outside (by omega) (by omega) (by omega),
              setTags_outside (by omega) (by omega) (by omega),
              setTags_outside (by omega) (by omega) (by omega)]
            exact hk1 b hb hba (b.addr + i) (by omega) (by omega)
        · rw [if_neg hsp]
          obtain ⟨h3, hk3⟩ := Inv.rewrite (Y := ∅) (C := [b, d])
            (D := [⟨b.addr, b.size + d.size, 1⟩]) (r := r1)
            (g := setTags s1.mem b.addr (b.size + d.size) 1) h1 hbs2
            (by rw [hlo]; exact hq1) (by rw [hbk]; exact hr1)
            (by
              intro x hx
              rw [setTags_outside (by omega) (by omega) (by omega)])
            (by
              have := Layout_setTags (m := s1.mem) (p := b.addr) (u := b.size + d.size)
                (a := 1) (by omega) (by omega) (by omega) (by omega) (by omega)
              have e : b.addr + (b.size + d.size) = r1 := by omega
              rw [e] at this
              exact this)
            (by
              intro x hx hxf
              simp only [List.mem_cons, List.mem_singleton, List.not_mem_nil, or_false] at hx
              rcases hx with hx | hx
              · rw [hx] at hxf; omega
              · rw [hx]; simp)
            (by simp)
            (by
              intro a ha
              simp only [Set.mem_singleton_iff, Set.mem_empty_iff_false, false_iff]
              omega)
          refine ⟨_, b.addr, rfl, Or.inr ⟨hp0, _, _, ⟨b.addr, b.size + d.size, 1⟩, h3, hlo,
            by simp, rfl, rfl, by simp only; omega, ?_, ?_, ?_, ?_⟩⟩
          · intro x hx hxa hxb
            have hx' := hxy x hx hxa hxb
            refine ⟨?_, fun y hy1 hy2 => ?_⟩
            · rcases List.mem_append.mp hx' with hx' | hx'
              · exact List.mem_append_left _ hx'
              · exact List.mem_append_right _ (List.mem_append_right _ hx')
            · show setTags s1.mem b.addr (b.size + d.size) 1 y = s.mem y
              rw [hk3 x hx' hxa y hy1 hy2]
              exact hk1 x hx hxa y hy1 hy2
          · intro x hx hxa
            simp only [List.mem_append, List.mem_cons, List.mem_singleton, List.not_mem_nil,
              or_false] at hx
            rcases hx with hx | hx | hx
            · exact Or.inr (hxy' x (List.mem_append_left _ hx))
            · exact Or.inl hx
            · exact Or.inr (hxy' x (List.mem_append_right _ hx))
          · intro x hx _ hxb e
            exact hxb (Layout.addr_inj h.lay hx hb e)
          · intro i hi1 hi2
            show setTags s1.mem b.addr (b.size + d.size) 1 (b.addr + i) = s.mem (b.addr + i)
            rw [setTags_outside (by omega) (by omega) (by omega)]
            exact hk1 b hb hba (b.addr + i) (by omega) (by omega)
      · rw [if_neg (fun e => hB e.2), hsub]
        exact relocate_spec h hb hba hn hcap2

/-! ## One call from a well-formed world -/

theorem unlive_mem {p : Nat} {live : List (Nat × Nat)} {a : Nat × Nat} :
    a ∈ unlive p live ↔ a ∈ live ∧ a.1 ≠ p := by
  unfold unlive
  simp [List.mem_filter]

theorem unlive_nodup {p : Nat} {live : List (Nat × Nat)} (h : (live.map Prod.fst).Nodup) :
    ((unlive p live).map Prod.fst).Nodup :=
  List.Nodup.sublist (List.Sublist.map _ (List.filter_sublist _)) h

theorem malloc_step {cap : Nat} {w : World} {bs : List Blk} {fl : Nat → List Nat} {n : Nat}
    {L : List (Nat × Nat)}
    (hw : WInv w bs fl) (hn : n ≤ 18446744073709551616 - 32)
    (hcap : cap < 18446744073709551616)
    (h0 : ∀ a ∈ L, a ∈ w.live) (h0n : (L.map Prod.fst).Nodup) :
    ∃ s' r, malloc cap w.st n = some (s', r) ∧
      ((r = 0 ∧ s' = w.st) ∨
       (r ≠ 0 ∧ ∃ bs' fl' B, WInv ⟨s', (r, n) :: L⟩ bs' fl' ∧ s'.lo = w.st.lo ∧ B ∈ bs' ∧
          B.addr = r ∧ B.alloc = 1 ∧ n + 16 ≤ B.size ∧ (NoAdj bs → NoAdj bs') ∧
          Keeps bs w.st.mem s'.mem)) := by
  obtain ⟨hinv, hlive, hnd⟩ := hw
  obtain ⟨s', r, hmal, hr⟩ := @malloc_spec cap _ _ _ n hinv hn hcap
  refine ⟨s', r, hmal, ?_⟩
  rcases hr with ⟨hr0, hs⟩ | ⟨hr0, hn0, bs', fl', B, h1, hlo1, _, _, hk1, hB, hBr, hBa, hBn, hal,
    hal', hne, hna⟩
  · exact Or.inl ⟨hr0, hs⟩
  · refine Or.inr ⟨hr0, bs', fl', B, ⟨h1, ?_, ?_⟩, hlo1, hB, hBr, hBa, hBn, hna, hk1⟩
    · intro a ha
      rcases List.mem_cons.mp ha with ha | ha
      · subst ha; exact ⟨B, hB, hBr, hBa, hBn⟩
      · obtain ⟨b, hb, hb1, hb2, hb3⟩ := hlive a (h0 a ha)
        exact ⟨b, hal b hb hb2, hb1, hb2, hb3⟩
    · simp only [List.map_cons, List.nodup_cons]
      refine ⟨?_, h0n⟩
      intro hin
      obtain ⟨a, ha, ha1⟩ := List.mem_map.mp hin
      obtain ⟨b, hb, hb1, hb2, _⟩ := hlive a (h0 a ha)
      exact hne b hb hb2 (by rw [hb1, ha1, hBr])

theorem free_step {w : World} {bs : List Blk} {fl : Nat → List Nat} {p : Nat} {c : Call}
    (hw : WInv w bs fl) (hp : p = 0 ∨ p ∈ w.live.map Prod.fst) :
    ∃ s', free w.st p = some s' ∧ StepOK w bs c ⟨s', unlive p w.live⟩ 0 := by
  obtain ⟨hinv, hlive, hnd⟩ := hw
  rcases hp with hp | hp
  · subst hp
    refine ⟨w.st, rfl, bs, fl, ⟨hinv, ?_, unlive_nodup hnd⟩, rfl, fun _ h => h,
      fun h => absurd rfl h⟩
    intro a ha
    exact hlive a (unlive_mem.mp ha).1
  · obtain ⟨a0, ha0, ha01⟩ := List.mem_map.mp hp
    obtain ⟨b, hb, hb1, hb2, _⟩ := hlive a0 ha0
    obtain ⟨s', bs', fl', hfr, h1, hlo1, _, _, hkeep, _, hna⟩ := free_spec hinv hb hb2
    rw [hb1, ha01] at hfr
    refine ⟨s', hfr, bs', fl', ⟨h1, ?_, unlive_nodup hnd⟩, hlo1, fun _ => hna,
      fun h => absurd rfl h⟩
    intro a ha
    obtain ⟨ha1, ha2⟩ := unlive_mem.mp ha
    obtain ⟨x, hx, hx1, hx2, hx3⟩ := hlive a ha1
    have hxb : x ≠ b := fun e => ha2 (by rw [← hx1, e, hb1, ha01])
    exact ⟨x, (hkeep x hx hx2 hxb).1, hx1, hx2, hx3⟩

theorem calloc_step {cap : Nat} {w : World} {bs : List Blk} {fl : Nat → List Nat} {k n : Nat}
    {c : Call} (hw : WInv w bs fl)
    (hn : mulw n k ≤ 18446744073709551616 - 32) (hcap : cap < 18446744073709551616) :
    ∃ s' r, calloc cap w.st k n = some (s', r) ∧
      StepOK w bs c ⟨s', if r ≠ 0 then (r, mulw n k) :: w.live else w.live⟩ r := by
  obtain ⟨s1, r, hmal, hr⟩ := malloc_step (L := w.live) hw hn hcap
    (fun a ha => ha) hw.2.2
  unfold calloc
  simp only [hmal]
  rcases hr with ⟨hr0, hs⟩ | ⟨hr0, bs', fl', B, ⟨h1, hl1, hn1⟩, hlo1, hB, hBr, hBa, hBn, hna, _⟩
  · rw [if_neg (by simp [hr0])]
    refine ⟨s1, r, rfl, ?_⟩
    rw [if_neg (by simp [hr0]), hs]
    exact ⟨bs, fl, hw, rfl, fun _ h => h, fun h => absurd hr0 h⟩
  · rw [if_pos hr0]
    refine ⟨_, r, rfl, ?_⟩
    rw [if_pos hr0]
    obtain ⟨h3, _⟩ := Inv.payload_write (g := memset s1.mem r 0 (mulw n k)) h1 hB hBa (by
      intro x hx
      unfold memset
      rw [if_neg (by omega)])
    exact ⟨bs', fl', ⟨h3, hl1, hn1⟩, hlo1, fun _ => hna, fun _ => ⟨B, hB, hBr, hBa⟩⟩

theorem malloc_stepok {cap : Nat} {w : World} {bs : List Blk} {fl : Nat → List Nat} {n : Nat}
    {c : Call} (hw : WInv w bs fl)
    (hn : n ≤ 18446744073709551616 - 32) (hcap : cap < 18446744073709551616) :
    ∃ s' r, malloc cap w.st n = some (s', r) ∧
      StepOK w bs c ⟨s', if r ≠ 0 then (r, n) :: w.live else w.live⟩ r := by
  obtain ⟨s1, r, hmal, hr⟩ := malloc_step (L := w.live) hw hn hcap
    (fun a ha => ha) hw.2.2
  refine ⟨s1, r, hmal, ?_⟩
  rcases hr with ⟨hr0, hs⟩ | ⟨hr0, bs', fl', B, hw1, hlo1, hB, hBr, hBa, hBn, hna, _⟩
  · rw [if_neg (by simp [hr0]), hs]
    exact ⟨bs, fl, hw, rfl, fun _ h => h, fun h => absurd hr0 h⟩
  · rw [if_pos hr0]
    exact ⟨bs', fl', hw1, hlo1, fun _ => hna, fun _ => ⟨B, hB, hBr, hBa⟩⟩

theorem realloc_step {cap : Nat} {w : World} {bs : List Blk} {fl : Nat → List Nat} {p n : Nat}
    (hw : WInv w bs fl) (hp : p = 0 ∨ p ∈ w.live.map Prod.fst)
    (hn : n ≤ 18446744073709551616 - 32) (hcap : cap < 18446744073709551616) :
    ∃ s' r, realloc cap w.st p n = some (s', r) ∧
      StepOK w bs (.realloc p n) ⟨s', if n = 0 then unlive p w.live
        else if r ≠ 0 then (r, n) :: unlive p w.live else w.live⟩ r := by
  by_cases hn0 : n = 0
  · subst hn0
    obtain ⟨s', hfr, hok⟩ := free_step (c := .realloc p 0) hw hp
    refine ⟨s', 0, ?_, ?_⟩
    · unfold realloc; rw [if_pos rfl, hfr]
    · rw [if_pos rfl]; exact hok
  · by_cases hp0 : p = 0
    · subst hp0
      obtain ⟨s1, r, hmal, hr⟩ := malloc_step (n := n) (L := unlive 0 w.live) hw hn hcap
        (fun a ha => (unlive_mem.mp ha).1) (unlive_nodup hw.2.2)
      refine ⟨s1, r, ?_, ?_⟩
      · unfold realloc; rw [if_neg hn0, if_pos rfl, hmal]
      · rcases hr with ⟨hr0, hs⟩ | ⟨hr0, bs', fl', B, hw1, hlo1, hB, hBr, hBa, hBn, _, _⟩
        · rw [if_neg hn0, if_neg (by simp [hr0]), hs]
          exact ⟨bs, fl, hw, rfl, fun h => absurd rfl (h 0 n), fun h => absurd hr0 h⟩
        · rw [if_neg hn0, if_pos hr0]
          exact ⟨bs', fl', hw1, hlo1, fun h => absurd rfl (h 0 n), fun _ => ⟨B, hB, hBr, hBa⟩⟩
    · have hp' : p ∈ w.live.map Prod.fst := hp.resolve_left hp0
      obtain ⟨hinv, hlive, hnd⟩ := hw
      obtain ⟨a0, ha0, ha01⟩ := List.mem_map.mp hp'
      obtain ⟨b, hb, hb1, hb2, _⟩ := hlive a0 ha0
      obtain ⟨s', r, hre, hpost⟩ := @realloc_spec cap _ _ _ _ n hinv hb hb2 hn hn0 hcap
      rw [hb1, ha01] at hre
      refine ⟨s', r, hre, ?_⟩
      rcases hpost with ⟨hr0, hs⟩ | ⟨hr0, bs', fl', B, h1, hlo1, hB, hBr, hBa, hBn, hkeep, _,
        hne, _⟩
      · rw [if_neg hn0, if_neg (by simp [hr0]), hs]
        exact ⟨bs, fl, ⟨hinv, hlive, hnd⟩, rfl, fun h => absurd rfl (h p n),
          fun h => absurd hr0 h⟩
      · rw [if_neg hn0, if_pos hr0]
        refine ⟨bs', fl', ⟨h1, ?_, ?_⟩, hlo1, fun h => absurd rfl (h p n),
          fun _ => ⟨B, hB, hBr, hBa⟩⟩
        · intro a ha
          rcases List.mem_cons.mp ha with ha | ha
          · subst ha; exact ⟨B, hB, hBr, hBa, hBn⟩
          · obtain ⟨ha1, ha2⟩ := unlive_mem.mp ha
            obtain ⟨x, hx, hx1, hx2, hx3⟩ := hlive a ha1
            have hxb : x ≠ b := fun e => ha2 (by rw [← hx1, e, hb1, ha01])
            exact ⟨x, (hkeep x hx hx2 hxb).1, hx1, hx2, hx3⟩
        · simp only [List.map_cons, List.nodup_cons]
          refine ⟨?_, unlive_nodup hnd⟩
          intro hin
          obtain ⟨a, ha, ha1'⟩ := List.mem_map.mp hin
          obtain ⟨ha1, ha2⟩ := unlive_mem.mp ha
          obtain ⟨x, hx, hx1, hx2, _⟩ := hlive a ha1
          have hxb : x ≠ b := fun e => ha2 (by rw [← hx1, e, hb1, ha01])
          exact hne x hx hx2 hxb (by rw [hx1, ha1', hBr])

/-- Every valid call of at most `2^64 - 32` bytes returns, and leaves a
well-formed world. -/
theorem exec_spec {cap : Nat} {w : World} {bs : List Blk} {fl : Nat → List Nat} {c : Call}
    (hw : WInv w bs fl) (hv : Valid w c) (hs : SmallCall c)
    (hcap : cap < 18446744073709551616) :
    ∃ w' r, exec cap w c = some (w', r) ∧ StepOK w bs c w' r := by
  cases c with
  | malloc n =>
    obtain ⟨s', r, h1, h2⟩ := malloc_stepok (c := .malloc n) hw hs hcap
    exact ⟨_, r, by simp only [exec, h1], h2⟩
  | calloc k n =>
    obtain ⟨s', r, h1, h2⟩ := calloc_step (c := .calloc k n) hw hs hcap
    exact ⟨_, r, by simp only [exec, h1], h2⟩
  | free p =>
    obtain ⟨s', h1, h2⟩ := free_step (c := .free p) hw hv
    exact ⟨_, 0, by simp only [exec, h1], h2⟩
  | realloc p n =>
    obtain ⟨s', r, h1, h2⟩ := realloc_step hw hv.1 hs hcap
    exact ⟨_, r, by simp only [exec, h1], h2⟩

/-! ## Reachable worlds are well formed -/

theorem reach_winv {adm : Call → Prop} {w : World} (hadm : ∀ c, adm c → SmallCall c)
    (hr : Reach adm w) :
    ∃ bs fl, WInv w bs fl ∧ ((∀ c, adm c → ∀ p n, c ≠ .realloc p n) → NoAdj bs) := by
  induction hr with
  | init s s' cap hs hcap hinit =>
    by_cases hc : s.lo + 32 + 2048 ≤ cap
    · obtain ⟨s2, bs, fl, h1, h2, _, _, h3, _⟩ := mm_init_spec hs hcap hc
      rw [h1] at hinit
      simp only [Option.some.injEq, Prod.mk.injEq, and_true] at hinit
      subst hinit
      exact ⟨bs, fl, ⟨h2, fun a ha => by simp at ha, by simp⟩, fun _ => h3⟩
    · obtain ⟨s2, h1⟩ := @mm_init_fail cap _ hs hc
      rw [h1] at hinit
      simp at hinit
  | step w w' c cap r _ hv hc hcap hex ih =>
    obtain ⟨bs, fl, hw, hna⟩ := ih
    obtain ⟨w2, r2, hex2, bs', fl', hw', _, hna', _⟩ := exec_spec hw hv (hadm c hc) hcap
    rw [hex2] at hex
    simp only [Option.some.injEq, Prod.mk.injEq] at hex
    obtain ⟨rfl, rfl⟩ := hex
    exact ⟨bs', fl', hw', fun h => hna' (h c hc) (hna h)⟩

/-! ## What the observers see in a well-formed state -/

theorem Layout.length_le {m : Mem} : ∀ {bs : List Blk} {p e : Nat}, Layout m p bs e →
    p + 32 * bs.length ≤ e
  | [], p, e, h => by simp [Layout] at h; simp [h]
  | b :: bs, p, e, h => by
    obtain ⟨_, h2, _, _, _, _, h7⟩ := h
    have := Layout.length_le h7
    simp only [List.length_cons]
    omega

theorem walk_layout {m : Mem} : ∀ {bs : List Blk} {p e F : Nat}, Layout m p bs e →
    get m (e - 8) = 1 → 8 ≤ p → e < 18446744073709551616 → bs.length < F →
    walk m F p = some (bs.map Blk.addr, e)
  | [], p, e, F, h, hepi, hp, he, hf => by
    obtain ⟨f, rfl⟩ : ∃ f, F = f + 1 := ⟨F - 1, by simp at hf; omega⟩
    have hpe : p = e := h
    subst hpe
    have : get_size m (hdrp p) = 0 :=
      tag_size (u := 0) (a := 1) hp he (by rw [hepi]) (by omega) (by omega)
    simp [walk, this]
  | b :: bs, p, e, F, h, hepi, hp, he, hf => by
    obtain ⟨f, rfl⟩ : ∃ f, F = f + 1 := ⟨F - 1, by simp at hf; omega⟩
    obtain ⟨h1, h2, h3, h4, h5, h6, h7⟩ := h
    have hle := Layout.le h7
    have hsz : get_size m (hdrp p) = b.size := tag_size hp (by omega) h5 h3 h4
    have hnx : next_blkp m p = p + b.size := tag_next hp (by omega) h5 h3 h4
    have ih := walk_layout (F := f) h7 hepi (by omega) he (by simp at hf; omega)
    simp only [walk, hsz, hnx, ih, List.map_cons, h1]
    rw [if_neg (by omega)]

theorem heap_blocks_inv {s : State} {bs : List Blk} {fl : Nat → List Nat} {X : Set Nat}
    (h : Inv s bs fl X) : heap_blocks s = some (bs.map Blk.addr, s.brk) := by
  have hbrk := h.brk_lt
  have hle := Layout.le h.lay
  have hlen := Layout.length_le h.lay
  unfold heap_blocks
  have hnx : next_blkp s.mem s.heap_listp = s.lo + 32 := by
    rw [h.hl, tag_next (u := 16) (a := 1) (by omega) (by omega)
      (by
        have : s.lo + 16 - 8 = s.lo + 8 := by omega
        rw [this]; exact h.pro_h) (by omega) (by omega)]
  rw [hnx]
  exact walk_layout h.lay h.epi (by omega) hbrk (by unfold FUEL; omega)

theorem list_walk_chain {m : Mem} : ∀ {l : List Nat} {prev F : Nat}, Chain m prev l 0 →
    (∀ x ∈ l, x ≠ 0 ∧ x + 8 < 18446744073709551616) → l.length < F →
    list_walk m F (l.headD 0) = some l
  | [], prev, F, _, _, hf => by
    obtain ⟨f, rfl⟩ : ∃ f, F = f + 1 := ⟨F - 1, by simp at hf; omega⟩
    simp [list_walk]
  | x :: l, prev, F, h, hx, hf => by
    obtain ⟨f, rfl⟩ : ∃ f, F = f + 1 := ⟨F - 1, by simp at hf; omega⟩
    obtain ⟨h1, h2, h3⟩ := h
    have hx0 := hx x (List.mem_cons_self _ _)
    have hsucc : get_succ m x = l.headD 0 := by
      unfold get_succ succ_ptr WSIZE; rw [addw_eq (by omega)]; exact h2
    have ih := list_walk_chain (F := f) h3 (fun z hz => hx z (List.mem_cons_of_mem _ hz))
      (by simp at hf; omega)
    simp only [list_walk, List.headD_cons, if_neg hx0.1, hsucc, ih]

theorem list_nodes_inv {s : State} {bs : List Blk} {fl : Nat → List Nat} {X : Set Nat}
    (h : Inv s bs fl X) {i : Nat} (hi : i < 11) : list_nodes s i = some (fl i) := by
  unfold list_nodes
  rw [h.heads i hi]
  exact list_walk_chain (h.chain i)
    (fun x hx => ⟨(h.node_bound hx).1, (h.node_bound hx).2.1⟩) (h.length_lt i)

theorem aligned_of_mod {p : Nat} (h : p % 16 = 0) (h2 : p + 15 < 18446744073709551616) :
    aligned p = true := by
  unfold aligned
  rw [align_eq h2]
  simp only [decide_eq_true_eq]
  omega

theorem check_blocks_layout {m : Mem} : ∀ {bs : List Blk} {p e F : Nat}, Layout m p bs e →
    get m (e - 8) = 1 → 8 ≤ p → p % 16 = 0 → e < 18446744073709551616 →
    bs.length < F → check_blocks m F p = some true
  | [], p, e, F, h, hepi, hp, _, he, hf => by
    obtain ⟨f, rfl⟩ : ∃ f, F = f + 1 := ⟨F - 1, by simp at hf; omega⟩
    have hpe : p = e := h
    subst hpe
    have h1 : get_size m (hdrp p) = 0 :=
      tag_size (u := 0) (a := 1) hp (by omega) (by rw [hepi]) (by omega) (by omega)
    have h2 : get_alloc m (hdrp p) = 1 :=
      tag_alloc (u := 0) (a := 1) hp (by omega) (by rw [hepi]) (by omega) (by omega)
    simp [check_blocks, h1, h2]
  | b :: bs, p, e, F, h, hepi, hp, hal, he, hf => by
    obtain ⟨f, rfl⟩ : ∃ f, F = f + 1 := ⟨F - 1, by simp at hf; omega⟩
    obtain ⟨h1, h2, h3, h4, h5, h6, h7⟩ := h
    have hle := Layout.le h7
    have hsz : get_size m (hdrp p) = b.size := tag_size hp (by omega) h5 h3 h4
    have hnx : next_blkp m p = p + b.size := tag_next hp (by omega) h5 h3 h4
    have hft : ftrp m p = p + b.size - 16 := tag_ftrp hp (by omega) h5 h3 h4 (by omega)
    have ih := check_blocks_layout (F := f) h7 hepi (by omega) (by omega) he
      (by simp at hf; omega)
    have hcmp : get m (hdrp p) = get m (ftrp m p) := by
      rw [hft, hdrp_eq hp (by omega), h5, h6]
    have hpos : 0 < get_size m (hdrp p) := by omega
    unfold check_blocks
    rw [if_pos hpos, aligned_of_mod hal (by omega), hnx, ih]
    simp [hcmp]

theorem checkheap_inv {s : State} {bs : List Blk} {fl : Nat → List Nat} {X : Set Nat}
    (h : Inv s bs fl X) (hal : s.lo % 16 = 0) : mm_checkheap true s = some true := by
  have hhi := h.brk_lt
  have hle := Layout.le h.lay
  have hlen := Layout.length_le h.lay
  have hp8 : s.lo + 16 - 8 = s.lo + 8 := by omega
  have h1 : get_size s.mem (hdrp s.heap_listp) = 16 := by
    rw [h.hl]
    exact tag_size (u := 16) (a := 1) (by omega) (by omega) (by rw [hp8]; exact h.pro_h)
      (by omega) (by omega)
  have h2 : get_alloc s.mem (hdrp s.heap_listp) = 1 := by
    rw [h.hl]
    exact tag_alloc (u := 16) (a := 1) (by omega) (by omega) (by rw [hp8]; exact h.pro_h)
      (by omega) (by omega)
  have hnx : next_blkp s.mem s.heap_listp = s.lo + 32 := by
    rw [h.hl, tag_next (u := 16) (a := 1) (by omega) (by omega)
      (by rw [hp8]; exact h.pro_h) (by omega) (by omega)]
  have hft : ftrp s.mem s.heap_listp = s.lo + 16 := by
    rw [h.hl, tag_ftrp (u := 16) (a := 1) (by omega) (by omega)
      (by rw [hp8]; exact h.pro_h) (by omega) (by omega) (by omega)]
    omega
  have hhd : hdrp s.heap_listp = s.lo + 8 := by
    rw [h.hl, hdrp_eq (by omega) (by omega)]; omega
  obtain ⟨f, hF, hf⟩ : ∃ f, FUEL = f + 1 ∧ bs.length < f :=
    ⟨FUEL - 1, by unfold FUEL; omega, by unfold FUEL; omega⟩
  have hrest := check_blocks_layout (F := f) h.lay h.epi (by omega) (by omega) hhi hf
  have hcmp : get s.mem (hdrp s.heap_listp) = get s.mem (ftrp s.mem s.heap_listp) := by
    rw [hft, hhd, h.pro_h, h.pro_f]
  unfold mm_checkheap
  rw [if_pos rfl, if_neg (by rw [h1, h2]; unfold WSIZE; omega), hF]
  unfold check_blocks
  rw [if_pos (by omega), aligned_of_mod (by rw [h.hl]; omega) (by rw [h.hl]; omega), hnx, hrest]
  simp [hcmp]

/-! ## Concrete runs are reachable worlds -/

theorem valid_sound {w : World} {c : Call} (h : valid w c = true) : Valid w c := by
  cases c with
  | malloc n => simpa [valid, Valid] using h
  | calloc k n => simpa [valid, Valid] using h
  | free p => simpa [valid, Valid] using h
  | realloc p n => simpa [valid, Valid] using h

theorem run_reach {adm : Call → Prop} {cap : Nat} (hcap : cap < 18446744073709551616) :
    ∀ (cs : List Call) (w w' : World), Reach adm w → (∀ c ∈ cs, adm c) →
      run cap w cs = some w' → Reach adm w'
  | [], w, w', hr, _, h => by
    simp only [run, Option.some.injEq] at h
    subst h
    exact hr
  | c :: cs, w, w', hr, ha, h => by
    unfold run at h
    by_cases hv : valid w c = true
    · rw [if_pos hv] at h
      cases hex : exec cap w c with
      | none => rw [hex] at h; simp at h
      | some x =>
        obtain ⟨w1, r⟩ := x
        rw [hex] at h
        exact run_reach hcap cs w1 w'
          (Reach.step w w1 c cap r hr (valid_sound hv) (ha c (List.mem_cons_self _ _)) hcap hex)
          (fun d hd => ha d (List.mem_cons_of_mem _ hd)) h
    · rw [if_neg hv] at h
      simp at h

/-- A concrete run that succeeds ends in a reachable world. -/
theorem world_reach {adm : Call → Prop} {s : State} {cs : List Call} (hs : s.brk = s.lo)
    (ha : ∀ c ∈ cs, adm c) (h : (session LIMIT s cs).isSome = true) :
    Reach adm (world s cs) := by
  unfold world
  cases hse : session LIMIT s cs with
  | none => rw [hse] at h; simp at h
  | some w =>
    rw [Option.getD_some]
    unfold session at hse
    cases hb : boot LIMIT s with
    | none => rw [hb] at hse; simp at hse
    | some w0 =>
      rw [hb] at hse
      unfold boot at hb
      cases hi : mm_init LIMIT s with
      | none => rw [hi] at hb; simp at hb
      | some x =>
        obtain ⟨s', ok⟩ := x
        rw [hi] at hb
        cases ok with
        | false => simp at hb
        | true =>
          simp only [Option.some.injEq] at hb
          subst hb
          exact run_reach (by decide) cs _ _ (Reach.init s s' LIMIT hs (by decide) hi) ha hse

/-! ## What a well-formed world shows to the observers -/

/-- A live pointer is a block with room for the bytes requested, and its bytes
hold no boundary tag. -/
theorem live_clear {w : World} {bs : List Blk} {fl : Nat → List Nat} (hw : WInv w bs fl)
    {a : Nat × Nat} (ha : a ∈ w.live) :
    ∃ b ∈ bs, b.addr = a.1 ∧ a.2 + 16 ≤ b.size ∧
      ∃ tags, tag_words w.st = some tags ∧ ∀ t ∈ tags, t + 8 ≤ a.1 ∨ a.1 + a.2 ≤ t := by
  obtain ⟨h, hlive, _⟩ := hw
  obtain ⟨x, hx, hx1, _, hx3⟩ := hlive a ha
  have fx := Layout.mem h.lay hx
  have hbrk := h.brk_lt
  refine ⟨x, hx, hx1, hx3, ?_⟩
  simp only [tag_words, heap_blocks_inv h]
  refine ⟨_, rfl, ?_⟩
  have hp8 : w.st.lo + 16 - 8 = w.st.lo + 8 := by omega
  have e1 : hdrp w.st.heap_listp = w.st.lo + 8 := by
    rw [h.hl, hdrp_eq (by omega) (by omega)]; omega
  have e2 : ftrp w.st.mem w.st.heap_listp = w.st.lo + 16 := by
    rw [h.hl, tag_ftrp (m := w.st.mem) (p := w.st.lo + 16) (u := 16) (a := 1) (by omega)
      (by omega) (by rw [hp8]; exact h.pro_h) (by omega) (by omega) (by omega)]
    omega
  have e3 : hdrp w.st.brk = w.st.brk - 8 := hdrp_eq (by omega) hbrk
  have hblk : ∀ c ∈ bs, (hdrp c.addr + 8 ≤ a.1 ∨ a.1 + a.2 ≤ hdrp c.addr) ∧
      (ftrp w.st.mem c.addr + 8 ≤ a.1 ∨ a.1 + a.2 ≤ ftrp w.st.mem c.addr) := by
    intro c hc
    have fc := Layout.mem h.lay hc
    rw [hdrp_eq (by omega) (by omega),
      tag_ftrp (by omega) (by omega) fc.2.2.2.2.2.1 fc.2.2.2.1 fc.2.2.2.2.1 (by omega)]
    rcases Layout.sep h.lay hx hc with e | e | e
    · subst e; omega
    · omega
    · omega
  intro t ht
  simp only [List.mem_cons, List.mem_append, List.mem_map] at ht
  rcases ht with e | e | e | ⟨p, ⟨c, hc, rfl⟩, rfl⟩ | ⟨p, ⟨c, hc, rfl⟩, rfl⟩
  · rw [e, e1]; omega
  · rw [e, e2]; omega
  · rw [e, e3]; omega
  · exact (hblk c hc).1
  · exact (hblk c hc).2

/-- The header of a block, as the observers read it. -/
theorem header_of {s : State} {bs : List Blk} {fl : Nat → List Nat} {X : Set Nat} {b : Blk}
    (h : Inv s bs fl X) (hb : b ∈ bs) :
    get_size s.mem (hdrp b.addr) = b.size ∧ get_alloc s.mem (hdrp b.addr) = b.alloc := by
  have fb := Layout.mem h.lay hb
  have hbrk := h.brk_lt
  exact ⟨tag_size (by omega) (by omega) fb.2.2.2.2.2.1 fb.2.2.2.1 fb.2.2.2.2.1,
    tag_alloc (by omega) (by omega) fb.2.2.2.2.2.1 fb.2.2.2.1 fb.2.2.2.2.1⟩

theorem noadjfree_of_inv {s : State} {bs : List Blk} {fl : Nat → List Nat} {X : Set Nat}
    (h : Inv s bs fl X) (hna : NoAdj bs) : NoAdjFree s := by
  refine ⟨bs.map Blk.addr, s.brk, heap_blocks_inv h, ?_⟩
  rintro p hp ⟨h1, h2⟩
  obtain ⟨b, hb, rfl⟩ := List.mem_map.mp hp
  obtain ⟨xs, ys, hbs, _, _, _, _, hnext, hnx⟩ := neighbours h hb
  rw [hnext] at h2
  rw [(header_of h hb).2] at h1
  rcases hnx with ⟨h3, _⟩ | ⟨_, d, ys', hys, hd0, hd1, _⟩
  · rw [h3] at h2
    exact absurd h2 (by decide)
  · refine hna b hb d ?_ hd1.symm h1 hd0
    rw [hbs, hys]
    simp

theorem registry_of_inv {s : State} {bs : List Blk} {fl : Nat → List Nat}
    (h : Inv s bs fl ∅) : Registry s := by
  refine ⟨bs.map Blk.addr, s.brk, fl, heap_blocks_inv h, fun i hi => list_nodes_inv h hi, ?_⟩
  intro p hp
  obtain ⟨b, hb, rfl⟩ := List.mem_map.mp hp
  obtain ⟨hsz, hal⟩ := header_of h hb
  rw [hsz, hal]
  have hin : ∀ j, b.addr ∈ fl j → b.alloc = 0 ∧ get_list_index b.size = j := by
    intro j hj
    obtain ⟨_, c, hc, hc1, hc2, hc3⟩ := h.mem_fl j b.addr hj
    have e := Layout.addr_inj h.lay hc hb hc1
    subst e
    exact ⟨hc2, hc3⟩
  constructor
  · intro h0
    constructor
    · rcases h.fl_mem b hb h0 with hX | hX
      · exact absurd hX (by simp)
      · exact List.count_eq_one_of_mem (h.nodup _) hX
    · intro j _ hj hmem
      exact hj (hin j hmem).2.symm
  · intro h1 j _ hmem
    exact h1 (hin j hmem).1

theorem accounting_of_inv {s : State} {bs : List Blk} {fl : Nat → List Nat} {X : Set Nat}
    (h : Inv s bs fl X) : SizeAccounting s := by
  have hbrk := h.brk_lt
  have hle := Layout.le h.lay
  have e3 : hdrp s.brk = s.brk - 8 := hdrp_eq (by omega) hbrk
  refine ⟨bs.map Blk.addr, heap_blocks_inv h, by rw [e3]; omega, ?_, ?_⟩
  · rw [e3]
    exact get_alloc_eq (u := 0) (a := 1) (by rw [h.epi]) (by omega) (by omega)
  · have hmap : (bs.map Blk.addr).map (fun p => get_size s.mem (hdrp p)) = bs.map Blk.size := by
      rw [List.map_map]
      apply List.map_congr_left
      intro b hb
      exact (header_of h hb).1
    rw [hmap]
    have := Layout.sum h.lay
    omega

theorem sizes_of_inv {s : State} {bs : List Blk} {fl : Nat → List Nat} {X : Set Nat}
    (h : Inv s bs fl X) : BlockSizes s := by
  refine ⟨bs.map Blk.addr, s.brk, heap_blocks_inv h, ?_⟩
  intro p hp
  obtain ⟨b, hb, rfl⟩ := List.mem_map.mp hp
  have fb := Layout.mem h.lay hb
  rw [(header_of h hb).1]
  exact ⟨fb.2.2.2.1, fb.2.2.1⟩

section Claims1

set_option maxRecDepth 1000000

/-! ## C1: live allocations do not overlap -/

/-- C1, with every requested size at most `2^64 - 32`: in every world reached
from a successful `mm_init` by valid calls, any two distinct live pointers have
disjoint byte ranges and neither range holds a header or footer word. -/
theorem C1_no_overlap (w : World) (hr : Reach SmallCall w) : NoOverlap w := by
  obtain ⟨bs, fl, hw, _⟩ := reach_winv (fun c hc => hc) hr
  intro a ha b hb hab
  obtain ⟨x, hx, hx1, hx2, tx, htx, hcx⟩ := live_clear hw ha
  obtain ⟨y, hy, hy1, hy2, ty, hty, hcy⟩ := live_clear hw hb
  rw [htx] at hty
  simp only [Option.some.injEq] at hty
  subst hty
  refine ⟨?_, tx, htx, fun t ht => ⟨hcx t ht, hcy t ht⟩⟩
  have fx := Layout.mem hw.1.lay hx
  have fy := Layout.mem hw.1.lay hy
  rcases Layout.sep hw.1.lay hx hy with e | e | e
  · subst e
    exact absurd (hx1.symm.trans hy1) hab
  · left; omega
  · right; omega

theorem C1_no_overlap_witness :
    Reach SmallCall (world zeroed [.malloc 100, .malloc 24]) ∧
      NoOverlap (world zeroed [.malloc 100, .malloc 24]) :=
  ⟨world_reach rfl (by simp [SmallCall]) (by decide),
    C1_no_overlap _ (world_reach rfl (by simp [SmallCall]) (by decide))⟩

/-- C1 fails when a size wraps around: after `malloc(2^64 - 1)` and `malloc(1)`
the two live pointers are 4128 and 4144, and the range of the first, which
starts at 4128 and has `2^64 - 1` bytes, contains the second. -/
theorem C1_overlap_counterexample :
    Reach AnyCall (world zeroed [.malloc 18446744073709551615, .malloc 1]) ∧
      (world zeroed [.malloc 18446744073709551615, .malloc 1]).live =
        [(4144, 1), (4128, 18446744073709551615)] ∧
      ¬ NoOverlap (world zeroed [.malloc 18446744073709551615, .malloc 1]) := by
  have hl : (world zeroed [.malloc 18446744073709551615, .malloc 1]).live =
      [(4144, 1), (4128, 18446744073709551615)] := by decide
  refine ⟨world_reach rfl (fun _ _ => trivial) (by decide), hl, ?_⟩
  intro h
  have h1 := (h (4128, 18446744073709551615) (by rw [hl]; simp) (4144, 1) (by rw [hl]; simp)
    (by decide)).1
  simp at h1

/-! ## C2: returned pointers are aligned -/

/-- C2, with every requested size at most `2^64 - 32`: when the region starts
at a multiple of 16, every valid call in a reachable world returns, and the
pointer it returns is a multiple of 16 (`NULL` is 0). -/
theorem C2_returned_pointer_aligned (w : World) (c : Call) (cap : Nat)
    (hr : Reach SmallCall w) (hal : w.st.lo % 16 = 0) (hv : Valid w c) (hs : SmallCall c)
    (hcap : cap < 18446744073709551616) :
    ∃ w' r, exec cap w c = some (w', r) ∧ r % 16 = 0 := by
  obtain ⟨bs, fl, hw, _⟩ := reach_winv (fun c hc => hc) hr
  obtain ⟨w', r, hex, bs', fl', hw', hlo, _, hret⟩ := exec_spec hw hv hs hcap
  refine ⟨w', r, hex, ?_⟩
  by_cases h0 : r = 0
  · rw [h0]
  · obtain ⟨b, hb, hb1, _⟩ := hret h0
    have := (Layout.mod hw'.1.lay).2 b hb
    omega

theorem C2_returned_pointer_aligned_witness :
    ∃ w' r, exec LIMIT (world zeroed [.malloc 100]) (.malloc 24) = some (w', r) ∧ r % 16 = 0 :=
  C2_returned_pointer_aligned (world zeroed [.malloc 100]) (.malloc 24) LIMIT
    (world_reach rfl (by simp [SmallCall]) (by decide)) (by decide)
    (by simp [Valid]) (by simp [SmallCall]) (by decide)

/-- C2 fails when a size wraps around: in a region that starts at 4096 and
whose memory holds two words of an earlier use, the calls `a = malloc(100)`,
`b = malloc(100)`, `realloc(b, 2^64 - 16)`, `realloc(a, 113)`, `free(b)`,
`realloc(a, 241)` lead to a world in which `malloc(100)` returns 5128, which
is not a multiple of 16. -/
theorem C2_misaligned_counterexample :
    Reach AnyCall (world stale [.malloc 100, .malloc 100, .realloc 4256 18446744073709551600,
        .realloc 4128 113, .free 4256, .realloc 4128 241]) ∧
      (world stale [.malloc 100, .malloc 100, .realloc 4256 18446744073709551600,
        .realloc 4128 113, .free 4256, .realloc 4128 241]).st.lo % 16 = 0 ∧
      (exec LIMIT (world stale [.malloc 100, .malloc 100, .realloc 4256 18446744073709551600,
        .realloc 4128 113, .free 4256, .realloc 4128 241]) (.malloc 100)).map Prod.snd =
        some 5128 ∧
      5128 % 16 ≠ 0 :=
  ⟨world_reach rfl (fun _ _ => trivial) (by decide), by decide, by decide, by decide⟩

/-! ## C3: `realloc` keeps the contents -/

/-- C3, for `n` at most `2^64 - 32` in a world reached with such sizes:
`realloc(p, n)` of a live pointer `p` with `n > 0` returns, and if it returns
`q ≠ NULL` then the first `min(n, oldsize - 16)` bytes at `q` after the call are
the bytes at `p` before the call. -/
theorem C3_realloc_keeps_contents (w : World) (p n cap : Nat) (hr : Reach SmallCall w)
    (hp : p ∈ w.live.map Prod.fst) (hn0 : 0 < n) (hn : n ≤ 18446744073709551616 - 32)
    (hcap : cap < 18446744073709551616) :
    ∃ s' q, realloc cap w.st p n = some (s', q) ∧
      (q ≠ 0 → ∀ i, i < min n (get_size w.st.mem (hdrp p) - 16) →
        s'.mem (q + i) = w.st.mem (p + i)) := by
  obtain ⟨bs, fl, hw, _⟩ := reach_winv (fun c hc => hc) hr
  obtain ⟨a, ha, rfl⟩ := List.mem_map.mp hp
  obtain ⟨b, hb, hb1, hb2, _⟩ := hw.2.1 a ha
  obtain ⟨s', q, hre, hpost⟩ := @realloc_spec cap _ _ _ _ n hw.1 hb hb2 hn (by omega) hcap
  rw [hb1] at hre
  refine ⟨s', q, hre, ?_⟩
  intro hq i hi
  rw [← hb1, (header_of hw.1 hb).1] at hi
  rcases hpost with ⟨h0, _⟩ | ⟨_, _, _, _, _, _, _, _, _, _, _, _, _, hkeep⟩
  · exact absurd h0 hq
  · rw [← hb1]
    exact hkeep i (by omega) (by omega)

theorem C3_realloc_keeps_contents_witness :
    ∃ s' q, realloc LIMIT (world zeroed [.malloc 100]).st 4128 300 = some (s', q) ∧
      (q ≠ 0 → ∀ i, i < min 300 (get_size (world zeroed [.malloc 100]).st.mem (hdrp 4128) - 16) →
        s'.mem (q + i) = (world zeroed [.malloc 100]).st.mem (4128 + i)) :=
  C3_realloc_keeps_contents (world zeroed [.malloc 100]) 4128 300 LIMIT
    (world_reach rfl (by simp [SmallCall]) (by decide)) (by decide) (by decide) (by decide)
    (by decide)

/-- C3 fails when the size wraps around: with `p = malloc(17)` live at 4128 in
a block of 48 bytes, `realloc(p, 2^64 - 1)` returns `p`, and the first byte at
`p`, which was 0, is 17 after the call. -/
theorem C3_contents_counterexample :
    Reach AnyCall (world zeroed [.malloc 17]) ∧
      4128 ∈ (world zeroed [.malloc 17]).live.map Prod.fst ∧
      0 < min 18446744073709551615
        (get_size (world zeroed [.malloc 17]).st.mem (hdrp 4128) - 16) ∧
      (world zeroed [.malloc 17]).st.mem (4128 + 0) = 0 ∧
      (realloc LIMIT (world zeroed [.malloc 17]).st 4128 18446744073709551615).map
        (fun x => (x.2, x.1.mem (x.2 + 0))) = some (4128, 17) :=
  ⟨world_reach rfl (fun _ _ => trivial) (by decide), by decide, by decide, by decide,
    by decide⟩

/-! ## C4: no adjacent free blocks under `malloc` and `free` -/

/-- C4, with every requested size at most `2^64 - 32`: in every world reached
from a successful `mm_init` by valid `malloc` and `free` calls, the heap walk
finds no block marked free whose successor is marked free. -/
theorem C4_no_adjacent_free (w : World)
    (hr : Reach (fun c => MallocFreeCall c ∧ SmallCall c) w) : NoAdjFree w.st := by
  obtain ⟨bs, fl, hw, hna⟩ := reach_winv (fun c hc => hc.2) hr
  refine noadjfree_of_inv hw.1 (hna ?_)
  intro c hc p n e
  subst e
  exact hc.1

theorem C4_no_adjacent_free_witness :
    Reach (fun c => MallocFreeCall c ∧ SmallCall c)
        (world zeroed [.malloc 100, .malloc 24, .free 4128]) ∧
      NoAdjFree (world zeroed [.malloc 100, .malloc 24, .free 4128]).st :=
  ⟨world_reach rfl (by simp [SmallCall, MallocFreeCall]) (by decide),
    C4_no_adjacent_free _ (world_reach rfl (by simp [SmallCall, MallocFreeCall]) (by decide))⟩

/-- C4 fails when a size wraps around: after `x = malloc(2^64 - 1)`,
`y = malloc(1)`, `free(x)` the heap walk visits the block at 4128 only; its
header is marked free, and so is the header of the block `y` that follows it. -/
theorem C4_adjacent_free_counterexample :
    Reach (fun c => MallocFreeCall c)
        (world zeroed [.malloc 18446744073709551615, .malloc 1, .free 4128]) ∧
      (world zeroed [.malloc 18446744073709551615, .malloc 1, .free 4128]).live = [(4144, 1)] ∧
      heap_blocks (world zeroed [.malloc 18446744073709551615, .malloc 1, .free 4128]).st =
        some ([4128], 4144) ∧
      next_blkp (world zeroed [.malloc 18446744073709551615, .malloc 1, .free 4128]).st.mem 4128 =
        4144 ∧
      get_alloc (world zeroed [.malloc 18446744073709551615, .malloc 1, .free 4128]).st.mem
        (hdrp 4128) = 0 ∧
      get_alloc (world zeroed [.malloc 18446744073709551615, .malloc 1, .free 4128]).st.mem
        (hdrp 4144) = 0 ∧
      ¬ NoAdjFree (world zeroed [.malloc 18446744073709551615, .malloc 1, .free 4128]).st := by
  have e1 : heap_blocks (world zeroed [.malloc 18446744073709551615, .malloc 1, .free 4128]).st =
      some ([4128], 4144) := by decide
  refine ⟨world_reach rfl (by simp [MallocFreeCall]) (by decide), by decide, e1, by decide,
    by decide, by decide, ?_⟩
  rintro ⟨l, e, h, hall⟩
  rw [e1] at h
  simp only [Option.some.injEq, Prod.mk.injEq] at h
  obtain ⟨rfl, rfl⟩ := h
  exact hall 4128 (by simp) (by decide)

/-! ## C5: `realloc` and adjacent free blocks -/

/-- C5 does not hold of the code: in the world after `p = malloc(100)` no two
adjacent blocks are free, `p = 4128` is live, and after `realloc(p, 16)` the
heap walk finds the free block at 4160, split off by the call, followed by the
free block at 4256. -/
theorem C5_realloc_shrink_leaves_adjacent_free :
    Reach SmallCall (world zeroed [.malloc 100]) ∧
      NoAdjFree (world zeroed [.malloc 100]).st ∧
      valid (world zeroed [.malloc 100]) (.realloc 4128 16) = true ∧
      Reach SmallCall (world zeroed [.malloc 100, .realloc 4128 16]) ∧
      heap_blocks (world zeroed [.malloc 100, .realloc 4128 16]).st =
        some ([4128, 4160, 4256], 6176) ∧
      ¬ NoAdjFree (world zeroed [.malloc 100, .realloc 4128 16]).st := by
  have e1 : heap_blocks (world zeroed [.malloc 100, .realloc 4128 16]).st =
      some ([4128, 4160, 4256], 6176) := by decide
  refine ⟨world_reach rfl (by simp [SmallCall]) (by decide), ?_, by decide,
    world_reach rfl (by simp [SmallCall]) (by decide), e1, ?_⟩
  · refine ⟨[4128, 4256], 6176, by decide, ?_⟩
    intro p hp
    simp only [List.mem_cons, List.mem_singleton, List.not_mem_nil, or_false] at hp
    rcases hp with rfl | rfl
    · decide
    · decide
  · rintro ⟨l, e, h, hall⟩
    rw [e1] at h
    simp only [Option.some.injEq, Prod.mk.injEq] at h
    obtain ⟨rfl, rfl⟩ := h
    exact hall 4160 (by simp) (by decide)

/-! ## C6: the free lists register exactly the free blocks -/

/-- C6, with every requested size at most `2^64 - 32`: in every world reached
from a successful `mm_init` by valid calls, every block marked free is once in
the list of the class of its size and in no other list, and no block marked
allocated is in any of the 11 lists. -/
theorem C6_registry (w : World) (hr : Reach SmallCall w) : Registry w.st := by
  obtain ⟨bs, fl, hw, _⟩ := reach_winv (fun c hc => hc) hr
  exact registry_of_inv hw.1

theorem C6_registry_witness :
    Reach SmallCall (world zeroed [.malloc 100, .malloc 24, .free 4128, .calloc 3 8]) ∧
      Registry (world zeroed [.malloc 100, .malloc 24, .free 4128, .calloc 3 8]).st :=
  ⟨world_reach rfl (by simp [SmallCall, mulw]) (by decide),
    C6_registry _ (world_reach rfl (by simp [SmallCall, mulw]) (by decide))⟩

/-- C6 fails when a size wraps around: after `p = malloc(2^64 - 16)` and
`realloc(p, 100)` the block at 4128 is marked allocated and is a node of the
list of class 6. -/
theorem C6_registry_counterexample :
    Reach AnyCall (world zeroed [.malloc 18446744073709551600, .realloc 4128 100]) ∧
      heap_blocks (world zeroed [.malloc 18446744073709551600, .realloc 4128 100]).st =
        some ([4128, 4256], 6176) ∧
      get_alloc (world zeroed [.malloc 18446744073709551600, .realloc 4128 100]).st.mem
        (hdrp 4128) = 1 ∧
      list_nodes (world zeroed [.malloc 18446744073709551600, .realloc 4128 100]).st 6 =
        some [4256, 4128] ∧
      ¬ Registry (world zeroed [.malloc 18446744073709551600, .realloc 4128 100]).st := by
  have e1 : heap_blocks (world zeroed [.malloc 18446744073709551600, .realloc 4128 100]).st =
      some ([4128, 4256], 6176) := by decide
  have e2 : list_nodes (world zeroed [.malloc 18446744073709551600, .realloc 4128 100]).st 6 =
      some [4256, 4128] := by decide
  refine ⟨world_reach rfl (fun _ _ => trivial) (by decide), e1, by decide, e2, ?_⟩
  rintro ⟨l, e, nodes, h, hn, hall⟩
  rw [e1] at h
  simp only [Option.some.injEq, Prod.mk.injEq] at h
  obtain ⟨rfl, rfl⟩ := h
  have h6 := hn 6 (by decide)
  rw [e2] at h6
  simp only [Option.some.injEq] at h6
  have := (hall 4128 (by simp)).2 (by decide) 6 (by decide)
  rw [← h6] at this
  simp at this

/-! ## C7: the heap checker -/

/-- C7, with every requested size at most `2^64 - 32` and a region that starts
at a multiple of 16: in every world reached from a successful `mm_init` by
valid calls, the `DEBUG` body of `mm_checkheap` returns, and returns true. -/
theorem C7_checkheap (w : World) (hr : Reach SmallCall w) (hal : w.st.lo % 16 = 0) :
    mm_checkheap true w.st = some true := by
  obtain ⟨bs, fl, hw, _⟩ := reach_winv (fun c hc => hc) hr
  exact checkheap_inv hw.1 hal

theorem C7_checkheap_witness :
    mm_checkheap true (world zeroed [.malloc 100, .realloc 4128 300, .free 4128]).st =
      some true :=
  C7_checkheap _ (world_reach rfl (by simp [SmallCall]) (by decide)) (by decide)

/-- C7 fails in two ways: right after a successful `mm_init` on a region that
starts at 4104 the checker returns false (payloads are not 16-aligned); and
on a region that starts at 4096 the checker returns false after
`malloc(2^64 - 16)` (the footer of the prologue is overwritten). -/
theorem C7_checkheap_counterexample :
    (Reach AnyCall (world skewed []) ∧ mm_checkheap true (world skewed []).st = some false) ∧
    (Reach AnyCall (world zeroed [.malloc 18446744073709551600]) ∧
      mm_checkheap true (world zeroed []).st = some true ∧
      mm_checkheap true (world zeroed [.malloc 18446744073709551600]).st = some false) :=
  ⟨⟨world_reach rfl (fun _ _ => trivial) (by decide), by decide⟩,
    ⟨world_reach rfl (fun _ _ => trivial) (by decide), by decide, by decide⟩⟩

/-! ## C8: size accounting -/

/-- C8, with every requested size at most `2^64 - 32`: in every world reached
from a successful `mm_init` by valid calls, the heap walk ends at the epilogue
header in the last word of the region, and the sizes of the blocks visited add
up to the length of the region less 32. -/
theorem C8_size_accounting (w : World) (hr : Reach SmallCall w) : SizeAccounting w.st := by
  obtain ⟨bs, fl, hw, _⟩ := reach_winv (fun c hc => hc) hr
  exact accounting_of_inv hw.1

theorem C8_size_accounting_witness :
    Reach SmallCall (world zeroed [.malloc 3000, .malloc 24, .free 4128]) ∧
      SizeAccounting (world zeroed [.malloc 3000, .malloc 24, .free 4128]).st :=
  ⟨world_reach rfl (by simp [SmallCall]) (by decide),
    C8_size_accounting _ (world_reach rfl (by simp [SmallCall]) (by decide))⟩

/-- C8 fails when a size wraps around: after `x = malloc(2^64 - 1)`,
`y = malloc(1)`, `free(x)` the region ends at 6176, but the heap walk visits the
block at 4128 only and stops at 4144, and the block has 16 bytes, not the 2048
of the region less 32. -/
theorem C8_size_accounting_counterexample :
    Reach AnyCall (world zeroed [.malloc 18446744073709551615, .malloc 1, .free 4128]) ∧
      (world zeroed [.malloc 18446744073709551615, .malloc 1, .free 4128]).st.brk = 6176 ∧
      heap_blocks (world zeroed [.malloc 18446744073709551615, .malloc 1, .free 4128]).st =
        some ([4128], 4144) ∧
      get_size (world zeroed [.malloc 18446744073709551615, .malloc 1, .free 4128]).st.mem
        (hdrp 4128) = 16 ∧
      ¬ SizeAccounting (world zeroed [.malloc 18446744073709551615, .malloc 1, .free 4128]).st := by
  have e1 : heap_blocks (world zeroed [.malloc 18446744073709551615, .malloc 1, .free 4128]).st =
      some ([4128], 4144) := by decide
  have e2 : (world zeroed [.malloc 18446744073709551615, .malloc 1, .free 4128]).st.brk = 6176 := by
    decide
  refine ⟨world_reach rfl (fun _ _ => trivial) (by decide), e2, e1, by decide, ?_⟩
  rintro ⟨l, h, _⟩
  rw [e1, e2] at h
  simp at h

/-! ## C9: block sizes -/

/-- C9, with every requested size at most `2^64 - 32`: in every world reached
from a successful `mm_init` by valid calls, every block between the prologue
and the epilogue has a size that is a multiple of 16 and at least 32. -/
theorem C9_block_sizes (w : World) (hr : Reach SmallCall w) : BlockSizes w.st := by
  obtain ⟨bs, fl, hw, _⟩ := reach_winv (fun c hc => hc) hr
  exact sizes_of_inv hw.1

theorem C9_block_sizes_witness :
    Reach SmallCall (world zeroed [.malloc 1, .malloc 100, .realloc 4160 40, .free 4128]) ∧
      BlockSizes (world zeroed [.malloc 1, .malloc 100, .realloc 4160 40, .free 4128]).st :=
  ⟨world_reach rfl (by simp [SmallCall]) (by decide),
    C9_block_sizes _ (world_reach rfl (by simp [SmallCall]) (by decide))⟩

/-- C9 fails when a size wraps around: after `malloc(2^64 - 1)` the first block
of the heap, at 4128, has size 16. -/
theorem C9_block_sizes_counterexample :
    Reach AnyCall (world zeroed [.malloc 18446744073709551615]) ∧
      heap_blocks (world zeroed [.malloc 18446744073709551615]).st =
        some ([4128, 4144], 6176) ∧
      get_size (world zeroed [.malloc 18446744073709551615]).st.mem (hdrp 4128) = 16 ∧
      ¬ BlockSizes (world zeroed [.malloc 18446744073709551615]).st := by
  have e1 : heap_blocks (world zeroed [.malloc 18446744073709551615]).st =
      some ([4128, 4144], 6176) := by decide
  have e2 : get_size (world zeroed [.malloc 18446744073709551615]).st.mem (hdrp 4128) = 16 := by
    decide
  refine ⟨world_reach rfl (fun _ _ => trivial) (by decide), e1, e2, ?_⟩
  rintro ⟨l, e, h, hall⟩
  rw [e1] at h
  simp only [Option.some.injEq, Prod.mk.injEq] at h
  obtain ⟨rfl, rfl⟩ := h
  have := (hall 4128 (by simp)).2
  rw [e2] at this
  omega

/-! ## C10: out of memory leaves the state as it was -/

end Claims1

/-! ## `find_fit` as a fold over the scanned lists -/

theorem fit_scan_walk {m : Mem} {a : Nat} : ∀ (fuel p : Nat) (l : List Nat) (H : Nat × Nat),
    list_walk m fuel p = some l → fit_scan m a fuel p H = some (l.foldl (fit_step m a) H)
  | 0, p, l, H, h => by simp [list_walk] at h
  | fuel + 1, p, l, H, h => by
    unfold list_walk at h
    by_cases hp : p = 0
    · rw [if_pos hp] at h
      simp only [Option.some.injEq] at h
      subst h
      simp [fit_scan, hp]
    · rw [if_neg hp] at h
      cases hw : list_walk m fuel (get_succ m p) with
      | none => rw [hw] at h; simp at h
      | some t =>
        rw [hw] at h
        simp only [Option.some.injEq] at h
        subst h
        unfold fit_scan
        rw [if_neg hp]
        exact fit_scan_walk fuel _ t _ hw

theorem fit_step_fixed {m : Mem} {a : Nat} : ∀ (l : List Nat) (H : Nat × Nat), H.2 ≤ a →
    l.foldl (fit_step m a) H = H
  | [], _, _ => rfl
  | x :: l, H, hH => by
    have e : fit_step m a H x = H := by
      unfold fit_step
      rw [if_neg (by omega)]
    rw [List.foldl_cons, e]
    exact fit_step_fixed l H hH

theorem fit_lists_eq {s : State} {a : Nat} {nodes : Nat → List Nat} :
    ∀ (k i : Nat) (H : Nat × Nat),
      (∀ j, i ≤ j → j < i + k → list_nodes s j = some (nodes j)) →
      fit_lists s a k i H = some ((scan_order nodes k i).foldl (fit_step s.mem a) H).1
  | 0, i, H, _ => rfl
  | k + 1, i, H, hn => by
    have hi := hn i (le_refl _) (by omega)
    unfold list_nodes at hi
    unfold fit_lists
    rw [fit_scan_walk _ _ _ H hi]
    simp only [scan_order, List.foldl_append]
    split_ifs with hc
    · rw [fit_step_fixed _ _ (le_of_eq hc.2)]
    · exact fit_lists_eq k (i + 1) _ (fun j h1 h2 => hn j (by omega) (by omega))

/-- The fold of the best-fit scan: the result is no larger than what it
started from and than any block that fits, and it is either what the scan
started from or a block of the list that fits. -/
theorem fit_fold_min {m : Mem} {a : Nat} : ∀ (l : List Nat) (H : Nat × Nat),
    (l.foldl (fit_step m a) H).2 ≤ H.2 ∧
    (∀ x ∈ l, a ≤ get_size m (hdrp x) → (l.foldl (fit_step m a) H).2 ≤ get_size m (hdrp x)) ∧
    (l.foldl (fit_step m a) H = H ∨
      ((l.foldl (fit_step m a) H).1 ∈ l ∧
        (l.foldl (fit_step m a) H).2 = get_size m (hdrp (l.foldl (fit_step m a) H).1) ∧
        a ≤ (l.foldl (fit_step m a) H).2 ∧ (l.foldl (fit_step m a) H).2 < H.2))
  | [], H => ⟨le_refl _, fun x hx => by simp at hx, Or.inl rfl⟩
  | x :: l, H => by
    rw [List.foldl_cons]
    obtain ⟨i1, i2, i3⟩ := fit_fold_min (m := m) (a := a) l (fit_step m a H x)
    generalize hR : l.foldl (fit_step m a) (fit_step m a H x) = R at i1 i2 i3
    by_cases hc : a ≤ get_size m (hdrp x) ∧ get_size m (hdrp x) < H.2
    · have e : fit_step m a H x = (x, get_size m (hdrp x)) := by
        unfold fit_step; rw [if_pos hc]
      rw [e] at i1 i3
      simp only at i1 i3
      refine ⟨by omega, ?_, ?_⟩
      · intro y hy hay
        rcases List.mem_cons.mp hy with rfl | hy
        · exact i1
        · exact i2 y hy hay
      · right
        rcases i3 with i3 | ⟨j1, j2, j3, j4⟩
        · rw [i3]
          exact ⟨List.mem_cons_self _ _, rfl, hc.1, hc.2⟩
        · exact ⟨List.mem_cons_of_mem _ j1, j2, j3, by omega⟩
    · have e : fit_step m a H x = H := by
        unfold fit_step; rw [if_neg hc]
      rw [e] at i1 i3
      refine ⟨i1, ?_, ?_⟩
      · intro y hy hay
        rcases List.mem_cons.mp hy with rfl | hy
        · have : H.2 ≤ get_size m (hdrp y) := by
            by_contra hlt
            exact hc ⟨hay, by omega⟩
          omega
        · exact i2 y hy hay
      · rcases i3 with i3 | ⟨j1, j2, j3, j4⟩
        · exact Or.inl i3
        · exact Or.inr ⟨List.mem_cons_of_mem _ j1, j2, j3, j4⟩

theorem mem_scan_order {nodes : Nat → List Nat} {x : Nat} : ∀ (k i : Nat),
    x ∈ scan_order nodes k i ↔ ∃ j, i ≤ j ∧ j < i + k ∧ x ∈ nodes j
  | 0, i => by
    simp only [scan_order, List.not_mem_nil, false_iff]
    rintro ⟨j, h1, h2, _⟩
    omega
  | k + 1, i => by
    simp only [scan_order, List.mem_append, mem_scan_order k (i + 1)]
    constructor
    · rintro (h | ⟨j, h1, h2, h3⟩)
      · exact ⟨i, le_refl _, by omega, h⟩
      · exact ⟨j, by omega, by omega, h3⟩
    · rintro ⟨j, h1, h2, h3⟩
      by_cases e : j = i
      · subst e; exact Or.inl h3
      · exact Or.inr ⟨j, by omega, by omega, h3⟩

/-- What `find_fit` returns, in terms of the nodes of the lists it scans. -/
theorem find_fit_eq {s : State} {nodes : Nat → List Nat} (a : Nat)
    (hn : ∀ j, j < 11 → list_nodes s j = some (nodes j)) :
    find_fit s a = some ((scan_order nodes (11 - get_list_index a) (get_list_index a)).foldl
      (fit_step s.mem a) (0, 18446744073709551615)).1 := by
  unfold find_fit
  have := get_list_index_lt a
  exact fit_lists_eq _ _ _ (fun j h1 h2 => hn j (by omega))

/-! ## The two paths of `malloc` -/

theorem malloc_code (cap : Nat) (s : State) (n : Nat) :
    malloc cap s n = if n = 0 then some (s, 0) else
      match find_fit s (adjusted n) with
      | none => none
      | some ptr =>
        if ptr ≠ 0 then
          match place s ptr (adjusted n) with
          | none => none
          | some s1 => some (s1, ptr)
        else
          match extend_heap cap s ((if CHUNKSIZE < adjusted n then adjusted n else CHUNKSIZE)
            / WSIZE) with
          | none => none
          | some (s1, ptr) =>
            if ptr = 0 then some (s1, 0)
            else
              match place s1 ptr (adjusted n) with
              | none => none
              | some s2 => some (s2, ptr) := rfl

theorem grow_request_small {n : Nat} (hn : n ≤ 18446744073709551616 - 32) :
    grow_request n = max (adjusted n) 2048 ∧
      (if CHUNKSIZE < adjusted n then adjusted n else CHUNKSIZE) / WSIZE * 8 =
        max (adjusted n) 2048 := by
  obtain ⟨ha1, ha2, ha3, ha4, ha5⟩ := adjusted_small hn
  have e : grow_request n =
      if ((if CHUNKSIZE < adjusted n then adjusted n else CHUNKSIZE) / WSIZE) % 2 ≠ 0 then
        mulw (addw ((if CHUNKSIZE < adjusted n then adjusted n else CHUNKSIZE) / WSIZE) 1) WSIZE
      else mulw ((if CHUNKSIZE < adjusted n then adjusted n else CHUNKSIZE) / WSIZE) WSIZE := rfl
  rw [e]
  generalize adjusted n = a at *
  unfold CHUNKSIZE WSIZE
  by_cases hc : 2048 < a
  · simp only [if_pos hc]
    have h2 : ¬ (a / 8 % 2 ≠ 0) := by omega
    rw [if_neg h2, mulw_eq (by omega)]
    omega
  · simp only [if_neg hc]
    have h2 : ¬ (2048 / 8 % 2 ≠ 0) := by omega
    rw [if_neg h2, mulw_eq (by omega)]
    omega

/-- The path of `malloc` through a block that `find_fit` returns. -/
theorem malloc_fit {cap : Nat} {s : State} {bs : List Blk} {fl : Nat → List Nat} {n : Nat}
    {b : Blk} (h : Inv s bs fl ∅) (hn : n ≤ 18446744073709551616 - 32) (hn0 : n ≠ 0)
    (hb : b ∈ bs) (hbf : b.alloc = 0) (hfit : find_fit s (adjusted n) = some b.addr)
    (hsz : adjusted n ≤ b.size) :
    ∃ s' bs' fl' u, malloc cap s n = some (s', b.addr) ∧ Inv s' bs' fl' ∅ ∧ s'.lo = s.lo ∧
      s'.brk = s.brk ∧ (⟨b.addr, u, 1⟩ : Blk) ∈ bs' ∧
      (u = adjusted n ∨ (u = b.size ∧ b.size < adjusted n + 32)) ∧ adjusted n ≤ u := by
  obtain ⟨ha1, ha2, ha3, ha4, ha5⟩ := adjusted_small hn
  have fb := h.blk hb
  have hr0 : b.addr ≠ 0 := by omega
  rw [malloc_code, if_neg hn0, hfit]
  simp only [hr0, ne_eq, not_false_eq_true, if_true]
  obtain ⟨s2, bs2, fl2, u, hpl, h2, hlo2, hbk2, hhl2, hk2, hu, hu1, hu2, hmem⟩ :=
    place_spec h hb hbf ha2 ha1 hsz
  rw [hpl]
  exact ⟨s2, bs2, fl2, u, rfl, h2, hlo2, hbk2, (hmem _).mpr (Or.inr (Or.inl rfl)), hu, hu1⟩

/-- The path of `malloc` through `extend_heap`, when `mm_sbrk` succeeds. -/
theorem malloc_grow {cap : Nat} {s : State} {bs : List Blk} {fl : Nat → List Nat} {n : Nat}
    (h : Inv s bs fl ∅) (hn : n ≤ 18446744073709551616 - 32) (hn0 : n ≠ 0)
    (hfit : find_fit s (adjusted n) = some 0) (hcap2 : cap < 18446744073709551616)
    (hc : s.brk + max (adjusted n) 2048 ≤ cap) :
    ∃ s' bs' fl' r u, malloc cap s n = some (s', r) ∧ Inv s' bs' fl' ∅ ∧ s'.lo = s.lo ∧
      s'.brk = s.brk + max (adjusted n) 2048 ∧ r ≠ 0 ∧ (⟨r, u, 1⟩ : Blk) ∈ bs' ∧
      adjusted n ≤ u ∧ u < adjusted n + 32 := by
  obtain ⟨ha1, ha2, ha3, ha4, ha5⟩ := adjusted_small hn
  have hbrk := h.brk_lt
  have hg := (grow_request_small hn).2
  rw [malloc_code, if_neg hn0, hfit]
  simp only [ne_eq, not_true_eq_false, if_false]
  generalize (if CHUNKSIZE < adjusted n then adjusted n else CHUNKSIZE) / WSIZE = words at hg
  obtain ⟨s1, bs1, fl1, M, hex, h1, hlo1, hbk1, hhl1, hk1, hM, hMf, hM1, _, _, hal1, hal1',
    _, hna1⟩ := @extend_heap_spec cap _ _ _ words h (by omega) (by omega) (by rw [hg]; exact hc)
      hcap2
  have fM := h1.blk hM
  have hM0 : M.addr ≠ 0 := by omega
  rw [hex]
  simp only [hM0, if_false]
  obtain ⟨s2, bs2, fl2, u, hpl, h2, hlo2, hbk2, hhl2, hk2, hu, hu1, hu2, hmem⟩ :=
    place_spec h1 hM hMf ha2 ha1 (by omega)
  rw [hpl]
  refine ⟨s2, bs2, fl2, M.addr, u, rfl, h2, hlo2.trans hlo1, by omega, hM0,
    (hmem _).mpr (Or.inr (Or.inl rfl)), hu1, ?_⟩
  rcases hu with hu | ⟨hu, hlt⟩
  · omega
  · omega

/-! ## The state that `mm_init` builds -/

/-- With room for 2080 bytes, `mm_init` succeeds: it lays out the sentinels and
one free block of 2048 bytes at the end of the region, which `coalesce` adds to
its list unchanged. -/
theorem mm_init_run {cap : Nat} {s : State} (hcap2 : cap < 18446744073709551616)
    (hcap : s.brk + 32 + 2048 ≤ cap) :
    ∃ T : State, T.lo = s.brk ∧ Inv T [⟨s.brk + 32, 2048, 0⟩] (fun _ => []) {s.brk + 32} ∧
      get T.mem s.brk = 0 ∧
      mm_init cap s = some (add_to_free_list { T with lo := s.lo } (s.brk + 32), true) := by
  have hcode : mm_init cap s =
      match extend_heap cap { s with
        free_lists := fun i => if i < 11 then 0 else s.free_lists i
        brk := s.brk + 32
        mem := put (put (put (put s.mem s.brk 0) (s.brk + 8) 17) (s.brk + 16) 17) (s.brk + 24) 1
        heap_listp := s.brk + 16 } (CHUNKSIZE / WSIZE) with
      | none => none
      | some (s3, r) => if r = 0 then some (s3, false) else some (s3, true) := by
    unfold mm_init mm_sbrk
    have e1 : s.brk + 4 * WSIZE ≤ cap := by unfold WSIZE; omega
    simp only [e1, if_true]
    have e2 : addw s.brk (1 * WSIZE) = s.brk + 8 := by
      unfold WSIZE; rw [addw_eq (by omega)]
    have e3 : addw s.brk (2 * WSIZE) = s.brk + 16 := by
      unfold WSIZE; rw [addw_eq (by omega)]
    have e4 : addw s.brk (3 * WSIZE) = s.brk + 24 := by
      unfold WSIZE; rw [addw_eq (by omega)]
    have e5 : pack (WSIZE * 2) 1 = 17 := rfl
    have e6 : s.brk + 4 * WSIZE = s.brk + 32 := by unfold WSIZE; omega
    rw [e2, e3, e4, e5, e6, pack_zero_one]
  have hw : CHUNKSIZE / WSIZE = 256 := rfl
  rw [hcode, hw]
  generalize hM0 : put (put (put (put s.mem s.brk 0) (s.brk + 8) 17) (s.brk + 16) 17)
    (s.brk + 24) 1 = M0
  have g0 : get M0 s.brk = 0 := by
    rw [← hM0, get_put_other (by omega), get_put_other (by omega), get_put_other (by omega),
      get_put_same]
  have g8 : get M0 (s.brk + 8) = 17 := by
    rw [← hM0, get_put_other (by omega), get_put_other (by omega), get_put_same]
  have g16 : get M0 (s.brk + 16) = 17 := by
    rw [← hM0, get_put_other (by omega), get_put_same]
  -- the state before the call of `coalesce`
  have hext : extend_heap cap { s with
        free_lists := fun i => if i < 11 then 0 else s.free_lists i
        brk := s.brk + 32
        mem := M0
        heap_listp := s.brk + 16 } 256 =
      coalesce { s with
        free_lists := fun i => if i < 11 then 0 else s.free_lists i
        brk := s.brk + 32 + 2048
        mem := put (setTags M0 (s.brk + 32) 2048 0) (s.brk + 32 + 2048 - 8) 1
        heap_listp := s.brk + 16 } (s.brk + 32) := by
    unfold extend_heap mm_sbrk WSIZE
    have e1 : ¬ (256 % 2 ≠ 0) := by omega
    have e2 : s.brk + 32 + 2048 ≤ cap := hcap
    simp only [e1, if_false, mulw_eq (show 256 * 8 < 18446744073709551616 by omega), e2, if_true]
    rw [setTags_eq (by omega) (by omega) (by omega) (by omega) (by omega),
      tag_next (u := 2048) (a := 0) (by omega) (by omega)
        (get_setTags_hdr (by omega) (by omega) (by omega)) (by omega) (by omega),
      hdrp_eq (by omega) (by omega), pack_zero_one]
  rw [hext]
  generalize hM1 : put (setTags M0 (s.brk + 32) 2048 0) (s.brk + 32 + 2048 - 8) 1 = M1
  have hout : ∀ x, x + 8 < s.brk + 32 → M1 x = M0 x := by
    intro x hx
    rw [← hM1, put_outside (by omega), setTags_outside (by omega) (by omega) (by omega)]
  have hlay : Layout M1 (s.brk + 32) [⟨s.brk + 32, 2048, 0⟩] (s.brk + 32 + 2048) := by
    have := Layout_setTags (m := M0) (p := s.brk + 32) (u := 2048) (a := 0) (by omega)
      (by omega) (by omega) (by omega) (by omega)
    rw [← hM1]
    exact Layout.frame this (by omega) (fun x hx1 hx2 => put_outside (by omega))
  have h1 : Inv { s with
        free_lists := fun i => if i < 11 then 0 else s.free_lists i
        brk := s.brk + 32 + 2048
        mem := M1
        heap_listp := s.brk + 16
        lo := s.brk } [⟨s.brk + 32, 2048, 0⟩] (fun _ => []) {s.brk + 32} := by
    refine ⟨rfl, by simp only; omega, ?_, ?_, hlay, ?_, ?_, fun _ => trivial, ?_, ?_, ?_⟩
    · simp only
      rw [← g8]; exact get_congr (fun x hx1 hx2 => hout x (by omega))
    · simp only
      rw [← g16]; exact get_congr (fun x hx1 hx2 => hout x (by omega))
    · simp only
      rw [← hM1, get_put_same]
    · intro i hi; simp [hi]
    · intro i x hx; simp at hx
    · intro b hb _
      rw [List.mem_singleton] at hb
      left; rw [hb]; simp
    · intro i; exact List.nodup_nil
  have hb : (⟨s.brk + 32, 2048, 0⟩ : Blk) ∈ [(⟨s.brk + 32, 2048, 0⟩ : Blk)] := by simp
  -- both neighbours are sentinels
  obtain ⟨xs, ys, hbs, _, _, _, hprev, hnx, hnext⟩ := neighbours h1 hb
  simp only at hprev hnx hnext
  have hxs : xs = [] ∧ ys = [] := by
    cases xs with
    | nil => simpa using hbs
    | cons x t =>
      have := congrArg List.length hbs
      simp at this
  have hp : get_alloc M1 (ftrp M1 (prev_blkp M1 (s.brk + 32))) = 1 := by
    rcases hprev with ⟨e, _⟩ | ⟨_, xs', c, e, _⟩
    · exact e
    · rw [hxs.1] at e; simp at e
  have hn : get_alloc M1 (hdrp (next_blkp M1 (s.brk + 32))) = 1 := by
    rcases hnext with ⟨e, _⟩ | ⟨_, d, ys', e, _⟩
    · rw [hnx]; exact e
    · rw [hxs.2] at e; simp at e
  rw [coalesce_case1 (by simp only; rw [hp]; rfl) (by simp only; rw [hn]; rfl)]
  have hne : s.brk + 32 ≠ 0 := by omega
  simp only [hne, if_false]
  refine ⟨_, rfl, h1, ?_, rfl⟩
  simp only
  rw [← g0]
  exact get_congr (fun x hx1 hx2 => hout x (by omega))

theorem mm_init_fails {cap : Nat} {s : State} (hcap : ¬ s.brk + 32 + 2048 ≤ cap) :
    ∃ s', mm_init cap s = some (s', false) := by
  unfold mm_init mm_sbrk
  by_cases h1 : s.brk + 4 * WSIZE ≤ cap
  · simp only [h1, if_true]
    rw [extend_heap_fail (by rfl) (by unfold CHUNKSIZE WSIZE; omega)
      (by simp only; unfold CHUNKSIZE WSIZE at *; omega)]
    exact ⟨_, rfl⟩
  · simp only [h1, if_false]
    exact ⟨_, rfl⟩

/-- On an empty region with room for 2080 bytes, `mm_init` succeeds and leaves
the sentinels, one free block of 2048 bytes in list 6, and the padding word 0. -/
theorem mm_init_eq {cap : Nat} {s : State} (hs : s.brk = s.lo)
    (hcap2 : cap < 18446744073709551616) (hcap : s.lo + 32 + 2048 ≤ cap) :
    ∃ s' fl, mm_init cap s = some (s', true) ∧ Inv s' [⟨s.lo + 32, 2048, 0⟩] fl ∅ ∧
      fl 6 = [s.lo + 32] ∧ (∀ i, i ≠ 6 → fl i = []) ∧ s'.lo = s.lo ∧
      s'.brk = s.lo + 32 + 2048 ∧ get s'.mem s.lo = 0 := by
  obtain ⟨T, hT, h1, g0, hrun⟩ := mm_init_run hcap2 (by rw [hs]; exact hcap)
  have hTT : { T with lo := s.lo } = T := by rw [← hs, ← hT]
  rw [hTT, hs] at hrun
  rw [hs] at h1 g0
  have hb : (⟨s.lo + 32, 2048, 0⟩ : Blk) ∈ [(⟨s.lo + 32, 2048, 0⟩ : Blk)] := by simp
  obtain ⟨h2, hlo2, hbk2, _, _⟩ := add_spec (Y := ∅) h1 hb rfl (by simp) (by simp)
  have hadd := add_eq h1 hb
  have hbrk := h1.brk_lt
  have hbk : T.brk = s.lo + 32 + 2048 := by
    have := Layout.sum h1.lay
    simp at this
    rw [hT, hs] at this
    omega
  simp only at hadd h2 hlo2 hbk2
  refine ⟨_, _, hrun, h2, ?_, ?_, by rw [hlo2, hT, hs], by rw [hbk2, hbk], ?_⟩
  · have : get_list_index 2048 = 6 := rfl
    rw [this]; simp
  · intro i hi
    have : get_list_index 2048 = 6 := rfl
    rw [this, Function.update_noteq hi]
  · rw [hadd]
    simp only
    rw [get_put_other (by omega), get_put_other (by omega)]
    exact g0

/-! ## Listed blocks and states of the same shape -/

theorem all_nodes_spec {s : State} : ∀ (k : Nat) (L : List Nat), all_nodes s k = some L →
    (∀ x, x ∈ L ↔ ∃ i, i < k ∧ ∃ l, list_nodes s i = some l ∧ x ∈ l)
  | 0, L, h => by
    simp only [all_nodes, Option.some.injEq] at h
    subst h
    intro x
    simp
  | k + 1, L, h => by
    unfold all_nodes at h
    cases h1 : all_nodes s k with
    | none => rw [h1] at h; simp at h
    | some l =>
      cases h2 : list_nodes s k with
      | none => rw [h1, h2] at h; simp at h
      | some t =>
        rw [h1, h2] at h
        simp only [Option.some.injEq] at h
        subst h
        have ih := all_nodes_spec k l h1
        intro x
        rw [List.mem_append, ih x]
        constructor
        · rintro (⟨i, hi, l', hl', hx⟩ | hx)
          · exact ⟨i, by omega, l', hl', hx⟩
          · exact ⟨k, by omega, t, h2, hx⟩
        · rintro ⟨i, hi, l', hl', hx⟩
          by_cases e : i = k
          · subst e
            rw [h2] at hl'
            simp only [Option.some.injEq] at hl'
            subst hl'
            exact Or.inr hx
          · exact Or.inl ⟨i, by omega, l', hl', hx⟩

/-- The listed free blocks of size `a`, once computed, decide `ExactFit`. -/
theorem exactfit_check {s : State} {a f : Nat} (h : exact_fits s a = some [f]) :
    ExactFit s a f := by
  unfold exact_fits at h
  cases hA : all_nodes s 11 with
  | none => rw [hA] at h; simp at h
  | some L =>
    rw [hA] at h
    simp only [Option.some.injEq] at h
    have hspec := all_nodes_spec 11 L hA
    have hmem : ∀ g, g ∈ L.filter (fun p => decide (get_alloc s.mem (hdrp p) = 0 ∧
        get_size s.mem (hdrp p) = a)) ↔ g = f := by
      intro g; rw [h]; simp
    have hf := (hmem f).mpr rfl
    rw [List.mem_filter] at hf
    simp only [decide_eq_true_eq] at hf
    obtain ⟨i, hi, l, hl, hfl⟩ := (hspec f).mp hf.1
    refine ⟨⟨i, hi, l, hl, hfl, hf.2.1⟩, hf.2.2, ?_⟩
    rintro g ⟨j, hj, t, ht, hgt, hg0⟩ hga
    apply (hmem g).mp
    rw [List.mem_filter]
    simp only [decide_eq_true_eq]
    exact ⟨(hspec g).mpr ⟨j, hj, t, ht, hgt⟩, hg0, hga⟩

/-- In a well-formed state the listed free blocks are the nodes of the lists. -/
theorem listedFree_iff {s : State} {bs : List Blk} {fl : Nat → List Nat} (h : Inv s bs fl ∅)
    {p : Nat} : ListedFree s p ↔ ∃ b ∈ bs, b.addr = p ∧ b.alloc = 0 ∧
      p ∈ fl (get_list_index b.size) := by
  constructor
  · rintro ⟨i, hi, l, hl, hp, _⟩
    rw [list_nodes_inv h hi] at hl
    simp only [Option.some.injEq] at hl
    subst hl
    obtain ⟨_, b, hb, hb1, hb2, hb3⟩ := h.mem_fl i p hp
    exact ⟨b, hb, hb1, hb2, by rw [hb3]; exact hp⟩
  · rintro ⟨b, hb, hb1, hb2, hp⟩
    refine ⟨get_list_index b.size, get_list_index_lt _, _, list_nodes_inv h (get_list_index_lt _),
      hp, ?_⟩
    rw [← hb1, (header_of h hb).2, hb2]

/-- The class of a size, by the interval that holds the size. -/
theorem get_list_index_cases (s : Nat) :
    (get_list_index s = 0 ∧ s ≤ 32) ∨ (get_list_index s = 1 ∧ 32 < s ∧ s ≤ 64) ∨
    (get_list_index s = 2 ∧ 64 < s ∧ s ≤ 128) ∨ (get_list_index s = 3 ∧ 128 < s ∧ s ≤ 256) ∨
    (get_list_index s = 4 ∧ 256 < s ∧ s ≤ 512) ∨ (get_list_index s = 5 ∧ 512 < s ∧ s ≤ 1024) ∨
    (get_list_index s = 6 ∧ 1024 < s ∧ s ≤ 2048) ∨
    (get_list_index s = 7 ∧ 2048 < s ∧ s ≤ 4096) ∨
    (get_list_index s = 8 ∧ 4096 < s ∧ s ≤ 8192) ∨
    (get_list_index s = 9 ∧ 8192 < s ∧ s ≤ 16384) ∨ (get_list_index s = 10 ∧ 16384 < s) := by
  unfold get_list_index
  split_ifs with h0 h1 h2 h3 h4 h5 h6 h7 h8 h9
  · exact Or.inl ⟨rfl, h0⟩
  · exact Or.inr (Or.inl ⟨rfl, by omega, h1⟩)
  · exact Or.inr (Or.inr (Or.inl ⟨rfl, by omega, h2⟩))
  · exact Or.inr (Or.inr (Or.inr (Or.inl ⟨rfl, by omega, h3⟩)))
  · exact Or.inr (Or.inr (Or.inr (Or.inr (Or.inl ⟨rfl, by omega, h4⟩))))
  · exact Or.inr (Or.inr (Or.inr (Or.inr (Or.inr (Or.inl ⟨rfl, by omega, h5⟩)))))
  · exact Or.inr (Or.inr (Or.inr (Or.inr (Or.inr (Or.inr (Or.inl ⟨rfl, by omega, h6⟩))))))
  · exact Or.inr (Or.inr (Or.inr (Or.inr (Or.inr (Or.inr (Or.inr (Or.inl ⟨rfl, by omega, h7⟩)))))))
  · exact Or.inr (Or.inr (Or.inr (Or.inr (Or.inr (Or.inr (Or.inr (Or.inr (Or.inl ⟨rfl, by omega, h8⟩))))))))
  · exact Or.inr (Or.inr (Or.inr (Or.inr (Or.inr (Or.inr (Or.inr (Or.inr (Or.inr (Or.inl ⟨rfl, by omega, h9⟩)))))))))
  · exact Or.inr (Or.inr (Or.inr (Or.inr (Or.inr (Or.inr (Or.inr (Or.inr (Or.inr (Or.inr (⟨rfl, by omega⟩))))))))))

section Claims2

set_option maxRecDepth 1000000

/-! ## C11: growth when no block fits -/

/-- C11, for `n` at most `2^64 - 32` in a world reached with such sizes: if
`find_fit` returns `NULL` for the adjusted size and `mm_sbrk` succeeds, then
`malloc(n)` grows the region by exactly `max(asize, 2048)` bytes, which is at
least `asize`, and returns a pointer that is not `NULL` to a block marked
allocated whose size is at least `asize`. -/
theorem C11_growth_fallback (w : World) (n cap : Nat) (hr : Reach SmallCall w) (hn0 : 0 < n)
    (hn : n ≤ 18446744073709551616 - 32) (hcap : cap < 18446744073709551616)
    (hfit : find_fit w.st (adjusted n) = some 0)
    (hgrow : (mm_sbrk cap w.st (grow_request n)).isSome = true) :
    ∃ s' r, malloc cap w.st n = some (s', r) ∧
      s'.brk = w.st.brk + max (adjusted n) 2048 ∧ adjusted n ≤ max (adjusted n) 2048 ∧
      r ≠ 0 ∧ get_alloc s'.mem (hdrp r) = 1 ∧ adjusted n ≤ get_size s'.mem (hdrp r) := by
  obtain ⟨bs, fl, hw, _⟩ := reach_winv (fun c hc => hc) hr
  have hc : w.st.brk + max (adjusted n) 2048 ≤ cap := by
    rw [← (grow_request_small hn).1]
    unfold mm_sbrk at hgrow
    by_contra hcon
    rw [if_neg hcon] at hgrow
    simp at hgrow
  obtain ⟨s', bs', fl', r, u, hm, h', _, hbk, hr0, hB, hu, _⟩ :=
    malloc_grow hw.1 hn (by omega) hfit hcap hc
  have hd := header_of h' hB
  simp only at hd
  exact ⟨s', r, hm, hbk, le_max_left _ _, hr0, hd.2, by rw [hd.1]; exact hu⟩

theorem C11_growth_fallback_witness :
    ∃ s' r, malloc LIMIT (world zeroed [.malloc 2032]).st 100 = some (s', r) ∧
      s'.brk = (world zeroed [.malloc 2032]).st.brk + max (adjusted 100) 2048 ∧
      adjusted 100 ≤ max (adjusted 100) 2048 ∧
      r ≠ 0 ∧ get_alloc s'.mem (hdrp r) = 1 ∧ adjusted 100 ≤ get_size s'.mem (hdrp r) :=
  C11_growth_fallback (world zeroed [.malloc 2032]) 100 LIMIT
    (world_reach rfl (by simp [SmallCall]) (by decide)) (by decide) (by decide) (by decide)
    (by decide) (by decide)

/-- C11 fails when the size wraps around: after `malloc(2032)` no list holds a
block; for `n = 2^64 - 16` the adjusted size is 0, `find_fit` returns `NULL`,
`mm_sbrk` succeeds, and `malloc(n)` returns 6176, a block whose header is marked
free. -/
theorem C11_growth_counterexample :
    Reach AnyCall (world zeroed [.malloc 2032]) ∧
      adjusted 18446744073709551600 = 0 ∧
      find_fit (world zeroed [.malloc 2032]).st (adjusted 18446744073709551600) = some 0 ∧
      (mm_sbrk LIMIT (world zeroed [.malloc 2032]).st
        (grow_request 18446744073709551600)).isSome = true ∧
      (malloc LIMIT (world zeroed [.malloc 2032]).st 18446744073709551600).map
        (fun x => (x.2, get_alloc x.1.mem (hdrp x.2))) = some (6176, 0) :=
  ⟨world_reach rfl (fun _ _ => trivial) (by decide), by decide, by decide, by decide, by decide⟩

/-! ## C12: an exact fit is reused -/

/-- C12, for `n` at most `2^64 - 32` in a world reached with such sizes: if
exactly one listed free block `f` has the adjusted size of the request, then
`malloc(n)` returns `f`, marks it allocated with that size, and does not grow
the region. -/
theorem C12_exact_fit_reuse (w : World) (n cap f : Nat) (hr : Reach SmallCall w) (hn0 : 0 < n)
    (hn : n ≤ 18446744073709551616 - 32) (hf : ExactFit w.st (adjusted n) f) :
    ∃ s', malloc cap w.st n = some (s', f) ∧ get_alloc s'.mem (hdrp f) = 1 ∧
      get_size s'.mem (hdrp f) = adjusted n ∧ s'.brk = w.st.brk := by
  obtain ⟨bs, fl, hw, _⟩ := reach_winv (fun c hc => hc) hr
  have h := hw.1
  obtain ⟨ha1, ha2, ha3, ha4, ha5⟩ := adjusted_small hn
  obtain ⟨hlf, hfs, huniq⟩ := hf
  obtain ⟨b, hb, hb1, hb2, hb3⟩ := (listedFree_iff h).mp hlf
  have hbs : b.size = adjusted n := by rw [← (header_of h hb).1, hb1]; exact hfs
  -- what the scan returns
  have hfit := @find_fit_eq w.st fl (adjusted n)
    (fun j hj => list_nodes_inv h hj)
  have hidx := get_list_index_lt (adjusted n)
  obtain ⟨m1, m2, m3⟩ := fit_fold_min (m := w.st.mem) (a := adjusted n)
    (scan_order fl (11 - get_list_index (adjusted n)) (get_list_index (adjusted n)))
    (0, 18446744073709551615)
  generalize hR : (scan_order fl (11 - get_list_index (adjusted n))
    (get_list_index (adjusted n))).foldl (fit_step w.st.mem (adjusted n))
    (0, 18446744073709551615) = R at hfit m1 m2 m3
  have hfin : f ∈ scan_order fl (11 - get_list_index (adjusted n))
      (get_list_index (adjusted n)) :=
    (mem_scan_order _ _).mpr ⟨get_list_index (adjusted n), le_refl _, by omega,
      by rw [← hbs]; exact hb3⟩
  have hle := m2 f hfin (by rw [hfs])
  rw [hfs] at hle
  have hRf : R.1 = f := by
    rcases m3 with e | ⟨j1, j2, j3, _⟩
    · rw [e] at hle
      simp only at hle
      omega
    · obtain ⟨j, _, hj2, hj3⟩ := (mem_scan_order _ _).mp j1
      obtain ⟨_, c, hc, hc1, hc2, hc3⟩ := h.mem_fl j R.1 hj3
      apply huniq
      · exact (listedFree_iff h).mpr ⟨c, hc, hc1, hc2, by rw [hc3]; exact hj3⟩
      · omega
  rw [hRf] at hfit
  rw [← hb1] at hfit
  obtain ⟨s', bs', fl', u, hm, h', _, hbk, hB, hu, _⟩ :=
    @malloc_fit cap _ _ _ _ _ h hn (by omega) hb hb2 hfit (by omega)
  have hd := header_of h' hB
  simp only at hd
  have hua : u = adjusted n := by omega
  rw [hb1] at hm hd
  exact ⟨s', hm, hd.2, by rw [hd.1, hua], hbk⟩

theorem C12_exact_fit_reuse_witness :
    ExactFit (world zeroed [.malloc 100, .malloc 24, .free 4128]).st (adjusted 100) 4128 ∧
      ∃ s', malloc LIMIT (world zeroed [.malloc 100, .malloc 24, .free 4128]).st 100 =
          some (s', 4128) ∧
        get_alloc s'.mem (hdrp 4128) = 1 ∧ get_size s'.mem (hdrp 4128) = adjusted 100 ∧
        s'.brk = (world zeroed [.malloc 100, .malloc 24, .free 4128]).st.brk :=
  ⟨exactfit_check (by decide),
    C12_exact_fit_reuse (world zeroed [.malloc 100, .malloc 24, .free 4128]) 100 LIMIT 4128
      (world_reach rfl (by simp [SmallCall]) (by decide)) (by decide) (by decide)
      (exactfit_check (by decide))⟩

/-- C12 fails after a size has wrapped around: the calls `malloc(16)`,
`b = malloc(2032)`, `realloc(b, 2^64 - 16)`, `realloc(b, 2000)` leave `b = 4160`
marked allocated with size 2016 and still at the head of list 6, before the
free block 6208 of size 2016; that block is the one listed free block of the
adjusted size of a request of 2000 bytes, and `malloc(2000)` returns 4160. -/
theorem C12_exact_fit_counterexample :
    Reach AnyCall (world zeroed [.malloc 16, .malloc 2032, .realloc 4160 18446744073709551600,
        .realloc 4160 2000]) ∧
      ExactFit (world zeroed [.malloc 16, .malloc 2032, .realloc 4160 18446744073709551600,
        .realloc 4160 2000]).st (adjusted 2000) 6208 ∧
      (malloc LIMIT (world zeroed [.malloc 16, .malloc 2032, .realloc 4160 18446744073709551600,
        .realloc 4160 2000]).st 2000).map Prod.snd = some 4160 :=
  ⟨world_reach rfl (fun _ _ => trivial) (by decide), exactfit_check (by decide), by decide⟩

/-! ## C13: `malloc(0)` -/

/-- C13: in every state and whatever `mm_sbrk` would answer, `malloc(0)` returns
`NULL` and the state, with its region, heap words and list heads, is the one
before the call. -/
theorem C13_malloc_zero (cap : Nat) (s : State) : malloc cap s 0 = some (s, 0) := by
  unfold malloc
  rw [if_pos rfl]

/-! ## C14: `realloc(p, 0)` is `free(p)` -/

/-- C14: in every state and for every pointer `p`, `realloc(p, 0)` returns when
`free(p)` does, returns `NULL`, and leaves the state that `free(p)` leaves;
`realloc(NULL, 0)` returns `NULL` and changes nothing; and in a world reached
with sizes at most `2^64 - 32`, for `p` that is `NULL` or live, both return. -/
theorem C14_realloc_zero_is_free (cap : Nat) (s : State) (p : Nat) :
    realloc cap s p 0 = (free s p).map (fun s1 => (s1, 0)) ∧
    realloc cap s 0 0 = some (s, 0) ∧
    ∀ w : World, Reach SmallCall w → w.st = s → (p = 0 ∨ p ∈ w.live.map Prod.fst) →
      ∃ s1, free s p = some s1 ∧ realloc cap s p 0 = some (s1, 0) := by
  have e : realloc cap s p 0 = (free s p).map (fun s1 => (s1, 0)) := by
    unfold realloc
    rw [if_pos rfl]
    cases free s p <;> rfl
  refine ⟨e, rfl, ?_⟩
  intro w hr hws hp
  obtain ⟨bs, fl, hw, _⟩ := reach_winv (fun c hc => hc) hr
  obtain ⟨s1, hfree, _⟩ := free_step (c := .free p) hw hp
  rw [hws] at hfree
  exact ⟨s1, hfree, by rw [e, hfree]; rfl⟩

theorem C14_realloc_zero_is_free_witness :
    ∃ s1, free (world zeroed [.malloc 100]).st 4128 = some s1 ∧
      realloc LIMIT (world zeroed [.malloc 100]).st 4128 0 = some (s1, 0) :=
  (C14_realloc_zero_is_free LIMIT (world zeroed [.malloc 100]).st 4128).2.2
    (world zeroed [.malloc 100]) (world_reach rfl (by simp [SmallCall]) (by decide)) rfl
    (Or.inr (by decide))

/-! ## C15: the state after `mm_init` -/

/-- C15: `mm_init` returns, and it returns false exactly when the growth by the
32 bytes of the sentinels fails or the growth by 2048 bytes after it fails; and
when it returns true on an empty region, the heap is the initial heap: a zero
padding word, the prologue, one free block of 2048 bytes with equal header and
footer, the epilogue, the block alone in list 6 and the other lists empty. -/
theorem C15_initial_state (cap : Nat) (s : State) (hcap : cap < 18446744073709551616) :
    (∃ s' ok, mm_init cap s = some (s', ok) ∧
      (ok = false ↔ (mm_sbrk cap s 32 = none ∨
        mm_sbrk cap { s with brk := s.brk + 32 } 2048 = none))) ∧
    (s.brk = s.lo → ∀ s', mm_init cap s = some (s', true) → InitialHeap s' s.lo) := by
  constructor
  · by_cases hc : s.brk + 32 + 2048 ≤ cap
    · obtain ⟨T, _, _, _, hrun⟩ := mm_init_run hcap hc
      refine ⟨_, true, hrun, ?_⟩
      unfold mm_sbrk
      rw [if_pos (by omega), if_pos (by simp only; omega)]
      simp
    · obtain ⟨s', hf⟩ := @mm_init_fails cap s hc
      refine ⟨s', false, hf, ?_⟩
      unfold mm_sbrk
      refine ⟨fun _ => ?_, fun _ => rfl⟩
      by_cases h32 : s.brk + 32 ≤ cap
      · right
        rw [if_neg (by simp only; omega)]
      · left
        rw [if_neg h32]
  · intro hs s' hinit
    by_cases hc : s.lo + 32 + 2048 ≤ cap
    · obtain ⟨s2, fl, hrun, h, hfl6, hfl, hlo, hbk, hpad⟩ := mm_init_eq hs hcap hc
      rw [hrun] at hinit
      simp only [Option.some.injEq, Prod.mk.injEq, and_true] at hinit
      subst hinit
      have hb : (⟨s.lo + 32, 2048, 0⟩ : Blk) ∈ [(⟨s.lo + 32, 2048, 0⟩ : Blk)] := by simp
      have fb := Layout.mem h.lay hb
      simp only at fb
      have hbrk := h.brk_lt
      have e24 : hdrp (s.lo + 32) = s.lo + 32 - 8 := hdrp_eq (by omega) (by omega)
      have eft : ftrp s2.mem (s.lo + 32) = s.lo + 32 + 2048 - 16 :=
        tag_ftrp (by omega) (by omega) fb.2.2.2.2.2.1 (by omega) (by omega) (by omega)
      have ebk : hdrp s2.brk = s2.brk - 8 := hdrp_eq (by omega) hbrk
      have p17 : pack 16 1 = 17 := rfl
      have p2048 : pack 2048 0 = 2048 := rfl
      refine ⟨hbk, by rw [h.hl, hlo], hpad, ?_, ?_, ?_, ?_, ?_, ?_, ?_, ?_, ?_⟩
      · rw [p17, ← hlo]; exact h.pro_h
      · rw [p17, ← hlo]; exact h.pro_f
      · rw [heap_blocks_inv h]; rfl
      · rw [e24, p2048]; exact fb.2.2.2.2.2.1
      · rw [eft, e24, fb.2.2.2.2.2.1, fb.2.2.2.2.2.2]
      · rw [ebk, pack_zero_one]; exact h.epi
      · rw [ebk]; omega
      · rw [list_nodes_inv h (by omega), hfl6]
      · intro i hi hi6
        rw [h.heads i hi, list_nodes_inv h hi, hfl i hi6]
        exact ⟨rfl, rfl⟩
    · obtain ⟨s2, hf⟩ := @mm_init_fails cap s (by rw [hs]; exact hc)
      rw [hf] at hinit
      simp at hinit

theorem C15_initial_state_witness :
    (∃ s' ok, mm_init LIMIT zeroed = some (s', ok) ∧
      (ok = false ↔ (mm_sbrk LIMIT zeroed 32 = none ∨
        mm_sbrk LIMIT { zeroed with brk := zeroed.brk + 32 } 2048 = none))) ∧
    (zeroed.brk = zeroed.lo → ∀ s', mm_init LIMIT zeroed = some (s', true) →
      InitialHeap s' zeroed.lo) :=
  C15_initial_state LIMIT zeroed (by decide)

/-! ## C16: `calloc` -/

/-- C17: for every size `s`, `get_list_index s` is at most 10; when `s` is at
most 16384 it is the least `i` in `0..9` with `s ≤ 32 * 2^i`, and it is 10 when
`s` is above 16384; every class `0..10` is the class of some size; and the
function is monotone. -/
theorem C17_size_class (s t : Nat) :
    get_list_index s ≤ 10 ∧
    (s ≤ 16384 → get_list_index s ≤ 9 ∧ s ≤ 32 * 2 ^ get_list_index s ∧
      ∀ i, i < get_list_index s → ¬ s ≤ 32 * 2 ^ i) ∧
    (16384 < s → get_list_index s = 10) ∧
    (∀ i, i ≤ 10 → ∃ u, get_list_index u = i) ∧
    (s ≤ t → get_list_index s ≤ get_list_index t) := by
  have hs := get_list_index_cases s
  have ht := get_list_index_cases t
  refine ⟨by omega, ?_, by omega, ?_, by omega⟩
  · intro h16
    refine ⟨by omega, ?_, ?_⟩
    · rcases hs with h | h | h | h | h | h | h | h | h | h | h
      all_goals (rw [h.1]; norm_num; omega)
    · intro i hi
      have hi9 : i ≤ 9 := by omega
      interval_cases i <;> norm_num <;> omega
  · intro i hi
    interval_cases i
    · exact ⟨32, rfl⟩
    · exact ⟨64, rfl⟩
    · exact ⟨128, rfl⟩
    · exact ⟨256, rfl⟩
    · exact ⟨512, rfl⟩
    · exact ⟨1024, rfl⟩
    · exact ⟨2048, rfl⟩
    · exact ⟨4096, rfl⟩
    · exact ⟨8192, rfl⟩
    · exact ⟨16384, rfl⟩
    · exact ⟨16385, rfl⟩

/-! ## C18: the header codec -/

/-- C18: for every size below `2^64` that is a multiple of 8 and every flag `a`
in `{0, 1}`, the word `pack(size, a)` has `& ~0x7` equal to `size` and `& 0x1`
equal to `a`, and `get_size` and `get_alloc` at a location that holds the word
return `size` and `a`. -/
theorem C18_codec_round_trip (m : Mem) (p size a : Nat) (hs : size % 8 = 0)
    (hlt : size < 18446744073709551616) (ha : a ≤ 1) :
    pack size a &&& 0xFFFFFFFFFFFFFFF8 = size ∧ pack size a &&& 0x1 = a ∧
      get_size (put m p (pack size a)) p = size ∧
      get_alloc (put m p (pack size a)) p = a := by
  have hp : pack size a = size + a := pack_eq (by omega) ha
  have hg : get (put m p (pack size a)) p = size + a := by
    rw [get_put_same, hp, Nat.mod_eq_of_lt (by omega)]
  refine ⟨?_, ?_, get_size_eq hg hs ha, get_alloc_eq hg hs ha⟩
  · rw [hp, and_mask_eq (by omega)]; omega
  · rw [hp, and_one_eq]; omega

theorem C18_codec_round_trip_witness :
    pack 48 1 &&& 0xFFFFFFFFFFFFFFF8 = 48 ∧ pack 48 1 &&& 0x1 = 1 ∧
      get_size (put (fun _ => 0) 4120 (pack 48 1)) 4120 = 48 ∧
      get_alloc (put (fun _ => 0) 4120 (pack 48 1)) 4120 = 1 :=
  C18_codec_round_trip (fun _ => 0) 4120 48 1 (by decide) (by decide) (by decide)

/-! ## C19: the adjusted size -/

/-- C19: for every `n` with `1 ≤ n ≤ 2^64 - 32`, the adjusted size that `malloc`
computes is 32 when `n ≤ 16` and `16 * ceil((n + 16) / 16)` otherwise; it is a
multiple of 16, at least 32, at least `n + 16` and less than `n + 32`. -/
theorem C19_normalization (n : Nat) (h1 : 1 ≤ n) (hn : n ≤ 18446744073709551616 - 32) :
    adjusted n = (if n ≤ 16 then 32 else 16 * ((n + 16 + 15) / 16)) ∧
      adjusted n % 16 = 0 ∧ 32 ≤ adjusted n ∧ n + 16 ≤ adjusted n ∧ adjusted n < n + 32 := by
  have e : adjusted n = (if n ≤ 16 then 32 else 16 * ((n + 16 + 15) / 16)) := by
    unfold adjusted WSIZE
    split_ifs with h
    · rfl
    · rw [addw_eq (by omega), align_eq (by omega)]
  rw [e]
  split_ifs with h <;> omega

theorem C19_normalization_witness :
    adjusted 100 = (if 100 ≤ 16 then 32 else 16 * ((100 + 16 + 15) / 16)) ∧
      adjusted 100 % 16 = 0 ∧ 32 ≤ adjusted 100 ∧ 100 + 16 ≤ adjusted 100 ∧
      adjusted 100 < 100 + 32 :=
  C19_normalization 100 (by decide) (by decide)

end Claims2

end MM

namespace Chan

/-! ## C20: traffic on a closed channel -/

/-- On a closed channel both sends return `CLOSED_ERROR` and leave the channel
as it is. -/
theorem closed_send (ch : channel_t) (data : Nat) (hc : ch.closed = true) :
    channel_send (some ch) data = some ⟨some ch, .CLOSED_ERROR, none⟩ ∧
      channel_non_blocking_send (some ch) data = ⟨some ch, .CLOSED_ERROR, none⟩ := by
  constructor
  · simp [channel_send, _wait_and_check_send, hc]
  · simp [channel_non_blocking_send, hc]

/-- On a closed channel whose buffer is empty both receives return
`CLOSED_ERROR`. -/
theorem closed_receive_empty (ch : channel_t) (hc : ch.closed = true)
    (he : ch.buffer.items = []) :
    channel_receive (some ch) true = some ⟨some ch, .CLOSED_ERROR, none⟩ ∧
      channel_non_blocking_receive (some ch) true = ⟨some ch, .CLOSED_ERROR, none⟩ := by
  constructor
  · simp [channel_receive, _wait_and_check_recv, buffer_current_size, hc, he]
  · simp [channel_non_blocking_receive, buffer_current_size, hc, he]

/-- C20 does not hold of the code: on a channel of capacity 2 that holds the
message 7, `channel_close` returns `SUCCESS`; after it both sends return
`CLOSED_ERROR`, but `channel_receive` and `channel_non_blocking_receive` return
`SUCCESS` and deliver the message 7. -/
theorem C20_closed_channel_still_delivers :
    channel_close (some ⟨⟨[7], 2⟩, false⟩) = ⟨some ⟨⟨[7], 2⟩, true⟩, .SUCCESS, none⟩ ∧
    channel_send (some ⟨⟨[7], 2⟩, true⟩) 9 = some ⟨some ⟨⟨[7], 2⟩, true⟩, .CLOSED_ERROR, none⟩ ∧
    channel_non_blocking_send (some ⟨⟨[7], 2⟩, true⟩) 9 =
      ⟨some ⟨⟨[7], 2⟩, true⟩, .CLOSED_ERROR, none⟩ ∧
    channel_receive (some ⟨⟨[7], 2⟩, true⟩) true =
      some ⟨some ⟨⟨[], 2⟩, true⟩, .SUCCESS, some 7⟩ ∧
    channel_non_blocking_receive (some ⟨⟨[7], 2⟩, true⟩) true =
      ⟨some ⟨⟨[], 2⟩, true⟩, .SUCCESS, some 7⟩ := by
  decide

end Chan

namespace MM

/-! ## Walks of raw lists -/

/-- No node of a finished walk is `NULL`. -/
theorem list_walk_ne_zero {m : Mem} : ∀ (F p : Nat) (l : List Nat),
    list_walk m F p = some l → ∀ x ∈ l, x ≠ 0
  | 0, p, l, h => by simp [list_walk] at h
  | F + 1, p, l, h => by
    unfold list_walk at h
    by_cases hp : p = 0
    · rw [if_pos hp] at h
      simp only [Option.some.injEq] at h
      subst h
      intro x hx
      simp at hx
    · rw [if_neg hp] at h
      cases hw : list_walk m F (get_succ m p) with
      | none => rw [hw] at h; simp at h
      | some t =>
        rw [hw] at h
        simp only [Option.some.injEq] at h
        subst h
        intro x hx
        rcases List.mem_cons.mp hx with e | hx
        · rw [e]; exact hp
        · exact list_walk_ne_zero F _ t hw x hx

/-- The membership scan of `remove_from_free_list` over a list that ends:
a block that is not a node is not found. -/
theorem list_scan_absent {m : Mem} {T : Nat} : ∀ (F p : Nat) (l : List Nat),
    list_walk m F p = some l → T ∉ l → list_scan m T F p = some false
  | 0, p, l, h, _ => by simp [list_walk] at h
  | F + 1, p, l, h, hT => by
    unfold list_walk at h
    by_cases hp : p = 0
    · simp [list_scan, hp]
    · rw [if_neg hp] at h
      cases hw : list_walk m F (get_succ m p) with
      | none => rw [hw] at h; simp at h
      | some t =>
        rw [hw] at h
        simp only [Option.some.injEq] at h
        subst h
        have h1 : p ≠ T := fun e => hT (by rw [e]; exact List.mem_cons_self _ _)
        have h2 : T ∉ t := fun e => hT (List.mem_cons_of_mem _ e)
        unfold list_scan
        rw [if_neg hp, if_neg h1]
        exact list_scan_absent F _ t hw h2

/-- The membership scan over a list that ends: a node is found. -/
theorem list_scan_present {m : Mem} {T : Nat} : ∀ (F p : Nat) (l : List Nat),
    list_walk m F p = some l → T ∈ l → list_scan m T F p = some true
  | 0, p, l, h, _ => by simp [list_walk] at h
  | F + 1, p, l, h, hT => by
    unfold list_walk at h
    by_cases hp : p = 0
    · rw [if_pos hp] at h
      simp only [Option.some.injEq] at h
      subst h
      simp at hT
    · rw [if_neg hp] at h
      cases hw : list_walk m F (get_succ m p) with
      | none => rw [hw] at h; simp at h
      | some t =>
        rw [hw] at h
        simp only [Option.some.injEq] at h
        subst h
        unfold list_scan
        rw [if_neg hp]
        by_cases h1 : p = T
        · rw [if_pos h1]
        · rw [if_neg h1]
          rcases List.mem_cons.mp hT with e | hT
          · exact absurd e.symm h1
          · exact list_scan_present F _ t hw hT

/-! ## The best-fit fold picks the first smallest block that fits -/

theorem get_size_le (m : Mem) (p : Nat) : get_size m p ≤ 18446744073709551608 := by
  unfold get_size
  exact Nat.and_le_right

/-- The fold of the best-fit scan either keeps what it started from, and then
no block of the list that fits is smaller than that, or it picks a block of the
list that fits: every block before it that fits is larger, no block after it
that fits is smaller. -/
theorem fit_fold_first {m : Mem} {a : Nat} : ∀ (l : List Nat) (H : Nat × Nat),
    (l.foldl (fit_step m a) H = H ∧ ∀ x ∈ l, a ≤ get_size m (hdrp x) → H.2 ≤ get_size m (hdrp x)) ∨
    (∃ l1 l2, l = l1 ++ (l.foldl (fit_step m a) H).1 :: l2 ∧
      (l.foldl (fit_step m a) H).2 = get_size m (hdrp (l.foldl (fit_step m a) H).1) ∧
      a ≤ (l.foldl (fit_step m a) H).2 ∧ (l.foldl (fit_step m a) H).2 < H.2 ∧
      (∀ x ∈ l1, a ≤ get_size m (hdrp x) →
        (l.foldl (fit_step m a) H).2 < get_size m (hdrp x)) ∧
      (∀ x ∈ l2, a ≤ get_size m (hdrp x) →
        (l.foldl (fit_step m a) H).2 ≤ get_size m (hdrp x)))
  | [], H => Or.inl ⟨rfl, fun x hx => by simp at hx⟩
  | x :: l, H => by
    rw [List.foldl_cons]
    have ih := fit_fold_first (m := m) (a := a) l (fit_step m a H x)
    generalize hR : l.foldl (fit_step m a) (fit_step m a H x) = R at ih
    by_cases hc : a ≤ get_size m (hdrp x) ∧ get_size m (hdrp x) < H.2
    · have e : fit_step m a H x = (x, get_size m (hdrp x)) := by
        unfold fit_step; rw [if_pos hc]
      rw [e] at ih
      right
      rcases ih with ⟨i1, i2⟩ | ⟨l1, l2, j1, j2, j3, j4, j5, j6⟩
      · refine ⟨[], l, by rw [i1]; rfl, by rw [i1], by rw [i1]; exact hc.1,
          by rw [i1]; exact hc.2, fun y hy => by simp at hy, ?_⟩
        intro y hy hay
        rw [i1]
        exact i2 y hy hay
      · simp only at j4
        refine ⟨x :: l1, l2, by rw [List.cons_append, ← j1], j2, j3, by omega, ?_, j6⟩
        intro y hy hay
        rcases List.mem_cons.mp hy with rfl | hy
        · exact j4
        · exact j5 y hy hay
    · have e : fit_step m a H x = H := by
        unfold fit_step; rw [if_neg hc]
      rw [e] at ih
      rcases ih with ⟨i1, i2⟩ | ⟨l1, l2, j1, j2, j3, j4, j5, j6⟩
      · left
        refine ⟨i1, ?_⟩
        intro y hy hay
        rcases List.mem_cons.mp hy with rfl | hy
        · by_contra hlt
          exact hc ⟨hay, by omega⟩
        · exact i2 y hy hay
      · right
        refine ⟨x :: l1, l2, by rw [List.cons_append, ← j1], j2, j3, j4, ?_, j6⟩
        intro y hy hay
        rcases List.mem_cons.mp hy with rfl | hy
        · have : H.2 ≤ get_size m (hdrp y) := by
            by_contra hlt
            exact hc ⟨hay, by omega⟩
          omega
        · exact j5 y hy hay

/-! ## The two size normalizations -/

theorem align_small {n : Nat} (h1 : 1 ≤ n) (h2 : n ≤ 16) : align (addw n (WSIZE * 2)) = 32 := by
  unfold WSIZE
  rw [addw_eq (by omega), align_eq (by omega)]
  omega

/-! ## `add_to_free_list` on raw lists -/

/-- Insertion at the head of a list, for lists given by their chains only: the
nodes are 16 bytes apart from one another and from the new node, and no node is
in two lists. Nothing is asked of the heap around the nodes. -/
theorem add_raw {s : State} {fl : Nat → List Nat} {q : Nat}
    (hq : q + 16 ≤ 18446744073709551616)
    (hheads : ∀ i, i < 11 → s.free_lists i = (fl i).headD 0)
    (hchain : ∀ i, Chain s.mem 0 (fl i) 0)
    (hsep : ∀ i, ∀ x ∈ fl i, x + 16 ≤ q ∨ q + 16 ≤ x)
    (hapart : ∀ i j, ∀ x ∈ fl i, ∀ y ∈ fl j, x ≠ y → x + 16 ≤ y ∨ y + 16 ≤ x)
    (hidx : ∀ i j x, x ∈ fl i → x ∈ fl j → i = j)
    (hnd : ∀ i, (fl i).Nodup)
    (hnz : ∀ i, ∀ x ∈ fl i, x ≠ 0 ∧ x < 18446744073709551616) :
    (add_to_free_list s q).free_lists =
        Function.update s.free_lists (get_list_index (get_size s.mem (hdrp q))) q ∧
      (∀ j, j ≠ get_list_index (get_size s.mem (hdrp q)) →
        Chain (add_to_free_list s q).mem 0 (fl j) 0) ∧
      Chain (add_to_free_list s q).mem 0
        (q :: fl (get_list_index (get_size s.mem (hdrp q)))) 0 ∧
      (∀ x, x < q ∨ q + 16 ≤ x →
        (∀ c ∈ fl (get_list_index (get_size s.mem (hdrp q))), x < c ∨ c + 8 ≤ x) →
        (add_to_free_list s q).mem x = s.mem x) ∧
      (add_to_free_list s q).lo = s.lo ∧ (add_to_free_list s q).brk = s.brk ∧
      (add_to_free_list s q).heap_listp = s.heap_listp := by
  generalize hI : get_list_index (get_size s.mem (hdrp q)) = I
  have hi : I < 11 := by rw [← hI]; exact get_list_index_lt _
  have hsucc : succ_ptr q = q + 8 := succ_ptr_eq (by omega)
  have hhd := hheads I hi
  have hc1 : ∀ v j, Chain (put (put s.mem q 0) (q + 8) v) 0 (fl j) 0 := by
    intro v j
    apply Chain.keep (hchain j)
    intro y hy z hz1 hz2
    have := hsep j y hy
    rw [put_outside (by omega), put_outside (by omega)]
  unfold add_to_free_list set_pred set_succ pred_ptr
  simp only [hI, hsucc, hhd]
  cases hl : fl I with
  | nil =>
    simp only [List.headD_nil, ne_eq, not_true_eq_false, if_false]
    refine ⟨by trivial, fun j _ => hc1 0 j, ?_, ?_, by trivial,
      by trivial, by trivial⟩
    · exact ⟨by rw [get_put_other (by omega), get_put_same], by rw [get_put_same]; rfl, trivial⟩
    · intro x hx _
      rw [put_outside (by omega), put_outside (by omega)]
  | cons c t =>
    have hcm : c ∈ fl I := by rw [hl]; simp
    have hc0 := hnz I c hcm
    have hcq := hsep I c hcm
    simp only [List.headD_cons, ne_eq, hc0.1, not_false_eq_true, if_true]
    refine ⟨by trivial, ?_, ?_, ?_, by trivial,
      by trivial, by trivial⟩
    · intro j hj
      apply Chain.keep (hc1 c j)
      intro y hy z hz1 hz2
      have hyc : y ≠ c := fun e => hj (hidx j I y hy (e ▸ hcm))
      have := hapart j I y hy c hcm hyc
      exact put_outside (by omega)
    · have hch := hc1 c I
      rw [hl] at hch
      have hnd' := hnd I
      rw [hl] at hnd'
      have hsp := @Chain.set_pred _ _ _ _ _ q hch (by
        intro y hy
        have hyc : y ≠ c := fun e => (List.nodup_cons.mp hnd').1 (e ▸ hy)
        have := hapart I I y (by rw [hl]; exact List.mem_cons_of_mem _ hy) c hcm hyc
        omega)
      rw [Nat.mod_eq_of_lt (by omega)] at hsp
      refine ⟨?_, ?_, hsp⟩
      · rw [get_put_other (by omega), get_put_other (by omega), get_put_same]
      · rw [get_put_other (by omega), get_put_same, Nat.mod_eq_of_lt (by omega)]; rfl
    · intro x hx hxc
      have := hxc c (List.mem_cons_self _ _)
      rw [put_outside (by omega), put_outside (by omega), put_outside (by omega)]

/-- The nodes of the lists of a well-formed heap, as `add_raw` wants them. -/
theorem Inv.raw {s : State} {bs : List Blk} {fl : Nat → List Nat} {X : Set Nat}
    (h : Inv s bs fl X) :
    (∀ i j, ∀ x ∈ fl i, ∀ y ∈ fl j, x ≠ y → x + 16 ≤ y ∨ y + 16 ≤ x) ∧
      (∀ i j x, x ∈ fl i → x ∈ fl j → i = j) ∧
      (∀ i, ∀ x ∈ fl i, x ≠ 0 ∧ x + 32 ≤ 18446744073709551616) := by
  refine ⟨?_, fun i j x hx hy => h.node_idx hx hy, ?_⟩
  · intro i j x hx y hy hne
    have := h.node_ne hx hy hne
    omega
  · intro i x hx
    obtain ⟨_, c, hc, rfl, _, _⟩ := h.node hx
    have := h.blk hc
    have := h.brk_lt
    omega

/-- The walk of a chain whose nodes are apart from one another ends. -/
theorem walk_of_chain {m : Mem} {l : List Nat} (hc : Chain m 0 l 0) (hnd : l.Nodup)
    (hb : ∀ x ∈ l, x ≠ 0 ∧ x + 16 ≤ 18446744073709551616) :
    list_walk m FUEL (l.headD 0) = some l := by
  apply list_walk_chain hc (fun x hx => ⟨(hb x hx).1, by have := (hb x hx).2; omega⟩)
  have := nodup_length_le (N := 18446744073709551615) hnd
    (fun x hx => by have := (hb x hx).2; omega)
  unfold FUEL
  omega

/-! ## What `remove_from_free_list` leaves alone -/

/-- Removing a node changes link words of nodes of its list only. -/
theorem remove_frame {s s1 : State} {bs : List Blk} {fl : Nat → List Nat} {X : Set Nat}
    {b : Blk} (h : Inv s bs fl X) (hb : b ∈ bs) (hmem : b.addr ∈ fl (get_list_index b.size))
    (hrem : remove_from_free_list s b.addr = some s1) :
    ∀ x, (∀ y ∈ fl (get_list_index b.size), x < y ∨ y + 16 ≤ x) → s1.mem x = s.mem x := by
  obtain ⟨l1, l2, hl⟩ := List.append_of_mem hmem
  rw [remove_eq h hb hl] at hrem
  simp only [Option.some.injEq] at hrem
  subst hrem
  intro x hx
  have hP : l1.getLastD 0 ≠ 0 → x < l1.getLastD 0 + 8 ∨ l1.getLastD 0 + 16 ≤ x := by
    intro hne
    have hin : l1.getLastD 0 ∈ l1 := by
      apply getLastD_mem
      intro e; rw [e] at hne; exact hne rfl
    have := hx _ (by rw [hl]; exact List.mem_append_left _ hin)
    omega
  have hS : l2.headD 0 ≠ 0 → x < l2.headD 0 ∨ l2.headD 0 + 8 ≤ x := by
    intro hne
    have hin : l2.headD 0 ∈ l2 := by
      cases l2 with
      | nil => exact absurd rfl hne
      | cons c t => simp
    have := hx _ (by rw [hl]; exact List.mem_append_right _ (List.mem_cons_of_mem _ hin))
    omega
  simp only
  generalize l1.getLastD 0 = P at *
  generalize l2.headD 0 = S at *
  by_cases hp0 : P = 0 <;> by_cases hs0 : S = 0
  · simp [hp0, hs0]
  · have := hS hs0
    simp only [hp0, hs0, ne_eq, not_true_eq_false, not_false_eq_true, if_true, if_false]
    exact put_outside (by omega)
  · have := hP hp0
    simp only [hp0, hs0, ne_eq, not_true_eq_false, not_false_eq_true, if_true, if_false]
    exact put_outside (by omega)
  · have h1 := hP hp0
    have h2 := hS hs0
    simp only [hp0, hs0, ne_eq, not_true_eq_false, not_false_eq_true, if_true, if_false]
    rw [put_outside (by omega), put_outside (by omega)]

/-! ## The place of a block in the heap -/

/-- A block occurs once in a layout: the blocks before it and after it are
determined. -/
theorem Layout.split_unique {m : Mem} {p e : Nat} {b : Blk} :
    ∀ {xs xs0 ys ys0 : List Blk}, Layout m p (xs ++ b :: ys) e →
      xs ++ b :: ys = xs0 ++ b :: ys0 → xs = xs0 ∧ ys = ys0 := by
  intro xs xs0 ys ys0 hlay heq
  have hlay0 := hlay
  rw [heq] at hlay0
  obtain ⟨q, hq1, hq2⟩ := Layout.append.mp hlay
  obtain ⟨q0, hq3, hq4⟩ := Layout.append.mp hlay0
  have hs1 := Layout.sum hq1
  have hs3 := Layout.sum hq3
  have e1 : b.addr = q := hq2.1
  have e0 : b.addr = q0 := hq4.1
  have hsum : (xs.map Blk.size).sum = (xs0.map Blk.size).sum := by omega
  have hpos : ∀ c ∈ xs ++ b :: ys, 32 ≤ c.size := fun c hc => (Layout.mem hlay hc).2.2.1
  rcases List.append_eq_append_iff.mp heq with ⟨a, ha1, ha2⟩ | ⟨a, ha1, ha2⟩
  · cases a with
    | nil =>
      simp only [List.append_nil] at ha1
      simp only [List.nil_append, List.cons.injEq, true_and] at ha2
      exact ⟨ha1.symm, ha2⟩
    | cons c t =>
      exfalso
      rw [ha1] at hsum
      simp only [List.map_append, List.sum_append, List.map_cons, List.sum_cons] at hsum
      have hc : c ∈ xs ++ b :: ys := by
        rw [heq, ha1]; simp
      have := hpos c hc
      omega
  · cases a with
    | nil =>
      simp only [List.append_nil] at ha1
      simp only [List.nil_append, List.cons.injEq, true_and] at ha2
      exact ⟨ha1, ha2.symm⟩
    | cons c t =>
      exfalso
      rw [ha1] at hsum
      simp only [List.map_append, List.sum_append, List.map_cons, List.sum_cons] at hsum
      have hc : c ∈ xs ++ b :: ys := by
        rw [ha1]; simp
      have := hpos c hc
      omega

theorem free_last_concat (xs : List Blk) (c : Blk) :
    free_last (xs ++ [c]) = if c.alloc = 0 then some c else none := by
  unfold free_last
  rw [List.getLast?_append, List.getLast?_singleton]
  rfl

theorem free_last_nil : free_last [] = none := rfl

/-! ## `coalesce`, case by case -/

theorem add_head (s : State) (q : Nat) :
    (add_to_free_list s q).free_lists (get_list_index (get_size s.mem (hdrp q))) = q := by
  simp [add_to_free_list]

theorem free_last_none {xs : List Blk} (h : ∀ xs' c, xs = xs' ++ [c] → c.alloc = 1) :
    free_last xs = none := by
  rcases List.eq_nil_or_concat xs with hx | ⟨xs', c, hx⟩
  · rw [hx]; rfl
  · rw [List.concat_eq_append] at hx
    rw [hx, free_last_concat, if_neg]
    have := h xs' c hx
    omega

theorem free_first_none {ys : List Blk} (h : ∀ d ys', ys = d :: ys' → d.alloc = 1) :
    free_first ys = none := by
  cases ys with
  | nil => rfl
  | cons d t =>
    have := h d t rfl
    unfold free_first
    simp only
    rw [if_neg (by omega)]

theorem free_first_cons {d : Blk} {t : List Blk} (h : d.alloc = 0) :
    free_first (d :: t) = some d := by
  unfold free_first
  simp only
  rw [if_pos h]

/-- What `coalesce` does to a free block `b` that is in no list, the blocks
before it being `xs` and the blocks after it `ys`: it returns the start `q` of
the merged block, of size `u`, which is the head of the list of its class in a
heap that is well formed again. -/
theorem coalesce_exact {s : State} {bs xs ys : List Blk} {fl : Nat → List Nat} {b : Blk}
    (h : Inv s bs fl {b.addr}) (hbs : bs = xs ++ b :: ys) (hf : b.alloc = 0) :
    ∃ s' fl' xs' ys' q u, coalesce s b.addr = some (s', q) ∧
      Inv s' (xs' ++ ([⟨q, u, 0⟩] ++ ys')) fl' ∅ ∧
      s'.free_lists (get_list_index u) = q ∧
      q = (match free_last xs with
        | some c => c.addr
        | none => b.addr) ∧
      u = b.size + merged (free_last xs) + merged (free_first ys) ∧
      q + merged (free_last xs) = b.addr ∧
      (∀ d, free_first ys = some d → d.addr = b.addr + b.size) := by
  have hb : b ∈ bs := by rw [hbs]; simp
  have fb := h.blk hb
  have hbrk := h.brk_lt
  obtain ⟨xs0, ys0, hbs0, hq, hr, hpne, hprev, hnext, hnx⟩ := neighbours h hb
  have huniq := Layout.split_unique (by rw [← hbs]; exact h.lay) (hbs.symm.trans hbs0)
  obtain ⟨hx0, hy0⟩ := huniq
  subst hx0
  subst hy0
  clear hbs0
  have hsz : get_size s.mem (hdrp b.addr) = b.size :=
    tag_size (by omega) (by omega) fb.2.2.2.2.2.1 fb.2.2.2.1 fb.2.2.2.2.1
  rcases hprev with ⟨hpa, hpc⟩ | ⟨hpa, xs', c, hxs, hcf, hpc, hcadj, hq'⟩ <;>
    rcases hnx with ⟨hna, hnd⟩ | ⟨hna, d, ys', hys, hdf, hdadj, hr'⟩
  · -- case 1
    have hpB : (decide (get_alloc s.mem (ftrp s.mem (prev_blkp s.mem b.addr)) ≠ 0) ||
        decide (prev_blkp s.mem b.addr = b.addr)) = true := by rw [hpa]; simp
    have hnB : decide (get_alloc s.mem (hdrp (next_blkp s.mem b.addr)) ≠ 0) = true := by
      rw [hnext, hna]; simp
    rw [coalesce_case1 hpB hnB]
    obtain ⟨h3, _, _, _, _⟩ := @add_spec _ _ _ _ ∅ _ h hb hf (by simp) (by simp)
    have hbs' : bs = xs ++ ([⟨b.addr, b.size, 0⟩] ++ ys) := by rw [blk_eta hf]; exact hbs
    rw [hbs'] at h3
    refine ⟨_, _, xs, ys, b.addr, b.size, rfl, h3, ?_, ?_, ?_, ?_, ?_⟩
    · have := add_head s b.addr
      rw [hsz] at this
      exact this
    · rw [free_last_none hpc]
    · rw [free_last_none hpc, free_first_none hnd]; rfl
    · rw [free_last_none hpc]; rfl
    · intro d hd
      rw [free_first_none hnd] at hd
      exact absurd hd (by simp)
  · -- case 2: the successor is absorbed
    have hpB : (decide (get_alloc s.mem (ftrp s.mem (prev_blkp s.mem b.addr)) ≠ 0) ||
        decide (prev_blkp s.mem b.addr = b.addr)) = true := by rw [hpa]; simp
    have hnB : decide (get_alloc s.mem (hdrp (next_blkp s.mem b.addr)) ≠ 0) = false := by
      rw [hnext, hna]; simp
    have hbs2 : bs = xs ++ ([b, d] ++ ys') := by rw [hbs, hys]; rfl
    have hd : d ∈ bs := by rw [hbs2]; simp
    have fd := h.blk hd
    obtain ⟨s1, hrem, h1, hlo, hbk, hhl, hk1⟩ := @remove_spec _ _ _ _ {b.addr, d.addr} _ h hd hdf
      (by simp only [Set.mem_singleton_iff]; omega)
      (by intro a; simp only [Set.mem_insert_iff, Set.mem_singleton_iff])
    have fb1 := h1.blk hb
    have fd1 := h1.blk hd
    rw [hdadj] at fd1 hrem
    have hlay1 := h1.lay
    rw [hlo, hbk, hbs2] at hlay1
    obtain ⟨q1, hq1, hrest⟩ := Layout.append.mp hlay1
    obtain ⟨r1, hmid1, hr1⟩ := Layout.append.mp hrest
    have hq1e : b.addr = q1 := hmid1.1
    have hr1e := Layout.sum hmid1
    simp only [List.map_cons, List.map_nil, List.sum_cons, List.sum_nil] at hr1e
    subst hq1e
    rw [coalesce_case2 hpB hnB, hnext, hrem]
    simp only []
    rw [hsz, tag_size (by omega) (by omega) fd1.2.2.2.2.2.1 fd1.2.2.2.1 fd1.2.2.2.2.1,
      addw_eq (by omega), setTags_eq (by omega) (by omega) (by omega) (by omega) (by omega)]
    obtain ⟨fl', h3, _, _, _, _⟩ := @merge_spec _ _ _ _ _ _ _ _ r1 (b.size + d.size)
      h1 (by omega) hbs2 (hlo ▸ hq1) hmid1 (hbk ▸ hr1) (by simp)
      (by
        intro x hx
        simp only [List.mem_cons, List.mem_singleton, List.not_mem_nil, or_false] at hx
        rcases hx with hx | hx
        · subst hx; exact ⟨hf, by simp⟩
        · subst hx; exact ⟨hdf, by simp⟩)
      (by
        intro a ha
        simp only [Set.mem_insert_iff, Set.mem_singleton_iff] at ha
        omega)
    refine ⟨_, fl', xs, ys', b.addr, b.size + d.size, rfl, h3, ?_, ?_, ?_, ?_, ?_⟩
    · have := add_head { s1 with mem := setTags s1.mem b.addr (b.size + d.size) 0 } b.addr
      rw [tag_size (by omega) (by omega)
        (get_setTags_hdr (by omega) (by omega) (by omega)) (by omega) (by omega)] at this
      exact this
    · rw [free_last_none hpc]
    · rw [free_last_none hpc, hys, free_first_cons hdf]; rfl
    · rw [free_last_none hpc]; rfl
    · intro d' hd'
      rw [hys, free_first_cons hdf] at hd'
      simp only [Option.some.injEq] at hd'
      rw [← hd']; exact hdadj
  · -- case 3: the predecessor absorbs the block
    have hpB : (decide (get_alloc s.mem (ftrp s.mem (prev_blkp s.mem b.addr)) ≠ 0) ||
        decide (prev_blkp s.mem b.addr = b.addr)) = false := by rw [hpa]; simp [hpne]
    have hnB : decide (get_alloc s.mem (hdrp (next_blkp s.mem b.addr)) ≠ 0) = true := by
      rw [hnext, hna]; simp
    have hbs3 : bs = xs' ++ ([c, b] ++ ys) := by rw [hbs, hxs]; simp
    have hc : c ∈ bs := by rw [hbs3]; simp
    have fc := h.blk hc
    obtain ⟨s1, hrem, h1, hlo, hbk, hhl, hk1⟩ := @remove_spec _ _ _ _ {b.addr, c.addr} _ h hc hcf
      (by simp only [Set.mem_singleton_iff]; omega)
      (by intro a; simp only [Set.mem_insert_iff, Set.mem_singleton_iff])
    have fb1 := h1.blk hb
    have fc1 := h1.blk hc
    have hlay1 := h1.lay
    rw [hlo, hbk, hbs3] at hlay1
    obtain ⟨q1, hq1, hrest⟩ := Layout.append.mp hlay1
    obtain ⟨r1, hmid1, hr1⟩ := Layout.append.mp hrest
    have hq1e : c.addr = q1 := hmid1.1
    have hr1e := Layout.sum hmid1
    simp only [List.map_cons, List.map_nil, List.sum_cons, List.sum_nil] at hr1e
    subst hq1e
    have hmemeq : put (put s1.mem (ftrp s1.mem b.addr) (pack (b.size + c.size) 0))
        (hdrp c.addr) (pack (b.size + c.size) 0) =
        setTags s1.mem c.addr (b.size + c.size) 0 := by
      rw [tag_ftrp (by omega) (by omega) fb1.2.2.2.2.2.1 fb1.2.2.2.1 fb1.2.2.2.2.1 (by omega),
        hdrp_eq (by omega) (by omega), pack_eq (by omega) (by omega)]
      unfold setTags
      rw [put_comm (by omega)]
      have : c.addr + (b.size + c.size) - 16 = b.addr + b.size - 16 := by omega
      rw [this]
    rw [coalesce_case3 hpB hnB, hpc, hrem]
    simp only []
    rw [hsz, tag_size (by omega) (by omega) fc1.2.2.2.2.2.1 fc1.2.2.2.1 fc1.2.2.2.2.1,
      addw_eq (by omega), hmemeq]
    obtain ⟨fl', h3, _, _, _, _⟩ := @merge_spec _ _ _ _ _ _ _ _ r1 (b.size + c.size)
      h1 (by omega) hbs3 (hlo ▸ hq1) hmid1 (hbk ▸ hr1) (by simp)
      (by
        intro x hx
        simp only [List.mem_cons, List.mem_singleton, List.not_mem_nil, or_false] at hx
        rcases hx with hx | hx
        · subst hx; exact ⟨hcf, by simp⟩
        · subst hx; exact ⟨hf, by simp⟩)
      (by
        intro a ha
        simp only [Set.mem_insert_iff, Set.mem_singleton_iff] at ha
        omega)
    refine ⟨_, fl', xs', ys, c.addr, b.size + c.size, rfl, h3, ?_, ?_, ?_, ?_, ?_⟩
    · have := add_head { s1 with mem := setTags s1.mem c.addr (b.size + c.size) 0 } c.addr
      rw [tag_size (by omega) (by omega)
        (get_setTags_hdr (by omega) (by omega) (by omega)) (by omega) (by omega)] at this
      exact this
    · rw [hxs, free_last_concat, if_pos hcf]
    · rw [hxs, free_last_concat, if_pos hcf, free_first_none hnd]; rfl
    · rw [hxs, free_last_concat, if_pos hcf]; exact hcadj
    · intro d hd
      rw [free_first_none hnd] at hd
      exact absurd hd (by simp)
  · -- case 4: predecessor, block and successor become one
    have hpB : (decide (get_alloc s.mem (ftrp s.mem (prev_blkp s.mem b.addr)) ≠ 0) ||
        decide (prev_blkp s.mem b.addr = b.addr)) = false := by rw [hpa]; simp [hpne]
    have hnB : decide (get_alloc s.mem (hdrp (next_blkp s.mem b.addr)) ≠ 0) = false := by
      rw [hnext, hna]; simp
    have hbs4 : bs = xs' ++ ([c, b, d] ++ ys') := by rw [hbs, hxs, hys]; simp
    have hc : c ∈ bs := by rw [hbs4]; simp
    have hd : d ∈ bs := by rw [hbs4]; simp
    have fc := h.blk hc
    have fd := h.blk hd
    obtain ⟨s1, hrem1, h1, hlo1, hbk1, hhl1, hk1⟩ := @remove_spec _ _ _ _ {b.addr, c.addr} _ h hc
      hcf (by simp only [Set.mem_singleton_iff]; omega)
      (by intro a; simp only [Set.mem_insert_iff, Set.mem_singleton_iff])
    obtain ⟨s2, hrem2, h2, hlo2, hbk2, hhl2, hk2⟩ := @remove_spec _ _ _ _
      {b.addr, c.addr, d.addr} _ h1 hd hdf
      (by simp only [Set.mem_insert_iff, Set.mem_singleton_iff]; omega)
      (by intro a; simp only [Set.mem_insert_iff, Set.mem_singleton_iff]; exact or_assoc.symm)
    have fb2 := h2.blk hb
    have fc2 := h2.blk hc
    have fd2 := h2.blk hd
    rw [hdadj] at fd2 hrem2
    have hlay2 := h2.lay
    rw [hlo2, hlo1, hbk2, hbk1, hbs4] at hlay2
    obtain ⟨q1, hq1, hrest⟩ := Layout.append.mp hlay2
    obtain ⟨r1, hmid1, hr1⟩ := Layout.append.mp hrest
    have hq1e : c.addr = q1 := hmid1.1
    have hr1e := Layout.sum hmid1
    simp only [List.map_cons, List.map_nil, List.sum_cons, List.sum_nil] at hr1e
    subst hq1e
    have hmemeq : put (put s2.mem (hdrp c.addr) (pack (b.size + (c.size + d.size)) 0))
        (ftrp (put s2.mem (hdrp c.addr) (pack (b.size + (c.size + d.size)) 0))
          (b.addr + b.size)) (pack (b.size + (c.size + d.size)) 0) =
        setTags s2.mem c.addr (b.size + (c.size + d.size)) 0 := by
      have e : get (put s2.mem (hdrp c.addr) (pack (b.size + (c.size + d.size)) 0))
          (b.addr + b.size - 8) = d.size + d.alloc := by
        rw [hdrp_eq (by omega) (by omega), get_put_other (by omega)]
        exact fd2.2.2.2.2.2.1
      rw [tag_ftrp (by omega) (by omega) e fd2.2.2.2.1 fd2.2.2.2.2.1 (by omega),
        hdrp_eq (by omega) (by omega), pack_eq (by omega) (by omega)]
      unfold setTags
      have : c.addr + (b.size + (c.size + d.size)) - 16 = b.addr + b.size + d.size - 16 := by
        omega
      rw [this]
    rw [coalesce_case4 hpB hnB, hpc, hnext, hrem1]
    simp only []
    rw [hrem2]
    simp only []
    rw [hsz, tag_size (by omega) (by omega) fc2.2.2.2.2.2.1 fc2.2.2.2.1 fc2.2.2.2.2.1,
      tag_size (by omega) (by omega) fd2.2.2.2.2.2.1 fd2.2.2.2.1 fd2.2.2.2.2.1,
      @addw_eq c.size d.size (by omega), addw_eq (by omega), hmemeq]
    obtain ⟨fl', h3, _, _, _, _⟩ := @merge_spec _ _ _ _ _ _ _ _ r1
      (b.size + (c.size + d.size))
      h2 (by omega) hbs4 (by rw [hlo2, hlo1]; exact hq1) hmid1
      (by rw [hbk2, hbk1]; exact hr1) (by simp)
      (by
        intro x hx
        simp only [List.mem_cons, List.mem_singleton, List.not_mem_nil, or_false] at hx
        rcases hx with hx | hx | hx
        · subst hx; exact ⟨hcf, by simp⟩
        · subst hx; exact ⟨hf, by simp⟩
        · subst hx; exact ⟨hdf, by simp⟩)
      (by
        intro a ha
        simp only [Set.mem_insert_iff, Set.mem_singleton_iff] at ha
        omega)
    refine ⟨_, fl', xs', ys', c.addr, b.size + (c.size + d.size), rfl, h3, ?_, ?_, ?_,
      ?_, ?_⟩
    · have := add_head
        { s2 with mem := setTags s2.mem c.addr (b.size + (c.size + d.size)) 0 } c.addr
      rw [tag_size (by omega) (by omega)
        (get_setTags_hdr (by omega) (by omega) (by omega)) (by omega) (by omega)] at this
      exact this
    · rw [hxs, free_last_concat, if_pos hcf]
    · rw [hxs, free_last_concat, if_pos hcf, hys, free_first_cons hdf]
      show b.size + (c.size + d.size) = b.size + c.size + d.size
      omega
    · rw [hxs, free_last_concat, if_pos hcf]; exact hcadj
    · intro d' hd'
      rw [hys, free_first_cons hdf] at hd'
      simp only [Option.some.injEq] at hd'
      rw [← hd']; exact hdadj

/-! ## `place`, word by word -/

/-- Taking a listed free block out of its list: the other nodes stay, in order,
and only link words of nodes change. -/
theorem listed_removed {s : State} {bs : List Blk} {fl : Nat → List Nat} {b : Blk}
    (h : Inv s bs fl ∅) (hb : b ∈ bs) (hf : b.alloc = 0) :
    ∃ s1, remove_from_free_list s b.addr = some s1 ∧
      Inv s1 bs (fun j => (fl j).erase b.addr) {b.addr} ∧
      s1.lo = s.lo ∧ s1.brk = s.brk ∧ s1.heap_listp = s.heap_listp ∧
      (∀ x, (∀ j, ∀ y ∈ fl j, x < y ∨ y + 16 ≤ x) → s1.mem x = s.mem x) ∧
      (∀ j, ∀ y ∈ (fl j).erase b.addr, y + 32 ≤ b.addr ∨ b.addr + b.size ≤ y) := by
  have hmemb : b.addr ∈ fl (get_list_index b.size) := by
    rcases h.fl_mem b hb hf with h1 | h1
    · exact absurd h1 (by simp)
    · exact h1
  obtain ⟨s1, hrem, h1, hlo, hbk, hhl, _⟩ := @remove_spec _ _ _ _ {b.addr} _ h hb hf
    (by simp) (by simp)
  have hfl : Function.update fl (get_list_index b.size) ((fl (get_list_index b.size)).erase b.addr)
      = fun j => (fl j).erase b.addr := by
    funext j
    by_cases hj : j = get_list_index b.size
    · subst hj; simp
    · rw [Function.update_noteq hj]
      refine (List.erase_of_not_mem ?_).symm
      intro hm
      exact hj (h.node_idx hm hmemb)
  rw [hfl] at h1
  refine ⟨s1, hrem, h1, hlo, hbk, hhl, ?_, ?_⟩
  · intro x hx
    exact remove_frame h hb hmemb hrem x (fun y hy => hx _ y hy)
  · intro j y hy
    obtain ⟨hyX, c, hc, hca, _, _⟩ := @Inv.node _ _ _ _ h1 j y hy
    have fbl := h.blk hb
    have fc := h.blk hc
    rcases Layout.sep h.lay hc hb with e | e | e
    · subst e
      exact absurd (Set.mem_singleton_iff.mpr hca.symm) hyX
    · omega
    · omega

/-- Function `place` when it splits: the block takes the first `asize` bytes
and the remainder becomes the head of the list of its class. The request may be
as small as 16 bytes. -/
theorem place_split {s : State} {bs : List Blk} {fl : Nat → List Nat} {b : Blk} {asize : Nat}
    (h : Inv s bs fl ∅) (hb : b ∈ bs) (hf : b.alloc = 0) (ha1 : 16 ≤ asize)
    (ha2 : asize % 16 = 0) (hsp : asize + 32 ≤ b.size) :
    ∃ s', place s b.addr asize = some s' ∧
      (∀ j, j < 11 → list_nodes s' j = some
        ((if j = get_list_index (b.size - asize) then [b.addr + asize] else []) ++
          (fl j).erase b.addr)) ∧
      get s'.mem (b.addr - 8) = asize + 1 ∧ get s'.mem (b.addr + asize - 16) = asize + 1 ∧
      get s'.mem (b.addr + asize - 8) = b.size - asize ∧
      get s'.mem (b.addr + b.size - 16) = b.size - asize ∧
      s'.free_lists (get_list_index (b.size - asize)) = b.addr + asize ∧
      (∀ x, x < b.addr - 8 ∨ b.addr + b.size - 8 ≤ x →
        (∀ j, ∀ y ∈ fl j, x < y ∨ y + 16 ≤ x) → s'.mem x = s.mem x) := by
  have fb := h.blk hb
  have hbrk := h.brk_lt
  have hsz : get_size s.mem (hdrp b.addr) = b.size :=
    tag_size (by omega) (by omega) fb.2.2.2.2.2.1 fb.2.2.2.1 fb.2.2.2.2.1
  obtain ⟨s1, hrem, h1, hlo, hbk, hhl, hfr1, hsep1⟩ := listed_removed h hb hf
  have hp8 : 8 ≤ b.addr := by omega
  have hend : b.addr + b.size < 18446744073709551616 := by omega
  have hmod : b.size % 16 = 0 := fb.2.2.2.1
  clear fb hbrk
  unfold place
  simp only [hsz, hrem]
  rw [subw_eq (by omega) (by omega), if_pos (show 4 * WSIZE ≤ b.size - asize by unfold WSIZE; omega)]
  have E1 := @setTags_eq s1.mem b.addr asize 1 hp8 (by omega) ha2 (by omega) ha1
  rw [E1]
  have E2 : next_blkp (setTags s1.mem b.addr asize 1) b.addr = b.addr + asize :=
    tag_next hp8 (by omega) (get_setTags_hdr hp8 ha1 (by omega)) ha2 (by omega)
  rw [E2]
  have E3 := @setTags_eq (setTags s1.mem b.addr asize 1) (b.addr + asize) (b.size - asize) 0
    (by omega) (by omega) (by omega) (by omega) (by omega)
  rw [E3]
  generalize hg : setTags (setTags s1.mem b.addr asize 1) (b.addr + asize) (b.size - asize) 0 = g
  -- the four tag words
  have g1 : get g (b.addr - 8) = asize + 1 := by
    rw [← hg, get_setTags_other (by omega) (by omega) (by omega),
      get_setTags_hdr hp8 ha1 (by omega)]
  have g2 : get g (b.addr + asize - 16) = asize + 1 := by
    rw [← hg, get_setTags_other (by omega) (by omega) (by omega), get_setTags_ftr (by omega)]
  have g3 : get g (b.addr + asize - 8) = b.size - asize := by
    have := @get_setTags_hdr (setTags s1.mem b.addr asize 1) (b.addr + asize) (b.size - asize) 0
      (by omega) (by omega) (by omega)
    rw [hg] at this
    rw [this]; omega
  have g4 : get g (b.addr + b.size - 16) = b.size - asize := by
    have := @get_setTags_ftr (setTags s1.mem b.addr asize 1) (b.addr + asize) (b.size - asize) 0
      (by omega)
    rw [hg] at this
    have e : b.addr + asize + (b.size - asize) - 16 = b.addr + b.size - 16 := by omega
    rw [e] at this
    rw [this]; omega
  have gout : ∀ x, x + 8 < b.addr ∨ b.addr + b.size ≤ x + 8 → g x = s1.mem x := by
    intro x hx
    rw [← hg, setTags_outside (by omega) (by omega) (by omega),
      setTags_outside hp8 ha1 (by omega)]
  obtain ⟨hap, hidx, hnz⟩ := h1.raw
  have hI : get_list_index (get_size g (hdrp (b.addr + asize))) =
      get_list_index (b.size - asize) := by
    rw [@tag_size g (b.addr + asize) (b.size - asize) 0 (by omega) (by omega)
      (by rw [g3]; rfl) (by omega) (by omega)]
  obtain ⟨A1, A2, A3, A4, _, _, _⟩ := @add_raw { s1 with mem := g }
    (fun j => (fl j).erase b.addr) (b.addr + asize) (by omega) h1.heads
    (by
      intro i
      apply Chain.keep (h1.chain i)
      intro y hy z hz1 hz2
      have := hsep1 i y hy
      exact gout z (by omega))
    (by
      intro i y hy
      have := hsep1 i y hy
      omega)
    hap hidx h1.nodup (fun i x hx => ⟨(hnz i x hx).1, by have := (hnz i x hx).2; omega⟩)
  simp only [hI] at A1 A2 A3 A4
  generalize hS : add_to_free_list { s1 with mem := g } (b.addr + asize) = S at *
  have hfin : ∀ x, x < b.addr + asize ∨ b.addr + asize + 16 ≤ x →
      (∀ j, ∀ y ∈ fl j, x < y ∨ y + 16 ≤ x) → S.mem x = g x := by
    intro x hx hy
    refine A4 x hx (fun c hc => ?_)
    have := hy _ c (List.mem_of_mem_erase hc)
    omega
  have hfin' : ∀ x, (b.addr ≤ x + 8 ∧ x < b.addr + asize) ∨
      (b.addr + asize + 16 ≤ x ∧ x < b.addr + b.size) → S.mem x = g x := by
    intro x hx
    refine A4 x (by omega) (fun c hc => ?_)
    have := hsep1 _ c hc
    omega
  refine ⟨S, rfl, ?_, ?_, ?_, ?_, ?_, ?_, ?_⟩
  · intro j hj
    unfold list_nodes
    rw [A1]
    by_cases hji : j = get_list_index (b.size - asize)
    · subst hji
      rw [Function.update_same, if_pos rfl]
      refine @walk_of_chain _ (_ :: _) A3 ?_ ?_
      · refine List.nodup_cons.mpr ⟨?_, h1.nodup _⟩
        intro hm
        have := hsep1 _ _ hm
        omega
      · intro x hx
        rcases List.mem_cons.mp hx with e | hx
        · rw [e]; omega
        · have := hnz _ x hx
          have := hsep1 _ x hx
          omega
    · rw [Function.update_noteq hji, if_neg hji, List.nil_append]
      show list_walk S.mem FUEL (s1.free_lists j) = _
      rw [h1.heads j hj]
      refine walk_of_chain (A2 j hji) (h1.nodup j) ?_
      intro x hx
      have := hnz _ x hx
      have := hsep1 _ x hx
      omega
  · rw [← g1]; exact get_congr (fun x hx1 hx2 => hfin' x (by omega))
  · rw [← g2]; exact get_congr (fun x hx1 hx2 => hfin' x (by omega))
  · rw [← g3]; exact get_congr (fun x hx1 hx2 => hfin' x (by omega))
  · rw [← g4]; exact get_congr (fun x hx1 hx2 => hfin' x (by omega))
  · rw [A1, Function.update_same]
  · intro x hx hy
    rw [hfin x (by omega) hy, gout x (by omega)]
    exact hfr1 x hy

/-- Function `place` when it does not split: the whole block is marked
allocated, and the lists and the other blocks stay as they are. -/
theorem place_whole {s : State} {bs : List Blk} {fl : Nat → List Nat} {b : Blk} {asize : Nat}
    (h : Inv s bs fl ∅) (hb : b ∈ bs) (hf : b.alloc = 0) (ha3 : asize ≤ b.size)
    (hsp : b.size < asize + 32) :
    ∃ s', place s b.addr asize = some s' ∧
      (∀ j, j < 11 → list_nodes s' j = some ((fl j).erase b.addr)) ∧
      get s'.mem (b.addr - 8) = b.size + 1 ∧ get s'.mem (b.addr + b.size - 16) = b.size + 1 ∧
      heap_blocks s' = heap_blocks s ∧
      (∀ x, x < b.addr - 8 ∨ b.addr + b.size - 8 ≤ x →
        (∀ j, ∀ y ∈ fl j, x < y ∨ y + 16 ≤ x) → s'.mem x = s.mem x) := by
  have fb := h.blk hb
  have hbrk := h.brk_lt
  have hsz : get_size s.mem (hdrp b.addr) = b.size :=
    tag_size (by omega) (by omega) fb.2.2.2.2.2.1 fb.2.2.2.1 fb.2.2.2.2.1
  obtain ⟨s1, hrem, h1, hlo, hbk, hhl, hfr1, hsep1⟩ := listed_removed h hb hf
  obtain ⟨xs, ys, hbs, hq, hr⟩ := Layout.split h1.lay hb
  unfold place
  simp only [hsz, hrem]
  rw [subw_eq ha3 (by omega), if_neg (show ¬ 4 * WSIZE ≤ b.size - asize by unfold WSIZE; omega)]
  have E1 := @setTags_eq s1.mem b.addr b.size 1 (by omega) (by omega) (by omega) (by omega)
    (by omega)
  rw [E1]
  have hlay := @Layout_setTags s1.mem b.addr b.size 1 (by omega) (by omega) (by omega)
    (by omega) (by omega)
  obtain ⟨h2, _⟩ := @Inv.rewrite _ _ _ _ ∅ _ [b] [⟨b.addr, b.size, 1⟩] _ _ _ _ h1 hbs hq hr
    (by
      intro x hx
      rw [setTags_outside (by omega) (by omega) (by omega)])
    hlay (by simp) (by simp) (by
      intro a ha
      simp only [Set.mem_singleton_iff, Set.mem_empty_iff_false, false_iff]
      omega)
  refine ⟨_, rfl, fun j hj => list_nodes_inv h2 hj, ?_, ?_, ?_, ?_⟩
  · exact get_setTags_hdr (by omega) (by omega) (by omega)
  · exact get_setTags_ftr (by omega)
  · rw [heap_blocks_inv h2, heap_blocks_inv h, hbs]
    simp [hbk]
  · intro x hx hy
    show setTags s1.mem b.addr b.size 1 x = s.mem x
    rw [setTags_outside (by omega) (by omega) (by omega)]
    exact hfr1 x hy

/-! ## `realloc` in place -/

/-- The shrinking branch of `realloc`: the request fits the block. -/
theorem realloc_shrink {s : State} {bs : List Blk} {fl : Nat → List Nat} {b : Blk} {n : Nat}
    (h : Inv s bs fl ∅) (hb : b ∈ bs) (hba : b.alloc = 1)
    (hn : n ≤ 18446744073709551616 - 32) (hn0 : n ≠ 0)
    (hA : align (addw n (WSIZE * 2)) ≤ b.size) :
    ∃ s' bs' fl', (∀ cap, realloc cap s b.addr n = some (s', b.addr)) ∧ Inv s' bs' fl' ∅ ∧
      s'.brk = s.brk ∧
      (⟨b.addr, if 32 ≤ b.size - align (addw n (WSIZE * 2)) then align (addw n (WSIZE * 2))
        else b.size, 1⟩ : Blk) ∈ bs' ∧
      (∀ i, i + 16 < align (addw n (WSIZE * 2)) → s'.mem (b.addr + i) = s.mem (b.addr + i)) := by
  have fb := h.blk hb
  have hbrk := h.brk_lt
  have hsz : get_size s.mem (hdrp b.addr) = b.size :=
    tag_size (by omega) (by omega) fb.2.2.2.2.2.1 fb.2.2.2.1 fb.2.2.2.2.1
  obtain ⟨hs1, hs2, hs3, hs4⟩ := realloc_size hn hn0
  obtain ⟨xs, ys, hbs, hq, hr⟩ := Layout.split h.lay hb
  have hp0 : b.addr ≠ 0 := by omega
  generalize hns : align (addw n (WSIZE * 2)) = ns at *
  by_cases hsp : 32 ≤ b.size - ns
  · rw [if_pos hsp]
    have E1 := @setTags_eq s.mem b.addr ns 1 (by omega) (by omega) hs1 (by omega) (by omega)
    have E2 : next_blkp (setTags s.mem b.addr ns 1) b.addr = b.addr + ns :=
      tag_next (by omega) (by omega) (get_setTags_hdr (by omega) (by omega) (by omega)) hs1
        (by omega)
    have E3 := @setTags_eq (setTags s.mem b.addr ns 1) (b.addr + ns) (b.size - ns) 0
      (by omega) (by omega) (by omega) (by omega) (by omega)
    obtain ⟨fl', h3, _, hbk3, _, _, hc3⟩ := @split_spec _ _ _ _ _ [b] _ _ (b.addr + b.size) _ _
      (setTags (setTags s.mem b.addr ns 1) (b.addr + ns) (b.size - ns) 0) h hbs hq hr
      (by
        intro x hx
        rw [setTags_outside (by omega) (by omega) (by omega),
          setTags_outside (by omega) (by omega) (by omega)])
      (Layout_setTags2 (by omega) hs2 hs1 (by omega) (by omega) (by omega) (by omega))
      (by
        intro x hx hxf
        rw [List.mem_singleton] at hx
        rw [hx] at hxf; omega)
      (by simp)
    refine ⟨_, _, fl', ?_, h3, hbk3, by simp, ?_⟩
    · intro cap
      unfold realloc
      rw [if_neg hn0, if_neg hp0]
      simp only [hsz, hns]
      rw [if_pos hA, subw_eq hA (by omega),
        if_pos (show 4 * WSIZE ≤ b.size - ns by unfold WSIZE; omega), E1, E2, E3]
    · intro i hi
      rw [hc3 (b.addr + i) (by omega) (by omega),
        setTags_outside (by omega) (by omega) (by omega),
        setTags_outside (by omega) (by omega) (by omega)]
  · rw [if_neg hsp]
    refine ⟨s, bs, fl, ?_, h, rfl, ?_, fun _ _ => rfl⟩
    · intro cap
      unfold realloc
      rw [if_neg hn0, if_neg hp0]
      simp only [hsz, hns]
      rw [if_pos hA, subw_eq hA (by omega),
        if_neg (show ¬ 4 * WSIZE ≤ b.size - ns by unfold WSIZE; omega)]
    · have : (⟨b.addr, b.size, 1⟩ : Blk) = b := by
        cases b; simp only at hba; subst hba; rfl
      rw [this]; exact hb

/-- The growing branch of `realloc` that stays in place: the block and the free
block `d` after it have room for the request. -/
theorem realloc_absorb {s : State} {bs : List Blk} {fl : Nat → List Nat} {b d : Blk} {n : Nat}
    (h : Inv s bs fl ∅) (hb : b ∈ bs) (hba : b.alloc = 1)
    (hn : n ≤ 18446744073709551616 - 32) (hn0 : n ≠ 0)
    (hd : d ∈ bs) (hdf : d.alloc = 0) (hdadj : d.addr = b.addr + b.size)
    (hA : b.size < align (addw n (WSIZE * 2)))
    (hB : align (addw n (WSIZE * 2)) ≤ b.size + d.size) :
    ∃ s' bs' fl', (∀ cap, realloc cap s b.addr n = some (s', b.addr)) ∧ Inv s' bs' fl' ∅ ∧
      s'.brk = s.brk ∧
      (⟨b.addr, if 32 ≤ b.size + d.size - align (addw n (WSIZE * 2))
        then align (addw n (WSIZE * 2)) else b.size + d.size, 1⟩ : Blk) ∈ bs' ∧
      (∀ x ∈ bs', x.addr ≠ d.addr) ∧
      (∀ i, i + 16 < b.size → s'.mem (b.addr + i) = s.mem (b.addr + i)) := by
  have fb := h.blk hb
  have hbrk := h.brk_lt
  have hsz : get_size s.mem (hdrp b.addr) = b.size :=
    tag_size (by omega) (by omega) fb.2.2.2.2.2.1 fb.2.2.2.1 fb.2.2.2.2.1
  obtain ⟨hs1, hs2, hs3, hs4⟩ := realloc_size hn hn0
  obtain ⟨xs, ys, hbs, hq, hr, _, _, hnext, hnx⟩ := neighbours h hb
  have hp0 : b.addr ≠ 0 := by omega
  have hdh := header_of h hd
  rw [hdadj] at hdh
  generalize hns : align (addw n (WSIZE * 2)) = ns at *
  rcases hnx with ⟨hna, _⟩ | ⟨hna, d', ys', hys, hdf', hdadj', hr'⟩
  · rw [hdh.2, hdf] at hna
    exact absurd hna (by decide)
  have hd' : d' ∈ bs := by rw [hbs, hys]; simp
  have hdd : d' = d := Layout.addr_inj h.lay hd' hd (by rw [hdadj', hdadj])
  subst hdd
  have fd := h.blk hd
  rw [hdadj] at fd
  have hbs2 : bs = xs ++ ([b, d'] ++ ys') := by rw [hbs, hys]; rfl
  obtain ⟨s1, hrem, h1, hlo, hbk, hhl, hk1⟩ := @remove_spec _ _ _ _ {d'.addr} _ h hd hdf
    (by simp) (by intro a; simp)
  rw [hdadj] at hrem
  have fb1 := h1.blk hb
  have hlay1 := h1.lay
  rw [hlo, hbk, hbs2] at hlay1
  obtain ⟨q1, hq1, hrest⟩ := Layout.append.mp hlay1
  obtain ⟨r1, hmid1, hr1⟩ := Layout.append.mp hrest
  have hq1e : b.addr = q1 := hmid1.1
  have hr1e := Layout.sum hmid1
  simp only [List.map_cons, List.map_nil, List.sum_cons, List.sum_nil] at hr1e
  subst hq1e
  have hxs : ∀ x ∈ xs, x.addr + x.size ≤ b.addr ∧ 32 ≤ x.size := fun x hx => by
    have := Layout.mem hq1 hx; omega
  have hys' : ∀ x ∈ ys', r1 ≤ x.addr := fun x hx => (Layout.mem hr1 hx).1
  have E1 := @setTags_eq s1.mem b.addr (b.size + d'.size) 1
    (by omega) (by omega) (by omega) (by omega) (by omega)
  have hcode : ∀ cap S, (if 4 * WSIZE ≤ b.size + d'.size - ns then
        some (add_to_free_list { s1 with mem := (
          setTags (setTags (setTags s1.mem b.addr (b.size + d'.size) 1) b.addr ns 1)
            (b.addr + ns) (b.size + d'.size - ns) 0) } (b.addr + ns), b.addr)
      else some ({ s1 with mem := setTags s1.mem b.addr (b.size + d'.size) 1 }, b.addr)) =
        some (S, b.addr) → realloc cap s b.addr n = some (S, b.addr) := by
    intro cap S hS
    unfold realloc
    rw [if_neg hn0, if_neg hp0]
    simp only [hsz, hnext, hns]
    rw [if_neg (by omega), tag_size (by omega) (by omega) fd.2.2.2.2.2.1 fd.2.2.2.1 fd.2.2.2.2.1,
      addw_eq (by omega), if_pos ⟨hdh.2.trans hdf, hB⟩, hrem]
    simp only []
    rw [E1, subw_eq hB (by omega), ← hS]
    by_cases hsp : 4 * WSIZE ≤ b.size + d'.size - ns
    · have hsp' : 32 ≤ b.size + d'.size - ns := hsp
      rw [if_pos hsp, if_pos hsp]
      have E2 := @setTags_eq (setTags s1.mem b.addr (b.size + d'.size) 1) b.addr ns 1
        (by omega) (by omega) hs1 (by omega) (by omega)
      rw [E2]
      have E3 : next_blkp (setTags (setTags s1.mem b.addr (b.size + d'.size) 1) b.addr ns 1)
          b.addr = b.addr + ns :=
        tag_next (by omega) (by omega) (get_setTags_hdr (by omega) (by omega) (by omega))
          hs1 (by omega)
      rw [E3]
      have E4 := @setTags_eq
        (setTags (setTags s1.mem b.addr (b.size + d'.size) 1) b.addr ns 1)
        (b.addr + ns) (b.size + d'.size - ns) 0 (by omega) (by omega)
        (by omega) (by omega) (by omega)
      rw [E4]
    · rw [if_neg hsp, if_neg hsp]
  by_cases hsp : 32 ≤ b.size + d'.size - ns
  · rw [if_pos hsp]
    obtain ⟨fl', h3, _, hbk3, _, _, hc3⟩ := @split_spec _ _ _ _ _ [b, d'] _ _ r1 _ _
      (setTags (setTags (setTags s1.mem b.addr (b.size + d'.size) 1) b.addr ns 1)
        (b.addr + ns) (b.size + d'.size - ns) 0) h1 hbs2
      (by rw [hlo]; exact hq1) (by rw [hbk]; exact hr1)
      (by
        intro x hx
        rw [setTags_outside (by omega) (by omega) (by omega),
          setTags_outside (by omega) (by omega) (by omega),
          setTags_outside (by omega) (by omega) (by omega)])
      (Layout_setTags2 (by omega) hs2 hs1 (by omega) (by omega) (by omega) (by omega))
      (by
        intro x hx hxf
        simp only [List.mem_cons, List.mem_singleton, List.not_mem_nil, or_false] at hx
        rcases hx with hx | hx
        · rw [hx] at hxf; omega
        · rw [hx]; simp)
      (by
        intro a ha
        simp only [Set.mem_singleton_iff] at ha
        omega)
    refine ⟨_, _, fl', fun cap => hcode cap _ (if_pos (by unfold WSIZE; omega)), h3,
      hbk3.trans hbk, by simp, ?_, ?_⟩
    · intro x hx
      simp only [List.mem_append, List.mem_cons, List.mem_singleton, List.not_mem_nil,
        or_false] at hx
      rcases hx with hx | (hx | hx) | hx
      · have := hxs x hx; omega
      · rw [hx]; simp only; omega
      · rw [hx]; simp only; omega
      · have := hys' x hx; omega
    · intro i hi
      rw [hc3 (b.addr + i) (by omega) (by omega),
        setTags_outside (by omega) (by omega) (by omega),
        setTags_outside (by omega) (by omega) (by omega),
        setTags_outside (by omega) (by omega) (by omega)]
      exact hk1 b hb hba (b.addr + i) (by omega) (by omega)
  · rw [if_neg hsp]
    obtain ⟨h3, _⟩ := @Inv.rewrite _ _ _ _ ∅ _ [b, d'] [⟨b.addr, b.size + d'.size, 1⟩] _ _ r1
      (setTags s1.mem b.addr (b.size + d'.size) 1) h1 hbs2
      (by rw [hlo]; exact hq1) (by rw [hbk]; exact hr1)
      (by
        intro x hx
        rw [setTags_outside (by omega) (by omega) (by omega)])
      (by
        have := @Layout_setTags s1.mem b.addr (b.size + d'.size) 1 (by omega) (by omega)
          (by omega) (by omega) (by omega)
        have e : b.addr + (b.size + d'.size) = r1 := by omega
        rw [e] at this
        exact this)
      (by
        intro x hx hxf
        simp only [List.mem_cons, List.mem_singleton, List.not_mem_nil, or_false] at hx
        rcases hx with hx | hx
        · rw [hx] at hxf; omega
        · rw [hx]; simp)
      (by simp)
      (by
        intro a ha
        simp only [Set.mem_singleton_iff, Set.mem_empty_iff_false, false_iff]
        omega)
    refine ⟨_, _, _, fun cap => hcode cap _ (if_neg (by unfold WSIZE; omega)), h3, hbk,
      by simp, ?_, ?_⟩
    · intro x hx
      simp only [List.mem_append, List.mem_cons, List.mem_singleton, List.not_mem_nil,
        or_false] at hx
      rcases hx with hx | hx | hx
      · have := hxs x hx; omega
      · rw [hx]; simp only; omega
      · have := hys' x hx; omega
    · intro i hi
      show setTags s1.mem b.addr (b.size + d'.size) 1 (b.addr + i) = s.mem (b.addr + i)
      rw [setTags_outside (by omega) (by omega) (by omega)]
      exact hk1 b hb hba (b.addr + i) (by omega) (by omega)

/-! ## The size of the block that `malloc` returns -/

theorem adjusted_lt {n : Nat} (hn0 : 0 < n) (hn : n ≤ 18446744073709551616 - 32) :
    adjusted n < n + 32 := by
  unfold adjusted WSIZE
  split_ifs with h
  · omega
  · rw [addw_eq (by omega), align_eq (by omega)]
    omega

theorem malloc_size {cap : Nat} {s : State} {bs : List Blk} {fl : Nat → List Nat} {n : Nat}
    (h : Inv s bs fl ∅) (hn : n ≤ 18446744073709551616 - 32) (hn0 : n ≠ 0)
    (hcap2 : cap < 18446744073709551616) :
    ∃ s' r, malloc cap s n = some (s', r) ∧
      (r ≠ 0 → ∃ bs' fl' u, Inv s' bs' fl' ∅ ∧ (⟨r, u, 1⟩ : Blk) ∈ bs' ∧
        (u = adjusted n ∨ u = adjusted n + 16)) := by
  obtain ⟨ha1, ha2, ha3, ha4, ha5⟩ := adjusted_small hn
  obtain ⟨r0, hfit, hr0⟩ := find_fit_spec h (adjusted n)
  rcases hr0 with rfl | ⟨b, hb, rfl, hbf, hsz⟩
  · by_cases hc : s.brk + max (adjusted n) 2048 ≤ cap
    · obtain ⟨s', bs', fl', r, u, hm, h', _, _, hr, hB, hu1, hu2⟩ :=
        malloc_grow h hn hn0 hfit hcap2 hc
      have fB := h'.blk hB
      simp only at fB
      exact ⟨s', r, hm, fun _ => ⟨bs', fl', u, h', hB, by omega⟩⟩
    · have hfail : mm_sbrk cap s (grow_request n) = none := by
        unfold mm_sbrk
        rw [(grow_request_small hn).1, if_neg hc]
      refine ⟨s, 0, ?_, fun h0 => absurd rfl h0⟩
      unfold adjusted at hfit
      unfold grow_request at hfail
      simp only [] at hfail
      unfold malloc
      simp only [if_neg hn0, hfit, ne_eq, not_true_eq_false, if_false, extend_heap, hfail,
        if_true]
  · obtain ⟨s', bs', fl', u, hm, h', _, _, hB, hu, hu1⟩ :=
      @malloc_fit cap _ _ _ _ _ h hn hn0 hb hbf hfit hsz
    have fB := h'.blk hB
    have fb := h.blk hb
    simp only at fB
    exact ⟨s', b.addr, hm, fun _ => ⟨bs', fl', u, h', hB, by omega⟩⟩

/-! ## Two concrete heaps are well formed -/

section Examples

set_option maxRecDepth 1000000

/-- The heap after `mm_init` on the zeroed region: one free block of 2048
bytes, the only node of list 6. -/
theorem boot_inv :
    Inv (world zeroed []).st [⟨4128, 2048, 0⟩] (fun i => if i = 6 then [4128] else []) ∅ := by
  refine ⟨by decide, by decide, by decide, by decide, ?_, by decide, by decide, ?_, ?_, ?_, ?_⟩
  · exact ⟨rfl, by decide, by decide, by decide, by decide, by decide,
      by unfold Layout; decide⟩
  · intro i
    by_cases hi : i = 6
    · subst hi
      exact ⟨by decide, by decide, trivial⟩
    · simp only [if_neg hi]
      trivial
  · intro i x hx
    by_cases hi : i = 6
    · subst hi
      simp only [if_true, List.mem_singleton] at hx
      subst hx
      exact ⟨by simp, ⟨4128, 2048, 0⟩, by simp, rfl, rfl, by decide⟩
    · simp [if_neg hi] at hx
  · intro b hb _
    simp only [List.mem_singleton] at hb
    subst hb
    right
    decide
  · intro i
    by_cases hi : i = 6
    · subst hi; simp
    · simp [if_neg hi]

/-- The heap `marked`: a free block of 48 bytes at 4128 that is in no list,
before a free block of 2000 bytes, the only node of list 6. -/
theorem marked_inv :
    Inv marked [⟨4128, 48, 0⟩, ⟨4176, 2000, 0⟩] (fun i => if i = 6 then [4176] else [])
      {4128} := by
  refine ⟨by decide, by decide, by decide, by decide, ?_, by decide, by decide, ?_, ?_, ?_, ?_⟩
  · exact ⟨rfl, by decide, by decide, by decide, by decide, by decide,
      rfl, by decide, by decide, by decide, by decide, by decide, by unfold Layout; decide⟩
  · intro i
    by_cases hi : i = 6
    · subst hi
      exact ⟨by decide, by decide, trivial⟩
    · simp only [if_neg hi]
      trivial
  · intro i x hx
    by_cases hi : i = 6
    · subst hi
      simp only [if_true, List.mem_singleton] at hx
      subst hx
      exact ⟨by simp, ⟨4176, 2000, 0⟩, by simp, rfl, rfl, by decide⟩
    · simp [if_neg hi] at hx
  · intro b hb _
    simp only [List.mem_cons, List.mem_singleton, List.not_mem_nil, or_false] at hb
    rcases hb with hb | hb
    · subst hb; left; simp
    · subst hb; right; decide
  · intro i
    by_cases hi : i = 6
    · subst hi; simp
    · simp [if_neg hi]

end Examples

section Claims3

set_option maxRecDepth 1000000

/-! ## C22: the four cases of `coalesce` -/

/-- C22: in a well-formed heap whose blocks are `xs`, `b`, `ys` in address
order, where `b` is marked free and is the only free block in no list,
`coalesce(b)` returns the payload address of the block before `b` when that
block is free and `b` otherwise; header and footer of the returned block both
hold `pack(T, 0)`, where `T` is the size of `b` plus the size of the block
before it if that is free plus the size of the block after it if that is free;
and when no block is before `b` (the prologue is) and none after it (the
epilogue is), `b` is returned with its own size. -/
theorem C22_coalescer_cases (s : State) (bs xs ys : List Blk) (fl : Nat → List Nat) (b : Blk)
    (h : Inv s bs fl {b.addr}) (hbs : bs = xs ++ b :: ys) (hf : b.alloc = 0) :
    ∃ s' r, coalesce s b.addr = some (s', r) ∧
      r = (match free_last xs with
        | some c => c.addr
        | none => b.addr) ∧
      get s'.mem (hdrp r) = pack (b.size + merged (free_last xs) + merged (free_first ys)) 0 ∧
      get s'.mem (ftrp s'.mem r) =
        pack (b.size + merged (free_last xs) + merged (free_first ys)) 0 ∧
      (xs = [] → ys = [] → r = b.addr ∧ get s'.mem (hdrp r) = pack b.size 0 ∧
        get s'.mem (ftrp s'.mem r) = pack b.size 0) := by
  obtain ⟨s', fl', xs', ys', q, u, hco, h', _, hq, hu, _, _⟩ := coalesce_exact h hbs hf
  have hM : (⟨q, u, 0⟩ : Blk) ∈ xs' ++ ([⟨q, u, 0⟩] ++ ys') := by simp
  have fM := h'.blk hM
  have hbrk := h'.brk_lt
  simp only at fM
  have e1 : hdrp q = q - 8 := hdrp_eq (by omega) (by omega)
  have e2 : ftrp s'.mem q = q + u - 16 :=
    tag_ftrp (by omega) (by omega) fM.2.2.2.2.2.1 fM.2.2.2.1 (by omega) (by omega)
  have e3 : pack u 0 = u + 0 := pack_eq (by omega) (by omega)
  have k1 : get s'.mem (hdrp q) = pack u 0 := by rw [e1, e3]; exact fM.2.2.2.2.2.1
  have k2 : get s'.mem (ftrp s'.mem q) = pack u 0 := by rw [e2, e3]; exact fM.2.2.2.2.2.2
  refine ⟨s', q, hco, hq, by rw [← hu]; exact k1, by rw [← hu]; exact k2, ?_⟩
  intro hx hy
  have hqb : q = b.addr := by rw [hq, hx]; rfl
  have hub : u = b.size := by rw [hu, hx, hy]; rfl
  rw [← hub]
  exact ⟨hqb, k1, k2⟩

theorem C22_coalescer_cases_witness :
    ∃ s' r, coalesce marked 4128 = some (s', r) ∧
      r = (match free_last [] with
        | some c => c.addr
        | none => 4128) ∧
      get s'.mem (hdrp r) =
        pack (48 + merged (free_last []) + merged (free_first [⟨4176, 2000, 0⟩])) 0 ∧
      get s'.mem (ftrp s'.mem r) =
        pack (48 + merged (free_last []) + merged (free_first [⟨4176, 2000, 0⟩])) 0 ∧
      (([] : List Blk) = [] → [(⟨4176, 2000, 0⟩ : Blk)] = [] → r = 4128 ∧
        get s'.mem (hdrp r) = pack 48 0 ∧ get s'.mem (ftrp s'.mem r) = pack 48 0) :=
  C22_coalescer_cases marked [⟨4128, 48, 0⟩, ⟨4176, 2000, 0⟩] [] [⟨4176, 2000, 0⟩]
    (fun i => if i = 6 then [4176] else []) ⟨4128, 48, 0⟩ marked_inv rfl rfl

/-! ## C23: the merged block is listed, what it absorbed is not -/

/-- C23: in a well-formed heap whose blocks are `xs`, `b`, `ys` in address
order, where `b` is marked free and is the only free block in no list,
`coalesce(b)` returns a block `r` that is the head of the list of the class of
its size; all 11 lists end; `r` is a node of that list only, once; the block
after `b`, when it was free and so absorbed, is a node of no list; and `b`
itself, when the free block before it took it in (then `r` is that block), is
a node of no list. -/
theorem C23_coalesce_lists (s : State) (bs xs ys : List Blk) (fl : Nat → List Nat) (b : Blk)
    (h : Inv s bs fl {b.addr}) (hbs : bs = xs ++ b :: ys) (hf : b.alloc = 0) :
    ∃ s' r, coalesce s b.addr = some (s', r) ∧
      s'.free_lists (get_list_index (get_size s'.mem (hdrp r))) = r ∧
      ∀ j, j < 11 → ∃ l, list_nodes s' j = some l ∧
        (r ∈ l → j = get_list_index (get_size s'.mem (hdrp r)) ∧ l.count r = 1) ∧
        (∀ d, free_first ys = some d → d.addr ∉ l) ∧
        (r ≠ b.addr → b.addr ∉ l) := by
  obtain ⟨s', fl', xs', ys', q, u, hco, h', hhead, hq, hu, hqb, hdad⟩ :=
    coalesce_exact h hbs hf
  have hM : (⟨q, u, 0⟩ : Blk) ∈ xs' ++ ([⟨q, u, 0⟩] ++ ys') := by simp
  have hsz := (header_of h' hM).1
  simp only at hsz
  have hb : b ∈ bs := by rw [hbs]; simp
  have fb := h.blk hb
  -- a node inside the merged block is its start
  have inside : ∀ j x, x ∈ fl' j → q ≤ x → x < q + u → x = q := by
    intro j x hx h1 h2
    obtain ⟨_, c, hc, hca, _, _⟩ := h'.node hx
    have fc := h'.blk hc
    rcases Layout.sep h'.lay hc hM with e | e | e
    · rw [← hca, e]
    · simp only at e; omega
    · simp only at e; omega
  refine ⟨s', q, hco, by rw [hsz]; exact hhead, ?_⟩
  intro j hj
  refine ⟨fl' j, list_nodes_inv h' hj, ?_, ?_, ?_⟩
  · intro hr
    obtain ⟨_, c, hc, hca, _, hci⟩ := h'.node hr
    have hcM : c = ⟨q, u, 0⟩ := Layout.addr_inj h'.lay hc hM hca
    rw [hcM] at hci
    rw [hsz]
    exact ⟨hci.symm, List.count_eq_one_of_mem (h'.nodup j) hr⟩
  · intro d hd hmem
    have hda := hdad d hd
    have hdy : d ∈ ys := by
      cases ys with
      | nil => simp [free_first] at hd
      | cons y t =>
        unfold free_first at hd
        simp only at hd
        split_ifs at hd
        simp only [Option.some.injEq] at hd
        rw [← hd]; simp
    have fd := h.blk (by rw [hbs]; simp [hdy] : d ∈ bs)
    have hud : u = b.size + merged (free_last xs) + d.size := by
      rw [hu, hd]
      rfl
    have := inside j d.addr hmem (by omega) (by omega)
    omega
  · intro hne hmem
    have := inside j b.addr hmem (by omega) (by omega)
    exact hne this.symm

theorem C23_coalesce_lists_witness :
    ∃ s' r, coalesce marked 4128 = some (s', r) ∧
      s'.free_lists (get_list_index (get_size s'.mem (hdrp r))) = r ∧
      ∀ j, j < 11 → ∃ l, list_nodes s' j = some l ∧
        (r ∈ l → j = get_list_index (get_size s'.mem (hdrp r)) ∧ l.count r = 1) ∧
        (∀ d, free_first [(⟨4176, 2000, 0⟩ : Blk)] = some d → d.addr ∉ l) ∧
        (r ≠ 4128 → 4128 ∉ l) :=
  C23_coalesce_lists marked [⟨4128, 48, 0⟩, ⟨4176, 2000, 0⟩] [] [⟨4176, 2000, 0⟩]
    (fun i => if i = 6 then [4176] else []) ⟨4128, 48, 0⟩ marked_inv rfl rfl

/-! ## C24: `find_fit` returns the first smallest block that fits -/

/-- C24: for every state whose 11 lists end, `nodes j` being the nodes of list
`j`, and every request `asize`: `find_fit(asize)` returns; with `L` the nodes of
the lists `get_list_index(asize)`, ..., 10 in the order of the scan, it returns
`NULL` exactly when no block of `L` has size at least `asize`; a pointer `r`
that is not `NULL` is a block of `L` of size at least `asize`, every block
before it in `L` that is large enough is larger and no block after it that is
large enough is smaller; and when `L` holds a block of size `asize`, the block
returned has size `asize`. -/
theorem C24_find_fit_argmin (s : State) (asize : Nat) (nodes : Nat → List Nat)
    (hn : ∀ j, j < 11 → list_nodes s j = some (nodes j)) :
    ∃ r, find_fit s asize = some r ∧
      (r = 0 ↔ ∀ x ∈ scan_order nodes (11 - get_list_index asize) (get_list_index asize),
        ¬ asize ≤ get_size s.mem (hdrp x)) ∧
      (r ≠ 0 → ∃ l1 l2,
        scan_order nodes (11 - get_list_index asize) (get_list_index asize) = l1 ++ r :: l2 ∧
        asize ≤ get_size s.mem (hdrp r) ∧
        (∀ x ∈ l1, asize ≤ get_size s.mem (hdrp x) →
          get_size s.mem (hdrp r) < get_size s.mem (hdrp x)) ∧
        (∀ x ∈ l2, asize ≤ get_size s.mem (hdrp x) →
          get_size s.mem (hdrp r) ≤ get_size s.mem (hdrp x))) ∧
      ((∃ x ∈ scan_order nodes (11 - get_list_index asize) (get_list_index asize),
        get_size s.mem (hdrp x) = asize) → r ≠ 0 ∧ get_size s.mem (hdrp r) = asize) := by
  have hidx := get_list_index_lt asize
  have hnz : ∀ x ∈ scan_order nodes (11 - get_list_index asize) (get_list_index asize),
      x ≠ 0 := by
    intro x hx
    obtain ⟨j, _, hj, hxj⟩ := (mem_scan_order _ _).mp hx
    exact list_walk_ne_zero _ _ _ (hn j (by omega)) x hxj
  rw [find_fit_eq asize hn]
  generalize scan_order nodes (11 - get_list_index asize) (get_list_index asize) = L at *
  have key := @fit_fold_first s.mem asize L (0, 18446744073709551615)
  generalize L.foldl (fit_step s.mem asize) (0, 18446744073709551615) = R at key
  refine ⟨R.1, rfl, ?_⟩
  rcases key with ⟨k1, k2⟩ | ⟨l1, l2, k1, k2, k3, k4, k5, k6⟩
  · have hnone : ∀ x ∈ L, ¬ asize ≤ get_size s.mem (hdrp x) := by
      intro x hx hax
      have := k2 x hx hax
      have := get_size_le s.mem (hdrp x)
      simp only at *
      omega
    have hR : R.1 = 0 := by rw [k1]
    refine ⟨⟨fun _ => hnone, fun _ => hR⟩, fun h0 => absurd hR h0, ?_⟩
    rintro ⟨x, hx, hxs⟩
    exact absurd (le_of_eq hxs.symm) (hnone x hx)
  · have hmem : R.1 ∈ L := by rw [k1]; simp
    have hR : R.1 ≠ 0 := hnz _ hmem
    refine ⟨⟨fun h0 => absurd h0 hR, fun hall => ?_⟩, fun _ => ⟨l1, l2, k1, by rw [← k2]; exact k3,
      fun x hx hax => by rw [← k2]; exact k5 x hx hax,
      fun x hx hax => by rw [← k2]; exact k6 x hx hax⟩, ?_⟩
    · exact absurd (by rw [← k2]; exact k3) (hall _ hmem)
    · rintro ⟨x, hx, hxs⟩
      refine ⟨hR, ?_⟩
      rw [← k2]
      rw [k1] at hx
      rcases List.mem_append.mp hx with hx | hx
      · have := k5 x hx (le_of_eq hxs.symm)
        omega
      · rcases List.mem_cons.mp hx with hx | hx
        · rw [k2, ← hx]; exact hxs
        · have := k6 x hx (le_of_eq hxs.symm)
          omega

theorem C24_find_fit_argmin_witness :
    ∃ r, find_fit (world zeroed [.malloc 100, .malloc 24, .free 4128]).st 32 = some r ∧
      (r = 0 ↔ ∀ x ∈ scan_order (fun j => if j = 2 then [4128] else if j = 6 then [4304] else [])
          (11 - get_list_index 32) (get_list_index 32),
        ¬ 32 ≤ get_size (world zeroed [.malloc 100, .malloc 24, .free 4128]).st.mem (hdrp x)) ∧
      (r ≠ 0 → ∃ l1 l2,
        scan_order (fun j => if j = 2 then [4128] else if j = 6 then [4304] else [])
          (11 - get_list_index 32) (get_list_index 32) = l1 ++ r :: l2 ∧
        32 ≤ get_size (world zeroed [.malloc 100, .malloc 24, .free 4128]).st.mem (hdrp r) ∧
        (∀ x ∈ l1, 32 ≤ get_size (world zeroed [.malloc 100, .malloc 24, .free 4128]).st.mem
            (hdrp x) →
          get_size (world zeroed [.malloc 100, .malloc 24, .free 4128]).st.mem (hdrp r) <
            get_size (world zeroed [.malloc 100, .malloc 24, .free 4128]).st.mem (hdrp x)) ∧
        (∀ x ∈ l2, 32 ≤ get_size (world zeroed [.malloc 100, .malloc 24, .free 4128]).st.mem
            (hdrp x) →
          get_size (world zeroed [.malloc 100, .malloc 24, .free 4128]).st.mem (hdrp r) ≤
            get_size (world zeroed [.malloc 100, .malloc 24, .free 4128]).st.mem (hdrp x))) ∧
      ((∃ x ∈ scan_order (fun j => if j = 2 then [4128] else if j = 6 then [4304] else [])
          (11 - get_list_index 32) (get_list_index 32),
        get_size (world zeroed [.malloc 100, .malloc 24, .free 4128]).st.mem (hdrp x) = 32) →
        r ≠ 0 ∧
          get_size (world zeroed [.malloc 100, .malloc 24, .free 4128]).st.mem (hdrp r) = 32) :=
  C24_find_fit_argmin (world zeroed [.malloc 100, .malloc 24, .free 4128]).st 32
    (fun j => if j = 2 then [4128] else if j = 6 then [4304] else []) (by decide)

/-! ## C25: `place` and its split threshold -/

/-- C25, for a request that is not 0: in a well-formed heap with lists `fl`
in which every free block is listed, for a free block `b` and a request `asize`
that is a positive multiple of 16 and at most the size of `b`: `place(b, asize)`
returns; afterwards all 11 lists end and `b` is a node of none, and header and
footer of `b` are marked allocated; if the size of `b` exceeds `asize` by 32 or
more, `b` has size `asize` and the block at `b + asize` has header and footer
`pack(c - asize, 0)` and is the head of the list of its class; otherwise `b`
keeps its size, the heap walk visits the blocks it visited before and each list
holds the nodes it held before, but for `b`; and every byte before the header
of `b` or after the footer that `b` had, other than the 16 bytes of links of a
listed block, is unchanged. -/
theorem C25_place_split_threshold (s : State) (bs : List Blk) (fl : Nat → List Nat) (b : Blk)
    (asize : Nat) (h : Inv s bs fl ∅) (hb : b ∈ bs) (hf : b.alloc = 0) (ha0 : 0 < asize)
    (ha2 : asize % 16 = 0) (ha3 : asize ≤ b.size) :
    ∃ s', place s b.addr asize = some s' ∧
      (∀ j, j < 11 → ∃ l, list_nodes s' j = some l ∧ b.addr ∉ l) ∧
      get_alloc s'.mem (hdrp b.addr) = 1 ∧ get_alloc s'.mem (ftrp s'.mem b.addr) = 1 ∧
      (32 ≤ b.size - asize →
        get_size s'.mem (hdrp b.addr) = asize ∧
        get s'.mem (hdrp (b.addr + asize)) = pack (b.size - asize) 0 ∧
        get s'.mem (ftrp s'.mem (b.addr + asize)) = pack (b.size - asize) 0 ∧
        s'.free_lists (get_list_index (b.size - asize)) = b.addr + asize) ∧
      (b.size - asize < 32 →
        get_size s'.mem (hdrp b.addr) = b.size ∧ heap_blocks s' = heap_blocks s ∧
        ∀ j, j < 11 → list_nodes s' j = (list_nodes s j).map (fun l => l.erase b.addr)) ∧
      (∀ x, x < hdrp b.addr ∨ ftrp s.mem b.addr + 8 ≤ x →
        (∀ j, ∀ y ∈ fl j, x < y ∨ y + 16 ≤ x) → s'.mem x = s.mem x) := by
  have fb := h.blk hb
  have hbrk := h.brk_lt
  have e1 : hdrp b.addr = b.addr - 8 := hdrp_eq (by omega) (by omega)
  have e2 : ftrp s.mem b.addr = b.addr + b.size - 16 :=
    tag_ftrp (by omega) (by omega) fb.2.2.2.2.2.1 fb.2.2.2.1 fb.2.2.2.2.1 (by omega)
  have hner : ∀ j, b.addr ∉ (fl j).erase b.addr := fun j hm =>
    ((h.nodup j).mem_erase_iff.mp hm).1 rfl
  by_cases hsp : 32 ≤ b.size - asize
  · obtain ⟨s', hpl, hL, w1, w2, w3, w4, hhd, hfr⟩ :=
      place_split h hb hf (by omega) ha2 (by omega)
    have e3 : ftrp s'.mem b.addr = b.addr + asize - 16 :=
      tag_ftrp (by omega) (by omega) w1 ha2 (by omega) (by omega)
    have e4 : hdrp (b.addr + asize) = b.addr + asize - 8 := hdrp_eq (by omega) (by omega)
    have e5 : ftrp s'.mem (b.addr + asize) = b.addr + b.size - 16 := by
      rw [@tag_ftrp s'.mem (b.addr + asize) (b.size - asize) 0 (by omega) (by omega)
        (by rw [w3]; rfl) (by omega) (by omega) (by omega)]
      omega
    have e6 : pack (b.size - asize) 0 = b.size - asize := by
      rw [pack_eq (by omega) (by omega)]; rfl
    refine ⟨s', hpl, ?_, ?_, ?_, ?_, fun hc => absurd hsp (by omega), ?_⟩
    · intro j hj
      refine ⟨_, hL j hj, ?_⟩
      intro hm
      rcases List.mem_append.mp hm with hm | hm
      · split_ifs at hm
        · simp only [List.mem_singleton] at hm; omega
        · simp at hm
      · exact hner j hm
    · rw [e1]; exact get_alloc_eq w1 (by omega) (by omega)
    · rw [e3]; exact get_alloc_eq w2 (by omega) (by omega)
    · intro _
      refine ⟨by rw [e1]; exact get_size_eq w1 (by omega) (by omega), ?_, ?_, hhd⟩
      · rw [e4, e6]; exact w3
      · rw [e5, e6]; exact w4
    · intro x hx hy
      rw [e1, e2] at hx
      exact hfr x (by omega) hy
  · obtain ⟨s', hpl, hL, w1, w2, hhb, hfr⟩ := place_whole h hb hf ha3 (by omega)
    have e3 : ftrp s'.mem b.addr = b.addr + b.size - 16 :=
      tag_ftrp (by omega) (by omega) w1 (by omega) (by omega) (by omega)
    refine ⟨s', hpl, fun j hj => ⟨_, hL j hj, hner j⟩, ?_, ?_,
      fun hc => absurd hc hsp, ?_, ?_⟩
    · rw [e1]; exact get_alloc_eq w1 (by omega) (by omega)
    · rw [e3]; exact get_alloc_eq w2 (by omega) (by omega)
    · intro _
      refine ⟨by rw [e1]; exact get_size_eq w1 (by omega) (by omega), hhb, ?_⟩
      intro j hj
      rw [hL j hj, list_nodes_inv h hj]
      rfl
    · intro x hx hy
      rw [e1, e2] at hx
      exact hfr x (by omega) hy

theorem C25_place_split_threshold_witness :
    ∃ s', place (world zeroed []).st 4128 48 = some s' ∧
      (∀ j, j < 11 → ∃ l, list_nodes s' j = some l ∧ 4128 ∉ l) ∧
      get_alloc s'.mem (hdrp 4128) = 1 ∧ get_alloc s'.mem (ftrp s'.mem 4128) = 1 ∧
      (32 ≤ 2048 - 48 →
        get_size s'.mem (hdrp 4128) = 48 ∧
        get s'.mem (hdrp (4128 + 48)) = pack (2048 - 48) 0 ∧
        get s'.mem (ftrp s'.mem (4128 + 48)) = pack (2048 - 48) 0 ∧
        s'.free_lists (get_list_index (2048 - 48)) = 4128 + 48) ∧
      (2048 - 48 < 32 →
        get_size s'.mem (hdrp 4128) = 2048 ∧
        heap_blocks s' = heap_blocks (world zeroed []).st ∧
        ∀ j, j < 11 → list_nodes s' j =
          (list_nodes (world zeroed []).st j).map (fun l => l.erase 4128)) ∧
      (∀ x, x < hdrp 4128 ∨ ftrp (world zeroed []).st.mem 4128 + 8 ≤ x →
        (∀ j, ∀ y ∈ (fun i => if i = 6 then [4128] else []) j, x < y ∨ y + 16 ≤ x) →
        s'.mem x = (world zeroed []).st.mem x) :=
  C25_place_split_threshold (world zeroed []).st [⟨4128, 2048, 0⟩]
    (fun i => if i = 6 then [4128] else []) ⟨4128, 2048, 0⟩ 48 boot_inv (by simp) rfl
    (by decide) (by decide) (by decide)

/-- C25 fails for the request 0: right after `mm_init` the block at 4128 is
free, listed, and of size 2048, and 0 is a multiple of 16 that is at most 2048;
after `place(4128, 0)` the header of the block is marked free, the block is
still the node of list 6, and the footer of the prologue at 4112, a word before
the header of the block that is no link of a listed block, holds 1 instead of
17. -/
theorem C25_place_counterexample :
    Inv (world zeroed []).st [⟨4128, 2048, 0⟩] (fun i => if i = 6 then [4128] else []) ∅ ∧
      0 % 16 = 0 ∧ 0 ≤ 2048 ∧ hdrp 4128 = 4120 ∧ get (world zeroed []).st.mem 4112 = 17 ∧
      (place (world zeroed []).st 4128 0).map
        (fun s' => (get_alloc s'.mem (hdrp 4128), list_nodes s' 6, get s'.mem 4112)) =
        some (0, some [4128], 1) ∧
      ¬ ∃ s', place (world zeroed []).st 4128 0 = some s' ∧ get_alloc s'.mem (hdrp 4128) = 1 := by
  have hp : (place (world zeroed []).st 4128 0).map
      (fun s' => (get_alloc s'.mem (hdrp 4128), list_nodes s' 6, get s'.mem 4112)) =
      some (0, some [4128], 1) := by decide
  refine ⟨boot_inv, by decide, by decide, by decide, by decide, hp, ?_⟩
  rintro ⟨s', h1, h2⟩
  rw [h1] at hp
  simp only [Option.map_some', Option.some.injEq, Prod.mk.injEq] at hp
  omega

/-! ## C26: `realloc` in place -/

/-- C26, for `n` at most `2^64 - 32` in a world reached with such sizes: let
`p` be a live pointer whose block has size `old`, let the block after it have
size `t`, and let `new = align(n + 16)` with `n > 0`. If `new <= old`, or if the
block after `p` is marked free and `old + t >= new`, then `realloc(p, n)`
returns `p`, whatever the limit of the region (it does not ask for memory), the
region keeps its end, and the payload bytes of the block that lie in the first
`new - 16` bytes are where they were (nothing is copied). The block at `p` ends
marked allocated; with `avail = old` when `new <= old` and `avail = old + t`
otherwise, its size is `new` when `avail - new >= 32` and `avail` otherwise; and
when `new > old`, all lists end and the block that was after `p` is a node of
none. -/
theorem C26_resize_in_place (w : World) (p m n old t new : Nat) (hr : Reach SmallCall w)
    (hp : (p, m) ∈ w.live) (hn0 : 0 < n) (hn : n ≤ 18446744073709551616 - 32)
    (hold : get_size w.st.mem (hdrp p) = old)
    (ht : get_size w.st.mem (hdrp (next_blkp w.st.mem p)) = t)
    (hnew : align (addw n (WSIZE * 2)) = new)
    (hcase : new ≤ old ∨ (get_alloc w.st.mem (hdrp (next_blkp w.st.mem p)) = 0 ∧ new ≤ old + t)) :
    ∃ s', (∀ cap, realloc cap w.st p n = some (s', p)) ∧ s'.brk = w.st.brk ∧
      (∀ i, i + 16 < min old new → s'.mem (p + i) = w.st.mem (p + i)) ∧
      get_alloc s'.mem (hdrp p) = 1 ∧
      get_size s'.mem (hdrp p) =
        (if new ≤ old then (if 32 ≤ old - new then new else old)
          else (if 32 ≤ old + t - new then new else old + t)) ∧
      (¬ new ≤ old →
        ∀ j, j < 11 → ∃ l, list_nodes s' j = some l ∧ next_blkp w.st.mem p ∉ l) := by
  obtain ⟨bs, fl, hw, _⟩ := reach_winv (fun c hc => hc) hr
  obtain ⟨b, hb, hba, hb1, _⟩ := hw.2.1 (p, m) hp
  simp only at hba
  subst hba
  have hbh := header_of hw.1 hb
  rw [hbh.1] at hold
  subst hold
  subst hnew
  by_cases hA : align (addw n (WSIZE * 2)) ≤ b.size
  · obtain ⟨s', bs', fl', hre, h', hbk, hB, hpay⟩ :=
      realloc_shrink hw.1 hb hb1 hn (by omega) hA
    have hd := header_of h' hB
    simp only at hd
    refine ⟨s', hre, hbk, fun i hi => hpay i (by omega), hd.2, ?_, fun hc => absurd hA hc⟩
    rw [hd.1, if_pos hA]
  · rcases hcase with hc | ⟨hc1, hc2⟩
    · exact absurd hc hA
    obtain ⟨xs, ys, hbs, _, _, _, _, hnext, hnx⟩ := neighbours hw.1 hb
    rw [hnext] at hc1 ht ⊢
    rcases hnx with ⟨hna, _⟩ | ⟨_, d, ys', hys, hdf, hdadj, _⟩
    · rw [hna] at hc1
      exact absurd hc1 (by decide)
    have hd : d ∈ bs := by rw [hbs, hys]; simp
    have hdh := header_of hw.1 hd
    rw [hdadj, ht] at hdh
    have htd : t = d.size := hdh.1
    subst htd
    obtain ⟨s', bs', fl', hre, h', hbk, hB, hnd, hpay⟩ :=
      realloc_absorb hw.1 hb hb1 hn (by omega) hd hdf hdadj (by omega) hc2
    have hd' := header_of h' hB
    simp only at hd'
    refine ⟨s', hre, hbk, fun i hi => hpay i (by omega), hd'.2, ?_, ?_⟩
    · rw [hd'.1, if_neg hA]
    · intro _ j hj
      refine ⟨fl' j, list_nodes_inv h' hj, ?_⟩
      intro hm
      obtain ⟨_, c, hc, hca, _, _⟩ := h'.node hm
      exact hnd c hc (by rw [hca, hdadj])

theorem C26_resize_in_place_witness :
    ∃ s', (∀ cap, realloc cap (world zeroed [.malloc 24]).st 4128 100 = some (s', 4128)) ∧
      s'.brk = (world zeroed [.malloc 24]).st.brk ∧
      (∀ i, i + 16 < min 48 128 → s'.mem (4128 + i) = (world zeroed [.malloc 24]).st.mem (4128 + i)) ∧
      get_alloc s'.mem (hdrp 4128) = 1 ∧
      get_size s'.mem (hdrp 4128) =
        (if 128 ≤ 48 then (if 32 ≤ 48 - 128 then 128 else 48)
          else (if 32 ≤ 48 + 2000 - 128 then 128 else 48 + 2000)) ∧
      (¬ 128 ≤ 48 → ∀ j, j < 11 → ∃ l, list_nodes s' j = some l ∧
        next_blkp (world zeroed [.malloc 24]).st.mem 4128 ∉ l) :=
  C26_resize_in_place (world zeroed [.malloc 24]) 4128 24 100 48 2000 128
    (world_reach rfl (by simp [SmallCall]) (by decide)) (by decide) (by decide) (by decide)
    (by decide) (by decide) (by decide) (Or.inr ⟨by decide, by decide⟩)

/-- C26 fails when the size wraps around: after `malloc(24)` the pointer 4128
is live and its block has size 48; for `n = 2^64 - 16` the new size
`align(n + 16)` is 0, which is at most 48 and leaves 48 bytes, so the block at
4128 should end allocated with size 0; `realloc(4128, n)` returns 4128 with the
header of the block marked free and of size 48. -/
theorem C26_resize_counterexample :
    Reach AnyCall (world zeroed [.malloc 24]) ∧
      (4128, 24) ∈ (world zeroed [.malloc 24]).live ∧
      get_size (world zeroed [.malloc 24]).st.mem (hdrp 4128) = 48 ∧
      0 < 18446744073709551600 ∧ align (addw 18446744073709551600 (WSIZE * 2)) = 0 ∧
      (realloc LIMIT (world zeroed [.malloc 24]).st 4128 18446744073709551600).map
        (fun x => (x.2, get_alloc x.1.mem (hdrp 4128), get_size x.1.mem (hdrp 4128))) =
        some (4128, 0, 48) ∧
      ¬ ∃ s', realloc LIMIT (world zeroed [.malloc 24]).st 4128 18446744073709551600 =
          some (s', 4128) ∧ get_alloc s'.mem (hdrp 4128) = 1 := by
  have hre : (realloc LIMIT (world zeroed [.malloc 24]).st 4128 18446744073709551600).map
      (fun x => (x.2, get_alloc x.1.mem (hdrp 4128), get_size x.1.mem (hdrp 4128))) =
      some (4128, 0, 48) := by decide
  refine ⟨world_reach rfl (fun _ _ => trivial) (by decide), by decide, by decide, by decide,
    by decide, hre, ?_⟩
  rintro ⟨s', h1, h2⟩
  rw [h1] at hre
  simp only [Option.map_some', Option.some.injEq, Prod.mk.injEq] at hre
  omega

/-! ## C27: insertion at the head of a list -/

/-- C27: in a well-formed heap with lists `fl`, for a block `b` that is a node
of no list: after `add_to_free_list(b)` the head of the list of the class of
the size of `b` is `b`, `succ(b)` is the previous head, `pred(b)` is `NULL`, the
previous head, if there is one, has `pred = b`, the nodes of that list are `b`
followed by the nodes it had, in their order, and the heads and the nodes of
the other ten lists are the same as before. -/
theorem C27_lifo_insert (s : State) (bs : List Blk) (fl : Nat → List Nat) (X : Set Nat)
    (b : Blk) (h : Inv s bs fl X) (hb : b ∈ bs) (hnl : ∀ j, b.addr ∉ fl j) :
    (add_to_free_list s b.addr).free_lists (get_list_index b.size) = b.addr ∧
      get_succ (add_to_free_list s b.addr).mem b.addr = s.free_lists (get_list_index b.size) ∧
      get_pred (add_to_free_list s b.addr).mem b.addr = 0 ∧
      (s.free_lists (get_list_index b.size) ≠ 0 →
        get_pred (add_to_free_list s b.addr).mem (s.free_lists (get_list_index b.size)) =
          b.addr) ∧
      list_nodes s (get_list_index b.size) = some (fl (get_list_index b.size)) ∧
      list_nodes (add_to_free_list s b.addr) (get_list_index b.size) =
        some (b.addr :: fl (get_list_index b.size)) ∧
      ∀ j, j < 11 → j ≠ get_list_index b.size →
        (add_to_free_list s b.addr).free_lists j = s.free_lists j ∧
        list_nodes s j = some (fl j) ∧ list_nodes (add_to_free_list s b.addr) j = some (fl j) := by
  have fb := h.blk hb
  have hbrk := h.brk_lt
  have hsz := (header_of h hb).1
  have hi := get_list_index_lt b.size
  obtain ⟨hap, hidx, hnz⟩ := h.raw
  have hsep : ∀ i, ∀ x ∈ fl i, x + 16 ≤ b.addr ∨ b.addr + 16 ≤ x := by
    intro i x hx
    obtain ⟨_, c, hc, hca, _, _⟩ := h.node hx
    have fc := h.blk hc
    rcases Layout.sep h.lay hc hb with e | e | e
    · rw [← hca, e] at hx
      exact absurd hx (hnl i)
    · omega
    · omega
  obtain ⟨A1, A2, A3, _, _, _, _⟩ := @add_raw s fl b.addr (by omega) h.heads h.chain hsep hap
    hidx h.nodup (fun i x hx => ⟨(hnz i x hx).1, by have := (hnz i x hx).2; omega⟩)
  rw [hsz] at A1 A2 A3
  generalize add_to_free_list s b.addr = S at *
  have hhd := h.heads _ hi
  obtain ⟨c1, c2, c3⟩ := A3
  have hbound : ∀ i, ∀ x ∈ fl i, x ≠ 0 ∧ x + 16 ≤ 18446744073709551616 := fun i x hx =>
    ⟨(hnz i x hx).1, by have := (hnz i x hx).2; omega⟩
  refine ⟨by rw [A1, Function.update_same], ?_, c1, ?_, list_nodes_inv h hi, ?_, ?_⟩
  · unfold get_succ
    rw [succ_ptr_eq (by omega), hhd]
    exact c2
  · intro hne
    rw [hhd] at hne ⊢
    cases hl : fl (get_list_index b.size) with
    | nil => rw [hl] at hne; exact absurd rfl hne
    | cons c t =>
      rw [hl] at c3
      exact c3.1
  · unfold list_nodes
    rw [A1, Function.update_same]
    refine @walk_of_chain _ (_ :: _) ⟨c1, c2, c3⟩ (List.nodup_cons.mpr ⟨hnl _, h.nodup _⟩) ?_
    intro x hx
    rcases List.mem_cons.mp hx with e | hx
    · rw [e]; omega
    · exact hbound _ x hx
  · intro j hj hne
    refine ⟨by rw [A1, Function.update_noteq hne], list_nodes_inv h hj, ?_⟩
    unfold list_nodes
    rw [A1, Function.update_noteq hne, h.heads j hj]
    exact walk_of_chain (A2 j hne) (h.nodup j) (hbound j)

theorem C27_lifo_insert_witness :
    (add_to_free_list marked 4128).free_lists (get_list_index 48) = 4128 ∧
      get_succ (add_to_free_list marked 4128).mem 4128 = marked.free_lists (get_list_index 48) ∧
      get_pred (add_to_free_list marked 4128).mem 4128 = 0 ∧
      (marked.free_lists (get_list_index 48) ≠ 0 →
        get_pred (add_to_free_list marked 4128).mem (marked.free_lists (get_list_index 48)) =
          4128) ∧
      list_nodes marked (get_list_index 48) =
        some ((fun i => if i = 6 then [4176] else []) (get_list_index 48)) ∧
      list_nodes (add_to_free_list marked 4128) (get_list_index 48) =
        some (4128 :: (fun i => if i = 6 then [4176] else []) (get_list_index 48)) ∧
      ∀ j, j < 11 → j ≠ get_list_index 48 →
        (add_to_free_list marked 4128).free_lists j = marked.free_lists j ∧
        list_nodes marked j = some ((fun i => if i = 6 then [4176] else []) j) ∧
        list_nodes (add_to_free_list marked 4128) j =
          some ((fun i => if i = 6 then [4176] else []) j) :=
  C27_lifo_insert marked [⟨4128, 48, 0⟩, ⟨4176, 2000, 0⟩] (fun i => if i = 6 then [4176] else [])
    {4128} ⟨4128, 48, 0⟩ marked_inv (by simp) (by intro j; by_cases hj : j = 6 <;> simp [hj])

/-! ## C28: removing a block that is in no list -/

/-- C28: for every state and every block `ptr` such that the list of the class
of the size in the header of `ptr` ends and does not hold `ptr`,
`remove_from_free_list(ptr)` returns and leaves the state as it is: the 11 list
heads and every byte of the heap, the links of every block among them. -/
theorem C28_remove_absent_noop (s : State) (ptr : Nat) (l : List Nat)
    (hl : list_nodes s (get_list_index (get_size s.mem (hdrp ptr))) = some l) (hp : ptr ∉ l) :
    remove_from_free_list s ptr = some s := by
  unfold list_nodes at hl
  unfold remove_from_free_list
  simp only [list_scan_absent _ _ _ hl hp]

theorem C28_remove_absent_noop_witness :
    remove_from_free_list (world zeroed [.malloc 100, .malloc 100, .free 4128]).st 4256 =
      some (world zeroed [.malloc 100, .malloc 100, .free 4128]).st :=
  C28_remove_absent_noop (world zeroed [.malloc 100, .malloc 100, .free 4128]).st 4256 [4128]
    (by decide) (by decide)

/-! ## C29: the block that `malloc` returns is at most 16 bytes too large -/

/-- C29, for `n` at most `2^64 - 32` in a world reached with such sizes:
`malloc(n)` with `n > 0` returns, and when the pointer `p` it returns is not
`NULL`, the size of the block at `p` is the adjusted size `asize` or
`asize + 16`, and the payload of the block, its size less the 16 bytes of
header and footer, holds the `n` bytes and fewer than 32 bytes more. -/
theorem C29_bounded_fragmentation (w : World) (n cap : Nat) (hr : Reach SmallCall w)
    (hn0 : 0 < n) (hn : n ≤ 18446744073709551616 - 32) (hcap : cap < 18446744073709551616) :
    ∃ s' p, malloc cap w.st n = some (s', p) ∧
      (p ≠ 0 →
        (get_size s'.mem (hdrp p) = adjusted n ∨ get_size s'.mem (hdrp p) = adjusted n + 16) ∧
        n ≤ get_size s'.mem (hdrp p) - 16 ∧ get_size s'.mem (hdrp p) - 16 < n + 32) := by
  obtain ⟨bs, fl, hw, _⟩ := reach_winv (fun c hc => hc) hr
  obtain ⟨ha1, ha2, ha3, ha4, ha5⟩ := adjusted_small hn
  have ha6 := adjusted_lt hn0 hn
  obtain ⟨s', p, hm, hp⟩ := @malloc_size cap _ _ _ _ hw.1 hn (by omega) hcap
  refine ⟨s', p, hm, fun hp0 => ?_⟩
  obtain ⟨bs', fl', u, h', hB, hu⟩ := hp hp0
  have hd := (header_of h' hB).1
  simp only at hd
  rw [hd]
  refine ⟨hu, ?_, ?_⟩
  · omega
  · omega

theorem C29_bounded_fragmentation_witness :
    ∃ s' p, malloc LIMIT (world zeroed [.malloc 1984]).st 10 = some (s', p) ∧
      (p ≠ 0 →
        (get_size s'.mem (hdrp p) = adjusted 10 ∨ get_size s'.mem (hdrp p) = adjusted 10 + 16) ∧
        10 ≤ get_size s'.mem (hdrp p) - 16 ∧ get_size s'.mem (hdrp p) - 16 < 10 + 32) :=
  C29_bounded_fragmentation (world zeroed [.malloc 1984]) 10 LIMIT
    (world_reach rfl (by simp [SmallCall]) (by decide)) (by decide) (by decide) (by decide)

/-- C29 fails when the size wraps around: right after `mm_init`, for
`n = 2^64 - 16` the adjusted size is 0 and `malloc(n)` returns 4128, a block
whose header holds the size 2048, which is neither 0 nor 16. -/
theorem C29_fragmentation_counterexample :
    Reach AnyCall (world zeroed []) ∧ 0 < 18446744073709551600 ∧
      adjusted 18446744073709551600 = 0 ∧
      (malloc LIMIT (world zeroed []).st 18446744073709551600).map
        (fun x => (x.2, get_size x.1.mem (hdrp x.2))) = some (4128, 2048) ∧
      ¬ ∃ s' p, malloc LIMIT (world zeroed []).st 18446744073709551600 = some (s', p) ∧
        (p ≠ 0 → get_size s'.mem (hdrp p) = adjusted 18446744073709551600 ∨
          get_size s'.mem (hdrp p) = adjusted 18446744073709551600 + 16) := by
  have hm : (malloc LIMIT (world zeroed []).st 18446744073709551600).map
      (fun x => (x.2, get_size x.1.mem (hdrp x.2))) = some (4128, 2048) := by decide
  refine ⟨world_reach rfl (fun _ _ => trivial) (by decide), by decide, by decide, hm, ?_⟩
  rintro ⟨s', p, h1, h2⟩
  rw [h1] at hm
  simp only [Option.map_some', Option.some.injEq, Prod.mk.injEq] at hm
  obtain ⟨hp, hs⟩ := hm
  have := h2 (by omega)
  rw [hs] at this
  have ha : adjusted 18446744073709551600 = 0 := by decide
  rw [ha] at this
  omega

/-! ## C30: the two size normalizations agree -/

/-- C30: for every `n` with `1 <= n <= 2^64 - 32`, the size that `realloc`
computes, `align(n + 16)` in `size_t` arithmetic, is the adjusted size that
`malloc` computes for `n`, which is 32 if `n <= 16` and `align(n + 16)`
otherwise; so the size that `realloc` computes is at least 32. -/
theorem C30_normalizations_agree (n : Nat) (h1 : 1 ≤ n) (h2 : n ≤ 18446744073709551616 - 32) :
    align (addw n (WSIZE * 2)) = adjusted n ∧
      adjusted n = (if n ≤ 16 then 32 else align (addw n 16)) ∧
      32 ≤ align (addw n (WSIZE * 2)) := by
  have e : adjusted n = if n ≤ 16 then 32 else align (addw n 16) := rfl
  have hs := (realloc_size h2 (by omega)).2.1
  refine ⟨?_, e, hs⟩
  rw [e]
  by_cases hn : n ≤ 16
  · rw [if_pos hn]; exact align_small h1 hn
  · rw [if_neg hn]; rfl

theorem C30_normalizations_agree_witness :
    align (addw 7 (WSIZE * 2)) = adjusted 7 ∧
      adjusted 7 = (if 7 ≤ 16 then 32 else align (addw 7 16)) ∧
      32 ≤ align (addw 7 (WSIZE * 2)) :=
  C30_normalizations_agree 7 (by decide) (by decide)

end Claims3

end MM

namespace Shell

/-! ## C21: the exit status of a pipeline -/

/-- What `parse_command` returns for a pipeline in the parent process, when the
pipe and both children are created and the second child exits normally: the
exit status of the second child converted to `bool`, which is 1 for every exit
status other than 0. -/
theorem pipe_returns (parse_simple : Nat → OS → Option (Int × OS)) (cmd1 cmd2 : command_t)
    (scmd : Nat) (os : OS) (h0 : 0 ≤ os.answer os.asked) (h1 : 0 < os.answer (os.asked + 1))
    (h2 : 0 < os.answer (os.asked + 2)) (h4 : WIFEXITED (os.answer (os.asked + 4)) = true) :
    (parse_command parse_simple (.node .OP_PIPE cmd1 cmd2 scmd) os).map Prod.fst =
      some (to_bool (WEXITSTATUS (os.answer (os.asked + 4)))) := by
  have e1 : ¬ os.answer os.asked < 0 := by omega
  have e2 : ¬ os.answer (os.asked + 1) < 0 := by omega
  have e3 : ¬ os.answer (os.asked + 1) = 0 := by omega
  have e4 : ¬ os.answer (os.asked + 2) < 0 := by omega
  have e5 : ¬ os.answer (os.asked + 2) = 0 := by omega
  simp only [parse_command, run_on_pipe, OS.ask, e1, e2, e3, e4, e5, h4, if_false, if_true,
    Option.map_some']

/-- C21 does not hold of the code: for the pipeline `cmd1 | cmd2` the process
gets a pipe (`pipe` returns 0) and two children (`fork` returns 100, then 101),
and `waitpid` stores the status words 0 and 512; the second child has exited
normally with status 2, and `parse_command` returns 1. -/
theorem C21_pipe_status_collapsed :
    WIFEXITED 512 = true ∧ WEXITSTATUS 512 = 2 ∧
    (parse_command quiet
      (.node .OP_PIPE (.node .OP_NONE .NULL .NULL 1) (.node .OP_NONE .NULL .NULL 2) 0)
      (script [0, 100, 101, 0, 512])).map Prod.fst = some 1 := by
  decide

end Shell

namespace MM

/-! ## Well-linked lists: the observable and the named form -/

theorem pred_links_of_chain {m : Mem} : ∀ {l : List Nat} {prev nxt : Nat},
    Chain m prev l nxt → pred_links m prev l
  | [], _, _, _ => trivial
  | _ :: _, _, _, h => ⟨h.1, pred_links_of_chain h.2.2⟩

theorem list_walk_head {m : Mem} : ∀ (F p : Nat) (l : List Nat),
    list_walk m F p = some l → l.headD 0 = p
  | 0, p, l, h => by simp [list_walk] at h
  | F + 1, p, l, h => by
    unfold list_walk at h
    by_cases hp : p = 0
    · rw [if_pos hp] at h
      simp only [Option.some.injEq] at h
      rw [← h, hp]; rfl
    · rw [if_neg hp] at h
      cases hw : list_walk m F (get_succ m p) with
      | none => rw [hw] at h; simp at h
      | some t =>
        rw [hw] at h
        simp only [Option.some.injEq] at h
        rw [← h]; rfl

theorem chain_of_walk {m : Mem} : ∀ (F p : Nat) (l : List Nat) (prev : Nat),
    list_walk m F p = some l → pred_links m prev l →
    (∀ x ∈ l, x + 16 ≤ 18446744073709551616) → Chain m prev l 0
  | 0, p, l, _, h, _, _ => by simp [list_walk] at h
  | F + 1, p, l, prev, h, hp, hb => by
    unfold list_walk at h
    by_cases hp0 : p = 0
    · rw [if_pos hp0] at h
      simp only [Option.some.injEq] at h
      rw [← h]; trivial
    · rw [if_neg hp0] at h
      cases hw : list_walk m F (get_succ m p) with
      | none => rw [hw] at h; simp at h
      | some t =>
        rw [hw] at h
        simp only [Option.some.injEq] at h
        subst h
        have hpb := hb p (List.mem_cons_self _ _)
        have hs : get_succ m p = get m (p + 8) := by
          unfold get_succ; rw [succ_ptr_eq (by omega)]
        refine ⟨hp.1, ?_, chain_of_walk F _ t p hw hp.2
          (fun x hx => hb x (List.mem_cons_of_mem _ hx))⟩
        rw [← hs]
        exact (list_walk_head F _ t hw).symm

/-- The named form gives the walks of the lists. -/
theorem Linked.walks {s : State} {fl : Nat → List Nat} (h : Linked s fl) {i : Nat}
    (hi : i < 11) : list_nodes s i = some (fl i) := by
  unfold list_nodes
  rw [h.heads i hi]
  exact walk_of_chain (h.chain i) (h.nodup i) (h.bound i)

theorem Linked.well {s : State} {fl : Nat → List Nat} (h : Linked s fl) :
    WellLinked s ∧ Apart s := by
  constructor
  · intro i hi
    exact ⟨fl i, h.walks hi, h.nodup i, pred_links_of_chain (h.chain i)⟩
  · intro i hi l hl x hx
    rw [h.walks hi] at hl
    simp only [Option.some.injEq] at hl
    subst hl
    refine ⟨(h.bound i x hx).2, ?_⟩
    intro j hj k hk y hy
    rw [h.walks hj] at hk
    simp only [Option.some.injEq] at hk
    subst hk
    exact ⟨fun e => h.once i j x hx (e ▸ hy), h.apart i j x hx y hy⟩

theorem Linked.of_nodes {s : State} {fl : Nat → List Nat} (hW : WellLinked s) (hA : Apart s)
    (hw : ∀ i, i < 11 → list_nodes s i = some (fl i)) (h0 : ∀ i, 11 ≤ i → fl i = []) :
    Linked s fl := by
  have hin : ∀ i x, x ∈ fl i → i < 11 := by
    intro i x hx
    by_contra hi
    rw [h0 i (by omega)] at hx
    simp at hx
  refine ⟨?_, ?_, ?_, ?_, ?_, ?_⟩
  · intro i hi
    exact (list_walk_head _ _ _ (hw i hi)).symm
  · intro i
    by_cases hi : i < 11
    · obtain ⟨l, hl, _, hp⟩ := hW i hi
      rw [hw i hi] at hl
      simp only [Option.some.injEq] at hl
      subst hl
      exact chain_of_walk _ _ _ _ (hw i hi) hp (fun x hx => (hA i hi _ (hw i hi) x hx).1)
    · rw [h0 i (by omega)]; trivial
  · intro i
    by_cases hi : i < 11
    · obtain ⟨l, hl, hn, _⟩ := hW i hi
      rw [hw i hi] at hl
      simp only [Option.some.injEq] at hl
      subst hl
      exact hn
    · rw [h0 i (by omega)]; simp
  · intro i j x hx y hy hne
    have hi := hin i x hx
    have hj := hin j y hy
    exact ((hA i hi _ (hw i hi) x hx).2 j hj _ (hw j hj) y hy).2 hne
  · intro i j x hx hy
    have hi := hin i x hx
    have hj := hin j x hy
    exact ((hA i hi _ (hw i hi) x hx).2 j hj _ (hw j hj) x hy).1 rfl
  · intro i x hx
    have hi := hin i x hx
    exact ⟨list_walk_ne_zero _ _ _ (hw i hi) x hx, (hA i hi _ (hw i hi) x hx).1⟩

/-- Well-linked lists whose nodes do not overlap have a named form. -/
theorem Linked.of_well {s : State} (hW : WellLinked s) (hA : Apart s) :
    ∃ fl, Linked s fl :=
  ⟨fun i => if i < 11 then (list_nodes s i).getD [] else [], Linked.of_nodes hW hA
    (fun i hi => by
      obtain ⟨l, hl, _, _⟩ := hW i hi
      simp only [if_pos hi, hl, Option.getD_some])
    (fun i hi => by simp only [if_neg (show ¬ i < 11 by omega)])⟩

/-- The lists of a well-formed heap. -/
theorem Inv.linked {s : State} {bs : List Blk} {fl : Nat → List Nat} {X : Set Nat}
    (h : Inv s bs fl X) : Linked s fl := by
  obtain ⟨hap, hidx, hnz⟩ := h.raw
  exact ⟨h.heads, h.chain, h.nodup, hap, hidx,
    fun i x hx => ⟨(hnz i x hx).1, by have := (hnz i x hx).2; omega⟩⟩

/-! ## Walks of well-linked lists end -/

theorem find_fit_ends {s : State} (hW : WellLinked s) (a : Nat) : ∃ r, find_fit s a = some r := by
  refine ⟨_, @find_fit_eq s (fun i => (list_nodes s i).getD []) a ?_⟩
  intro j hj
  obtain ⟨l, hl, _, _⟩ := hW j hj
  simp only [hl, Option.getD_some]

theorem remove_ends {s : State} (hW : WellLinked s) (ptr : Nat) :
    ∃ s', remove_from_free_list s ptr = some s' := by
  obtain ⟨l, hl, _, _⟩ := hW (get_list_index (get_size s.mem (hdrp ptr))) (get_list_index_lt _)
  unfold list_nodes at hl
  unfold remove_from_free_list
  by_cases hm : ptr ∈ l
  · simp only [list_scan_present _ _ _ hl hm]
    exact ⟨_, rfl⟩
  · simp only [list_scan_absent _ _ _ hl hm]
    exact ⟨_, rfl⟩

/-! ## `add_to_free_list` keeps the lists linked -/

theorem add_linked {s : State} {fl : Nat → List Nat} {q : Nat} (h : Linked s fl)
    (hq : q + 16 ≤ 18446744073709551616) (hsep : ∀ i, ∀ x ∈ fl i, x + 16 ≤ q ∨ q + 16 ≤ x) :
    ∃ fl', Linked (add_to_free_list s q) fl' := by
  obtain ⟨A1, A2, A3, _, _, _, _⟩ := add_raw hq h.heads h.chain hsep h.apart h.once h.nodup
    (fun i x hx => ⟨(h.bound i x hx).1, by have := (h.bound i x hx).2; omega⟩)
  generalize hI : get_list_index (get_size s.mem (hdrp q)) = I at A1 A2 A3
  have hi : I < 11 := by rw [← hI]; exact get_list_index_lt _
  have hnq : ∀ i, q ∉ fl i := by
    intro i hm
    have := hsep i q hm
    omega
  by_cases hq0 : q = 0
  · -- the list of the class of `NULL` is emptied
    refine ⟨Function.update fl I [], ?_, ?_, ?_, ?_, ?_, ?_⟩
    · intro j hj
      rw [A1]
      by_cases hji : j = I
      · subst hji; simp [hq0]
      · rw [Function.update_noteq hji, Function.update_noteq hji]; exact h.heads j hj
    · intro j
      by_cases hji : j = I
      · subst hji; simp only [Function.update_same]; trivial
      · rw [Function.update_noteq hji]; exact A2 j hji
    · intro j
      by_cases hji : j = I
      · subst hji; simp
      · rw [Function.update_noteq hji]; exact h.nodup j
    · intro i j x hx y hy hne
      by_cases hii : i = I
      · subst hii; simp at hx
      · by_cases hji : j = I
        · subst hji; simp at hy
        · rw [Function.update_noteq hii] at hx
          rw [Function.update_noteq hji] at hy
          exact h.apart i j x hx y hy hne
    · intro i j x hx hy
      by_cases hii : i = I
      · subst hii; simp at hx
      · by_cases hji : j = I
        · subst hji; simp at hy
        · rw [Function.update_noteq hii] at hx
          rw [Function.update_noteq hji] at hy
          exact h.once i j x hx hy
    · intro i x hx
      by_cases hii : i = I
      · subst hii; simp at hx
      · rw [Function.update_noteq hii] at hx
        exact h.bound i x hx
  · refine ⟨Function.update fl I (q :: fl I), ?_, ?_, ?_, ?_, ?_, ?_⟩
    · intro j hj
      rw [A1]
      by_cases hji : j = I
      · subst hji; simp
      · rw [Function.update_noteq hji, Function.update_noteq hji]; exact h.heads j hj
    · intro j
      by_cases hji : j = I
      · subst hji; simp only [Function.update_same]; exact A3
      · rw [Function.update_noteq hji]; exact A2 j hji
    · intro j
      by_cases hji : j = I
      · subst hji
        simp only [Function.update_same]
        exact List.nodup_cons.mpr ⟨hnq _, h.nodup _⟩
      · rw [Function.update_noteq hji]; exact h.nodup j
    · -- every node of the new lists is `q` or an old node
      have old : ∀ i x, x ∈ Function.update fl I (q :: fl I) i → x = q ∨ x ∈ fl i := by
        intro i x hx
        by_cases hii : i = I
        · subst hii
          simp only [Function.update_same, List.mem_cons] at hx
          exact hx
        · rw [Function.update_noteq hii] at hx
          exact Or.inr hx
      intro i j x hx y hy hne
      rcases old i x hx with e1 | e1 <;> rcases old j y hy with e2 | e2
      · exact absurd (e1.trans e2.symm) hne
      · have := hsep j y e2
        omega
      · have := hsep i x e1
        omega
      · exact h.apart i j x e1 y e2 hne
    · intro i j x hx hy
      by_cases hii : i = I <;> by_cases hji : j = I
      · rw [hii, hji]
      · exfalso
        subst hii
        rw [Function.update_noteq hji] at hy
        simp only [Function.update_same, List.mem_cons] at hx
        rcases hx with e | e
        · exact hnq j (e ▸ hy)
        · exact hji (h.once _ _ x hy e)
      · exfalso
        subst hji
        rw [Function.update_noteq hii] at hx
        simp only [Function.update_same, List.mem_cons] at hy
        rcases hy with e | e
        · exact hnq i (e ▸ hx)
        · exact hii (h.once _ _ x hx e)
      · rw [Function.update_noteq hii] at hx
        rw [Function.update_noteq hji] at hy
        exact h.once i j x hx hy
    · intro i x hx
      by_cases hii : i = I
      · subst hii
        simp only [Function.update_same, List.mem_cons] at hx
        rcases hx with e | e
        · rw [e]; exact ⟨hq0, hq⟩
        · exact h.bound _ x e
      · rw [Function.update_noteq hii] at hx
        exact h.bound i x hx

/-! ## `remove_from_free_list` keeps the lists linked -/

theorem Linked.length_fuel {s : State} {fl : Nat → List Nat} (h : Linked s fl) (i : Nat) :
    (fl i).length < FUEL := by
  have := nodup_length_le (N := 18446744073709551615) (h.nodup i)
    (fun x hx => by have := (h.bound i x hx).2; omega)
  unfold FUEL
  omega

/-- What `remove_from_free_list` does to a node, the nodes before it in its
list being `l1` and those after it `l2`. -/
theorem remove_eq_linked {s : State} {fl : Nat → List Nat} {ptr : Nat} {l1 l2 : List Nat}
    (h : Linked s fl)
    (hl : fl (get_list_index (get_size s.mem (hdrp ptr))) = l1 ++ ptr :: l2) :
    remove_from_free_list s ptr = some
      { s with
        mem := (if l2.headD 0 ≠ 0 then
            put (if l1.getLastD 0 ≠ 0 then put s.mem (l1.getLastD 0 + 8) (l2.headD 0) else s.mem)
              (l2.headD 0) (l1.getLastD 0)
          else (if l1.getLastD 0 ≠ 0 then put s.mem (l1.getLastD 0 + 8) (l2.headD 0) else s.mem)),
        free_lists := (if l1.getLastD 0 ≠ 0 then s.free_lists
          else Function.update s.free_lists (get_list_index (get_size s.mem (hdrp ptr)))
            (l2.headD 0)) } := by
  generalize hI : get_list_index (get_size s.mem (hdrp ptr)) = I at hl ⊢
  have hi : I < 11 := by rw [← hI]; exact get_list_index_lt _
  have hmem : ptr ∈ fl I := by rw [hl]; simp
  have hpb := h.bound I ptr hmem
  have hsucc : succ_ptr ptr = ptr + 8 := succ_ptr_eq (by omega)
  have hhd := h.heads I hi
  have hscan := @list_scan_chain s.mem ptr (fl I) 0 FUEL (h.chain I)
    (fun x hx => ⟨(h.bound I x hx).1, by have := (h.bound I x hx).2; omega⟩) (h.length_fuel I)
  have hch := h.chain I
  rw [hl, Chain.join] at hch
  obtain ⟨hch1, hp, hs, hch2⟩ := hch
  have hpred : get_pred s.mem ptr = l1.getLastD 0 := hp
  have hsuc : get_succ s.mem ptr = l2.headD 0 := by
    unfold get_succ; rw [hsucc]; exact hs
  have hpne : l1.getLastD 0 ≠ 0 → l1.getLastD 0 + 8 < 18446744073709551616 ∧
      (l1.getLastD 0 + 16 ≤ ptr ∨ ptr + 16 ≤ l1.getLastD 0) := by
    intro hne
    have hin : l1.getLastD 0 ∈ l1 := by
      apply getLastD_mem
      intro e; rw [e] at hne; exact hne rfl
    have hin' : l1.getLastD 0 ∈ fl I := by
      rw [hl]; exact List.mem_append_left _ hin
    have hnd := h.nodup I
    rw [hl] at hnd
    have hne2 : l1.getLastD 0 ≠ ptr := by
      intro e
      rw [e] at hin
      exact (List.nodup_append.mp hnd).2.2 hin (List.mem_cons_self _ _)
    have := (h.bound I _ hin').2
    exact ⟨by omega, h.apart I I _ hin' ptr hmem hne2⟩
  unfold remove_from_free_list
  simp only [hI, hhd, hscan, hmem, decide_True, hpred, hsuc]
  clear hscan hhd hch1 hch2
  generalize l1.getLastD 0 = P at *
  generalize l2.headD 0 = S at *
  by_cases hp0 : P = 0
  · simp only [hp0, ne_eq, not_true_eq_false, if_false, hsuc, hpred]
    by_cases hs0 : S = 0
    · simp [hs0]
    · simp [hs0, set_pred, pred_ptr]
  · obtain ⟨hp1, hp2⟩ := hpne hp0
    have e1 : get_succ (set_succ s.mem P S) ptr = S := by
      unfold get_succ set_succ
      rw [hsucc, succ_ptr_eq hp1, get_put_other (by omega)]; exact hs
    have e2 : get_pred (set_succ s.mem P S) ptr = P := by
      unfold get_pred set_succ pred_ptr
      rw [succ_ptr_eq hp1, get_put_other (by omega)]; exact hp
    simp only [hp0, ne_eq, not_false_eq_true, if_true, e1, e2]
    by_cases hs0 : S = 0
    · simp [hs0, set_succ, succ_ptr_eq hp1]
    · simp [hs0, set_pred, pred_ptr, set_succ, succ_ptr_eq hp1]

/-- Function `remove_from_free_list` returns for every pointer and keeps the
lists linked; a node is removed from its list, the other nodes stay. -/
theorem remove_linked {s : State} {fl : Nat → List Nat} (h : Linked s fl) (ptr : Nat) :
    ∃ s' fl', remove_from_free_list s ptr = some s' ∧ Linked s' fl' ∧
      ∀ i, ∀ x ∈ fl' i, x ∈ fl i := by
  generalize hI : get_list_index (get_size s.mem (hdrp ptr)) = I
  have hi : I < 11 := by rw [← hI]; exact get_list_index_lt _
  by_cases hmem : ptr ∈ fl I
  swap
  · refine ⟨s, fl, ?_, h, fun i x hx => hx⟩
    have hw := h.walks hi
    unfold list_nodes at hw
    unfold remove_from_free_list
    simp only [hI, list_scan_absent _ _ _ hw hmem]
  obtain ⟨l1, l2, hl⟩ := List.append_of_mem hmem
  have hnd := h.nodup I
  rw [hl] at hnd
  have hn1 : ptr ∉ l1 := fun e => (List.nodup_append.mp hnd).2.2 e (List.mem_cons_self _ _)
  have hn2 : ptr ∉ l2 := (List.nodup_cons.mp (List.nodup_append.mp hnd).2.1).1
  have hnd12 : (l1 ++ l2).Nodup := by
    rw [List.nodup_append] at hnd ⊢
    exact ⟨hnd.1, (List.nodup_cons.mp hnd.2.1).2,
      fun x hx1 hx2 => hnd.2.2 hx1 (List.mem_cons_of_mem _ hx2)⟩
  have hin1 : ∀ x ∈ l1, x ∈ fl I := fun x hx => by
    rw [hl]; exact List.mem_append_left _ hx
  have hin2 : ∀ x ∈ l2, x ∈ fl I := fun x hx => by
    rw [hl]; exact List.mem_append_right _ (List.mem_cons_of_mem _ hx)
  have hch := h.chain I
  rw [hl, Chain.join] at hch
  obtain ⟨hch1, hp, hs, hch2⟩ := hch
  have hsep : ∀ {j x y}, x ∈ fl j → y ∈ l1 ++ l2 → x ≠ y → x + 16 ≤ y ∨ y + 16 ≤ x := by
    intro j x y hxj hy hne
    have : y ∈ fl I := by
      rcases List.mem_append.mp hy with hy | hy
      · exact hin1 y hy
      · exact hin2 y hy
    exact h.apart j I x hxj y this hne
  have hrm := remove_eq_linked h (hI.symm ▸ hl)
  rw [hI] at hrm
  rw [hrm]
  clear hrm
  have hP : (l1 = [] ∧ l1.getLastD 0 = 0) ∨ ∃ l1' a, l1 = l1' ++ [a] ∧ l1.getLastD 0 = a ∧
      a ≠ 0 ∧ a ∈ l1 := by
    rcases List.eq_nil_or_concat l1 with h1 | ⟨l1', a, h1⟩
    · left; subst h1; exact ⟨rfl, rfl⟩
    · right
      rw [List.concat_eq_append] at h1
      have ha : a ∈ l1 := by rw [h1]; simp
      exact ⟨l1', a, h1, by rw [h1]; exact getLastD_concat _ _ _, (h.bound I a (hin1 a ha)).1, ha⟩
  have hS : (l2 = [] ∧ l2.headD 0 = 0) ∨ ∃ c t, l2 = c :: t ∧ l2.headD 0 = c ∧ c ≠ 0 ∧ c ∈ l2 := by
    cases l2 with
    | nil => left; exact ⟨rfl, rfl⟩
    | cons c t =>
      right
      exact ⟨c, t, rfl, rfl, (h.bound I c (hin2 c (List.mem_cons_self _ _))).1,
        List.mem_cons_self _ _⟩
  have hSlt : l2.headD 0 < 18446744073709551616 := by
    rcases hS with ⟨_, h0⟩ | ⟨c, t, _, hc, _, hcm⟩
    · omega
    · have := (h.bound I c (hin2 c hcm)).2; omega
  have hPlt : l1.getLastD 0 < 18446744073709551616 := by
    rcases hP with ⟨_, h0⟩ | ⟨_, a, _, ha, _, ham⟩
    · omega
    · have := (h.bound I a (hin1 a ham)).2; omega
  have hhd : (ptr :: l2).headD 0 = ptr := rfl
  rw [hhd] at hch1
  generalize hPdef : l1.getLastD 0 = P at *
  generalize hSdef : l2.headD 0 = S at *
  -- first write
  obtain ⟨m1, hm1, A2, A3, A4⟩ : ∃ m1,
      m1 = (if P ≠ 0 then put s.mem (P + 8) S else s.mem) ∧
      Chain m1 0 l1 S ∧ Chain m1 ptr l2 0 ∧
      (∀ j, j ≠ I → Chain m1 0 (fl j) 0) := by
    refine ⟨_, rfl, ?_⟩
    rcases hP with ⟨h1, h0⟩ | ⟨l1', a, h1, ha, ha0, ham⟩
    · rw [if_neg (by simp [h0])]
      exact ⟨by rw [h1]; trivial, hch2, fun j _ => h.chain j⟩
    · rw [if_pos (by rw [ha]; exact ha0), ha]
      have hnd1 : (l1' ++ [a]).Nodup := by rw [← h1]; exact (List.nodup_append.mp hnd).1
      refine ⟨?_, ?_, ?_⟩
      · have := Chain.set_succ (v := S) (h1 ▸ hch1) (by
          intro y hy
          have hya : y ≠ a := by
            intro e; subst e
            exact (List.nodup_append.mp hnd1).2.2 hy (List.mem_singleton_self _)
          have := hsep (hin1 y (by rw [h1]; exact List.mem_append_left _ hy))
            (List.mem_append_left l2 ham) hya
          omega)
        rw [Nat.mod_eq_of_lt hSlt] at this
        rw [h1]; exact this
      · apply Chain.keep hch2
        intro y hy z hz1 hz2
        have hya : y ≠ a := by
          intro e; subst e
          exact (List.nodup_append.mp hnd12).2.2 ham hy
        have := hsep (hin2 y hy) (List.mem_append_left l2 ham) hya
        exact put_outside (by omega)
      · intro j hj
        apply Chain.keep (h.chain j)
        intro y hy z hz1 hz2
        have hya : y ≠ a := fun e => hj (h.once j I y hy (e ▸ hin1 a ham))
        have := hsep hy (List.mem_append_left l2 ham) hya
        exact put_outside (by omega)
  rw [← hm1]
  -- second write
  obtain ⟨m2, hm2, B2, B3, B4⟩ : ∃ m2,
      m2 = (if S ≠ 0 then put m1 S P else m1) ∧
      Chain m2 0 l1 S ∧ Chain m2 P l2 0 ∧
      (∀ j, j ≠ I → Chain m2 0 (fl j) 0) := by
    refine ⟨_, rfl, ?_⟩
    rcases hS with ⟨h2, h0⟩ | ⟨c, t, h2, hc, hc0, hcm⟩
    · rw [if_neg (by simp [h0])]
      exact ⟨A2, by rw [h2]; trivial, A4⟩
    · subst hc
      rw [if_pos hc0]
      have hnd2 : (S :: t).Nodup := by
        rw [← h2]; exact (List.nodup_cons.mp (List.nodup_append.mp hnd).2.1).2
      refine ⟨?_, ?_, ?_⟩
      · apply Chain.keep A2
        intro y hy z hz1 hz2
        have hyc : y ≠ S := by
          intro e; subst e
          exact (List.nodup_append.mp hnd12).2.2 hy hcm
        have := hsep (hin1 y hy) (List.mem_append_right l1 hcm) hyc
        exact put_outside (by omega)
      · have := Chain.set_pred (v := P) (h2 ▸ A3) (by
          intro y hy
          have hyc : y ≠ S := by
            intro e; subst e
            exact (List.nodup_cons.mp hnd2).1 hy
          have := hsep (hin2 y (by rw [h2]; exact List.mem_cons_of_mem _ hy))
            (List.mem_append_right l1 hcm) hyc
          omega)
        rw [Nat.mod_eq_of_lt hPlt] at this
        rw [h2]; exact this
      · intro j hj
        apply Chain.keep (A4 j hj)
        intro y hy z hz1 hz2
        have hyc : y ≠ S := fun e => hj (h.once j I y hy (e ▸ hin2 _ hcm))
        have := hsep hy (List.mem_append_right l1 hcm) hyc
        exact put_outside (by omega)
  rw [← hm2]
  have hsub : ∀ j, ∀ x ∈ Function.update fl I (l1 ++ l2) j, x ∈ fl j := by
    intro j x hxj
    by_cases hji : j = I
    · subst hji
      simp only [Function.update_same] at hxj
      rcases List.mem_append.mp hxj with hx1 | hx2
      · exact hin1 x hx1
      · exact hin2 x hx2
    · simp only [Function.update_noteq hji] at hxj
      exact hxj
  refine ⟨_, Function.update fl I (l1 ++ l2), rfl, ⟨?_, ?_, ?_, ?_, ?_, ?_⟩, hsub⟩
  · intro j hj
    by_cases hji : j = I
    · subst hji
      simp only [Function.update_same]
      rw [headD_append, hSdef]
      rcases hP with ⟨h1, h0⟩ | ⟨l1', a, h1, ha, ha0, ham⟩
      · rw [if_neg (by simp [h0]), h1, Function.update_same]; rfl
      · rw [if_pos (by rw [ha]; exact ha0), h.heads _ hj, hl, headD_append]
        rw [h1]; cases l1' <;> rfl
    · simp only [Function.update_noteq hji]
      rw [← h.heads j hj]
      split_ifs
      · rfl
      · rw [Function.update_noteq hji]
  · intro j
    by_cases hji : j = I
    · subst hji
      simp only [Function.update_same]
      exact Chain.join.mpr ⟨hSdef ▸ B2, hPdef ▸ B3⟩
    · simp only [Function.update_noteq hji]; exact B4 j hji
  · intro j
    by_cases hji : j = I
    · subst hji; simp only [Function.update_same]; exact hnd12
    · simp only [Function.update_noteq hji]; exact h.nodup j
  · intro i j x hx y hy hne
    exact h.apart i j x (hsub i x hx) y (hsub j y hy) hne
  · intro i j x hx hy
    exact h.once i j x (hsub i x hx) (hsub j x hy)
  · intro i x hx
    exact h.bound i x (hsub i x hx)

/-! ## From the observable form to the named form and back -/

theorem Linked.of_well_nodes {s : State} (hW : WellLinked s) (hA : Apart s) :
    ∃ fl, Linked s fl ∧
      ∀ i, ∀ x ∈ fl i, i < 11 ∧ ∃ l, list_nodes s i = some l ∧ x ∈ l := by
  refine ⟨fun i => if i < 11 then (list_nodes s i).getD [] else [], Linked.of_nodes hW hA
    (fun i hi => by
      obtain ⟨l, hl, _, _⟩ := hW i hi
      simp only [if_pos hi, hl, Option.getD_some])
    (fun i hi => by simp only [if_neg (show ¬ i < 11 by omega)]), ?_⟩
  intro i x hx
  by_cases hi : i < 11
  · obtain ⟨l, hl, _, _⟩ := hW i hi
    simp only [if_pos hi, hl, Option.getD_some] at hx
    exact ⟨hi, l, hl, hx⟩
  · simp only [if_neg hi] at hx
    simp at hx

theorem Linked.clear {s : State} {fl : Nat → List Nat} {b : Nat} (h : Linked s fl)
    (hb : b + 16 ≤ 18446744073709551616)
    (hsep : ∀ i, ∀ x ∈ fl i, x + 16 ≤ b ∨ b + 16 ≤ x) : Clear s b := by
  refine ⟨hb, ?_⟩
  intro i hi l hl x hx
  rw [h.walks hi] at hl
  simp only [Option.some.injEq] at hl
  subst hl
  exact hsep i x hx

theorem add_well {s : State} {b : Nat} (hW : WellLinked s) (hA : Apart s) (hb : Clear s b) :
    WellLinked (add_to_free_list s b) ∧ Apart (add_to_free_list s b) := by
  obtain ⟨fl, hL, hfl⟩ := Linked.of_well_nodes hW hA
  obtain ⟨fl', hL'⟩ := add_linked hL hb.1 (fun i x hx => by
    obtain ⟨hi, l, hl, hxl⟩ := hfl i x hx
    exact hb.2 i hi l hl x hxl)
  exact hL'.well

theorem remove_well {s : State} (hW : WellLinked s) (hA : Apart s) (ptr : Nat) :
    ∃ s', remove_from_free_list s ptr = some s' ∧ WellLinked s' ∧ Apart s' := by
  obtain ⟨fl, hL⟩ := Linked.of_well hW hA
  obtain ⟨s', fl', hr, hL', _⟩ := remove_linked hL ptr
  exact ⟨s', hr, hL'.well⟩

theorem reach_well {w : World} (hr : Reach SmallCall w) : WellLinked w.st ∧ Apart w.st := by
  obtain ⟨bs, fl, hw, _⟩ := reach_winv (fun c hc => hc) hr
  exact (Inv.linked hw.1).well

/-! ## The lists after `mm_init` -/

theorem Linked.empty {s : State} (h : ∀ i, i < 11 → s.free_lists i = 0) :
    Linked s (fun _ => []) :=
  ⟨fun i hi => h i hi, fun _ => trivial, fun _ => List.nodup_nil,
    fun _ _ x hx => by simp at hx, fun _ _ x hx => by simp at hx, fun _ x hx => by simp at hx⟩

theorem mm_init_fails_lists {cap : Nat} {s : State} (hcap : ¬ s.brk + 32 + 2048 ≤ cap) :
    ∃ s', mm_init cap s = some (s', false) ∧ ∀ i, i < 11 → s'.free_lists i = 0 := by
  unfold mm_init mm_sbrk
  by_cases h1 : s.brk + 4 * WSIZE ≤ cap
  · simp only [h1, if_true]
    rw [extend_heap_fail (by rfl) (by unfold CHUNKSIZE WSIZE; omega)
      (by simp only; unfold CHUNKSIZE WSIZE at *; omega)]
    exact ⟨_, rfl, fun i hi => by simp only [if_pos hi]⟩
  · simp only [h1, if_false]
    exact ⟨_, rfl, fun i hi => by simp only [if_pos hi]⟩

/-- Function `mm_init` returns, and leaves well-linked lists whose nodes do not
overlap, whether it succeeds or not. -/
theorem mm_init_well {cap : Nat} (s : State) (hcap : cap < 18446744073709551616) :
    ∃ s' ok, mm_init cap s = some (s', ok) ∧ WellLinked s' ∧ Apart s' := by
  by_cases hc : s.brk + 32 + 2048 ≤ cap
  · obtain ⟨T, hT, h1, _, hrun⟩ := mm_init_run hcap hc
    have hL := Inv.linked h1
    have hL2 : Linked { T with lo := s.lo } (fun _ => []) :=
      ⟨hL.heads, hL.chain, hL.nodup, hL.apart, hL.once, hL.bound⟩
    obtain ⟨fl', hL'⟩ := @add_linked _ _ (s.brk + 32) hL2 (by omega)
      (fun i x hx => by simp at hx)
    exact ⟨_, true, hrun, hL'.well⟩
  · obtain ⟨s', hs', h0⟩ := mm_init_fails_lists hc
    exact ⟨s', false, hs', (Linked.empty h0).well⟩

/-! ## Walks of a list that runs into a cycle do not end -/

theorem list_walk_loop {m : Mem} {p : Nat} (hp : p ≠ 0) (hs : get_succ m p = p) :
    ∀ F, list_walk m F p = none
  | 0 => rfl
  | F + 1 => by
    unfold list_walk
    rw [if_neg hp, hs, list_walk_loop hp hs F]

theorem fit_scan_loop {m : Mem} {a p : Nat} (hp : p ≠ 0) (hs : get_succ m p = p) :
    ∀ F best, fit_scan m a F p best = none
  | 0, _ => rfl
  | F + 1, best => by
    unfold fit_scan
    rw [if_neg hp]
    simp only [hs]
    exact fit_scan_loop hp hs F _

theorem fit_scan_null (m : Mem) (a : Nat) (best : Nat × Nat) :
    fit_scan m a FUEL 0 best = some best := by
  obtain ⟨f, hf⟩ : ∃ f, FUEL = f + 1 := ⟨FUEL - 1, by unfold FUEL; omega⟩
  rw [hf]
  unfold fit_scan
  rw [if_pos rfl]

theorem fit_lists_loop {s : State} {a c : Nat} (hp : s.free_lists c ≠ 0)
    (hs : get_succ s.mem (s.free_lists c) = s.free_lists c) :
    ∀ k i best, i ≤ c → c < i + k → best.1 = 0 → (∀ j, i ≤ j → j < c → s.free_lists j = 0) →
      fit_lists s a k i best = none
  | 0, i, _, h1, h2, _, _ => by omega
  | k + 1, i, best, h1, h2, hb, he => by
    unfold fit_lists
    by_cases hic : i = c
    · subst hic
      rw [fit_scan_loop hp hs]
    · rw [he i (Nat.le_refl _) (by omega), fit_scan_null]
      simp only [hb, ne_eq, not_true_eq_false, false_and, if_false]
      exact fit_lists_loop hp hs k (i + 1) best (by omega) (by omega) hb
        (fun j hj1 hj2 => he j (by omega) hj2)

/-- When the list of class `c` runs into a cycle and the lists of the classes
from that of `a` up to `c` are empty, `find_fit(a)` does not return. -/
theorem find_fit_loop {s : State} {a c : Nat} (hc : c < 11) (ha : get_list_index a ≤ c)
    (hp : s.free_lists c ≠ 0) (hs : get_succ s.mem (s.free_lists c) = s.free_lists c)
    (he : ∀ j, j < c → s.free_lists j = 0) : find_fit s a = none := by
  unfold find_fit
  exact fit_lists_loop hp hs _ _ _ ha (by omega) rfl (fun j _ hj => he j hj)

/-! ## Lists given by their nodes -/

theorem well_of_lists {s : State} (L : Nat → List Nat)
    (h : ∀ i, i < 11 → list_nodes s i = some (L i)) (hn : ∀ i, i < 11 → (L i).Nodup)
    (hp : ∀ i, i < 11 → pred_links s.mem 0 (L i)) : WellLinked s :=
  fun i hi => ⟨L i, h i hi, hn i hi, hp i hi⟩

theorem clear_of_lists {s : State} {b : Nat} (L : Nat → List Nat)
    (h : ∀ i, i < 11 → list_nodes s i = some (L i)) (hb : b + 16 ≤ 18446744073709551616)
    (hs : ∀ i, i < 11 → ∀ x ∈ L i, x + 16 ≤ b ∨ b + 16 ≤ x) : Clear s b := by
  refine ⟨hb, ?_⟩
  intro i hi l hl x hx
  rw [h i hi] at hl
  simp only [Option.some.injEq] at hl
  subst hl
  exact hs i hi x hx

theorem not_well_of_list {s : State} {i : Nat} {l : List Nat} (hi : i < 11)
    (h : list_nodes s i = some l) (hp : ¬ pred_links s.mem 0 l) : ¬ WellLinked s := by
  intro hW
  obtain ⟨k, hk, _, hpk⟩ := hW i hi
  rw [h] at hk
  simp only [Option.some.injEq] at hk
  subst hk
  exact hp hpk

theorem not_well_of_loop {s : State} {i : Nat} (hi : i < 11) (hp : s.free_lists i ≠ 0)
    (hs : get_succ s.mem (s.free_lists i) = s.free_lists i) : ¬ WellLinked s := by
  intro hW
  obtain ⟨k, hk, _, _⟩ := hW i hi
  unfold list_nodes at hk
  rw [list_walk_loop hp hs] at hk
  simp at hk

section Examples2
set_option maxRecDepth 1000000

theorem shared_lists :
    ∀ i, i < 11 → list_nodes shared i = some (if i = 1 ∨ i = 6 then [4176] else []) := by
  decide

theorem shared_add_list : list_nodes (add_to_free_list shared 4128) 6 = some [4176] := by
  decide

theorem overlapped_lists :
    ∀ i, i < 11 → list_nodes overlapped i =
      some (if i = 3 then [4128] else if i = 0 then [4136] else []) := by
  decide

theorem overlapped_add_list :
    list_nodes (add_to_free_list overlapped 8192) 3 = some [4128, 8192, 4136] := by
  decide

theorem wrapped_lists :
    ∀ i, i < 11 → list_nodes wrapped i =
      some (if i = 3 then [18446744073709551608] else if i = 0 then [1] else []) := by
  decide

theorem wrapped_add_list :
    list_nodes (add_to_free_list wrapped 4128) 3 = some [18446744073709551608, 1056768] := by
  decide

theorem looped_reach : Reach AnyCall looped :=
  world_reach rfl (fun _ _ => trivial) (by decide)

theorem looped_head : looped.st.free_lists 6 = 4128 := by decide

theorem looped_succ : get_succ looped.st.mem 4128 = 4128 := by decide

theorem looped_empty : ∀ j, j < 6 → looped.st.free_lists j = 0 := by decide

end Examples2

section Claims4
set_option maxRecDepth 1000000

/-! ## C31: the free lists stay well linked -/

/-- C31, with the predicate extended by what keeps the lists apart, and with
every requested size at most `2^64 - 32`. The predicate is: each of the 11
lists, followed by `succ` from its head, ends at `NULL` without repetition, its
head has `pred = NULL`, every node that is the `succ` of a node has that node
as its `pred` (`WellLinked`); and no block is a node of two lists, the 16 link
bytes of every node end at or below address `2^64`, and those of distinct nodes
do not overlap (`Apart`). With the end `cap` of the region an address:
`mm_init` returns, and the predicate holds after it; in a state `s` where the
predicate holds, it holds after `add_to_free_list` of a block `b` whose 16
link bytes end at or below `2^64` and overlap those of no node, and
`remove_from_free_list` of any pointer returns and the predicate holds after
it; in such a state `find_fit` returns for every size; and in every world `w`
reached from a successful `mm_init` by valid calls of sizes at most
`2^64 - 32` the predicate holds, and `find_fit` and `remove_from_free_list`
return for every argument. -/
theorem C31_lists_well_linked (cap : Nat) (s0 s : State) (b ptr asize : Nat) (w : World)
    (hcap : cap < 18446744073709551616) (hW : WellLinked s) (hA : Apart s) (hb : Clear s b)
    (hr : Reach SmallCall w) :
    (∃ s' ok, mm_init cap s0 = some (s', ok) ∧ WellLinked s' ∧ Apart s') ∧
    (WellLinked (add_to_free_list s b) ∧ Apart (add_to_free_list s b)) ∧
    (∃ s', remove_from_free_list s ptr = some s' ∧ WellLinked s' ∧ Apart s') ∧
    (∃ r, find_fit s asize = some r) ∧
    (WellLinked w.st ∧ Apart w.st) ∧
    (∃ r, find_fit w.st asize = some r) ∧
    (∃ s', remove_from_free_list w.st ptr = some s') :=
  ⟨mm_init_well s0 hcap, add_well hW hA hb, remove_well hW hA ptr, find_fit_ends hW asize,
    reach_well hr, find_fit_ends (reach_well hr).1 asize, remove_ends (reach_well hr).1 ptr⟩

theorem C31_lists_well_linked_witness :
    (∃ s' ok, mm_init LIMIT zeroed = some (s', ok) ∧ WellLinked s' ∧ Apart s') ∧
    (WellLinked (add_to_free_list (world zeroed []).st 8192) ∧
      Apart (add_to_free_list (world zeroed []).st 8192)) ∧
    (∃ s', remove_from_free_list (world zeroed []).st 4128 = some s' ∧
      WellLinked s' ∧ Apart s') ∧
    (∃ r, find_fit (world zeroed []).st 32 = some r) ∧
    (WellLinked (world zeroed [.malloc 100, .malloc 24, .free 4128]).st ∧
      Apart (world zeroed [.malloc 100, .malloc 24, .free 4128]).st) ∧
    (∃ r, find_fit (world zeroed [.malloc 100, .malloc 24, .free 4128]).st 32 = some r) ∧
    (∃ s', remove_from_free_list (world zeroed [.malloc 100, .malloc 24, .free 4128]).st 4128 =
      some s') :=
  C31_lists_well_linked LIMIT zeroed (world zeroed []).st 8192 4128 32
    (world zeroed [.malloc 100, .malloc 24, .free 4128]) (by decide)
    (Inv.linked boot_inv).well.1 (Inv.linked boot_inv).well.2
    (Linked.clear (Inv.linked boot_inv) (by decide)
      (fun i x hx => by
        by_cases hi : i = 6
        · rw [if_pos hi] at hx
          simp only [List.mem_singleton] at hx
          omega
        · rw [if_neg hi] at hx
          simp at hx))
    (world_reach rfl (by simp [SmallCall]) (by decide))

/-- C31 fails in four ways. (1) In the state `shared` the block at 4176 is the
head of list 1 and of list 6, each list being `[4176]`, so that the predicate
of the claim holds, and the block at 4128 (size 48, class 1) is in no list;
after `add_to_free_list(4128)` list 6 still is `[4176]`, but its head has
`pred = 4128`. (2) In the state `overlapped` list 3 is `[4128]` and list 0 is
`[4136]`, the link bytes of the two nodes overlap, the predicate holds, and
the block at 8192 (size 0, class 0) is in no list; after
`add_to_free_list(8192)` list 3 is `[4128, 8192, 4136]`, and the node 8192 has
`pred = NULL`. (3) In the state `wrapped` list 3 is `[2^64 - 8]` and list 0 is
`[1]`, the `succ` word of the node `2^64 - 8` is at address 0, the predicate
holds, and the block at 4128 (size 0, class 0) is in no list; after
`add_to_free_list(4128)` list 3 is `[2^64 - 8, 1056768]`, and the node 1056768
has `pred = NULL`. (4) After `p = malloc(2^64 - 16)` and `free(p)` on the
region `zeroed`, both of which return, the block at 4128 is the head of list 6
and its own `succ`: the predicate does not hold, and `find_fit(32)` does not
return. -/
theorem C31_lists_counterexample :
    (WellLinked shared ∧ Clear shared 4128 ∧
      list_nodes (add_to_free_list shared 4128) 6 = some [4176] ∧
      get_pred (add_to_free_list shared 4128).mem 4176 = 4128 ∧
      ¬ WellLinked (add_to_free_list shared 4128)) ∧
    (WellLinked overlapped ∧ Clear overlapped 8192 ∧
      list_nodes (add_to_free_list overlapped 8192) 3 = some [4128, 8192, 4136] ∧
      get_pred (add_to_free_list overlapped 8192).mem 8192 = 0 ∧
      ¬ WellLinked (add_to_free_list overlapped 8192)) ∧
    (WellLinked wrapped ∧ Clear wrapped 4128 ∧
      list_nodes (add_to_free_list wrapped 4128) 3 = some [18446744073709551608, 1056768] ∧
      get_pred (add_to_free_list wrapped 4128).mem 1056768 = 0 ∧
      ¬ WellLinked (add_to_free_list wrapped 4128)) ∧
    (Reach AnyCall looped ∧ looped.st.free_lists 6 = 4128 ∧
      get_succ looped.st.mem 4128 = 4128 ∧ ¬ WellLinked looped.st ∧
      find_fit looped.st 32 = none) :=
  ⟨⟨well_of_lists _ shared_lists (by decide) (by decide),
      clear_of_lists _ shared_lists (by decide) (by decide),
      shared_add_list, by decide,
      not_well_of_list (by decide) shared_add_list (by decide)⟩,
    ⟨well_of_lists _ overlapped_lists (by decide) (by decide),
      clear_of_lists _ overlapped_lists (by decide) (by decide),
      overlapped_add_list, by decide,
      not_well_of_list (by decide) overlapped_add_list (by decide)⟩,
    ⟨well_of_lists _ wrapped_lists (by decide) (by decide),
      clear_of_lists _ wrapped_lists (by decide) (by decide),
      wrapped_add_list, by decide,
      not_well_of_list (by decide) wrapped_add_list (by decide)⟩,
    ⟨looped_reach, looped_head, looped_succ,
      not_well_of_loop (i := 6) (by decide) (by rw [looped_head]; decide)
        (by rw [looped_head]; exact looped_succ),
      find_fit_loop (c := 6) (by decide) (by decide) (by rw [looped_head]; decide)
        (by rw [looped_head]; exact looped_succ) looped_empty⟩⟩

end Claims4

end MM
